import Mathlib

/-!
# QBASHER / SATIRE: score-at-a-time query evaluation (`satire/src/q/q.c`)

A shallow embedding of the query processor `q.c` and proofs about its top-k
selector (`insert_in_fake_heap`), its SAAT driver (`process_query`) and the reading
of a query line in `main`; and a shallow embedding of the query shortener
`create_candidate_generation_query` (`qbashq-lib/query_shortening.c`) with proofs
about its heuristics.

Conventions of the embedding

* C arrays are functions from an index to a value (`fake_heap : Nat → Int`,
  `accumulators : Int → Int`, `term_control_block : Nat → term_control_block_t`).
  A store into `fake_heap` is checked against its capacity `params.k`, an index into
  `accumulators` is checked against `params.numDocs` where the docid is decoded; an
  access outside the allocation is undefined behaviour and ends the run.
* `int` values are `Int`; the 32-bit accumulator of `make_ull_from_n_bytes` and the
  64-bit counter `postings_processed` wrap explicitly.  Signed additions on the
  accumulators are taken in `Int`.
* `for` loops with a known trip count recurse on the number of iterations left; the
  `while` loop of `process_query` takes fuel, one unit per iteration.
* The layout constants of `definitions.h` and the fields of `params_t` (`q.h`) are
  parameters.
-/

namespace Satire

/-! ## Constants and parameters -/

/-- `#define MAX_QTERMS 100` -/
def MAX_QTERMS : Nat := 100

/-- `#define MAX_FGETS 2048` -/
def MAX_FGETS : Nat := 2048

/-- The byte widths of `definitions.h`, a header that is not part of the sources at hand:
they are parameters of the development. -/
structure definitions_h where
  BYTES_FOR_QSCORE : Nat
  BYTES_FOR_RUN_LEN : Nat
  BYTES_FOR_DOCID : Nat
  BYTES_FOR_TERMID : Nat
  BYTES_FOR_POSTINGS_COUNT : Nat
  BYTES_FOR_INDEX_OFFSET : Nat
  BYTES_IN_VOCAB_ENTRY : Nat

/-- The fields of `params_t` that `q.c` reads. -/
structure params_t where
  k : Nat
  numDocs : Nat
  lowScoreCutoff : Int
  postingsCountCutoff : Int

/-! ## Decoding -/

/-- The loop of `make_ull_from_n_bytes`: `n` iterations left, next byte `data[i]`.
`rslt` is a 32-bit `u_int`, so the shift wraps; `data[i]` is a byte. -/
def make_ull_loop (data : Nat → Nat) : Nat → Nat → Nat → Nat
  | 0, _, rslt => rslt
  | n + 1, i, rslt => make_ull_loop data n (i + 1) (((rslt <<< 8) % 2 ^ 32) ||| (data i % 256))

/-- `static u_ll make_ull_from_n_bytes(byte *data, int n)` -/
def make_ull_from_n_bytes (data : Nat → Nat) (n : Nat) : Nat :=
  make_ull_loop data n 0 0

/-- Pointer arithmetic `mem + p` on a byte pointer. -/
def ptr_add (mem : Nat → Nat) (p : Nat) : Nat → Nat := fun i => mem (p + i)

/-- The cast `(int) x` of an unsigned value: two's complement on 32 bits. -/
def to_int (x : Nat) : Int :=
  if x % 2 ^ 32 < 2 ^ 31 then ((x % 2 ^ 32 : Nat) : Int) else ((x % 2 ^ 32 : Nat) : Int) - 2 ^ 32

/-- The value an `int` holds when the exact result of an addition is `v`: two's
complement on 32 bits, as on the x86-64 targets the sources are written for. -/
def wrap_int (v : Int) : Int :=
  if v % 2 ^ 32 < 2 ^ 31 then v % 2 ^ 32 else v % 2 ^ 32 - 2 ^ 32

/-! ## The top-k selector -/

/-- The file-scope variables `accumulators`, `fake_heap`, `items_in_fake_heap`. -/
structure globals where
  accumulators : Int → Int
  fake_heap : Nat → Int
  items_in_fake_heap : Nat

/-- A store `fake_heap[j] = v` into the array of `params.k` ints. -/
def store (k : Nat) (fh : Nat → Int) (j : Nat) (v : Int) : Option (Nat → Int) :=
  if j < k then some (Function.update fh j v) else none

/-- The loop `for (j = i + 1; j < items_in_fake_heap; j++) fake_heap[j - 1] = fake_heap[j];`
with `n` iterations left. -/
def shift_left (k : Nat) : Nat → Nat → (Nat → Int) → Option (Nat → Int)
  | 0, _, fh => some fh
  | n + 1, j, fh =>
    match store k fh (j - 1) (fh j) with
    | none => none
    | some fh1 => shift_left k n (j + 1) fh1

/-- The loop `for (j = lowest; j > i; j--) fake_heap[j] = fake_heap[j - 1];`
with `n` iterations left. -/
def shift_right (k : Nat) : Nat → Nat → (Nat → Int) → Option (Nat → Int)
  | 0, _, fh => some fh
  | n + 1, j, fh =>
    match store k fh j (fh (j - 1)) with
    | none => none
    | some fh1 => shift_right k n (j - 1) fh1

/-- The first loop of `insert_in_fake_heap` (lines 63-70): look for `docid` from position
`i` on, `n` positions left; remove it where found and stop. -/
def remove_docid (k : Nat) (docid : Int) (g : globals) : Nat → Nat → Option globals
  | 0, _ => some g
  | n + 1, i =>
    if g.fake_heap i = docid then
      match shift_left k (g.items_in_fake_heap - (i + 1)) (i + 1) g.fake_heap with
      | none => none
      | some fh => some { g with fake_heap := fh, items_in_fake_heap := g.items_in_fake_heap - 1 }
    else remove_docid k docid g n (i + 1)

/-- The loop of the full case (lines 83-92): the first position `i` whose accumulator is
at most `score` takes `docid`, the lowest item drops off. -/
def insert_full (k : Nat) (docid score : Int) (g : globals) : Nat → Nat → Option globals
  | 0, _ => some g
  | n + 1, i =>
    if score ≥ g.accumulators (g.fake_heap i) then
      match shift_right k ((k - 1) - i) (k - 1) g.fake_heap with
      | none => none
      | some fh =>
        match store k fh i docid with
        | none => none
        | some fh1 => some { g with fake_heap := fh1 }
    else insert_full k docid score g n (i + 1)

/-- The loop of the partly-full case (lines 99-113), with the append that follows it. -/
def insert_part (k : Nat) (docid score : Int) (g : globals) : Nat → Nat → Option globals
  | 0, _ =>
    match store k g.fake_heap g.items_in_fake_heap docid with
    | none => none
    | some fh => some { g with fake_heap := fh, items_in_fake_heap := g.items_in_fake_heap + 1 }
  | n + 1, i =>
    if score ≥ g.accumulators (g.fake_heap i) then
      let lowest := if g.items_in_fake_heap ≥ k then k - 1 else g.items_in_fake_heap
      match shift_right k (lowest - i) lowest g.fake_heap with
      | none => none
      | some fh =>
        match store k fh i docid with
        | none => none
        | some fh1 =>
          some { g with fake_heap := fh1, items_in_fake_heap := g.items_in_fake_heap + 1 }
    else insert_part k docid score g n (i + 1)

/-- `static void insert_in_fake_heap(int docid, int score)`; `none` when a store falls
outside `fake_heap[0 .. params.k)`. -/
def insert_in_fake_heap (k : Nat) (g : globals) (docid score : Int) : Option globals :=
  match remove_docid k docid g g.items_in_fake_heap 0 with
  | none => none
  | some g1 =>
    if g1.items_in_fake_heap = 0 then
      match store k g1.fake_heap g1.items_in_fake_heap docid with
      | none => none
      | some fh => some { g1 with fake_heap := fh, items_in_fake_heap := g1.items_in_fake_heap + 1 }
    else if g1.items_in_fake_heap = k then
      if score ≤ g1.accumulators (g1.fake_heap (k - 1)) then some g1
      else insert_full k docid score g1 g1.items_in_fake_heap 0
    else insert_part k docid score g1 g1.items_in_fake_heap 0

/-- The docids held in `fake_heap[0 .. items_in_fake_heap)`, in order. -/
def topk (g : globals) : List Int :=
  (List.range g.items_in_fake_heap).map g.fake_heap

/-- What the ranking loop prints for the current list: `(docid, score)` per position. -/
def ranking (g : globals) : List (Int × Int) :=
  (topk g).map (fun d => (d, g.accumulators d))

/-- The state at the start of a query: `memset` of both arrays, `items_in_fake_heap = 0`. -/
def globals_cleared : globals :=
  { accumulators := fun _ => 0, fake_heap := fun _ => 0, items_in_fake_heap := 0 }

/-! ## The SAAT driver -/

/-- `term_control_block_t`; `if_pointer` is an offset into the mapped `.if` file. -/
structure term_control_block_t where
  highest_unprocessed_score : Int
  current_run_len : Int
  postings_remaining : Int
  if_pointer : Nat

/-- How a run of `process_query` ends. `exit_1` is the `exit(1)` after "Unable to find a
best"; `undefined` is an access outside an allocation; `out_of_fuel` is the embedding
running out of loop iterations. -/
inductive outcome (α : Type) where
  | returned : α → outcome α
  | exit_1 : outcome α
  | undefined : outcome α
  | out_of_fuel : outcome α

/-- Which exit the `while` loop of `process_query` took. -/
inductive stop_reason where
  | terms_exhausted
  | low_score_cutoff
  | postings_count_cutoff
  deriving DecidableEq

/-- One consumed run, as the debug output reports it: the term position chosen, its
`max_qscore` and `current_run_len`, the docids read, and `postings_processed` after the
run. -/
structure run_event where
  chosen : Nat
  max_qscore : Int
  current_run_len : Int
  docids : List Int
  postings_processed : Nat
  deriving DecidableEq

/-- The globals together with a record of what was done to them: every posting applied
`(docid, max_qscore)`, and the list `(docid, score)` as it stood after each call of
`insert_in_fake_heap`. The two logs are observations; nothing reads them. -/
structure evaluation where
  g : globals
  posting_log : List (Int × Int)
  heap_log : List (List (Int × Int))

/-- The locals of `process_query` and the static `term_control_block`, with the log of
the runs consumed. -/
structure query_state where
  ev : evaluation
  term_control_block : Nat → term_control_block_t
  terms_still_going : Nat
  postings_processed : Nat
  run_log : List run_event

/-- Lines 147-154 and 212-219: read the qscore and the run length of the run header at
`if_pointer`, leaving the pointer on the first docid. -/
def read_run_header (L : definitions_h) (if_in_mem : Nat → Nat) (b : term_control_block_t) :
    term_control_block_t :=
  { b with
    highest_unprocessed_score :=
      to_int (make_ull_from_n_bytes (ptr_add if_in_mem b.if_pointer) L.BYTES_FOR_QSCORE)
    current_run_len :=
      to_int (make_ull_from_n_bytes (ptr_add if_in_mem (b.if_pointer + L.BYTES_FOR_QSCORE))
        L.BYTES_FOR_RUN_LEN)
    if_pointer := b.if_pointer + L.BYTES_FOR_QSCORE + L.BYTES_FOR_RUN_LEN }

/-- The body of the set-up loop (lines 137-165) for termid `t`. A negative termid puts
`vocab_entry` before the mapping. -/
def setup_control_block (L : definitions_h) (vocab_in_mem if_in_mem : Nat → Nat) (t : Int) :
    Option term_control_block_t :=
  if t < 0 then none
  else
    let vocab_entry := t.toNat * L.BYTES_IN_VOCAB_ENTRY
    let tmp := make_ull_from_n_bytes (ptr_add vocab_in_mem (vocab_entry + L.BYTES_FOR_TERMID))
      L.BYTES_FOR_POSTINGS_COUNT
    if tmp > 0 then
      let if_offset := make_ull_from_n_bytes
        (ptr_add vocab_in_mem (vocab_entry + L.BYTES_FOR_TERMID + L.BYTES_FOR_POSTINGS_COUNT))
        L.BYTES_FOR_INDEX_OFFSET
      some (read_run_header L if_in_mem
        { highest_unprocessed_score := 0, current_run_len := 0,
          postings_remaining := to_int tmp, if_pointer := if_offset })
    else
      some { highest_unprocessed_score := 0, current_run_len := 0,
             postings_remaining := to_int tmp, if_pointer := 0 }

/-- The set-up loop `for (q = 0; q < q_len; q++)` over the remaining termids. -/
def setup_control_blocks (L : definitions_h) (vocab_in_mem if_in_mem : Nat → Nat) :
    List Int → Nat → (Nat → term_control_block_t) → Option (Nat → term_control_block_t)
  | [], _, tcb => some tcb
  | t :: ts, q, tcb =>
    match setup_control_block L vocab_in_mem if_in_mem t with
    | none => none
    | some b => setup_control_blocks L vocab_in_mem if_in_mem ts (q + 1) (Function.update tcb q b)

/-- The scan of lines 173-181 with `n` positions left: `chosen == -1` is `none`. -/
def find_best (tcb : Nat → term_control_block_t) :
    Nat → Nat → Int → Option Nat → Int × Option Nat
  | 0, _, max_qscore, chosen => (max_qscore, chosen)
  | n + 1, q, max_qscore, chosen =>
    if (tcb q).postings_remaining > 0 ∧ (tcb q).highest_unprocessed_score > max_qscore then
      find_best tcb n (q + 1) (tcb q).highest_unprocessed_score (some q)
    else find_best tcb n (q + 1) max_qscore chosen

/-- Lines 196-198 for one decoded docid: `accumulators[docid] += max_qscore` and the call
of `insert_in_fake_heap`. A docid outside `0 .. numDocs` indexes outside `accumulators`.
The accumulators are `int`s, so the sum is kept on 32 bits. -/
def apply_posting (P : params_t) (e : evaluation) (docid max_qscore : Int) :
    Option evaluation :=
  if 0 ≤ docid ∧ docid < P.numDocs then
    let score := wrap_int (e.g.accumulators docid + max_qscore)
    match insert_in_fake_heap P.k
        { e.g with accumulators := Function.update e.g.accumulators docid score } docid score with
    | none => none
    | some g1 =>
      some { g := g1, posting_log := e.posting_log ++ [(docid, max_qscore)],
             heap_log := e.heap_log ++ [ranking g1] }
  else none

/-- The loop over the run (lines 193-200) with `n` postings left: returns the pointer after
the run and the docids read. The docid is `BYTES_FOR_DOCID` wide, the pointer advances by
`BYTES_FOR_RUN_LEN`. -/
def process_run (P : params_t) (L : definitions_h) (if_in_mem : Nat → Nat) (max_qscore : Int) :
    Nat → Nat → List Int → evaluation → Option (Nat × List Int × evaluation)
  | 0, if_pointer, ds, e => some (if_pointer, ds, e)
  | n + 1, if_pointer, ds, e =>
    let docid := to_int (make_ull_from_n_bytes (ptr_add if_in_mem if_pointer) L.BYTES_FOR_DOCID)
    match apply_posting P e docid max_qscore with
    | none => none
    | some e1 =>
      process_run P L if_in_mem max_qscore n (if_pointer + L.BYTES_FOR_RUN_LEN) (ds ++ [docid]) e1

/-- What one iteration of the `while` loop does. -/
inductive step_result where
  | again : query_state → step_result
  | stop : query_state → stop_reason → step_result
  | exit_1 : step_result
  | undefined : step_result

/-- Lines 202-203: the state when the run of `chosen` has been applied: the pointer is
`p`, `postings_remaining` (an `int`, kept on 32 bits) and `postings_processed` (an
`u_ll`) are updated. -/
def end_of_run (st : query_state) (chosen : Nat) (max_qscore : Int) (p : Nat)
    (ds : List Int) (ev1 : evaluation) : query_state :=
  { ev := ev1
    term_control_block := Function.update st.term_control_block chosen
      { st.term_control_block chosen with
        if_pointer := p
        postings_remaining := wrap_int ((st.term_control_block chosen).postings_remaining
          - (st.term_control_block chosen).current_run_len) }
    terms_still_going := st.terms_still_going
    postings_processed :=
      (((st.postings_processed : Int) + (st.term_control_block chosen).current_run_len)
        % 2 ^ 64).toNat
    run_log := st.run_log ++
      [{ chosen := chosen, max_qscore := max_qscore,
         current_run_len := (st.term_control_block chosen).current_run_len, docids := ds,
         postings_processed :=
           (((st.postings_processed : Int) + (st.term_control_block chosen).current_run_len)
             % 2 ^ 64).toNat }] }

/-- Lines 211-223: read the next run header of `chosen`, or count the term as finished. -/
def after_run (L : definitions_h) (if_in_mem : Nat → Nat) (st1 : query_state) (chosen : Nat) :
    query_state :=
  if (st1.term_control_block chosen).postings_remaining > 0 then
    { st1 with
      term_control_block := Function.update st1.term_control_block chosen
        (read_run_header L if_in_mem (st1.term_control_block chosen)) }
  else { st1 with terms_still_going := st1.terms_still_going - 1 }

/-- The body of `while (terms_still_going > 0)` (lines 172-228). -/
def saat_step (P : params_t) (L : definitions_h) (if_in_mem : Nat → Nat) (q_len : Nat)
    (st : query_state) : step_result :=
  match find_best st.term_control_block q_len 0 (-1) none with
  | (_, none) => step_result.exit_1
  | (max_qscore, some chosen) =>
    if max_qscore ≥ P.lowScoreCutoff then
      match process_run P L if_in_mem max_qscore
          (st.term_control_block chosen).current_run_len.toNat
          (st.term_control_block chosen).if_pointer [] st.ev with
      | none => step_result.undefined
      | some (p, ds, ev1) =>
        if P.postingsCountCutoff > 0 ∧
            ((end_of_run st chosen max_qscore p ds ev1).postings_processed : Int)
              > P.postingsCountCutoff then
          step_result.stop (end_of_run st chosen max_qscore p ds ev1)
            stop_reason.postings_count_cutoff
        else
          step_result.again
            (after_run L if_in_mem (end_of_run st chosen max_qscore p ds ev1) chosen)
    else step_result.stop st stop_reason.low_score_cutoff

/-- The loop `while (terms_still_going > 0)`: one unit of fuel per iteration. -/
def saat_loop (P : params_t) (L : definitions_h) (if_in_mem : Nat → Nat) (q_len : Nat) :
    Nat → query_state → outcome (query_state × stop_reason)
  | 0, st =>
    if st.terms_still_going > 0 then outcome.out_of_fuel
    else outcome.returned (st, stop_reason.terms_exhausted)
  | fuel + 1, st =>
    if st.terms_still_going > 0 then
      match saat_step P L if_in_mem q_len st with
      | step_result.again st1 => saat_loop P L if_in_mem q_len fuel st1
      | step_result.stop st1 why => outcome.returned (st1, why)
      | step_result.exit_1 => outcome.exit_1
      | step_result.undefined => outcome.undefined
    else outcome.returned (st, stop_reason.terms_exhausted)

/-- What `process_query` leaves behind: the final state, the exit of the loop it took, the
`Query:` line and the result lines `(rank, docid, score)`. -/
structure query_result where
  final : query_state
  stopped_by : stop_reason
  query_line : List Int
  result_lines : List (Nat × Int × Int)

/-- The ranking loop of lines 240-243. -/
def result_lines_of (g : globals) : List (Nat × Int × Int) :=
  (List.range g.items_in_fake_heap).map
    (fun t => (t + 1, g.fake_heap t, g.accumulators (g.fake_heap t)))

/-- The state after the `memset`s and initialisations of lines 118-128. -/
def query_state_init (q_len : Nat) : query_state :=
  { ev := { g := globals_cleared, posting_log := [], heap_log := [] },
    term_control_block := fun _ =>
      { highest_unprocessed_score := 0, current_run_len := 0, postings_remaining := 0,
        if_pointer := 0 },
    terms_still_going := q_len, postings_processed := 0, run_log := [] }

/-- `static void process_query(int *query_array, int q_len, byte *vocab_in_mem,
byte *if_in_mem, ...)`. The static `term_control_block` has `MAX_QTERMS` entries. -/
def process_query (P : params_t) (L : definitions_h) (vocab_in_mem if_in_mem : Nat → Nat)
    (query_array : List Int) (fuel : Nat) : outcome query_result :=
  if query_array.length > MAX_QTERMS then outcome.undefined
  else
    match setup_control_blocks L vocab_in_mem if_in_mem query_array 0
        (query_state_init query_array.length).term_control_block with
    | none => outcome.undefined
    | some tcb =>
      match saat_loop P L if_in_mem query_array.length fuel
          { query_state_init query_array.length with term_control_block := tcb } with
      | outcome.returned (st, why) =>
        outcome.returned
          { final := st, stopped_by := why, query_line := query_array,
            result_lines := result_lines_of st.ev.g }
      | outcome.exit_1 => outcome.exit_1
      | outcome.undefined => outcome.undefined
      | outcome.out_of_fuel => outcome.out_of_fuel

/-- A mapped file with the given bytes (zero beyond them). -/
def bytes (l : List Nat) : Nat → Nat := fun i => l.getD i 0

/-! ## Lists read off the arrays -/

/-- The slice `fh[a .. a + n)` of an array. -/
def slice (fh : Nat → Int) (a n : Nat) : List Int := (List.range' a n).map fh

/-- Insertion of `d` before the first entry whose accumulator is at most `s`
(at the end when there is none): the list view of the scan-and-shift loops. -/
def ins_at (acc : Int → Int) (d s : Int) : List Int → List Int
  | [] => [d]
  | x :: xs => if s ≥ acc x then d :: x :: xs else x :: ins_at acc d s xs

/-- The list view of `insert_in_fake_heap`: remove `d`, then the empty, full and
partly-full cases. -/
def ins_abs (k : Nat) (acc : Int → Int) (l : List Int) (d s : Int) : List Int :=
  if (l.erase d).length = 0 then [d]
  else if (l.erase d).length = k then
    if s ≤ acc ((l.erase d).getLastD 0) then l.erase d
    else (ins_at acc d s (l.erase d)).dropLast
  else ins_at acc d s (l.erase d)

/-- Descending order of the accumulators along a list of docids. -/
def desc (acc : Int → Int) (l : List Int) : Prop :=
  List.Pairwise (fun a b => acc a ≥ acc b) l

/-- The docids that received a posting, one entry per posting. -/
def touched_docids (e : evaluation) : List Int := e.posting_log.map Prod.fst

/-- The sum of the scores of the postings of docid `d` in a log of postings. -/
def log_score (log : List (Int × Int)) (d : Int) : Int :=
  ((log.filter (fun p => p.1 = d)).map Prod.snd).sum

/-- What holds of the globals between two postings of a query.  An accumulator is the sum
of the postings of its docid kept on 32 bits; the list holds the best touched docids
as long as no sum has left the range of an `int`. -/
structure heap_inv (P : params_t) (e : evaluation) : Prop where
  size : e.g.items_in_fake_heap ≤ P.k
  nodup : (topk e.g).Nodup
  sorted : desc e.g.accumulators (topk e.g)
  sub : ∀ d ∈ topk e.g, d ∈ touched_docids e
  listed : ∀ d ∈ touched_docids e, d ∈ topk e.g ∨ e.g.items_in_fake_heap = P.k
  complete : (∀ d, log_score e.posting_log d < 2 ^ 31) →
    ∀ d ∈ touched_docids e, d ∈ topk e.g ∨
      (e.g.items_in_fake_heap = P.k ∧
        ∀ y ∈ topk e.g, e.g.accumulators d ≤ e.g.accumulators y)
  count : e.g.items_in_fake_heap = min P.k (touched_docids e).toFinset.card
  acc_sum : ∀ d, e.g.accumulators d = wrap_int (log_score e.posting_log d)
  in_range : ∀ d ∈ touched_docids e, 0 ≤ d ∧ d < P.numDocs
  nonneg : ∀ p ∈ e.posting_log, 0 ≤ p.2
  log_sorted : ∀ snap ∈ e.heap_log, List.Sorted (fun a b => a ≥ b) (snap.map Prod.snd)
  log_nodup : ∀ snap ∈ e.heap_log, (snap.map Prod.fst).Nodup
  log_size : ∀ snap ∈ e.heap_log, snap.length ≤ P.k
  log_len : e.heap_log.length = e.posting_log.length

/-- The docids that the loop over a run decodes: `n` of them, the first at `p`, each
`BYTES_FOR_DOCID` wide and `BYTES_FOR_RUN_LEN` after the one before. -/
def read_docids (L : definitions_h) (if_in_mem : Nat → Nat) : Nat → Nat → List Int
  | 0, _ => []
  | n + 1, p =>
    to_int (make_ull_from_n_bytes (ptr_add if_in_mem p) L.BYTES_FOR_DOCID)
      :: read_docids L if_in_mem n (p + L.BYTES_FOR_RUN_LEN)

/-- The postings `(d, max_qscore)` for the docids `d` of a list applied in turn. -/
def apply_postings (P : params_t) (max_qscore : Int) : List Int → evaluation → Option evaluation
  | [], e => some e
  | d :: ds, e =>
    match apply_posting P e d max_qscore with
    | none => none
    | some e1 => apply_postings P max_qscore ds e1

/-- Term position `q` still has postings to process. -/
def active (tcb : Nat → term_control_block_t) (q : Nat) : Prop :=
  (tcb q).postings_remaining > 0

/-- The test of the posting-budget cutoff (line 205). -/
def over_budget (P : params_t) (st : query_state) : Prop :=
  P.postingsCountCutoff > 0 ∧ (st.postings_processed : Int) > P.postingsCountCutoff

/-- What the scan for the best term has established after looking at positions below `q`. -/
structure best_inv (tcb : Nat → term_control_block_t) (q : Nat) (m : Int) (c : Option Nat) :
    Prop where
  lower : -1 ≤ m
  none_eq : c = none → m = -1
  some_eq : ∀ ch, c = some ch → ch < q ∧ active tcb ch ∧
    (tcb ch).highest_unprocessed_score = m ∧ 0 ≤ m ∧
    ∀ x, x < ch → active tcb x → (tcb x).highest_unprocessed_score < m
  upper : ∀ x, x < q → active tcb x → (tcb x).highest_unprocessed_score ≤ m

/-! ## Posting lists as the reader sees them -/

/-- A run of a posting list: its qscore and its docids. -/
abbrev run := Int × List Int

/-- The number of postings of a list of runs. -/
def total_postings (rs : List run) : Int := (rs.map (fun r => (r.2.length : Int))).sum

/-- The bytes from `p` on decode, with the reads of `process_query`, to the runs `rs` laid
end to end: a qscore, a run length, and the docids at the stride the reader uses. -/
def runs_at (L : definitions_h) (if_in_mem : Nat → Nat) : Nat → List run → Prop
  | _, [] => True
  | p, r :: rest =>
    to_int (make_ull_from_n_bytes (ptr_add if_in_mem p) L.BYTES_FOR_QSCORE) = r.1 ∧
    to_int (make_ull_from_n_bytes (ptr_add if_in_mem (p + L.BYTES_FOR_QSCORE))
      L.BYTES_FOR_RUN_LEN) = r.2.length ∧
    read_docids L if_in_mem r.2.length (p + L.BYTES_FOR_QSCORE + L.BYTES_FOR_RUN_LEN) = r.2 ∧
    runs_at L if_in_mem
      (p + L.BYTES_FOR_QSCORE + L.BYTES_FOR_RUN_LEN + r.2.length * L.BYTES_FOR_RUN_LEN) rest

/-- Whether the bytes decode to the runs can be computed. -/
instance runs_at_decidable (L : definitions_h) (if_in_mem : Nat → Nat) :
    ∀ (p : Nat) (rs : List run), Decidable (runs_at L if_in_mem p rs)
  | _, [] => isTrue trivial
  | p, r :: rest =>
    have := runs_at_decidable L if_in_mem
      (p + L.BYTES_FOR_QSCORE + L.BYTES_FOR_RUN_LEN + r.2.length * L.BYTES_FOR_RUN_LEN) rest
    (inferInstance : Decidable (
      to_int (make_ull_from_n_bytes (ptr_add if_in_mem p) L.BYTES_FOR_QSCORE) = r.1 ∧
      to_int (make_ull_from_n_bytes (ptr_add if_in_mem (p + L.BYTES_FOR_QSCORE))
        L.BYTES_FOR_RUN_LEN) = r.2.length ∧
      read_docids L if_in_mem r.2.length (p + L.BYTES_FOR_QSCORE + L.BYTES_FOR_RUN_LEN) = r.2 ∧
      runs_at L if_in_mem
        (p + L.BYTES_FOR_QSCORE + L.BYTES_FOR_RUN_LEN + r.2.length * L.BYTES_FOR_RUN_LEN) rest))

/-- The vocabulary entry of termid `t` has a positive postings count, equal to the number
of postings of `rs`, and an offset at which the `.if` file holds the runs `rs`. -/
def term_encodes (L : definitions_h) (vocab_in_mem if_in_mem : Nat → Nat) (t : Int)
    (rs : List run) : Prop :=
  0 ≤ t ∧
  0 < make_ull_from_n_bytes
    (ptr_add vocab_in_mem (t.toNat * L.BYTES_IN_VOCAB_ENTRY + L.BYTES_FOR_TERMID))
    L.BYTES_FOR_POSTINGS_COUNT ∧
  to_int (make_ull_from_n_bytes
    (ptr_add vocab_in_mem (t.toNat * L.BYTES_IN_VOCAB_ENTRY + L.BYTES_FOR_TERMID))
    L.BYTES_FOR_POSTINGS_COUNT) = total_postings rs ∧
  runs_at L if_in_mem
    (make_ull_from_n_bytes
      (ptr_add vocab_in_mem
        (t.toNat * L.BYTES_IN_VOCAB_ENTRY + L.BYTES_FOR_TERMID + L.BYTES_FOR_POSTINGS_COUNT))
      L.BYTES_FOR_INDEX_OFFSET) rs

/-- A posting list of the data model: not empty, runs of length at least 1, qscores that
are not negative, docids below `numDocs`. -/
structure well_formed_list (P : params_t) (rs : List run) : Prop where
  nonempty : rs ≠ []
  run_len : ∀ r ∈ rs, 1 ≤ r.2.length
  qscore : ∀ r ∈ rs, 0 ≤ r.1
  docid : ∀ r ∈ rs, ∀ d ∈ r.2, 0 ≤ d ∧ d < P.numDocs

/-- The posting lists of the small index. -/
def demo_index (t : Int) : List run :=
  if t = 1 then [(8, [3, 4])]
  else if t = 2 then [(6, [4, 7])]
  else if t = 3 then [(0, [5])]
  else []

/-- The control block of a term position whose runs still to be processed are `rs`: the
header of the first of them has been read and the pointer is on its docids. -/
def tcb_at (L : definitions_h) (if_in_mem : Nat → Nat) (b : term_control_block_t) :
    List run → Prop
  | [] => b.postings_remaining = 0
  | r :: rest =>
    b.highest_unprocessed_score = r.1 ∧ b.current_run_len = r.2.length ∧
    b.postings_remaining = total_postings (r :: rest) ∧
    read_docids L if_in_mem r.2.length b.if_pointer = r.2 ∧
    runs_at L if_in_mem (b.if_pointer + r.2.length * L.BYTES_FOR_RUN_LEN) rest

/-- The sum of `f q` over the term positions `q < n`. -/
def sum_upto {α : Type} [AddCommMonoid α] (n : Nat) (f : Nat → α) : α :=
  ((List.range n).map f).sum

/-- The number of term positions that have runs left. -/
def going (q_len : Nat) (rem : Nat → List run) : Nat :=
  sum_upto q_len (fun q => if rem q = [] then 0 else 1)

/-- The number of runs left over all term positions. -/
def runs_left (q_len : Nat) (rem : Nat → List run) : Nat :=
  sum_upto q_len (fun q => (rem q).length)

/-- The state of the loop agrees with the runs `rem q` still to be processed at each term
position `q`. -/
structure sim (P : params_t) (L : definitions_h) (if_in_mem : Nat → Nat) (q_len : Nat)
    (st : query_state) (rem : Nat → List run) : Prop where
  tcb : ∀ q, q < q_len → tcb_at L if_in_mem (st.term_control_block q) (rem q)
  count : st.terms_still_going = going q_len rem
  run_len : ∀ q, q < q_len → ∀ r ∈ rem q, 1 ≤ r.2.length
  qscore : ∀ q, q < q_len → ∀ r ∈ rem q, 0 ≤ r.1
  docid : ∀ q, q < q_len → ∀ r ∈ rem q, ∀ d ∈ r.2, 0 ≤ d ∧ d < P.numDocs
  bound : ∀ q, q < q_len → total_postings (rem q) < 2 ^ 31

/-- The run that an entry of the run log reports. -/
def run_of_event (e : run_event) : run := (e.max_qscore, e.docids)

/-- The runs consumed for term position `q`, in the order of their consumption. -/
def consumed (log : List run_event) (q : Nat) : List run :=
  (log.filter (fun e => e.chosen = q)).map run_of_event

/-- The postings `(docid, qscore)` of the consumed runs, in the order of their application. -/
def postings_of_log : List run_event → List (Int × Int)
  | [] => []
  | e :: es => e.docids.map (fun d => (d, e.max_qscore)) ++ postings_of_log es

/-- The sum of the qscore of a run over the postings of docid `d` in it. -/
def run_score (d : Int) (r : run) : Int := r.1 * (r.2.count d : Int)

/-- The sum of the impacts of docid `d` over a list of runs. -/
def list_score (d : Int) (rs : List run) : Int := (rs.map (run_score d)).sum

/-- How far a query on a well-formed index has got: at each term position the posting
list is the runs consumed followed by the runs left; the postings applied are those of
the runs consumed; every run consumed passed the low-score test and was read whole. -/
structure progress (P : params_t) (q_len : Nat) (runs_of : Nat → List run)
    (st : query_state) (rem : Nat → List run) : Prop where
  split : ∀ q, q < q_len → runs_of q = consumed st.run_log q ++ rem q
  postings : st.ev.posting_log = postings_of_log st.run_log
  chosen : ∀ e ∈ st.run_log, e.chosen < q_len
  passed : ∀ e ∈ st.run_log, P.lowScoreCutoff ≤ e.max_qscore
  whole : ∀ e ∈ st.run_log, e.current_run_len = e.docids.length

/-- Why the loop ended, in terms of the runs left. -/
def ended (P : params_t) (q_len : Nat) (st : query_state) (why : stop_reason)
    (rem : Nat → List run) : Prop :=
  (why = stop_reason.terms_exhausted ∧ ∀ q, q < q_len → rem q = []) ∨
  (why = stop_reason.low_score_cutoff ∧
    ∀ q r rest, q < q_len → rem q = r :: rest → r.1 < P.lowScoreCutoff) ∨
  (why = stop_reason.postings_count_cutoff ∧ over_budget P st)

/-! ## The brute-force ranking of the specification -/

/-- The postings `(docid, qscore of the run)` of a posting list. -/
def postings_of_runs : List run → List (Int × Int)
  | [] => []
  | r :: rs => r.2.map (fun d => (d, r.1)) ++ postings_of_runs rs

/-- All postings of all query term positions, given the posting list of each position. -/
def brute_force_postings : List (List run) → List (Int × Int)
  | [] => []
  | rs :: ls => postings_of_runs rs ++ brute_force_postings ls

/-- The brute-force score of docid `d`: the sum, over all its postings in all query term
positions, of the qscore of the run containing the posting. -/
def brute_force_score (lists : List (List run)) (d : Int) : Int :=
  log_score (brute_force_postings lists) d

/-! ## The count of postings processed -/

/-- The running count of postings processed (an `u_ll`) after each of a sequence of runs of
the given lengths, from the count `start`. -/
def running_counts : Nat → List Int → List Nat
  | _, [] => []
  | start, l :: ls =>
    (((start : Int) + l) % 2 ^ 64).toNat
      :: running_counts (((start : Int) + l) % 2 ^ 64).toNat ls

/-- What the loop keeps of the count of postings processed: the counts logged are the
running counts of the run lengths, the current count is the last of them, the postings
applied are those of the runs logged, each run read to its end. -/
structure budget_inv (st : query_state) : Prop where
  counts : st.run_log.map (fun e => e.postings_processed)
    = running_counts 0 (st.run_log.map (fun e => e.current_run_len))
  current : st.postings_processed
    = (st.run_log.map (fun e => e.postings_processed)).getLastD 0
  applied : st.ev.posting_log = postings_of_log st.run_log
  whole : ∀ e ∈ st.run_log, e.docids.length = e.current_run_len.toNat

/-- The test of line 205 on a count of postings. -/
def over_count (P : params_t) (n : Nat) : Prop :=
  P.postingsCountCutoff > 0 ∧ (n : Int) > P.postingsCountCutoff

/-- The sum of the positive `postings_remaining` values over the term positions: the
variant of the loop of `process_query`. -/
def postings_left (q_len : Nat) (st : query_state) : Int :=
  sum_upto q_len (fun q => max 0 (st.term_control_block q).postings_remaining)

/-- The sum of the run lengths of the runs consumed. -/
def run_lengths (log : List run_event) : Int := (log.map (fun e => e.current_run_len)).sum

/-! ## Harnesses and a small index -/

/-- A sequence of calls `insert_in_fake_heap(docid, score)`, each made with the contents
that `accumulators` has at the time of the call. -/
def insert_calls (k : Nat) : List ((Int → Int) × Int × Int) → globals → Option globals
  | [], g => some g
  | (acc, docid, score) :: cs, g =>
    match insert_in_fake_heap k { g with accumulators := acc } docid score with
    | none => none
    | some g1 => insert_calls k cs g1

/-- The result of a run that returned. -/
def outcome.result {α : Type} : outcome α → Option α
  | outcome.returned a => some a
  | _ => none

/-- The number of docids below `numDocs` whose accumulator is positive. -/
def positive_count (P : params_t) (g : globals) : Nat :=
  ((List.range P.numDocs).filter (fun (d : Nat) => 0 < g.accumulators (Int.ofNat d))).length

/-- Widths with docids as wide as run lengths. -/
def demo_layout : definitions_h :=
  { BYTES_FOR_QSCORE := 1, BYTES_FOR_RUN_LEN := 2, BYTES_FOR_DOCID := 2, BYTES_FOR_TERMID := 3,
    BYTES_FOR_POSTINGS_COUNT := 3, BYTES_FOR_INDEX_OFFSET := 5, BYTES_IN_VOCAB_ENTRY := 11 }

/-- A vocabulary of four terms: term 0 has no postings, terms 1 and 2 have two postings
each, term 3 has one. -/
def demo_vocab : Nat → Nat :=
  bytes [0, 0, 0, 0, 0, 0, 0, 0, 0, 0, 0,
         0, 0, 1, 0, 0, 2, 0, 0, 0, 0, 0,
         0, 0, 2, 0, 0, 2, 0, 0, 0, 0, 7,
         0, 0, 3, 0, 0, 1, 0, 0, 0, 0, 14]

/-- The postings of `demo_vocab`: term 1 is the run (8, [3, 4]), term 2 the run (6, [4, 7]),
term 3 the run (0, [5]). -/
def demo_if : Nat → Nat :=
  bytes [8, 0, 2, 0, 3, 0, 4,
         6, 0, 2, 0, 4, 0, 7,
         0, 0, 1, 0, 5]

/-- Parameters `k = 2`, `numDocs = 10`, no cutoff. -/
def demo_params : params_t := { k := 2, numDocs := 10, lowScoreCutoff := 0, postingsCountCutoff := 0 }

/-- The result of the query `1 2` on the small index with `demo_params`. -/
def demo_result : query_result :=
  match process_query demo_params demo_layout demo_vocab demo_if [1, 2] 5 with
  | outcome.returned r => r
  | _ => { final := query_state_init 0, stopped_by := stop_reason.terms_exhausted,
           query_line := [], result_lines := [] }

/-- The result of the query `3` (one run with qscore 0) on the small index, `k = 3`. -/
def demo_zero_result : query_result :=
  match process_query { demo_params with k := 3 } demo_layout demo_vocab demo_if [3] 5 with
  | outcome.returned r => r
  | _ => { final := query_state_init 0, stopped_by := stop_reason.terms_exhausted,
           query_line := [], result_lines := [] }

/-- Parameters with `k = numDocs = 10` and no cutoff. -/
def demo_params_all : params_t :=
  { k := 10, numDocs := 10, lowScoreCutoff := 0, postingsCountCutoff := 0 }

/-- Parameters with `k = 3` and `lowScoreCutoff = 7`. -/
def demo_params_low : params_t :=
  { k := 3, numDocs := 10, lowScoreCutoff := 7, postingsCountCutoff := 0 }

/-- The widths of the end-to-end scenarios of the specification:
`BYTES_FOR_QSCORE = 1`, `BYTES_FOR_RUN_LEN = 2`, `BYTES_FOR_DOCID = 4`. -/
def scenario_layout : definitions_h :=
  { BYTES_FOR_QSCORE := 1, BYTES_FOR_RUN_LEN := 2, BYTES_FOR_DOCID := 4, BYTES_FOR_TERMID := 3,
    BYTES_FOR_POSTINGS_COUNT := 3, BYTES_FOR_INDEX_OFFSET := 5, BYTES_IN_VOCAB_ENTRY := 11 }

/-- A vocabulary in which termid 7 has two postings at offset 0. -/
def scenario_vocab : Nat → Nat :=
  bytes (List.replicate 77 0 ++ [0, 0, 7, 0, 0, 2, 0, 0, 0, 0, 0])

/-- Term 7 written in the format of the specification: qscore 10, run length 2, docids 5
and 9 on four bytes each. -/
def scenario_if : Nat → Nat := bytes [10, 0, 2, 0, 0, 0, 5, 0, 0, 0, 9]

/-- Term 7 with docids on two bytes each, for `demo_layout`. -/
def scenario_if_narrow : Nat → Nat := bytes [10, 0, 2, 0, 5, 0, 9]

/-- Widths of one byte each, vocabulary entries of three bytes. -/
def budget_layout : definitions_h :=
  { BYTES_FOR_QSCORE := 1, BYTES_FOR_RUN_LEN := 1, BYTES_FOR_DOCID := 1, BYTES_FOR_TERMID := 1,
    BYTES_FOR_POSTINGS_COUNT := 1, BYTES_FOR_INDEX_OFFSET := 1, BYTES_IN_VOCAB_ENTRY := 3 }

/-- Terms 1 and 2 have 100 postings each, at offsets 0 and 102. -/
def budget_vocab : Nat → Nat := bytes [0, 0, 0, 1, 100, 0, 2, 100, 102]

/-- Term 1 is one run of 100 postings at qscore 9 (docids 0 to 99), term 2 one run of 100
postings at qscore 5 (docids 50 to 149). -/
def budget_if : Nat → Nat :=
  bytes ([9, 100] ++ List.range 100 ++ [5, 100] ++ (List.range 100).map (fun d => d + 50))

/-- Parameters `k = 10`, `numDocs = 150`, `postingsCountCutoff = 50`. -/
def budget_params : params_t :=
  { k := 10, numDocs := 150, lowScoreCutoff := 0, postingsCountCutoff := 50 }

/-- The result of the query `1 2` on the index of two runs of 100 postings. -/
def budget_result : query_result :=
  match process_query budget_params budget_layout budget_vocab budget_if [1, 2] 2 with
  | outcome.returned r => r
  | _ => { final := query_state_init 0, stopped_by := stop_reason.terms_exhausted,
           query_line := [], result_lines := [] }

/-! ## Reading a query line (`main` of `q.c`)

The buffer `fgets_buf` is the list of the bytes `fgets` stored, a NUL follows them.  The
pointer `p` is the part of the buffer that still lies ahead.  `char` is signed, as on
the x86-64 targets the sources are written for. -/

/-- The n-byte big-endian encoding of `x`, most significant byte first. -/
def big_endian : Nat → Nat → List Nat
  | 0, _ => []
  | n + 1, x => (x / 256 ^ n) % 256 :: big_endian n x

/-- The value a list of bytes denotes when read most significant byte first. -/
def big_endian_value : List Nat → Nat
  | [] => 0
  | b :: l => b * 256 ^ l.length + big_endian_value l

/-- `isspace` of `<ctype.h>` in the C locale. -/
def isspace (c : Nat) : Bool := c == 32 || (9 ≤ c && c ≤ 13)

/-- `isdigit` of `<ctype.h>`. -/
def isdigit (c : Nat) : Bool := 48 ≤ c && c ≤ 57

/-- The decimal digits at the head of `s`: the value read so far and the number of
digits consumed. -/
def strtol_digits : List Nat → Nat → Nat → Nat × Nat
  | [], acc, k => (acc, k)
  | c :: s, acc, k =>
    if isdigit c then strtol_digits s (10 * acc + (c - 48)) (k + 1) else (acc, k)

/-- `LONG_MAX` of an LP64 target. -/
def LONG_MAX : Int := 2 ^ 63 - 1

/-- `strtol(p, &q, 10)` of `<stdlib.h>`: white space is skipped, a sign may follow, then
decimal digits.  The result is the value (clamped to the range of `long`) and `q - p`,
the number of bytes consumed; with no digit there is no conversion, the value is 0
and `q == p`. -/
def strtol (p : List Nat) : Int × Nat :=
  let blanks := (p.takeWhile isspace).length
  let s := p.drop blanks
  let sign := if s.headD 0 = 45 ∨ s.headD 0 = 43 then 1 else 0
  let negative := decide (s.headD 0 = 45)
  let (value, digits) := strtol_digits (s.drop sign) 0 0
  if digits = 0 then (0, 0)
  else if negative then (max (-(value : Int)) (-LONG_MAX - 1), blanks + sign + digits)
  else (min (value : Int) LONG_MAX, blanks + sign + digits)

/-- The conversion of a `long` to `int` in `query_array[t++] = strtol(...)`. -/
def long_to_int (v : Int) : Int :=
  if v % 2 ^ 32 < 2 ^ 31 then v % 2 ^ 32 else v % 2 ^ 32 - 2 ^ 32

/-- The test `*p >= ' '` on a signed `char`. -/
def at_least_space (c : Nat) : Bool := 32 ≤ c && c < 128

/-- The inner `while` loop of `main` (lines 299-303).  `query_array` holds the values
stored so far, so `t` is its length; a store at `t >= MAX_QTERMS` is outside the array.
Every iteration that does not leave the loop moves `p` forward, so the length of the
buffer is enough fuel. -/
def read_termids : Nat → List Nat → List Int → outcome (List Int)
  | 0, _, _ => outcome.out_of_fuel
  | fuel + 1, p, query_array =>
    if at_least_space (p.headD 0) then
      if MAX_QTERMS ≤ query_array.length then outcome.undefined
      else
        let (v, q) := strtol p
        let query_array1 := query_array ++ [long_to_int v]
        if q = 0 then outcome.returned query_array1  -- `if (p == q) break;`
        else read_termids fuel (p.drop q) query_array1
    else outcome.returned query_array

/-- The query `main` passes to `process_query` for one line of input: `query_array[0..t)`
and `q_len = t`. -/
def query_of_line (fgets_buf : List Nat) : outcome (List Int) :=
  read_termids (fgets_buf.length + 1) fgets_buf []

/-- The body of the `while (fgets(...))` loop of `main` for one line. -/
def main_line (P : params_t) (L : definitions_h) (vocab_in_mem if_in_mem : Nat → Nat)
    (fgets_buf : List Nat) (fuel : Nat) : outcome query_result :=
  match query_of_line fgets_buf with
  | outcome.returned query_array => process_query P L vocab_in_mem if_in_mem query_array fuel
  | outcome.exit_1 => outcome.exit_1
  | outcome.undefined => outcome.undefined
  | outcome.out_of_fuel => outcome.out_of_fuel

/-- The bytes of an ASCII string. -/
def ascii (s : String) : List Nat := s.toList.map Char.toNat

/-- A line of `n` termids `1`, separated by single blanks and ended by a newline. -/
def line_of_ones (n : Nat) : List Nat :=
  ((List.replicate n [49]).intersperse [32]).flatten ++ [10]

/-! ## Query shortening (`qbashq-lib/query_shortening.c`)

A term is the list of the bytes of a C string before its NUL; `qterms` is the list
`qterms[0 .. qwd_cnt)`.  The arrays `zap` and `freaks` are functions of the index, the
array `freaki` is the list of its entries.  What the function needs from other files
is a parameter: the vocabulary lookup, the `SHORTEN_*` bits, the library sort and
whether one of the three `malloc` calls failed. -/

/-- The `SHORTEN_*` bits of `QBASHQ.h`, a header that is not among the sources at hand. -/
structure shortening_bits where
  SHORTEN_NOEXIST : Nat
  SHORTEN_ALL_DIGITS : Nat
  SHORTEN_HIGH_FREQ : Nat

/-- The fields of `query_processing_environment_t` that the shortener reads.
`lookup_word wd` is `none` when `lookup_word` returns `NULL` and otherwise the
occurrence count that `vocabfile_entry_unpacker` takes from the entry found. -/
structure query_processing_environment_t where
  query_shortening_threshold : Int
  N : Nat
  lookup_word : List Nat → Option Nat

/-- `static int all_digits(u_char *wd)` -/
def all_digits : List Nat → Bool
  | [] => true
  | c :: wd => if isdigit c then all_digits wd else false

/-- The test `*wd == '"' || *wd == '['`: a phrase or a disjunction. -/
def compound_term (wd : List Nat) : Bool := wd.headD 0 == 34 || wd.headD 0 == 91

/-- The inner loop of the count (lines 76-81), `u + 1` terms before `qterms[t]` left to
compare. -/
def repeated_loop (qterms : List (List Nat)) (t : Nat) : Nat → Bool
  | 0 => false
  | u + 1 => if qterms.getD t [] = qterms.getD u [] then true else repeated_loop qterms t u

/-- The count of distinct words (lines 71-84). -/
def count_distinct_terms (qterms : List (List Nat)) : Nat → Nat → Int → Int
  | 0, _, distinct_terms => distinct_terms
  | n + 1, t, distinct_terms =>
    let repeated :=
      if compound_term (qterms.getD t []) then false else repeated_loop qterms t t
    count_distinct_terms qterms n (t + 1)
      (if repeated then distinct_terms else distinct_terms + 1)

/-- Whether the count of lines 71-84 counts position `t`. -/
def counted (qterms : List (List Nat)) (t : Nat) : Bool :=
  compound_term (qterms.getD t []) || !repeated_loop qterms t t

/-- The number of distinct terms of a query in the words of the specification:
protected terms are each counted, repeated unprotected terms are counted once. -/
def distinct_count (q : List (List Nat)) : Nat :=
  (q.filter compound_term).length + (q.filter (fun wd => !compound_term wd)).dedup.length

/-- The heuristic that removed a term. -/
inductive heuristic where
  | noexist
  | all_digits
  | high_freq
  deriving DecidableEq

/-- One removal, as the `explain` output reports it: the heuristic, the position of the
term in `qterms`, `cg_qwd_cnt` when the term was examined, and `freaks` of the
position. -/
structure zap_event where
  why : heuristic
  position : Nat
  cg_qwd_cnt : Int
  frequency : Nat
  deriving DecidableEq

/-- The variables of the shortening branch, and the removals so far. -/
structure shortening_state where
  zap : Nat → Bool
  freaks : Nat → Nat
  cg_qwd_cnt : Int
  distinct_terms : Int
  shortening_codes : Nat
  zapped : List zap_event

/-- The state after `zap[u] = TRUE`, the bit, `--cg_qwd_cnt` and `--distinct_terms`. -/
def zap_term (why : heuristic) (bit : Nat) (u : Nat) (s : shortening_state) :
    shortening_state :=
  { s with
    zap := fun i => if i = u then true else s.zap i
    shortening_codes := s.shortening_codes ||| bit
    cg_qwd_cnt := s.cg_qwd_cnt - 1
    distinct_terms := s.distinct_terms - 1
    zapped := s.zapped ++ [{ why := why, position := u, cg_qwd_cnt := s.cg_qwd_cnt,
                             frequency := s.freaks u }] }

/-- Heuristic 1, remove non-existent words (lines 138-155). -/
def remove_nonexistent (B : shortening_bits) (qoenv : query_processing_environment_t)
    (qterms : List (List Nat)) : Nat → Nat → shortening_state → shortening_state
  | 0, _, s => s
  | n + 1, u, s =>
    let wd := qterms.getD u []
    if compound_term wd then remove_nonexistent B qoenv qterms n (u + 1) s
    else
      match qoenv.lookup_word wd with
      | none =>
        let s1 := zap_term heuristic.noexist B.SHORTEN_NOEXIST u s
        remove_nonexistent B qoenv qterms n (u + 1)
          { s1 with freaks := fun i => if i = u then 0 else s1.freaks i }
      | some occurrence_count =>
        remove_nonexistent B qoenv qterms n (u + 1)
          { s with freaks := fun i => if i = u then occurrence_count else s.freaks i }

/-- Heuristic 3, remove words which are all digits (the loop of lines 159-170). -/
def remove_all_digits (B : shortening_bits) (qoenv : query_processing_environment_t)
    (qterms : List (List Nat)) : Nat → Nat → shortening_state → shortening_state
  | 0, _, s => s
  | n + 1, u, s =>
    if s.zap u then remove_all_digits B qoenv qterms n (u + 1) s
    else
      let wd := qterms.getD u []
      if compound_term wd then remove_all_digits B qoenv qterms n (u + 1) s
      else if all_digits wd then
        let s1 := zap_term heuristic.all_digits B.SHORTEN_ALL_DIGITS u s
        if s1.distinct_terms ≤ qoenv.query_shortening_threshold then s1
        else remove_all_digits B qoenv qterms n (u + 1) s1
      else remove_all_digits B qoenv qterms n (u + 1) s

/-- The test of line 197: close to the threshold and a rare term. -/
def rare_term_guard (qoenv : query_processing_environment_t) (cg_qwd_cnt : Int)
    (frequency : Nat) : Bool :=
  cg_qwd_cnt ≤ qoenv.query_shortening_threshold + 2 && frequency < qoenv.N / 10

/-- Heuristic 4, remove the words with the highest occurrence frequency (the loop of
lines 192-204) over the sorted `freaki`. -/
def remove_high_freq (B : shortening_bits) (qoenv : query_processing_environment_t) :
    List Nat → shortening_state → shortening_state
  | [], s => s
  | v :: freaki, s =>
    if s.zap v then remove_high_freq B qoenv freaki s
    else if rare_term_guard qoenv s.cg_qwd_cnt (s.freaks v) then s
    else
      let s1 := zap_term heuristic.high_freq B.SHORTEN_HIGH_FREQ v s
      if s1.distinct_terms ≤ qoenv.query_shortening_threshold then s1
      else remove_high_freq B qoenv freaki s1

/-- The copy of the terms that have not been zapped (lines 212-217). -/
def copy_unzapped (qterms : List (List Nat)) (zap : Nat → Bool) : Nat → Nat → List (List Nat)
  | 0, _ => []
  | n + 1, t =>
    if zap t then copy_unzapped qterms zap n (t + 1)
    else qterms.getD t [] :: copy_unzapped qterms zap n (t + 1)

/-- The state after the initialisation of lines 131-135. -/
def shortening_init (qwd_cnt : Nat) (distinct_terms : Int) : shortening_state :=
  { zap := fun _ => false, freaks := fun _ => 0, cg_qwd_cnt := qwd_cnt,
    distinct_terms := distinct_terms, shortening_codes := 0, zapped := [] }

/-- The state after heuristic 1. -/
def after_nonexistent (B : shortening_bits) (qoenv : query_processing_environment_t)
    (qterms : List (List Nat)) : shortening_state :=
  remove_nonexistent B qoenv qterms qterms.length 0
    (shortening_init qterms.length (count_distinct_terms qterms qterms.length 0 0))

/-- The state after heuristic 3. -/
def after_all_digits (B : shortening_bits) (qoenv : query_processing_environment_t)
    (qterms : List (List Nat)) : shortening_state :=
  let s := after_nonexistent B qoenv qterms
  if s.distinct_terms > qoenv.query_shortening_threshold then
    remove_all_digits B qoenv qterms qterms.length 0 s
  else s

/-- The state after heuristic 4.  `qsort_r context base` is `base` after the library
sort with `cmp_freak` and the context `freaks`. -/
def after_high_freq (B : shortening_bits) (qsort_r : (Nat → Nat) → List Nat → List Nat)
    (qoenv : query_processing_environment_t) (qterms : List (List Nat)) : shortening_state :=
  let s := after_all_digits B qoenv qterms
  if s.distinct_terms > qoenv.query_shortening_threshold then
    remove_high_freq B qoenv (qsort_r s.freaks (List.range qterms.length)) s
  else s

/-- The stores of `while (*r) *w++ = *r++;` and the pointer afterwards. -/
def copy_term : List Nat → Int → List (Int × Nat) × Int
  | [], w => ([], w)
  | c :: r, w => ((w, c) :: (copy_term r (w + 1)).1, (copy_term r (w + 1)).2)

/-- The stores of the loop of lines 227-231 and the pointer afterwards. -/
def join_terms : List (List Nat) → Int → List (Int × Nat) × Int
  | [], w => ([], w)
  | r :: cg_qterms, w =>
    let ws := copy_term r w
    let rest := join_terms cg_qterms (ws.2 + 1)
    (ws.1 ++ (ws.2, 32) :: rest.1, rest.2)

/-- The stores into `candidate_generation_query` (lines 226-234), in order, as pairs
of an index into the buffer and a byte. -/
def write_candidate_generation_query (cg_qterms : List (List Nat)) : List (Int × Nat) :=
  (join_terms cg_qterms 0).1 ++ [((join_terms cg_qterms 0).2 - 1, 0)]

/-- What `create_candidate_generation_query` leaves in `book_keeping_for_one_query_t`,
and the removals it made. -/
structure book_keeping_for_one_query_t where
  cg_qterms : List (List Nat)
  cg_qwd_cnt : Int
  shortening_codes : Nat
  candidate_generation_query : List (Int × Nat)
  zapped : List zap_event

/-- The result when the terms are copied over (lines 90-93 and 125-128); the codes
are still the 0 of line 68. -/
def copy_through (qterms : List (List Nat)) : book_keeping_for_one_query_t :=
  { cg_qterms := qterms, cg_qwd_cnt := qterms.length, shortening_codes := 0,
    candidate_generation_query := write_candidate_generation_query qterms, zapped := [] }

/-- `void create_candidate_generation_query(query_processing_environment_t *qoenv,
book_keeping_for_one_query_t *qex)` -/
def create_candidate_generation_query (B : shortening_bits)
    (qsort_r : (Nat → Nat) → List Nat → List Nat) (memalloc_failed : Bool)
    (qoenv : query_processing_environment_t) (qterms : List (List Nat)) :
    book_keeping_for_one_query_t :=
  let distinct_terms := count_distinct_terms qterms qterms.length 0 0
  if qoenv.query_shortening_threshold = 0
      ∨ distinct_terms ≤ qoenv.query_shortening_threshold then
    -- Not shortening or no need to shorten
    copy_through qterms
  else if memalloc_failed then
    -- just copy the terms over
    copy_through qterms
  else
    let s := after_high_freq B qsort_r qoenv qterms
    let cg_qterms := copy_unzapped qterms s.zap qterms.length 0
    { cg_qterms := cg_qterms, cg_qwd_cnt := cg_qterms.length,
      shortening_codes := s.shortening_codes,
      candidate_generation_query := write_candidate_generation_query cg_qterms,
      zapped := s.zapped }

/-- The contract of the library sort with `cmp_freak`: the result is a rearrangement of
the array in order of descending frequency. -/
def sorts_descending (qsort_r : (Nat → Nat) → List Nat → List Nat) : Prop :=
  ∀ (freaks : Nat → Nat) (base : List Nat),
    (qsort_r freaks base).Perm base ∧
    (qsort_r freaks base).Pairwise (fun i j => freaks j ≤ freaks i)

/-- A sort that meets the contract: insertion sort by descending frequency. -/
def insertion_qsort (freaks : Nat → Nat) (base : List Nat) : List Nat :=
  base.insertionSort (fun i j => freaks j ≤ freaks i)

/-- The terms of a query that heuristic 1 leaves: the compound terms and the words of
the vocabulary. -/
def existing_terms (qoenv : query_processing_environment_t) (qterms : List (List Nat)) :
    List (List Nat) :=
  qterms.filter (fun wd => compound_term wd || (qoenv.lookup_word wd).isSome)

/-- The bits `bit` are set in `codes`. -/
def bit_set (codes bit : Nat) : Prop := codes &&& bit = bit

instance bit_set_decidable (codes bit : Nat) : Decidable (bit_set codes bit) := by
  unfold bit_set; infer_instance

/-- Bits for the examples: 1, 2 and 4. -/
def demo_bits : shortening_bits :=
  { SHORTEN_NOEXIST := 1, SHORTEN_ALL_DIGITS := 2, SHORTEN_HIGH_FREQ := 4 }

/-- A vocabulary for the examples: the words with their occurrence counts. -/
def demo_lookup (words : List (String × Nat)) (wd : List Nat) : Option Nat :=
  (words.find? (fun e => decide (ascii e.1 = wd))).map (fun e => e.2)

/-- What heuristic 1 has done when it arrives at position `u`. -/
structure nonexistent_inv (B : shortening_bits) (qoenv : query_processing_environment_t)
    (qterms : List (List Nat)) (u : Nat) (s : shortening_state) : Prop where
  zap_iff : ∀ i, s.zap i = true ↔
    (i < u ∧ compound_term (qterms.getD i []) = false
      ∧ qoenv.lookup_word (qterms.getD i []) = none)
  freaks_found : ∀ i c, i < u → compound_term (qterms.getD i []) = false →
    qoenv.lookup_word (qterms.getD i []) = some c → s.freaks i = c
  freaks_other : ∀ i, (u ≤ i ∨ compound_term (qterms.getD i []) = true
    ∨ qoenv.lookup_word (qterms.getD i []) = none) → s.freaks i = 0
  codes : s.shortening_codes
    = if ∃ i, i < u ∧ compound_term (qterms.getD i []) = false
        ∧ qoenv.lookup_word (qterms.getD i []) = none
      then B.SHORTEN_NOEXIST else 0
  log : ∀ e ∈ s.zapped, e.why = heuristic.noexist

/-- An environment for the examples: the threshold, the number of documents and the
vocabulary. -/
def demo_qoenv (threshold : Int) (N : Nat) (words : List (String × Nat)) :
    query_processing_environment_t :=
  { query_shortening_threshold := threshold, N := N, lookup_word := demo_lookup words }

/-- A phrase term: the words between double quotes. -/
def phrase (s : String) : List Nat := 34 :: ascii s ++ [34]

/-- The stores of the bytes `l` at the indexes `w`, `w + 1`, ... -/
def stores_at : Int → List Nat → List (Int × Nat)
  | _, [] => []
  | w, c :: l => (w, c) :: stores_at (w + 1) l

/-- The terms each followed by a blank, end to end. -/
def terms_with_blanks (cg_qterms : List (List Nat)) : List Nat :=
  (cg_qterms.map (fun r => r ++ [32])).flatten

/-! ## Substitution rules (`shared/substitutions.c`)

A string is the list of its bytes before the NUL.  PCRE2 and the UTF-8 helper are not
part of the sources at hand and are parameters: `pcre2_compile` gives the compiled
pattern or nothing, `pcre2_substitute` gives the number of substitutions it returns
and the bytes it leaves in the output buffer (whose length it stores through its last
argument), `utf8_lowering_ncopy` gives the lowered copy.  `R` is the type of compiled
patterns. -/

/-- `#define INITIAL_SUBJECT_LEN_LIMIT 256` -/
def INITIAL_SUBJECT_LEN_LIMIT : Nat := 256

/-- Entry `rule` of the three arrays `substitution_rules_regex`, `substitution_rules_rhs`
and `substitution_rules_rhs_has_operator`; `none` is `NULL`. -/
structure substitution_rule (R : Type) where
  regex : Option R
  rhs : Option (List Nat)
  rhs_has_operator : Nat

/-- The count of line 124: `while (p < end) if (*p++ == '\n') lncnt++;` -/
def count_newlines : List Nat → Nat → Nat
  | [], lncnt => lncnt
  | c :: p, lncnt => count_newlines p (if c = 10 then lncnt + 1 else lncnt)

/-- Line 161: `while (p < end && *p != '\t' && *p != '\n') p++;` with `p` an index into
the file. -/
def scan_lhs (file : List Nat) : Nat → Nat → Nat
  | 0, p => p
  | fuel + 1, p =>
    if p < file.length ∧ file.getD p 0 ≠ 9 ∧ file.getD p 0 ≠ 10 then scan_lhs file fuel (p + 1)
    else p

/-- Lines 175-178: the scan of the right-hand side, which stops at a newline and at a
CR that is followed by a newline. -/
def scan_rhs (file : List Nat) : Nat → Nat → Nat
  | 0, p => p
  | fuel + 1, p =>
    if p < file.length ∧ file.getD p 0 ≠ 10 then
      if file.getD p 0 = 13 ∧ file.getD (p + 1) 0 = 10 then p
      else scan_rhs file fuel (p + 1)
    else p

/-- The bytes `file[a .. b)`. -/
def file_slice (file : List Nat) (a b : Nat) : List Nat := (file.drop a).take (b - a)

/-- The loop over the rules (lines 158-203), `n` rules still to do, `p` an index into
the file.  A byte read at the end of the file is taken to be 0; the allocations are
taken to succeed. -/
def load_rules {R : Type} (pcre2_compile : List Nat → Option R)
    (utf8_lowering_ncopy : List Nat → List Nat) (file : List Nat) :
    Nat → Nat → List (substitution_rule R)
  | 0, _ => []
  | n + 1, line_start =>
    let p := scan_lhs file file.length line_start
    if file.getD p 0 = 9 then
      -- Yes, we have an LHS pattern starting at line_start.  Compile it.
      let regex := pcre2_compile (file_slice file line_start p)
      let rhs_start := p + 1
      let p1 := scan_rhs file file.length rhs_start
      let rhs := utf8_lowering_ncopy (file_slice file rhs_start p1)
      { regex := regex, rhs := some rhs,
        rhs_has_operator := if 91 ∈ rhs ∨ 34 ∈ rhs then 1 else 0 }
        :: load_rules pcre2_compile utf8_lowering_ncopy file n (p1 + 1)
    else
      { regex := none, rhs := none, rhs_has_operator := 0 }
        :: load_rules pcre2_compile utf8_lowering_ncopy file n p

/-- What `load_substitution_rules` returns and leaves in its output arguments. -/
structure loaded_rules (R : Type) where
  return_value : Int
  num_substitution_rules : Int
  rules : List (substitution_rule R)

/-- `int load_substitution_rules(...)` from the point where the file is in memory
(line 123): `rulesfile_in_mem` is the content of the file. -/
def load_substitution_rules {R : Type} (pcre2_compile : List Nat → Option R)
    (utf8_lowering_ncopy : List Nat → List Nat) (rulesfile_in_mem : List Nat) :
    loaded_rules R :=
  let lncnt := count_newlines rulesfile_in_mem 0
  { return_value := lncnt, num_substitution_rules := lncnt,
    rules := load_rules pcre2_compile utf8_lowering_ncopy rulesfile_in_mem lncnt 0 }

/-- What `multisub` has done so far: the bytes in `obuf`, `num_subs`, and the sections it
has handed to `pcre2_substitute`. -/
structure multisub_state where
  obuf : List Nat
  num_subs : Int
  handed : List (List Nat)

/-- Line 367: `while (*q && *q != closer && obufupto < obuf_end) *obufupto++ = *q++;`
with `room = obuf_end - obufupto`: the bytes copied and what is left of `q`. -/
def copy_to_closer (closer : Nat) : Nat → List Nat → List Nat × List Nat
  | 0, q => ([], q)
  | _ + 1, [] => ([], [])
  | room + 1, c :: q =>
    if c = closer then ([], c :: q)
    else ((c :: (copy_to_closer closer room q).1), (copy_to_closer closer room q).2)

/-- The loop over the sections of `multisub` (lines 350-377); one unit of fuel per
section. -/
def multisub_loop {R : Type} (pcre2_substitute : R → List Nat → List Nat → Nat → Int × List Nat)
    (regex : R) (rep : List Nat) (obuf_end : Nat) :
    Nat → List Nat → multisub_state → outcome multisub_state
  | 0, _, _ => outcome.out_of_fuel
  | fuel + 1, section_start, s =>
    if section_start = [] then outcome.returned s
    else
      -- Look for an operator
      let sec := section_start.takeWhile (fun c => c != 91 && c != 34)
      let q := section_start.dropWhile (fun c => c != 91 && c != 34)
      let s1 : multisub_state :=
        if sec.length > 0 then
          let r := pcre2_substitute regex rep sec (obuf_end - s.obuf.length + 1)
          { obuf := s.obuf ++ r.2, num_subs := s.num_subs + r.1, handed := s.handed ++ [sec] }
        else s
      match q with
      | [] => outcome.returned s1
      | c :: _ =>
        let closer := if c = 91 then 93 else c
        let copied := copy_to_closer closer (obuf_end - s1.obuf.length) q
        let s2 : multisub_state := { s1 with obuf := s1.obuf ++ copied.1 }
        if s2.obuf.length ≥ obuf_end then outcome.returned s2
        else
          let s3 : multisub_state := { s2 with obuf := s2.obuf ++ [closer] }
          match copied.2 with
          | [] => outcome.returned s3
          | _ :: q1 =>
            multisub_loop pcre2_substitute regex rep obuf_end fuel q1 s3

/-- `int multisub(regex, sin, ..., rep, ..., obuf, obuflen)`: the final state; `obuf` is
the string left in the output buffer and `num_subs` the value returned. -/
def multisub {R : Type} (pcre2_substitute : R → List Nat → List Nat → Nat → Int × List Nat)
    (regex : R) (sin rep : List Nat) (obuflen : Nat) : outcome multisub_state :=
  multisub_loop pcre2_substitute regex rep obuflen (sin.length + 1) sin
    { obuf := [], num_subs := 0, handed := [] }

/-- The copy loop of lines 273-283, `n` iterations left: `none` is the `return 0` at an
opening bracket, otherwise the bytes written and what is left of `r`. -/
def copy_subject (avoid_operators_in_subject : Bool) :
    Nat → List Nat → List Nat → Option (List Nat × List Nat)
  | 0, r, w => some (w, r)
  | _ + 1, [], w => some (w, [])
  | n + 1, c :: r, w =>
    if c = 91 ∧ avoid_operators_in_subject = true then none
    else copy_subject avoid_operators_in_subject n r
      (w ++ [if 127 < c ∧ c < 160 then 32 else c])

/-- The part of `intext` up to and including the last `]`, and the rest (lines 262-271);
without a `]` the first part is empty. -/
def split_at_last_bracket (intext : List Nat) : List Nat × List Nat :=
  if 93 ∈ intext then
    let after := (intext.reverse.takeWhile (fun c => c != 93)).reverse
    (intext.take (intext.length - after.length), after)
  else ([], intext)

/-- The state of the loop over the rules: the string in `sin`, `rules_matched`, the
subjects handed to `multisub` and the sections handed to `pcre2_substitute`. -/
structure apply_state where
  sin : List Nat
  rules_matched : Int
  subjects : List (List Nat)
  sections : List (List Nat)

/-- The loop over the rules (lines 297-329). -/
def apply_rules {R : Type} (pcre2_substitute : R → List Nat → List Nat → Nat → Int × List Nat)
    (MAX_SUBLINE : Nat) (avoid_operators_in_rule : Bool) :
    List (substitution_rule R) → apply_state → outcome apply_state
  | [], s => outcome.returned s
  | rule :: rules, s =>
    if avoid_operators_in_rule = true ∧ rule.rhs_has_operator ≠ 0 then
      apply_rules pcre2_substitute MAX_SUBLINE avoid_operators_in_rule rules s
    else
      match rule.regex, rule.rhs with
      | some regex, some rhs =>
        match multisub pcre2_substitute regex s.sin rhs (MAX_SUBLINE + 1) with
        | outcome.returned m =>
          apply_rules pcre2_substitute MAX_SUBLINE avoid_operators_in_rule rules
            { sin := if m.num_subs > 0 then m.obuf else s.sin
              rules_matched := if m.num_subs > 0 then s.rules_matched + 1 else s.rules_matched
              subjects := s.subjects ++ [s.sin]
              sections := s.sections ++ m.handed }
        | outcome.exit_1 => outcome.exit_1
        | outcome.undefined => outcome.undefined
        | outcome.out_of_fuel => outcome.out_of_fuel
      | _, _ => apply_rules pcre2_substitute MAX_SUBLINE avoid_operators_in_rule rules s

/-- What `apply_substitutions_rules_to_string` returns and leaves in `intext`, with the
subjects it handed to the rules and the sections that reached `pcre2_substitute`. -/
structure apply_result where
  return_value : Int
  intext : List Nat
  subjects : List (List Nat)
  sections : List (List Nat)

/-- `int apply_substitutions_rules_to_string(num_substitution_rules, ..., intext,
avoid_operators_in_subject, avoid_operators_in_rule, debug)`.  The rule arrays are
`none` when one of them is `NULL`; `MAX_SUBLINE` (from `MAX_RESULT_LEN`, a constant
of another header) is a parameter; `buf1` has `MAX_SUBLINE + 2` bytes and a store
beyond it is undefined; `match_data` is whether `pcre2_match_data_create` gave a block. -/
def apply_substitutions_rules_to_string {R : Type}
    (pcre2_substitute : R → List Nat → List Nat → Nat → Int × List Nat)
    (MAX_SUBLINE : Nat) (match_data : Bool)
    (rules : Option (List (substitution_rule R))) (intext : List Nat)
    (avoid_operators_in_subject avoid_operators_in_rule : Bool) : outcome apply_result :=
  let unchanged : apply_result :=
    { return_value := 0, intext := intext, subjects := [], sections := [] }
  match rules with
  | none => outcome.returned unchanged
  | some [] => outcome.returned unchanged
  | some (rule :: more) =>
    let parts := if avoid_operators_in_subject then split_at_last_bracket intext
      else ([], intext)
    match copy_subject avoid_operators_in_subject (INITIAL_SUBJECT_LEN_LIMIT + 1) parts.2
        parts.1 with
    | none =>
      if parts.1.length > MAX_SUBLINE + 2 then outcome.undefined
      else outcome.returned unchanged
    | some (w, r) =>
      if w.length > MAX_SUBLINE + 2 then outcome.undefined
      else if r ≠ [] then outcome.returned unchanged
      else if w.length + 1 > MAX_SUBLINE + 2 then outcome.undefined  -- `*w = 0;`
      else if match_data = false then outcome.returned unchanged
      else
        match apply_rules pcre2_substitute MAX_SUBLINE avoid_operators_in_rule (rule :: more)
            { sin := w, rules_matched := 0, subjects := [], sections := [] } with
        | outcome.returned s =>
          outcome.returned
            { return_value := s.rules_matched
              intext := if s.rules_matched > 0 then s.sin else intext
              subjects := s.subjects, sections := s.sections }
        | outcome.exit_1 => outcome.exit_1
        | outcome.undefined => outcome.undefined
        | outcome.out_of_fuel => outcome.out_of_fuel

/-- A stand-in for `pcre2_substitute` in the examples: the compiled pattern is one byte,
every occurrence of it is replaced. -/
def demo_substitute (regex : Nat) (rep subject : List Nat) (_room : Nat) : Int × List Nat :=
  ((subject.count regex : Int),
    (subject.map (fun c => if c = regex then rep else [c])).flatten)

/-- A stand-in for `utf8_lowering_ncopy` in the examples: ASCII letters are lowered. -/
def ascii_lower (s : List Nat) : List Nat :=
  s.map (fun c => if 65 ≤ c ∧ c ≤ 90 then c + 32 else c)

/-- A stand-in for `pcre2_compile` in the examples: the pattern itself. -/
def demo_compile (pattern : List Nat) : Option (List Nat) := some pattern

/-- The result of a call, or a result that no call gives when there is none. -/
def apply_result_of (o : outcome apply_result) : apply_result :=
  match o with
  | outcome.returned r => r
  | _ => { return_value := -1, intext := [], subjects := [], sections := [] }

/-- The final state of a call of `multisub`, or an empty state when there is none. -/
def multisub_result_of (o : outcome multisub_state) : multisub_state :=
  match o with
  | outcome.returned r => r
  | _ => { obuf := [], num_subs := -1, handed := [] }

/-- A rule for the examples: every byte `regex` is replaced by `rhs`. -/
def demo_rule (regex : Nat) (rhs : String) : substitution_rule Nat :=
  { regex := some regex, rhs := some (ascii rhs), rhs_has_operator := 0 }

/-- A rules file for the examples, two lines `a TAB B` and `c TAB D`, each ended by
`eol`. -/
def demo_rules_file (eol : List Nat) : List Nat :=
  ascii "a" ++ [9] ++ ascii "B" ++ eol ++ ascii "c" ++ [9] ++ ascii "D" ++ eol

/-- What a rule holds: the pattern, the right-hand side and the operator flag. -/
def rule_fields {R : Type} (r : substitution_rule R) : Option R × Option (List Nat) × Nat :=
  (r.regex, r.rhs, r.rhs_has_operator)

/-! ## Posting lists as the specification writes them

The definitions of this section follow the specification of the `.if` file, not the
reader: they say which bytes a writer of the format stores.  `reader_walk` is the
reader's side, put together from the reads of `process_query`. -/

/-- A run as it is written: its qscore and its docids, unsigned. -/
abbrev written_run := Nat × List Nat

/-- The bytes of a run in the format of the specification: the qscore on
`BYTES_FOR_QSCORE` bytes, the run length on `BYTES_FOR_RUN_LEN` bytes, then the docids
on `BYTES_FOR_DOCID` bytes each, back to back, all big-endian. -/
def spec_run_bytes (L : definitions_h) (r : written_run) : List Nat :=
  big_endian L.BYTES_FOR_QSCORE r.1 ++ (big_endian L.BYTES_FOR_RUN_LEN r.2.length ++
    (r.2.map (big_endian L.BYTES_FOR_DOCID)).flatten)

/-- The bytes of a posting list in the format of the specification: its runs, back to
back. -/
def spec_posting_list_bytes (L : definitions_h) (rs : List written_run) : List Nat :=
  (rs.map (spec_run_bytes L)).flatten

/-- The positions at which the headers of the runs are written when the list starts
at `p`. -/
def spec_header_positions (L : definitions_h) : Nat → List written_run → List Nat
  | _, [] => []
  | p, r :: rest => p :: spec_header_positions L (p + (spec_run_bytes L r).length) rest

/-- The mapped file holds the bytes `l` from position `p` on. -/
def stored_at (mem : Nat → Nat) (p : Nat) (l : List Nat) : Prop :=
  ∀ i, i < l.length → mem (p + i) = l.getD i 0

/-- Whether the file holds the bytes can be computed. -/
instance stored_at_decidable (mem : Nat → Nat) (p : Nat) (l : List Nat) :
    Decidable (stored_at mem p l) :=
  (inferInstance : Decidable (∀ i, i < l.length → mem (p + i) = l.getD i 0))

/-- Every value of a written run fits the field it is written in and is below `bound`. -/
def run_fits (L : definitions_h) (bound : Nat) (r : written_run) : Prop :=
  r.1 < 256 ^ L.BYTES_FOR_QSCORE ∧ r.1 < bound ∧
  r.2.length < 256 ^ L.BYTES_FOR_RUN_LEN ∧ r.2.length < bound ∧
  ∀ d ∈ r.2, d < 256 ^ L.BYTES_FOR_DOCID ∧ d < bound

/-- Whether a run fits can be computed. -/
instance run_fits_decidable (L : definitions_h) (bound : Nat) (r : written_run) :
    Decidable (run_fits L bound r) :=
  (inferInstance : Decidable (
    r.1 < 256 ^ L.BYTES_FOR_QSCORE ∧ r.1 < bound ∧
    r.2.length < 256 ^ L.BYTES_FOR_RUN_LEN ∧ r.2.length < bound ∧
    ∀ d ∈ r.2, d < 256 ^ L.BYTES_FOR_DOCID ∧ d < bound))

/-- A written run as a run of the reader. -/
def run_of_written (r : written_run) : run := ((r.1 : Int), r.2.map Int.ofNat)

/-- The vocabulary entry of termid `t` has a positive postings count that is the number
of postings of `rs`, and an offset at which the `.if` file holds `rs` as the
specification writes it. -/
def term_written (L : definitions_h) (vocab_in_mem if_in_mem : Nat → Nat) (t : Int)
    (rs : List written_run) : Prop :=
  0 ≤ t ∧
  0 < make_ull_from_n_bytes
    (ptr_add vocab_in_mem (t.toNat * L.BYTES_IN_VOCAB_ENTRY + L.BYTES_FOR_TERMID))
    L.BYTES_FOR_POSTINGS_COUNT ∧
  to_int (make_ull_from_n_bytes
    (ptr_add vocab_in_mem (t.toNat * L.BYTES_IN_VOCAB_ENTRY + L.BYTES_FOR_TERMID))
    L.BYTES_FOR_POSTINGS_COUNT) = ((rs.map (fun r => r.2.length)).sum : Nat) ∧
  stored_at if_in_mem
    (make_ull_from_n_bytes
      (ptr_add vocab_in_mem
        (t.toNat * L.BYTES_IN_VOCAB_ENTRY + L.BYTES_FOR_TERMID + L.BYTES_FOR_POSTINGS_COUNT))
      L.BYTES_FOR_INDEX_OFFSET)
    (spec_posting_list_bytes L rs)

/-- Whether the term is written so can be computed. -/
instance term_written_decidable (L : definitions_h) (vocab_in_mem if_in_mem : Nat → Nat)
    (t : Int) (rs : List written_run) : Decidable (term_written L vocab_in_mem if_in_mem t rs) :=
  (inferInstance : Decidable (_ ∧ _ ∧ _ ∧ _))

/-- The reads `process_query` makes at one term position when it consumes `n` runs from
`p` on (lines 147-154, 193-200 and 212-219): for each run the position of the header
it reads and the qscore, run length and docids it decodes.  The pointer moves on by
`BYTES_FOR_QSCORE`, by `BYTES_FOR_RUN_LEN`, then by `BYTES_FOR_RUN_LEN` for each
docid. -/
def reader_walk (L : definitions_h) (if_in_mem : Nat → Nat) :
    Nat → Nat → List (Nat × Int × Int × List Int)
  | 0, _ => []
  | n + 1, p =>
    let b := read_run_header L if_in_mem
      { highest_unprocessed_score := 0, current_run_len := 0, postings_remaining := 0,
        if_pointer := p }
    (p, b.highest_unprocessed_score, b.current_run_len,
        read_docids L if_in_mem b.current_run_len.toNat b.if_pointer)
      :: reader_walk L if_in_mem n
          (b.if_pointer + b.current_run_len.toNat * L.BYTES_FOR_RUN_LEN)

/-- Widths of four bytes for every field of a run. -/
def wide_layout : definitions_h :=
  { BYTES_FOR_QSCORE := 4, BYTES_FOR_RUN_LEN := 4, BYTES_FOR_DOCID := 4, BYTES_FOR_TERMID := 3,
    BYTES_FOR_POSTINGS_COUNT := 3, BYTES_FOR_INDEX_OFFSET := 5, BYTES_IN_VOCAB_ENTRY := 11 }

/-- A vocabulary for `wide_layout`: term 0 has one posting, at offset 0. -/
def wide_vocab : Nat → Nat := bytes [0, 0, 0, 0, 0, 1, 0, 0, 0, 0, 0]

/-- The posting lists of the small index as they are written. -/
def demo_written (t : Int) : List written_run :=
  if t = 1 then [(8, [3, 4])]
  else if t = 2 then [(6, [4, 7])]
  else if t = 3 then [(0, [5])]
  else []

/-! ## An index whose sums leave the range of an `int` -/

/-- A vocabulary for `wide_layout`: terms 0, 1 and 2 have one posting each, at the offsets
0, 12 and 24. -/
def big_vocab : Nat → Nat :=
  bytes [0, 0, 0, 0, 0, 1, 0, 0, 0, 0, 0,
         0, 0, 1, 0, 0, 1, 0, 0, 0, 0, 12,
         0, 0, 2, 0, 0, 1, 0, 0, 0, 0, 24]

/-- The postings of `big_vocab`: term 0 is the run (2^30, [5]), term 1 the run
(2^30, [6]), term 2 the run (2^31 - 1, [5]). -/
def big_if : Nat → Nat :=
  bytes [64, 0, 0, 0, 0, 0, 0, 1, 0, 0, 0, 5,
         64, 0, 0, 0, 0, 0, 0, 1, 0, 0, 0, 6,
         127, 255, 255, 255, 0, 0, 0, 1, 0, 0, 0, 5]

/-- The posting lists of `big_vocab`. -/
def big_index (t : Int) : List run :=
  if t = 0 then [(1073741824, [5])]
  else if t = 1 then [(1073741824, [6])]
  else if t = 2 then [(2147483647, [5])]
  else []

/-- Parameters `k = 1`, `numDocs = 10`, no cutoff. -/
def big_params : params_t := { k := 1, numDocs := 10, lowScoreCutoff := 0, postingsCountCutoff := 0 }

/-- The result of the query `0 1 0` on the index of `big_vocab` with `k = 1`. -/
def big_result : query_result :=
  match process_query big_params wide_layout big_vocab big_if [0, 1, 0] 3 with
  | outcome.returned r => r
  | _ => { final := query_state_init 0, stopped_by := stop_reason.terms_exhausted,
           query_line := [], result_lines := [] }

/-! ## Array slices and the shift loops -/

theorem topk_eq_slice (g : globals) : topk g = slice g.fake_heap 0 g.items_in_fake_heap := by
  simp [topk, slice, List.range_eq_range']

theorem slice_zero (fh : Nat → Int) (a : Nat) : slice fh a 0 = [] := by simp [slice]

theorem slice_succ (fh : Nat → Int) (a n : Nat) :
    slice fh a (n + 1) = fh a :: slice fh (a + 1) n := by
  simp [slice, List.range'_succ]

theorem slice_concat (fh : Nat → Int) (a n : Nat) :
    slice fh a (n + 1) = slice fh a n ++ [fh (a + n)] := by
  simp [slice, List.range'_concat]

theorem slice_append (fh : Nat → Int) (a m n : Nat) :
    slice fh a (m + n) = slice fh a m ++ slice fh (a + m) n := by
  unfold slice
  have h := List.range'_append a m n 1
  rw [Nat.one_mul] at h
  rw [← List.map_append, h, Nat.add_comm n m]

theorem length_slice (fh : Nat → Int) (a n : Nat) : (slice fh a n).length = n := by
  simp [slice]

theorem slice_congr {fh fh1 : Nat → Int} {a n : Nat}
    (h : ∀ x, a ≤ x → x < a + n → fh x = fh1 x) : slice fh a n = slice fh1 a n := by
  unfold slice
  apply List.map_congr_left
  intro x hx
  rw [List.mem_range'_1] at hx
  exact h x hx.1 hx.2

theorem slice_shift {fh fh1 : Nat → Int} {a n : Nat}
    (h : ∀ x, a ≤ x → x < a + n → fh1 x = fh (x + 1)) : slice fh1 a n = slice fh (a + 1) n := by
  induction n generalizing a with
  | zero => simp [slice]
  | succ n ih =>
    rw [slice_succ, slice_succ, h a (Nat.le_refl _) (by omega)]
    congr 1
    exact ih (fun x h1 h2 => h x (by omega) (by omega))

theorem mem_slice {fh : Nat → Int} {a n : Nat} {d : Int} :
    d ∈ slice fh a n ↔ ∃ x, a ≤ x ∧ x < a + n ∧ fh x = d := by
  simp [slice, List.mem_range'_1, and_assoc]

theorem shift_left_spec (k : Nat) : ∀ (n j : Nat) (fh : Nat → Int), 1 ≤ j → j + n ≤ k →
    ∃ fh1, shift_left k n j fh = some fh1 ∧
      ∀ x, fh1 x = if j ≤ x + 1 ∧ x + 1 < j + n then fh (x + 1) else fh x := by
  intro n
  induction n with
  | zero =>
    intro j fh _ _
    refine ⟨fh, rfl, fun x => ?_⟩
    rw [if_neg (by omega)]
  | succ n ih =>
    intro j fh hj hk
    have hst : store k fh (j - 1) (fh j) = some (Function.update fh (j - 1) (fh j)) := by
      unfold store; rw [if_pos (by omega)]
    obtain ⟨fh1, h1, h2⟩ := ih (j + 1) (Function.update fh (j - 1) (fh j)) (by omega) (by omega)
    refine ⟨fh1, ?_, fun x => ?_⟩
    · simp only [shift_left, hst]; exact h1
    · rw [h2 x]
      by_cases hx : x = j - 1
      · subst hx
        have e : j - 1 + 1 = j := by omega
        simp only [Function.update_same, e]
        rw [if_neg (by omega), if_pos (by omega)]
      · by_cases hx1 : j + 1 ≤ x + 1 ∧ x + 1 < j + 1 + n
        · rw [if_pos hx1, if_pos (by omega), Function.update_noteq (by omega)]
        · rw [if_neg hx1, if_neg (by omega), Function.update_noteq hx]

theorem shift_right_spec (k : Nat) : ∀ (n j : Nat) (fh : Nat → Int), n ≤ j → j < k →
    ∃ fh1, shift_right k n j fh = some fh1 ∧
      ∀ x, fh1 x = if j < x + n ∧ x ≤ j then fh (x - 1) else fh x := by
  intro n
  induction n with
  | zero =>
    intro j fh _ _
    refine ⟨fh, rfl, fun x => ?_⟩
    rw [if_neg (by omega)]
  | succ n ih =>
    intro j fh hj hk
    have hst : store k fh j (fh (j - 1)) = some (Function.update fh j (fh (j - 1))) := by
      unfold store; rw [if_pos hk]
    obtain ⟨fh1, h1, h2⟩ := ih (j - 1) (Function.update fh j (fh (j - 1))) (by omega) (by omega)
    refine ⟨fh1, ?_, fun x => ?_⟩
    · simp only [shift_right, hst]; exact h1
    · rw [h2 x]
      by_cases hx : x = j
      · subst hx
        simp only [Function.update_same]
        rw [if_neg (by omega), if_pos (by omega)]
      · by_cases hx1 : j - 1 < x + n ∧ x ≤ j - 1
        · rw [if_pos hx1, if_pos (by omega), Function.update_noteq (by omega)]
        · rw [if_neg hx1, if_neg (by omega), Function.update_noteq hx]

/-! ## The loops of `insert_in_fake_heap` on the list view -/

theorem slice_unshift {fh fh1 : Nat → Int} {a n : Nat}
    (h : ∀ x, a + 1 ≤ x → x < a + 1 + n → fh1 x = fh (x - 1)) :
    slice fh1 (a + 1) n = slice fh a n := by
  symm
  apply slice_shift
  intro x h1 h2
  rw [h (x + 1) (by omega) (by omega)]
  simp

theorem ins_at_append (acc : Int → Int) (d s : Int) (pre l : List Int)
    (h : ∀ x ∈ pre, ¬ s ≥ acc x) : ins_at acc d s (pre ++ l) = pre ++ ins_at acc d s l := by
  induction pre with
  | nil => rfl
  | cons y ys ih =>
    have hy : ¬ s ≥ acc y := h y (List.mem_cons_self _ _)
    rw [List.cons_append, ins_at, if_neg hy, ih (fun x hx => h x (List.mem_cons_of_mem _ hx)),
      List.cons_append]

theorem ins_at_all_lt (acc : Int → Int) (d s : Int) (l : List Int)
    (h : ∀ x ∈ l, ¬ s ≥ acc x) : ins_at acc d s l = l ++ [d] := by
  have := ins_at_append acc d s l [] h
  simpa [ins_at] using this

theorem remove_docid_spec (k : Nat) (d : Int) (g : globals) (hk : g.items_in_fake_heap ≤ k) :
    ∀ (n i : Nat), i + n = g.items_in_fake_heap → (∀ x, x < i → g.fake_heap x ≠ d) →
    ∃ g1, remove_docid k d g n i = some g1 ∧ g1.accumulators = g.accumulators ∧
      topk g1 = (topk g).erase d := by
  intro n
  induction n with
  | zero =>
    intro i hi hne
    refine ⟨g, rfl, rfl, ?_⟩
    rw [List.erase_of_not_mem]
    rw [topk_eq_slice, mem_slice]
    rintro ⟨x, _, hx, hxd⟩
    exact hne x (by omega) hxd
  | succ n ih =>
    intro i hi hne
    by_cases hd : g.fake_heap i = d
    · obtain ⟨fh1, h1, h2⟩ := shift_left_spec k (g.items_in_fake_heap - (i + 1)) (i + 1)
        g.fake_heap (by omega) (by omega)
      refine ⟨{ g with fake_heap := fh1, items_in_fake_heap := g.items_in_fake_heap - 1 },
        ?_, rfl, ?_⟩
      · simp only [remove_docid, if_pos hd, h1]
      · rw [topk_eq_slice, topk_eq_slice]
        have e1 : g.items_in_fake_heap - 1 = i + n := by omega
        have e2 : g.items_in_fake_heap = i + (n + 1) := by omega
        simp only [e1]
        rw [e2, slice_append, slice_append _ 0 i (n + 1), slice_succ, Nat.zero_add,
          List.erase_append_right, hd, List.erase_cons_head]
        · congr 1
          · apply slice_congr
            intro x _ hx
            rw [h2 x, if_neg (by omega)]
          · apply slice_shift
            intro x hx1 hx2
            rw [h2 x, if_pos (by omega)]
        · rw [mem_slice]
          rintro ⟨x, _, hx, hxd⟩
          exact hne x (by omega) hxd
    · obtain ⟨g1, h1, h2, h3⟩ := ih (i + 1) (by omega) (fun x hx => by
        by_cases hxi : x = i
        · subst hxi; exact hd
        · exact hne x (by omega))
      exact ⟨g1, by simp only [remove_docid, if_neg hd]; exact h1, h2, h3⟩

theorem insert_part_spec (k : Nat) (d s : Int) (g : globals) (hk : g.items_in_fake_heap < k) :
    ∀ (n i : Nat), i + n = g.items_in_fake_heap →
    (∀ x, x < i → ¬ s ≥ g.accumulators (g.fake_heap x)) →
    ∃ g1, insert_part k d s g n i = some g1 ∧ g1.accumulators = g.accumulators ∧
      topk g1 = ins_at g.accumulators d s (topk g) := by
  intro n
  induction n with
  | zero =>
    intro i hi hlt
    have hst : store k g.fake_heap g.items_in_fake_heap d
        = some (Function.update g.fake_heap g.items_in_fake_heap d) := by
      unfold store; rw [if_pos hk]
    refine ⟨{ g with fake_heap := Function.update g.fake_heap g.items_in_fake_heap d,
                     items_in_fake_heap := g.items_in_fake_heap + 1 },
      by simp only [insert_part, hst], rfl, ?_⟩
    rw [topk_eq_slice, topk_eq_slice]
    simp only
    rw [slice_concat, Nat.zero_add, Function.update_same, ins_at_all_lt]
    · congr 1
      apply slice_congr
      intro x _ hx
      rw [Function.update_noteq (by omega)]
    · intro x hx
      rw [mem_slice] at hx
      obtain ⟨y, _, hy, rfl⟩ := hx
      exact hlt y (by omega)
  | succ n ih =>
    intro i hi hlt
    by_cases hs : s ≥ g.accumulators (g.fake_heap i)
    · have hlow : (if g.items_in_fake_heap ≥ k then k - 1 else g.items_in_fake_heap)
          = g.items_in_fake_heap := by rw [if_neg (by omega)]
      obtain ⟨fh1, h1, h2⟩ := shift_right_spec k (g.items_in_fake_heap - i)
        g.items_in_fake_heap g.fake_heap (by omega) hk
      have hst : store k fh1 i d = some (Function.update fh1 i d) := by
        unfold store; rw [if_pos (by omega)]
      refine ⟨{ g with fake_heap := Function.update fh1 i d,
                       items_in_fake_heap := g.items_in_fake_heap + 1 },
        by simp only [insert_part, if_pos hs, hlow, h1, hst], rfl, ?_⟩
      rw [topk_eq_slice, topk_eq_slice]
      simp only
      have e2 : g.items_in_fake_heap = i + (n + 1) := by omega
      have e3 : g.items_in_fake_heap + 1 = i + ((n + 1) + 1) := by omega
      rw [e3, slice_append, slice_succ _ _ (n + 1), Nat.zero_add, Function.update_same]
      rw [e2, slice_append _ 0 i (n + 1), Nat.zero_add, ins_at_append, slice_succ _ i n]
      · simp only [ins_at, if_pos hs]
        congr 1
        · apply slice_congr
          intro x _ hx
          rw [Function.update_noteq (by omega), h2 x, if_neg (by omega)]
        · congr 1
          rw [← slice_succ]
          apply slice_unshift
          intro x hx1 hx2
          rw [Function.update_noteq (by omega), h2 x, if_pos (by omega)]
      · intro x hx
        rw [mem_slice] at hx
        obtain ⟨y, _, hy, rfl⟩ := hx
        exact hlt y (by omega)
    · obtain ⟨g1, h1, h2, h3⟩ := ih (i + 1) (by omega) (fun x hx => by
        by_cases hxi : x = i
        · subst hxi; exact hs
        · exact hlt x (by omega))
      exact ⟨g1, by simp only [insert_part, if_neg hs]; exact h1, h2, h3⟩

theorem insert_full_spec (k : Nat) (d s : Int) (g : globals) (hk : g.items_in_fake_heap = k) :
    ∀ (n i : Nat), i + n = k →
    (∀ x, x < i → ¬ s ≥ g.accumulators (g.fake_heap x)) →
    ∃ g1, insert_full k d s g n i = some g1 ∧ g1.accumulators = g.accumulators ∧
      topk g1 = (ins_at g.accumulators d s (topk g)).dropLast := by
  intro n
  induction n with
  | zero =>
    intro i hi hlt
    refine ⟨g, rfl, rfl, ?_⟩
    rw [ins_at_all_lt, List.dropLast_concat]
    intro x hx
    rw [topk_eq_slice, mem_slice] at hx
    obtain ⟨y, _, hy, rfl⟩ := hx
    exact hlt y (by omega)
  | succ n ih =>
    intro i hi hlt
    by_cases hs : s ≥ g.accumulators (g.fake_heap i)
    · obtain ⟨fh1, h1, h2⟩ := shift_right_spec k ((k - 1) - i) (k - 1) g.fake_heap
        (by omega) (by omega)
      have hst : store k fh1 i d = some (Function.update fh1 i d) := by
        unfold store; rw [if_pos (by omega)]
      refine ⟨{ g with fake_heap := Function.update fh1 i d },
        by simp only [insert_full, if_pos hs, h1, hst], rfl, ?_⟩
      rw [topk_eq_slice, topk_eq_slice]
      simp only
      have e2 : g.items_in_fake_heap = i + (n + 1) := by omega
      rw [e2, slice_append, slice_succ _ _ n, Nat.zero_add, Function.update_same,
        slice_append _ 0 i (n + 1), Nat.zero_add, ins_at_append, slice_concat _ i n]
      · have hne : slice g.fake_heap i n ++ [g.fake_heap (i + n)] ≠ [] := by simp
        obtain ⟨y, ys, hys⟩ := List.exists_cons_of_ne_nil hne
        have hy : y = g.fake_heap i := by
          have := congrArg (fun l => l.headD 0) hys
          cases n with
          | zero => simpa [slice_zero] using this.symm
          | succ m => simpa [slice_succ] using this.symm
        rw [hys]
        simp only [ins_at]
        rw [if_pos (by rw [hy]; exact hs), ← hys, List.dropLast_append_cons]
        congr 1
        · apply slice_congr
          intro x _ hx
          rw [Function.update_noteq (by omega), h2 x, if_neg (by omega)]
        · have : d :: (slice g.fake_heap i n ++ [g.fake_heap (i + n)])
              = (d :: slice g.fake_heap i n) ++ [g.fake_heap (i + n)] := rfl
          rw [this, List.dropLast_concat]
          congr 1
          apply slice_unshift
          intro x hx1 hx2
          rw [Function.update_noteq (by omega), h2 x, if_pos (by omega)]
      · intro x hx
        rw [mem_slice] at hx
        obtain ⟨y, _, hy, rfl⟩ := hx
        exact hlt y (by omega)
    · obtain ⟨g1, h1, h2, h3⟩ := ih (i + 1) (by omega) (fun x hx => by
        by_cases hxi : x = i
        · subst hxi; exact hs
        · exact hlt x (by omega))
      exact ⟨g1, by simp only [insert_full, if_neg hs]; exact h1, h2, h3⟩

/-! ## `insert_in_fake_heap` on the list view -/

theorem length_topk (g : globals) : (topk g).length = g.items_in_fake_heap := by
  simp [topk]

theorem insert_in_fake_heap_spec (k : Nat) (g : globals) (d s : Int)
    (hk : g.items_in_fake_heap ≤ k) (hk1 : 1 ≤ k) :
    ∃ g1, insert_in_fake_heap k g d s = some g1 ∧ g1.accumulators = g.accumulators ∧
      topk g1 = ins_abs k g.accumulators (topk g) d s := by
  obtain ⟨g0, h0, hacc, htop⟩ := remove_docid_spec k d g hk g.items_in_fake_heap 0 (by omega)
    (fun x hx => by omega)
  have hlen : g0.items_in_fake_heap = ((topk g).erase d).length := by
    rw [← htop, length_topk]
  have hle : g0.items_in_fake_heap ≤ k := by
    rw [hlen]
    have := List.length_erase_le d (topk g)
    rw [length_topk] at this
    omega
  unfold insert_in_fake_heap ins_abs
  rw [h0, ← htop, ← hacc]
  simp only [length_topk]
  by_cases hz : g0.items_in_fake_heap = 0
  · have hst : store k g0.fake_heap g0.items_in_fake_heap d
        = some (Function.update g0.fake_heap g0.items_in_fake_heap d) := by
      unfold store; rw [if_pos (by omega)]
    rw [if_pos hz, if_pos hz, hst]
    refine ⟨_, rfl, rfl, ?_⟩
    rw [topk_eq_slice]
    simp [hz, slice_succ, slice_zero]
  · rw [if_neg hz, if_neg hz]
    by_cases hf : g0.items_in_fake_heap = k
    · rw [if_pos hf, if_pos hf]
      have hlast : (topk g0).getLastD 0 = g0.fake_heap (k - 1) := by
        rw [topk_eq_slice, hf]
        obtain ⟨m, rfl⟩ : ∃ m, k = m + 1 := ⟨k - 1, by omega⟩
        rw [slice_concat, List.getLastD_concat]
        simp
      rw [hlast]
      by_cases hs : s ≤ g0.accumulators (g0.fake_heap (k - 1))
      · rw [if_pos hs, if_pos hs]
        exact ⟨g0, rfl, rfl, rfl⟩
      · rw [if_neg hs, if_neg hs]
        exact insert_full_spec k d s g0 hf g0.items_in_fake_heap 0 (by omega)
          (fun x hx => by omega)
    · rw [if_neg hf, if_neg hf]
      exact insert_part_spec k d s g0 (by omega) g0.items_in_fake_heap 0 (by omega)
        (fun x hx => by omega)

/-! ## Facts about the list view -/

theorem length_ins_at (acc : Int → Int) (d s : Int) (l : List Int) :
    (ins_at acc d s l).length = l.length + 1 := by
  induction l with
  | nil => rfl
  | cons x xs ih =>
    by_cases h : s ≥ acc x
    · simp [ins_at, if_pos h]
    · simp [ins_at, if_neg h, ih]

theorem perm_ins_at (acc : Int → Int) (d s : Int) (l : List Int) :
    (ins_at acc d s l).Perm (d :: l) := by
  induction l with
  | nil => exact List.Perm.refl _
  | cons x xs ih =>
    by_cases h : s ≥ acc x
    · simp [ins_at, if_pos h]
    · simp only [ins_at, if_neg h]
      exact (List.Perm.cons x ih).trans (List.Perm.swap d x xs)

theorem mem_ins_at {acc : Int → Int} {d s : Int} {l : List Int} {x : Int} :
    x ∈ ins_at acc d s l ↔ x = d ∨ x ∈ l := by
  rw [(perm_ins_at acc d s l).mem_iff, List.mem_cons]

theorem ins_at_ne_nil (acc : Int → Int) (d s : Int) (l : List Int) : ins_at acc d s l ≠ [] := by
  intro h
  have := length_ins_at acc d s l
  rw [h] at this
  simp at this


theorem desc_ins_at (acc : Int → Int) (d : Int) (l : List Int) (h : desc acc l) :
    desc acc (ins_at acc d (acc d) l) := by
  induction l with
  | nil => simp [ins_at, desc]
  | cons x xs ih =>
    unfold desc at h ih ⊢
    rw [List.pairwise_cons] at h
    by_cases hs : acc d ≥ acc x
    · simp only [ins_at, if_pos hs]
      rw [List.pairwise_cons]
      refine ⟨?_, List.pairwise_cons.mpr h⟩
      intro y hy
      rcases List.mem_cons.mp hy with rfl | hy
      · exact hs
      · exact le_trans (h.1 y hy) hs
    · simp only [ins_at, if_neg hs]
      rw [List.pairwise_cons]
      refine ⟨?_, ih h.2⟩
      intro y hy
      rcases mem_ins_at.mp hy with rfl | hy
      · exact le_of_lt (not_le.mp hs)
      · exact h.1 y hy

theorem ins_at_concat (acc : Int → Int) (d s z : Int) (l0 : List Int) (h : s ≥ acc z) :
    ins_at acc d s (l0 ++ [z]) = ins_at acc d s l0 ++ [z] := by
  induction l0 with
  | nil => simp [ins_at, if_pos h]
  | cons x xs ih =>
    by_cases hx : s ≥ acc x
    · simp [ins_at, if_pos hx]
    · simp [ins_at, if_neg hx, ih]

/-- The four ways `insert_in_fake_heap` acts on a list of at most `k` docids. -/
theorem ins_abs_cases (k : Nat) (acc : Int → Int) (l : List Int) (d s : Int)
    (hk : l.length ≤ k) (hk1 : 1 ≤ k) :
    (d ∈ l ∧ ins_abs k acc l d s = ins_at acc d s (l.erase d)) ∨
    (d ∉ l ∧ l.length < k ∧ ins_abs k acc l d s = ins_at acc d s l) ∨
    (d ∉ l ∧ l.length = k ∧ s ≤ acc (l.getLastD 0) ∧ ins_abs k acc l d s = l) ∨
    (d ∉ l ∧ l.length = k ∧ ¬ s ≤ acc (l.getLastD 0) ∧
      ∃ l0 z, l = l0 ++ [z] ∧ ins_abs k acc l d s = ins_at acc d s l0) := by
  by_cases hd : d ∈ l
  · left
    refine ⟨hd, ?_⟩
    have hlen := List.length_erase_of_mem hd
    unfold ins_abs
    by_cases hz : (l.erase d).length = 0
    · rw [if_pos hz, List.length_eq_zero.mp hz]; rfl
    · rw [if_neg hz, if_neg (by have := List.length_pos_of_mem hd; omega)]
  · right
    have he : l.erase d = l := List.erase_of_not_mem hd
    unfold ins_abs
    rw [he]
    by_cases hz : l.length = 0
    · left
      refine ⟨hd, by omega, ?_⟩
      rw [if_pos hz, List.length_eq_zero.mp hz]; rfl
    · rw [if_neg hz]
      by_cases hf : l.length = k
      · right
        rw [if_pos hf]
        by_cases hs : s ≤ acc (l.getLastD 0)
        · left
          exact ⟨hd, hf, hs, by rw [if_pos hs]⟩
        · right
          refine ⟨hd, hf, hs, ?_⟩
          rw [if_neg hs]
          have hne : l ≠ [] := fun h => hz (by rw [h]; rfl)
          refine ⟨l.dropLast, l.getLast hne, (List.dropLast_append_getLast hne).symm, ?_⟩
          have hl : l.getLastD 0 = l.getLast hne := by
            conv_lhs => rw [← List.dropLast_append_getLast hne]
            rw [List.getLastD_concat]
          rw [hl] at hs
          conv_lhs => rw [← List.dropLast_append_getLast hne]
          rw [ins_at_concat _ _ _ _ _ (le_of_lt (not_le.mp hs)), List.dropLast_concat]
      · left
        exact ⟨hd, by omega, by rw [if_neg hf]⟩

theorem length_ins_abs (k : Nat) (acc : Int → Int) (l : List Int) (d s : Int)
    (hk : l.length ≤ k) (hk1 : 1 ≤ k) :
    (ins_abs k acc l d s).length = if d ∈ l then l.length else min k (l.length + 1) := by
  rcases ins_abs_cases k acc l d s hk hk1 with ⟨hd, h⟩ | ⟨hd, hl, h⟩ | ⟨hd, hl, _, h⟩ |
    ⟨hd, hl, _, l0, z, hz, h⟩
  · rw [h, if_pos hd, length_ins_at, List.length_erase_of_mem hd]
    have := List.length_pos_of_mem hd
    omega
  · rw [h, if_neg hd, length_ins_at]; omega
  · rw [h, if_neg hd]; omega
  · rw [h, if_neg hd, length_ins_at]
    have : l.length = l0.length + 1 := by rw [hz]; simp
    omega

theorem mem_ins_abs (k : Nat) (acc : Int → Int) (l : List Int) (d s : Int)
    (hk : l.length ≤ k) (hk1 : 1 ≤ k) (x : Int) (hx : x ∈ ins_abs k acc l d s) :
    x = d ∨ x ∈ l := by
  rcases ins_abs_cases k acc l d s hk hk1 with ⟨hd, h⟩ | ⟨hd, hl, h⟩ | ⟨hd, hl, _, h⟩ |
    ⟨hd, hl, _, l0, z, hz, h⟩
  · rw [h] at hx
    rcases mem_ins_at.mp hx with h1 | h1
    · exact Or.inl h1
    · exact Or.inr (List.mem_of_mem_erase h1)
  · rw [h] at hx; exact mem_ins_at.mp hx
  · rw [h] at hx; exact Or.inr hx
  · rw [h] at hx
    rcases mem_ins_at.mp hx with h1 | h1
    · exact Or.inl h1
    · exact Or.inr (by rw [hz]; exact List.mem_append_left _ h1)

theorem nodup_ins_at (acc : Int → Int) (d s : Int) (l : List Int) (hl : l.Nodup) (hd : d ∉ l) :
    (ins_at acc d s l).Nodup :=
  (perm_ins_at acc d s l).nodup_iff.mpr (List.nodup_cons.mpr ⟨hd, hl⟩)

theorem nodup_ins_abs (k : Nat) (acc : Int → Int) (l : List Int) (d s : Int)
    (hk : l.length ≤ k) (hk1 : 1 ≤ k) (hn : l.Nodup) : (ins_abs k acc l d s).Nodup := by
  rcases ins_abs_cases k acc l d s hk hk1 with ⟨hd, h⟩ | ⟨hd, hl, h⟩ | ⟨hd, hl, _, h⟩ |
    ⟨hd, hl, _, l0, z, hz, h⟩
  · rw [h]
    exact nodup_ins_at _ _ _ _ (hn.erase d) (fun hm => (hn.mem_erase_iff.mp hm).1 rfl)
  · rw [h]; exact nodup_ins_at _ _ _ _ hn hd
  · rw [h]; exact hn
  · rw [h]
    have hs : l0.Sublist l := by rw [hz]; exact List.sublist_append_left _ _
    exact nodup_ins_at _ _ _ _ (hn.sublist hs) (fun hm => hd (hs.subset hm))

theorem desc_congr {acc acc1 : Int → Int} {l : List Int} (h : ∀ x ∈ l, acc1 x = acc x)
    (hd : desc acc l) : desc acc1 l := by
  unfold desc at hd ⊢
  refine List.Pairwise.imp_of_mem ?_ hd
  intro a b ha hb hab
  rw [h a ha, h b hb]; exact hab

theorem desc_sublist {acc : Int → Int} {l l1 : List Int} (h : l1.Sublist l) (hd : desc acc l) :
    desc acc l1 := List.Pairwise.sublist h hd

theorem desc_last_le {acc : Int → Int} {l0 : List Int} {z : Int} (hd : desc acc (l0 ++ [z])) :
    ∀ y ∈ l0 ++ [z], acc z ≤ acc y := by
  intro y hy
  unfold desc at hd
  rw [List.pairwise_append] at hd
  rcases List.mem_append.mp hy with h | h
  · exact hd.2.2 y h z (List.mem_singleton_self z)
  · rw [List.mem_singleton.mp h]

theorem desc_ins_abs (k : Nat) (acc : Int → Int) (l : List Int) (d v : Int)
    (hk : l.length ≤ k) (hk1 : 1 ≤ k) (hn : l.Nodup) (hd : desc acc l) :
    desc (Function.update acc d v)
      (ins_abs k (Function.update acc d v) l d v) := by
  have hself : (Function.update acc d v) d = v := Function.update_same _ _ _
  have hoth : ∀ x, x ≠ d → (Function.update acc d v) x = acc x :=
    fun x hx => Function.update_noteq hx _ _
  rcases ins_abs_cases k (Function.update acc d v) l d v hk hk1 with
    ⟨hdl, h⟩ | ⟨hdl, hl, h⟩ | ⟨hdl, hl, _, h⟩ | ⟨hdl, hl, _, l0, z, hz, h⟩
  · rw [h]
    have h1 : desc (Function.update acc d v) (l.erase d) :=
      desc_congr (fun x hx => hoth x (hn.mem_erase_iff.mp hx).1)
        (desc_sublist (List.erase_sublist d l) hd)
    have := desc_ins_at _ d _ h1
    rwa [hself] at this
  · rw [h]
    have h1 : desc (Function.update acc d v) l :=
      desc_congr (fun x hx => hoth x (fun e => hdl (e ▸ hx))) hd
    have := desc_ins_at _ d _ h1
    rwa [hself] at this
  · rw [h]
    exact desc_congr (fun x hx => hoth x (fun e => hdl (e ▸ hx))) hd
  · rw [h]
    have hs : l0.Sublist l := by rw [hz]; exact List.sublist_append_left _ _
    have h1 : desc (Function.update acc d v) l0 :=
      desc_congr (fun x hx => hoth x (fun e => hdl (e ▸ hs.subset hx))) (desc_sublist hs hd)
    have := desc_ins_at _ d _ h1
    rwa [hself] at this

theorem complete_ins_abs (k : Nat) (acc : Int → Int) (l T : List Int) (d v : Int)
    (hk : l.length ≤ k) (hk1 : 1 ≤ k) (hv : acc d ≤ v) (hn : l.Nodup) (hd : desc acc l)
    (hc : ∀ x ∈ T, x ∈ l ∨ (l.length = k ∧ ∀ y ∈ l, acc x ≤ acc y)) :
    ∀ x, (x = d ∨ x ∈ T) →
      x ∈ ins_abs k (Function.update acc d v) l d v ∨
      ((ins_abs k (Function.update acc d v) l d v).length = k ∧
        ∀ y ∈ ins_abs k (Function.update acc d v) l d v,
          (Function.update acc d v) x ≤ (Function.update acc d v) y) := by
  have hself : (Function.update acc d v) d = v := Function.update_same _ _ _
  have hoth : ∀ x, x ≠ d → (Function.update acc d v) x = acc x :=
    fun x hx => Function.update_noteq hx _ _
  have hlen := length_ins_abs k (Function.update acc d v) l d v hk hk1
  intro x hx
  by_cases hxd : x = d
  · -- the docid just inserted
    subst hxd
    rcases ins_abs_cases k (Function.update acc x v) l x v hk hk1 with
      ⟨hdl, h⟩ | ⟨hdl, hl, h⟩ | ⟨hdl, hl, hle, h⟩ | ⟨hdl, hl, _, l0, z, hz, h⟩
    · left; rw [h]; exact mem_ins_at.mpr (Or.inl rfl)
    · left; rw [h]; exact mem_ins_at.mpr (Or.inl rfl)
    · right
      rw [h]
      refine ⟨hl, fun y hy => ?_⟩
      have hne : l ≠ [] := fun e => by rw [e] at hl; simp at hl; omega
      have hdec := List.dropLast_append_getLast hne
      have hlast : l.getLastD 0 = l.getLast hne := by
        conv_lhs => rw [← hdec]
        rw [List.getLastD_concat]
      rw [hlast] at hle
      have hd1 : desc (Function.update acc x v) (l.dropLast ++ [l.getLast hne]) := by
        rw [hdec]
        exact desc_congr (fun w hw => hoth w (fun e => hdl (e ▸ hw))) hd
      rw [hself]
      exact le_trans hle (desc_last_le hd1 y (by rw [hdec]; exact hy))
    · left; rw [h]; exact mem_ins_at.mpr (Or.inl rfl)
  · have hxT : x ∈ T := hx.resolve_left hxd
    rcases ins_abs_cases k (Function.update acc d v) l d v hk hk1 with
      ⟨hdl, h⟩ | ⟨hdl, hl, h⟩ | ⟨hdl, hl, hle, h⟩ | ⟨hdl, hl, hle, l0, z, hz, h⟩
    · rcases hc x hxT with hxl | ⟨hfull, hmin⟩
      · left; rw [h]
        exact mem_ins_at.mpr (Or.inr ((List.mem_erase_of_ne hxd).mpr hxl))
      · right
        rw [hlen, if_pos hdl]
        refine ⟨hfull, fun y hy => ?_⟩
        rw [h] at hy
        rw [hoth x hxd]
        rcases mem_ins_at.mp hy with rfl | hy
        · rw [hself]; have := hmin y hdl; omega
        · rw [hoth y (hn.mem_erase_iff.mp hy).1]
          exact hmin y (List.mem_of_mem_erase hy)
    · rcases hc x hxT with hxl | ⟨hfull, _⟩
      · left; rw [h]; exact mem_ins_at.mpr (Or.inr hxl)
      · omega
    · rw [h]
      rcases hc x hxT with hxl | ⟨hfull, hmin⟩
      · exact Or.inl hxl
      · right
        refine ⟨hfull, fun y hy => ?_⟩
        rw [hoth x hxd, hoth y (fun e => hdl (e ▸ hy))]
        exact hmin y hy
    · have hzl : z ∈ l := by rw [hz]; simp
      have hzd : z ≠ d := fun e => hdl (e ▸ hzl)
      have hlast : l.getLastD 0 = z := by rw [hz, List.getLastD_concat]
      rw [hlast, hoth z hzd] at hle
      have hmin_z : ∀ y ∈ l, acc z ≤ acc y := by
        intro y hy
        rw [hz] at hd hy
        exact desc_last_le hd y hy
      have key : ∀ w, w ≠ d → (∀ y ∈ l, acc w ≤ acc y) →
          ∀ y ∈ ins_at (Function.update acc d v) d v l0,
            (Function.update acc d v) w ≤ (Function.update acc d v) y := by
        intro w hw hmin y hy
        rw [hoth w hw]
        rcases mem_ins_at.mp hy with rfl | hy
        · rw [hself]; have := hmin z hzl; omega
        · have hyl : y ∈ l := by rw [hz]; exact List.mem_append_left _ hy
          rw [hoth y (fun e => hdl (e ▸ hyl))]
          exact hmin y hyl
      have hlen1 : (ins_abs k (Function.update acc d v) l d v).length = k := by
        rw [hlen, if_neg hdl]; omega
      rcases hc x hxT with hxl | ⟨_, hmin⟩
      · rw [hz] at hxl
        rcases List.mem_append.mp hxl with hx0 | hxz
        · left; rw [h]; exact mem_ins_at.mpr (Or.inr hx0)
        · right
          rw [List.mem_singleton] at hxz
          refine ⟨hlen1, ?_⟩
          rw [h, hxz]
          exact key z hzd hmin_z
      · right
        refine ⟨hlen1, ?_⟩
        rw [h]
        exact key x hxd hmin

theorem listed_ins_abs (k : Nat) (acc : Int → Int) (l T : List Int) (d v : Int)
    (hk : l.length ≤ k) (hk1 : 1 ≤ k)
    (hc : ∀ x ∈ T, x ∈ l ∨ l.length = k) :
    ∀ x, (x = d ∨ x ∈ T) →
      x ∈ ins_abs k acc l d v ∨ (ins_abs k acc l d v).length = k := by
  have hlen := length_ins_abs k acc l d v hk hk1
  intro x hx
  by_cases hxd : x = d
  · subst hxd
    rcases ins_abs_cases k acc l x v hk hk1 with
      ⟨hdl, h⟩ | ⟨hdl, hl, h⟩ | ⟨hdl, hl, hle, h⟩ | ⟨hdl, hl, _, l0, z, hz, h⟩
    · left; rw [h]; exact mem_ins_at.mpr (Or.inl rfl)
    · left; rw [h]; exact mem_ins_at.mpr (Or.inl rfl)
    · right; rw [h]; exact hl
    · left; rw [h]; exact mem_ins_at.mpr (Or.inl rfl)
  · have hxT : x ∈ T := hx.resolve_left hxd
    rcases ins_abs_cases k acc l d v hk hk1 with
      ⟨hdl, h⟩ | ⟨hdl, hl, h⟩ | ⟨hdl, hl, hle, h⟩ | ⟨hdl, hl, hle, l0, z, hz, h⟩
    · rcases hc x hxT with hxl | hfull
      · left; rw [h]
        exact mem_ins_at.mpr (Or.inr ((List.mem_erase_of_ne hxd).mpr hxl))
      · right
        rw [hlen, if_pos hdl]
        exact hfull
    · rcases hc x hxT with hxl | hfull
      · left; rw [h]; exact mem_ins_at.mpr (Or.inr hxl)
      · omega
    · rw [h]
      exact hc x hxT
    · right
      rw [hlen, if_neg hdl]; omega

/-! ## Sums kept on 32 bits -/

theorem log_score_cons (p : Int × Int) (ps : List (Int × Int)) (d : Int) :
    log_score (p :: ps) d = (if p.1 = d then p.2 else 0) + log_score ps d := by
  unfold log_score
  by_cases h : p.1 = d <;> simp [List.filter, h]

theorem log_score_nonneg (log : List (Int × Int)) (d : Int) (hp : ∀ p ∈ log, 0 ≤ p.2) :
    0 ≤ log_score log d := by
  induction log with
  | nil => simp [log_score]
  | cons p ps ih =>
    have h1 := ih (fun q hq => hp q (List.mem_cons_of_mem _ hq))
    have h2 := hp p (List.mem_cons_self _ _)
    rw [log_score_cons]
    split <;> omega

theorem wrap_int_of_range (v : Int) (h0 : -2 ^ 31 ≤ v) (h1 : v < 2 ^ 31) : wrap_int v = v := by
  unfold wrap_int
  split <;> omega

theorem wrap_int_range (v : Int) : -2 ^ 31 ≤ wrap_int v ∧ wrap_int v < 2 ^ 31 := by
  unfold wrap_int
  split <;> omega

theorem wrap_int_add (a b : Int) : wrap_int (wrap_int a + b) = wrap_int (a + b) := by
  unfold wrap_int
  split <;> split <;> split <;> omega

theorem to_int_range (x : Nat) : -2 ^ 31 ≤ to_int x ∧ to_int x < 2 ^ 31 := by
  unfold to_int
  split <;> omega

/-- The postings count of a term that the reader decodes is an `int`. -/
theorem term_encodes_bound (L : definitions_h) (vocab ifm : Nat → Nat) (t : Int) (rs : List run)
    (h : term_encodes L vocab ifm t rs) : total_postings rs < 2 ^ 31 := by
  obtain ⟨_, _, h3, _⟩ := h
  rw [← h3]
  exact (to_int_range _).2

/-- The score of a docid in a log of postings with non-negative scores is at most the sum
of all scores of the log. -/
theorem log_score_le_total (log : List (Int × Int)) (hp : ∀ p ∈ log, 0 ≤ p.2) (d : Int) :
    log_score log d ≤ (log.map Prod.snd).sum := by
  induction log with
  | nil => simp [log_score]
  | cons p ps ih =>
    have h1 := ih (fun q hq => hp q (List.mem_cons_of_mem _ hq))
    have h2 := hp p (List.mem_cons_self _ _)
    rw [log_score_cons, List.map_cons, List.sum_cons]
    split <;> omega

/-- An accumulator is the exact sum of the postings of its docid as long as that sum is
in the range of an `int`. -/
theorem accumulator_exact (P : params_t) (e : evaluation) (hi : heap_inv P e) (d : Int)
    (h : log_score e.posting_log d < 2 ^ 31) :
    e.g.accumulators d = log_score e.posting_log d := by
  rw [hi.acc_sum]
  exact wrap_int_of_range _
    (by have := log_score_nonneg e.posting_log d hi.nonneg; omega) h

/-! ## The invariant of the globals -/

theorem log_score_append (log : List (Int × Int)) (d s x : Int) :
    log_score (log ++ [(d, s)]) x = log_score log x + if d = x then s else 0 := by
  unfold log_score
  rw [List.filter_append, List.map_append, List.sum_append]
  by_cases h : d = x <;> simp [List.filter, h]

theorem apply_posting_spec (P : params_t) (e e1 : evaluation) (d s : Int)
    (hk : e.g.items_in_fake_heap ≤ P.k) (hk1 : 1 ≤ P.k)
    (h : apply_posting P e d s = some e1) :
    0 ≤ d ∧ d < P.numDocs ∧
    e1.g.accumulators = Function.update e.g.accumulators d (wrap_int (e.g.accumulators d + s)) ∧
    topk e1.g = ins_abs P.k (Function.update e.g.accumulators d (wrap_int (e.g.accumulators d + s)))
      (topk e.g) d (wrap_int (e.g.accumulators d + s)) ∧
    e1.posting_log = e.posting_log ++ [(d, s)] ∧
    e1.heap_log = e.heap_log ++ [ranking e1.g] := by
  unfold apply_posting at h
  by_cases hr : 0 ≤ d ∧ d < P.numDocs
  · rw [if_pos hr] at h
    obtain ⟨g1, h1, h2, h3⟩ := insert_in_fake_heap_spec P.k
      { e.g with accumulators := Function.update e.g.accumulators d (wrap_int (e.g.accumulators d + s)) }
      d (wrap_int (e.g.accumulators d + s)) hk hk1
    simp only [h1, Option.some.injEq] at h
    subst h
    exact ⟨hr.1, hr.2, h2, h3, rfl, rfl⟩
  · rw [if_neg hr] at h
    cases h

theorem apply_posting_defined (P : params_t) (e : evaluation) (d s : Int)
    (hk : e.g.items_in_fake_heap ≤ P.k) (hk1 : 1 ≤ P.k) (hd : 0 ≤ d ∧ d < P.numDocs) :
    ∃ e1, apply_posting P e d s = some e1 := by
  unfold apply_posting
  rw [if_pos hd]
  obtain ⟨g1, h1, _, _⟩ := insert_in_fake_heap_spec P.k
    { e.g with accumulators := Function.update e.g.accumulators d (wrap_int (e.g.accumulators d + s)) }
    d (wrap_int (e.g.accumulators d + s)) hk hk1
  simp only [h1]
  exact ⟨_, rfl⟩

theorem heap_inv_init (P : params_t) :
    heap_inv P { g := globals_cleared, posting_log := [], heap_log := [] } := by
  constructor <;> simp [globals_cleared, topk, touched_docids, desc, log_score, wrap_int]

theorem heap_inv_step (P : params_t) (e e1 : evaluation) (d s : Int) (hk1 : 1 ≤ P.k)
    (hs : 0 ≤ s) (hi : heap_inv P e) (h : apply_posting P e d s = some e1) :
    heap_inv P e1 := by
  obtain ⟨hd0, hd1, hacc, htop, hlog, hhl⟩ := apply_posting_spec P e e1 d s hi.size hk1 h
  have hlenk : (topk e.g).length ≤ P.k := by rw [length_topk]; exact hi.size
  have hT : touched_docids e1 = touched_docids e ++ [d] := by
    simp [touched_docids, hlog]
  have hsize : e1.g.items_in_fake_heap ≤ P.k := by
    rw [← length_topk, htop, length_ins_abs _ _ _ _ _ hlenk hk1]
    split <;> omega
  have hnodup : (topk e1.g).Nodup := by
    rw [htop]; exact nodup_ins_abs _ _ _ _ _ hlenk hk1 hi.nodup
  have hsorted : desc e1.g.accumulators (topk e1.g) := by
    rw [htop, hacc]; exact desc_ins_abs _ _ _ _ _ hlenk hk1 hi.nodup hi.sorted
  have hlisted := listed_ins_abs P.k
    (Function.update e.g.accumulators d (wrap_int (e.g.accumulators d + s)))
    (topk e.g) (touched_docids e) d (wrap_int (e.g.accumulators d + s)) hlenk hk1
    (fun x hx => by
      rcases hi.listed x hx with h1 | h1
      · exact Or.inl h1
      · exact Or.inr (by rw [length_topk]; exact h1))
  constructor
  · exact hsize
  · exact hnodup
  · exact hsorted
  · intro x hx
    rw [htop] at hx
    rw [hT, List.mem_append, List.mem_singleton]
    rcases mem_ins_abs _ _ _ _ _ hlenk hk1 x hx with h1 | h1
    · exact Or.inr h1
    · exact Or.inl (hi.sub x h1)
  · intro x hx
    rw [hT, List.mem_append, List.mem_singleton] at hx
    rw [htop, ← length_topk, htop]
    exact hlisted x (hx.symm)
  · intro hno x hx
    have hold : ∀ y, log_score e.posting_log y < 2 ^ 31 := by
      intro y
      have h1 := hno y
      rw [hlog, log_score_append] at h1
      split at h1 <;> omega
    have hd2 : e.g.accumulators d = log_score e.posting_log d := by
      rw [hi.acc_sum]
      exact wrap_int_of_range _
        (by have := log_score_nonneg e.posting_log d hi.nonneg; omega) (hold d)
    have hv : e.g.accumulators d ≤ wrap_int (e.g.accumulators d + s) := by
      have h1 := hno d
      rw [hlog, log_score_append, if_pos rfl] at h1
      have h2 := log_score_nonneg e.posting_log d hi.nonneg
      rw [wrap_int_of_range _ (by omega) (by omega)]
      omega
    have hcomplete := complete_ins_abs P.k e.g.accumulators (topk e.g) (touched_docids e) d
      (wrap_int (e.g.accumulators d + s)) hlenk hk1 hv hi.nodup hi.sorted (fun x hx => by
        rcases hi.complete hold x hx with h1 | ⟨h1, h2⟩
        · exact Or.inl h1
        · exact Or.inr ⟨by rw [length_topk]; exact h1, h2⟩)
    rw [hT, List.mem_append, List.mem_singleton] at hx
    rw [htop, hacc, ← length_topk, htop]
    exact hcomplete x (hx.symm)
  · rw [← length_topk, htop, length_ins_abs _ _ _ _ _ hlenk hk1, hT]
    have hc := hi.count
    rw [← length_topk] at hc
    have hfin : (touched_docids e ++ [d]).toFinset = insert d (touched_docids e).toFinset := by
      ext x; simp [or_comm]
    rw [hfin]
    by_cases hdl : d ∈ topk e.g
    · rw [if_pos hdl, Finset.insert_eq_of_mem (List.mem_toFinset.mpr (hi.sub d hdl))]
      exact hc
    · rw [if_neg hdl]
      by_cases hdT : d ∈ touched_docids e
      · rw [Finset.insert_eq_of_mem (List.mem_toFinset.mpr hdT)]
        rcases hi.listed d hdT with h1 | h1
        · exact absurd h1 hdl
        · rw [← length_topk] at h1
          omega
      · rw [Finset.card_insert_of_not_mem (fun hm => hdT (List.mem_toFinset.mp hm))]
        omega
  · intro x
    rw [hacc, hlog, log_score_append]
    by_cases hx : d = x
    · subst hx
      rw [Function.update_same, if_pos rfl, hi.acc_sum, wrap_int_add]
    · rw [Function.update_noteq (Ne.symm hx), if_neg hx, hi.acc_sum]; simp
  · intro x hx
    rw [hT, List.mem_append, List.mem_singleton] at hx
    rcases hx with hx | rfl
    · exact hi.in_range x hx
    · exact ⟨hd0, hd1⟩
  · intro p hp
    rw [hlog, List.mem_append, List.mem_singleton] at hp
    rcases hp with hp | rfl
    · exact hi.nonneg p hp
    · exact hs
  · intro snap hsn
    rw [hhl, List.mem_append, List.mem_singleton] at hsn
    rcases hsn with hsn | rfl
    · exact hi.log_sorted snap hsn
    · unfold ranking
      rw [List.map_map]
      unfold desc at hsorted
      exact (List.pairwise_map.mpr hsorted)
  · intro snap hsn
    rw [hhl, List.mem_append, List.mem_singleton] at hsn
    rcases hsn with hsn | rfl
    · exact hi.log_nodup snap hsn
    · unfold ranking
      rw [List.map_map]
      have hid : (Prod.fst ∘ fun d => (d, e1.g.accumulators d)) = id := rfl
      rw [hid, List.map_id]
      exact hnodup
  · intro snap hsn
    rw [hhl, List.mem_append, List.mem_singleton] at hsn
    rcases hsn with hsn | rfl
    · exact hi.log_size snap hsn
    · unfold ranking
      rw [List.length_map, length_topk]
      exact hsize
  · rw [hhl, hlog, List.length_append, List.length_append, hi.log_len]
    rfl

/-! ## Runs of postings and the scan for the best term -/

theorem process_run_eq (P : params_t) (L : definitions_h) (ifm : Nat → Nat) (s : Int) :
    ∀ (n p : Nat) (ds : List Int) (e : evaluation),
    process_run P L ifm s n p ds e =
      match apply_postings P s (read_docids L ifm n p) e with
      | none => none
      | some e1 => some (p + n * L.BYTES_FOR_RUN_LEN, ds ++ read_docids L ifm n p, e1) := by
  intro n
  induction n with
  | zero => intro p ds e; simp [process_run, read_docids, apply_postings]
  | succ n ih =>
    intro p ds e
    simp only [process_run, read_docids, apply_postings]
    cases h : apply_posting P e (to_int (make_ull_from_n_bytes (ptr_add ifm p) L.BYTES_FOR_DOCID)) s with
    | none => rfl
    | some e1 =>
      simp only []
      rw [ih]
      cases apply_postings P s (read_docids L ifm n (p + L.BYTES_FOR_RUN_LEN)) e1 with
      | none => rfl
      | some e2 =>
        simp only [List.append_assoc, List.singleton_append, Option.some.injEq, Prod.mk.injEq,
          and_true]
        ring

theorem length_read_docids (L : definitions_h) (ifm : Nat → Nat) :
    ∀ (n p : Nat), (read_docids L ifm n p).length = n := by
  intro n
  induction n with
  | zero => intro p; rfl
  | succ n ih => intro p; simp [read_docids, ih]

theorem apply_postings_inv (P : params_t) (s : Int) (hk1 : 1 ≤ P.k) (hs : 0 ≤ s) :
    ∀ (ds : List Int) (e e1 : evaluation), heap_inv P e →
    apply_postings P s ds e = some e1 →
    heap_inv P e1 ∧ e1.posting_log = e.posting_log ++ ds.map (fun d => (d, s)) := by
  intro ds
  induction ds with
  | nil =>
    intro e e1 hi h
    simp only [apply_postings, Option.some.injEq] at h
    subst h
    exact ⟨hi, by simp⟩
  | cons d ds ih =>
    intro e e1 hi h
    simp only [apply_postings] at h
    cases h1 : apply_posting P e d s with
    | none => rw [h1] at h; cases h
    | some e2 =>
      rw [h1] at h
      have hi2 := heap_inv_step P e e2 d s hk1 hs hi h1
      obtain ⟨h3, h4⟩ := ih e2 e1 hi2 h
      refine ⟨h3, ?_⟩
      rw [h4, (apply_posting_spec P e e2 d s hi.size hk1 h1).2.2.2.2.1]
      simp

theorem apply_postings_defined (P : params_t) (s : Int) (hk1 : 1 ≤ P.k) (hs : 0 ≤ s) :
    ∀ (ds : List Int) (e : evaluation), heap_inv P e →
    (∀ d ∈ ds, 0 ≤ d ∧ d < P.numDocs) → ∃ e1, apply_postings P s ds e = some e1 := by
  intro ds
  induction ds with
  | nil => intro e _ _; exact ⟨e, rfl⟩
  | cons d ds ih =>
    intro e hi hd
    obtain ⟨e2, h2⟩ := apply_posting_defined P e d s hi.size hk1 (hd d (List.mem_cons_self _ _))
    obtain ⟨e1, h1⟩ := ih e2 (heap_inv_step P e e2 d s hk1 hs hi h2)
      (fun x hx => hd x (List.mem_cons_of_mem _ hx))
    exact ⟨e1, by simp only [apply_postings, h2]; exact h1⟩

theorem find_best_spec (tcb : Nat → term_control_block_t) :
    ∀ (n q : Nat) (m : Int) (c : Option Nat), best_inv tcb q m c →
    best_inv tcb (q + n) (find_best tcb n q m c).1 (find_best tcb n q m c).2 := by
  intro n
  induction n with
  | zero => intro q m c h; exact h
  | succ n ih =>
    intro q m c h
    have e : q + (n + 1) = (q + 1) + n := by omega
    rw [e]
    unfold find_best
    by_cases hc : (tcb q).postings_remaining > 0 ∧ (tcb q).highest_unprocessed_score > m
    · rw [if_pos hc]
      apply ih
      constructor
      · have := h.lower; omega
      · intro h1; cases h1
      · intro ch hch
        cases hch
        refine ⟨by omega, hc.1, rfl, by have := h.lower; omega, ?_⟩
        intro x hx hax
        have := h.upper x hx hax
        omega
      · intro x hx hax
        by_cases hxq : x = q
        · subst hxq; exact le_refl _
        · have := h.upper x (by omega) hax
          omega
    · rw [if_neg hc]
      apply ih
      constructor
      · exact h.lower
      · exact h.none_eq
      · intro ch hch
        obtain ⟨h1, h2⟩ := h.some_eq ch hch
        exact ⟨by omega, h2⟩
      · intro x hx hax
        by_cases hxq : x = q
        · subst hxq
          unfold active at hax
          by_contra hlt
          exact hc ⟨hax, by omega⟩
        · exact h.upper x (by omega) hax

theorem find_best_start (tcb : Nat → term_control_block_t) (q_len : Nat) :
    best_inv tcb q_len (find_best tcb q_len 0 (-1) none).1 (find_best tcb q_len 0 (-1) none).2 := by
  have := find_best_spec tcb q_len 0 (-1) none
    ⟨le_refl _, fun _ => rfl, fun ch h => (by cases h), fun x hx => (by omega)⟩
  rwa [Nat.zero_add] at this

/-! ## The loop of `process_query` -/

@[simp] theorem end_of_run_ev (st : query_state) (c : Nat) (m : Int) (p : Nat) (ds : List Int)
    (ev1 : evaluation) : (end_of_run st c m p ds ev1).ev = ev1 := rfl

@[simp] theorem after_run_ev (L : definitions_h) (ifm : Nat → Nat) (st : query_state) (c : Nat) :
    (after_run L ifm st c).ev = st.ev := by
  unfold after_run; split <;> rfl

@[simp] theorem after_run_run_log (L : definitions_h) (ifm : Nat → Nat) (st : query_state)
    (c : Nat) : (after_run L ifm st c).run_log = st.run_log := by
  unfold after_run; split <;> rfl

@[simp] theorem after_run_postings_processed (L : definitions_h) (ifm : Nat → Nat)
    (st : query_state) (c : Nat) :
    (after_run L ifm st c).postings_processed = st.postings_processed := by
  unfold after_run; split <;> rfl

/-- The ways an iteration of the loop can go, read off `saat_step`. -/
theorem saat_step_cases (P : params_t) (L : definitions_h) (ifm : Nat → Nat) (q_len : Nat)
    (st : query_state) :
    ((find_best st.term_control_block q_len 0 (-1) none).2 = none ∧
      saat_step P L ifm q_len st = step_result.exit_1) ∨
    ∃ m c, find_best st.term_control_block q_len 0 (-1) none = (m, some c) ∧
      ((¬ m ≥ P.lowScoreCutoff ∧
          saat_step P L ifm q_len st = step_result.stop st stop_reason.low_score_cutoff) ∨
       (m ≥ P.lowScoreCutoff ∧
          apply_postings P m (read_docids L ifm (st.term_control_block c).current_run_len.toNat
            (st.term_control_block c).if_pointer) st.ev = none ∧
          saat_step P L ifm q_len st = step_result.undefined) ∨
       (m ≥ P.lowScoreCutoff ∧ ∃ ev1,
          apply_postings P m (read_docids L ifm (st.term_control_block c).current_run_len.toNat
            (st.term_control_block c).if_pointer) st.ev = some ev1 ∧
          ((over_budget P (end_of_run st c m
                ((st.term_control_block c).if_pointer +
                  (st.term_control_block c).current_run_len.toNat * L.BYTES_FOR_RUN_LEN)
                (read_docids L ifm (st.term_control_block c).current_run_len.toNat
                  (st.term_control_block c).if_pointer) ev1) ∧
            saat_step P L ifm q_len st = step_result.stop (end_of_run st c m
                ((st.term_control_block c).if_pointer +
                  (st.term_control_block c).current_run_len.toNat * L.BYTES_FOR_RUN_LEN)
                (read_docids L ifm (st.term_control_block c).current_run_len.toNat
                  (st.term_control_block c).if_pointer) ev1)
              stop_reason.postings_count_cutoff) ∨
           (¬ over_budget P (end_of_run st c m
                ((st.term_control_block c).if_pointer +
                  (st.term_control_block c).current_run_len.toNat * L.BYTES_FOR_RUN_LEN)
                (read_docids L ifm (st.term_control_block c).current_run_len.toNat
                  (st.term_control_block c).if_pointer) ev1) ∧
            saat_step P L ifm q_len st = step_result.again (after_run L ifm (end_of_run st c m
                ((st.term_control_block c).if_pointer +
                  (st.term_control_block c).current_run_len.toNat * L.BYTES_FOR_RUN_LEN)
                (read_docids L ifm (st.term_control_block c).current_run_len.toNat
                  (st.term_control_block c).if_pointer) ev1) c))))) := by
  unfold saat_step
  rcases hfb : find_best st.term_control_block q_len 0 (-1) none with ⟨m, _ | c⟩
  · left; exact ⟨rfl, rfl⟩
  · right
    refine ⟨m, c, rfl, ?_⟩
    simp only []
    by_cases hm : m ≥ P.lowScoreCutoff
    · right
      rw [if_pos hm, process_run_eq]
      cases hap : apply_postings P m (read_docids L ifm
          (st.term_control_block c).current_run_len.toNat (st.term_control_block c).if_pointer)
          st.ev with
      | none => left; exact ⟨hm, rfl, rfl⟩
      | some ev1 =>
        right
        refine ⟨hm, ev1, rfl, ?_⟩
        simp only [List.nil_append]
        by_cases hb : over_budget P (end_of_run st c m
                ((st.term_control_block c).if_pointer +
                  (st.term_control_block c).current_run_len.toNat * L.BYTES_FOR_RUN_LEN)
                (read_docids L ifm (st.term_control_block c).current_run_len.toNat
                  (st.term_control_block c).if_pointer) ev1)
        · left
          refine ⟨hb, ?_⟩
          unfold over_budget at hb
          rw [if_pos hb]
        · right
          refine ⟨hb, ?_⟩
          unfold over_budget at hb
          rw [if_neg hb]
    · left
      exact ⟨hm, by rw [if_neg hm]⟩

theorem saat_loop_rule (P : params_t) (L : definitions_h) (ifm : Nat → Nat) (q_len : Nat)
    (J : query_state → Prop) (K : query_state → stop_reason → Prop)
    (hcont : ∀ st st1, J st → st.terms_still_going > 0 →
      saat_step P L ifm q_len st = step_result.again st1 → J st1)
    (hstop : ∀ st st1 why, J st → st.terms_still_going > 0 →
      saat_step P L ifm q_len st = step_result.stop st1 why → K st1 why)
    (hend : ∀ st, J st → ¬ st.terms_still_going > 0 → K st stop_reason.terms_exhausted) :
    ∀ (fuel : Nat) (st : query_state) (r : query_state × stop_reason), J st →
      saat_loop P L ifm q_len fuel st = outcome.returned r → K r.1 r.2 := by
  intro fuel
  induction fuel with
  | zero =>
    intro st r hJ h
    unfold saat_loop at h
    by_cases ht : st.terms_still_going > 0
    · rw [if_pos ht] at h; cases h
    · rw [if_neg ht] at h
      cases h
      exact hend st hJ ht
  | succ fuel ih =>
    intro st r hJ h
    unfold saat_loop at h
    by_cases ht : st.terms_still_going > 0
    · rw [if_pos ht] at h
      cases hs : saat_step P L ifm q_len st with
      | again st1 =>
        rw [hs] at h
        exact ih st1 r (hcont st st1 hJ ht hs) h
      | stop st1 why =>
        rw [hs] at h
        cases h
        exact hstop st st1 why hJ ht hs
      | exit_1 => rw [hs] at h; cases h
      | undefined => rw [hs] at h; cases h
    · rw [if_neg ht] at h
      cases h
      exact hend st hJ ht

theorem process_query_returned (P : params_t) (L : definitions_h) (vocab ifm : Nat → Nat)
    (query : List Int) (fuel : Nat) (r : query_result)
    (h : process_query P L vocab ifm query fuel = outcome.returned r) :
    query.length ≤ MAX_QTERMS ∧
    ∃ tcb, setup_control_blocks L vocab ifm query 0
        (query_state_init query.length).term_control_block = some tcb ∧
      saat_loop P L ifm query.length fuel
          { query_state_init query.length with term_control_block := tcb }
        = outcome.returned (r.final, r.stopped_by) ∧
      r.query_line = query ∧ r.result_lines = result_lines_of r.final.ev.g := by
  unfold process_query at h
  by_cases hq : query.length > MAX_QTERMS
  · rw [if_pos hq] at h; cases h
  · rw [if_neg hq] at h
    refine ⟨by omega, ?_⟩
    cases hs : setup_control_blocks L vocab ifm query 0
        (query_state_init query.length).term_control_block with
    | none => rw [hs] at h; cases h
    | some tcb =>
      rw [hs] at h
      refine ⟨tcb, rfl, ?_⟩
      simp only [] at h
      cases hl : saat_loop P L ifm query.length fuel
          { query_state_init query.length with term_control_block := tcb } with
      | returned x =>
        rw [hl] at h
        obtain ⟨st, why⟩ := x
        simp only [outcome.returned.injEq] at h
        subst h
        exact ⟨rfl, rfl, rfl⟩
      | exit_1 => rw [hl] at h; cases h
      | undefined => rw [hl] at h; cases h
      | out_of_fuel => rw [hl] at h; cases h

/-- The invariant of the globals holds at every iteration of the loop, hence at the end. -/
theorem saat_loop_heap_inv (P : params_t) (L : definitions_h) (ifm : Nat → Nat) (q_len : Nat)
    (hk1 : 1 ≤ P.k) (fuel : Nat) (st : query_state) (r : query_state × stop_reason)
    (hi : heap_inv P st.ev) (h : saat_loop P L ifm q_len fuel st = outcome.returned r) :
    heap_inv P r.1.ev := by
  have key : ∀ st st1 : query_state, heap_inv P st.ev →
      (saat_step P L ifm q_len st = step_result.again st1 ∨
        ∃ why, saat_step P L ifm q_len st = step_result.stop st1 why) → heap_inv P st1.ev := by
    intro st st1 hJ hs
    rcases saat_step_cases P L ifm q_len st with ⟨_, h1⟩ | ⟨m, c, hfb, h1⟩
    · rw [h1] at hs
      rcases hs with hs | ⟨_, hs⟩ <;> cases hs
    · have hb := find_best_start st.term_control_block q_len
      rw [hfb] at hb
      have hm0 : 0 ≤ m := (hb.some_eq c rfl).2.2.2.1
      rcases h1 with ⟨_, h1⟩ | ⟨_, _, h1⟩ | ⟨_, ev1, hap, ⟨_, h1⟩ | ⟨_, h1⟩⟩
      · rw [h1] at hs
        rcases hs with hs | ⟨_, hs⟩
        · cases hs
        · cases hs; exact hJ
      · rw [h1] at hs
        rcases hs with hs | ⟨_, hs⟩ <;> cases hs
      · rw [h1] at hs
        rcases hs with hs | ⟨_, hs⟩
        · cases hs
        · cases hs
          exact (apply_postings_inv P m hk1 hm0 _ _ _ hJ hap).1
      · rw [h1] at hs
        rcases hs with hs | ⟨_, hs⟩
        · cases hs
          rw [after_run_ev]
          exact (apply_postings_inv P m hk1 hm0 _ _ _ hJ hap).1
        · cases hs
  exact saat_loop_rule P L ifm q_len (fun st => heap_inv P st.ev) (fun st _ => heap_inv P st.ev)
    (fun st st1 hJ _ hs => key st st1 hJ (Or.inl hs))
    (fun st st1 why hJ _ hs => key st st1 hJ (Or.inr ⟨why, hs⟩))
    (fun st hJ _ => hJ) fuel st r hi h

theorem process_query_heap_inv (P : params_t) (L : definitions_h) (vocab ifm : Nat → Nat)
    (query : List Int) (fuel : Nat) (r : query_result) (hk1 : 1 ≤ P.k)
    (h : process_query P L vocab ifm query fuel = outcome.returned r) :
    heap_inv P r.final.ev := by
  obtain ⟨_, tcb, _, hl, _, _⟩ := process_query_returned P L vocab ifm query fuel r h
  exact saat_loop_heap_inv P L ifm query.length hk1 fuel _ _ (heap_inv_init P) hl

/-! ## Sequences of calls and index forms -/

theorem insert_calls_inv (k : Nat) (hk : 1 ≤ k) :
    ∀ (calls : List ((Int → Int) × Int × Int)) (g0 : globals),
    g0.items_in_fake_heap ≤ k → (topk g0).Nodup →
    ∃ g, insert_calls k calls g0 = some g ∧ g.items_in_fake_heap ≤ k ∧ (topk g).Nodup := by
  intro calls
  induction calls with
  | nil => intro g0 h1 h2; exact ⟨g0, rfl, h1, h2⟩
  | cons c cs ih =>
    intro g0 h1 h2
    obtain ⟨acc, d, s⟩ := c
    obtain ⟨g1, e1, _, e3⟩ := insert_in_fake_heap_spec k { g0 with accumulators := acc } d s h1 hk
    have ht : topk { g0 with accumulators := acc } = topk g0 := rfl
    rw [ht] at e3
    have hlen : (topk g0).length ≤ k := by rw [length_topk]; exact h1
    have hs : g1.items_in_fake_heap ≤ k := by
      rw [← length_topk, e3, length_ins_abs _ _ _ _ _ hlen hk]
      split <;> omega
    have hn : (topk g1).Nodup := by
      rw [e3]; exact nodup_ins_abs _ _ _ _ _ hlen hk h2
    obtain ⟨g, e, h3, h4⟩ := ih g1 hs hn
    exact ⟨g, by simp only [insert_calls, e1]; exact e, h3, h4⟩

theorem topk_nodup_index (g : globals) (h : (topk g).Nodup) :
    ∀ i j, i < g.items_in_fake_heap → j < g.items_in_fake_heap →
      g.fake_heap i = g.fake_heap j → i = j := by
  intro i j hi hj hij
  have hli : i < (topk g).length := by rw [length_topk]; exact hi
  have hlj : j < (topk g).length := by rw [length_topk]; exact hj
  have e : (topk g)[i] = (topk g)[j] := by
    simp only [topk, List.getElem_map, List.getElem_range]
    exact hij
  exact (List.Nodup.getElem_inj_iff h).mp e

theorem topk_desc_index (g : globals) (h : desc g.accumulators (topk g)) :
    ∀ i j, i < j → j < g.items_in_fake_heap →
      g.accumulators (g.fake_heap i) ≥ g.accumulators (g.fake_heap j) := by
  intro i j hij hj
  have hlj : j < (topk g).length := by rw [length_topk]; exact hj
  have := List.pairwise_iff_getElem.mp h i j (by omega) hlj hij
  simpa only [topk, List.getElem_map, List.getElem_range] using this

/-! ## Scores and counts read off the log of postings -/

theorem outcome_result_some {α : Type} (o : outcome α) (a : α) (h : o.result = some a) :
    o = outcome.returned a := by
  cases o <;> simp [outcome.result] at h
  rw [h]

theorem log_score_pos (log : List (Int × Int)) (d : Int) (hp : ∀ p ∈ log, 0 < p.2) :
    0 < log_score log d ↔ d ∈ log.map Prod.fst := by
  induction log with
  | nil => simp [log_score]
  | cons p ps ih =>
    have hps : ∀ q ∈ ps, 0 < q.2 := fun q hq => hp q (List.mem_cons_of_mem _ hq)
    have hp0 : 0 < p.2 := hp p (List.mem_cons_self _ _)
    have ih1 := ih hps
    have hnn : 0 ≤ log_score ps d := log_score_nonneg ps d (fun q hq => le_of_lt (hps q hq))
    rw [log_score_cons, List.map_cons, List.mem_cons]
    by_cases h : p.1 = d
    · rw [if_pos h]
      constructor
      · intro _; exact Or.inl h.symm
      · intro _; omega
    · rw [if_neg h, zero_add, ih1]
      constructor
      · intro hm; exact Or.inr hm
      · rintro (h1 | h1)
        · exact absurd h1.symm h
        · exact h1

theorem positive_count_eq (P : params_t) (e : evaluation) (hi : heap_inv P e)
    (hp : ∀ p ∈ e.posting_log, 0 < p.2) (hno : ∀ d, log_score e.posting_log d < 2 ^ 31) :
    positive_count P e.g = (touched_docids e).toFinset.card := by
  unfold positive_count
  have hnd : (((List.range P.numDocs).filter
      (fun (d : Nat) => 0 < e.g.accumulators (Int.ofNat d))).map Int.ofNat).Nodup := by
    apply List.Nodup.map
    · intro a b hab; exact Int.ofNat.inj hab
    · exact (List.nodup_range _).filter _
  have hc := List.toFinset_card_of_nodup hnd
  rw [List.length_map] at hc
  rw [← hc]
  have hacc : ∀ d, e.g.accumulators d = log_score e.posting_log d := by
    intro d
    rw [hi.acc_sum]
    exact wrap_int_of_range _
      (by have := log_score_nonneg e.posting_log d hi.nonneg; omega) (hno d)
  congr 1
  ext d
  simp only [List.mem_toFinset, List.mem_map, List.mem_filter, List.mem_range,
    decide_eq_true_eq]
  constructor
  · rintro ⟨n, ⟨_, hpos⟩, rfl⟩
    rw [hacc] at hpos
    exact (log_score_pos _ _ hp).mp hpos
  · intro hd
    obtain ⟨h0, h1⟩ := hi.in_range d hd
    have hd2 : Int.ofNat d.toNat = d := Int.toNat_of_nonneg h0
    refine ⟨d.toNat, ⟨by omega, ?_⟩, hd2⟩
    rw [hd2, hacc]
    exact (log_score_pos _ _ hp).mpr hd

/-! ## Sums over term positions and the set-up of the control blocks -/

theorem sum_upto_succ {α : Type} [AddCommMonoid α] (n : Nat) (f : Nat → α) :
    sum_upto (n + 1) f = sum_upto n f + f n := by
  simp [sum_upto, List.range_succ]

theorem sum_upto_congr {α : Type} [AddCommMonoid α] (n : Nat) (f g : Nat → α)
    (h : ∀ q, q < n → f q = g q) : sum_upto n f = sum_upto n g := by
  induction n with
  | zero => rfl
  | succ n ih =>
    rw [sum_upto_succ, sum_upto_succ, ih (fun q hq => h q (by omega)), h n (by omega)]

theorem sum_upto_update {α : Type} [AddCommMonoid α] (n : Nat) (f : Nat → α) (c : Nat) (v : α)
    (hc : c < n) : sum_upto n (Function.update f c v) + f c = sum_upto n f + v := by
  induction n with
  | zero => omega
  | succ n ih =>
    rw [sum_upto_succ, sum_upto_succ]
    by_cases hcn : c = n
    · subst hcn
      rw [Function.update_same, sum_upto_congr c (Function.update f c v) f
        (fun q hq => Function.update_noteq (by omega) _ _)]
      abel
    · rw [Function.update_noteq (Ne.symm hcn)]
      have := ih (by omega)
      calc sum_upto n (Function.update f c v) + f n + f c
          = (sum_upto n (Function.update f c v) + f c) + f n := by abel
        _ = (sum_upto n f + v) + f n := by rw [this]
        _ = sum_upto n f + f n + v := by abel

theorem sum_upto_pos (n : Nat) (f : Nat → Nat) (h : 0 < sum_upto n f) : ∃ q, q < n ∧ 0 < f q := by
  induction n with
  | zero => simp [sum_upto] at h
  | succ n ih =>
    rw [sum_upto_succ] at h
    by_cases hn : 0 < f n
    · exact ⟨n, by omega, hn⟩
    · obtain ⟨q, hq, hf⟩ := ih (by omega)
      exact ⟨q, by omega, hf⟩

theorem sum_upto_zero (n : Nat) (f : Nat → Nat) (h : sum_upto n f = 0) : ∀ q, q < n → f q = 0 := by
  induction n with
  | zero => intro q hq; omega
  | succ n ih =>
    rw [sum_upto_succ] at h
    intro q hq
    by_cases hqn : q = n
    · subst hqn; omega
    · exact ih (by omega) q (by omega)

theorem going_pos (q_len : Nat) (rem : Nat → List run) (h : 0 < going q_len rem) :
    ∃ q, q < q_len ∧ rem q ≠ [] := by
  obtain ⟨q, hq, hf⟩ := sum_upto_pos _ _ h
  refine ⟨q, hq, fun e => ?_⟩
  simp [e] at hf

theorem going_zero (q_len : Nat) (rem : Nat → List run) (h : going q_len rem = 0) :
    ∀ q, q < q_len → rem q = [] := by
  intro q hq
  have := sum_upto_zero _ _ h q hq
  by_contra hne
  simp [hne] at this

theorem going_update (q_len : Nat) (rem : Nat → List run) (c : Nat) (v : List run)
    (hc : c < q_len) :
    going q_len (Function.update rem c v) + (if rem c = [] then 0 else 1)
      = going q_len rem + (if v = [] then 0 else 1) := by
  unfold going
  have e : (fun q => if Function.update rem c v q = [] then 0 else 1)
      = Function.update (fun q => if rem q = [] then (0 : Nat) else 1) c
          (if v = [] then 0 else 1) := by
    funext q
    by_cases hq : q = c
    · subst hq; simp
    · simp [Function.update_noteq hq]
  rw [e]
  exact sum_upto_update q_len _ c _ hc

theorem runs_left_update (q_len : Nat) (rem : Nat → List run) (c : Nat) (v : List run)
    (hc : c < q_len) :
    runs_left q_len (Function.update rem c v) + (rem c).length
      = runs_left q_len rem + v.length := by
  unfold runs_left
  have e : (fun q => (Function.update rem c v q).length)
      = Function.update (fun q => (rem q).length) c v.length := by
    funext q
    by_cases hq : q = c
    · subst hq; simp
    · simp [Function.update_noteq hq]
  rw [e]
  exact sum_upto_update q_len _ c _ hc

theorem total_postings_cons (r : run) (rs : List run) :
    total_postings (r :: rs) = r.2.length + total_postings rs := by
  simp [total_postings]

theorem total_postings_nonneg (rs : List run) : 0 ≤ total_postings rs := by
  induction rs with
  | nil => simp [total_postings]
  | cons r rs ih => rw [total_postings_cons]; omega

theorem total_postings_pos (rs : List run) (hne : rs ≠ []) (h : ∀ r ∈ rs, 1 ≤ r.2.length) :
    0 < total_postings rs := by
  cases rs with
  | nil => exact absurd rfl hne
  | cons r rs =>
    rw [total_postings_cons]
    have := total_postings_nonneg rs
    have := h r (List.mem_cons_self _ _)
    omega

theorem read_run_header_at (L : definitions_h) (ifm : Nat → Nat) (b : term_control_block_t)
    (r : run) (rest : List run) (h : runs_at L ifm b.if_pointer (r :: rest))
    (hp : b.postings_remaining = total_postings (r :: rest)) :
    tcb_at L ifm (read_run_header L ifm b) (r :: rest) := by
  obtain ⟨h1, h2, h3, h4⟩ := h
  exact ⟨h1, h2, hp, h3, h4⟩

theorem setup_control_block_at (L : definitions_h) (vocab ifm : Nat → Nat) (t : Int)
    (rs : List run) (hne : rs ≠ []) (h : term_encodes L vocab ifm t rs) :
    ∃ b, setup_control_block L vocab ifm t = some b ∧ tcb_at L ifm b rs := by
  obtain ⟨h0, h1, h2, h3⟩ := h
  unfold setup_control_block
  rw [if_neg (by omega)]
  simp only []
  rw [if_pos h1]
  refine ⟨_, rfl, ?_⟩
  cases rs with
  | nil => exact absurd rfl hne
  | cons r rest => exact read_run_header_at L ifm _ r rest h3 h2

theorem setup_control_blocks_at (L : definitions_h) (vocab ifm : Nat → Nat)
    (idx : Int → List run) :
    ∀ (ts : List Int) (q0 : Nat) (tcb0 : Nat → term_control_block_t),
    (∀ t ∈ ts, term_encodes L vocab ifm t (idx t) ∧ idx t ≠ []) →
    ∃ tcb, setup_control_blocks L vocab ifm ts q0 tcb0 = some tcb ∧
      (∀ i, i < ts.length → tcb_at L ifm (tcb (q0 + i)) (idx (ts.getD i 0))) ∧
      ∀ x, x < q0 → tcb x = tcb0 x := by
  intro ts
  induction ts with
  | nil => intro q0 tcb0 _; exact ⟨tcb0, rfl, fun i hi => by simp at hi, fun x _ => rfl⟩
  | cons t ts ih =>
    intro q0 tcb0 h
    obtain ⟨b, hb, hat⟩ := setup_control_block_at L vocab ifm t (idx t)
      (h t (List.mem_cons_self _ _)).2 (h t (List.mem_cons_self _ _)).1
    obtain ⟨tcb, h1, h2, h3⟩ := ih (q0 + 1) (Function.update tcb0 q0 b)
      (fun x hx => h x (List.mem_cons_of_mem _ hx))
    refine ⟨tcb, by simp only [setup_control_blocks, hb]; exact h1, ?_, ?_⟩
    · intro i hi
      cases i with
      | zero =>
        rw [Nat.add_zero, h3 q0 (by omega), Function.update_same]
        exact hat
      | succ j =>
        have := h2 j (by simpa using hi)
        rw [show q0 + (j + 1) = q0 + 1 + j by omega]
        simpa using this
    · intro x hx
      rw [h3 x (by omega), Function.update_noteq (by omega)]

/-! ## One iteration on a well-formed index -/

theorem active_iff (P : params_t) (L : definitions_h) (ifm : Nat → Nat) (q_len : Nat)
    (st : query_state) (rem : Nat → List run) (hs : sim P L ifm q_len st rem) (q : Nat)
    (hq : q < q_len) : active st.term_control_block q ↔ rem q ≠ [] := by
  have h := hs.tcb q hq
  unfold active
  cases hr : rem q with
  | nil =>
    rw [hr] at h
    unfold tcb_at at h
    rw [h]
    simp
  | cons r rest =>
    rw [hr] at h
    obtain ⟨_, _, h3, _⟩ := h
    rw [h3]
    have := total_postings_pos (r :: rest) (by simp) (fun x hx => hs.run_len q hq x (hr ▸ hx))
    simp
    exact this

/-- One iteration of the loop on a well-formed index: the term position chosen holds the
greatest first qscore among the positions with runs left, the lowest such position; its
first run is applied in full and the state agrees with the runs left afterwards. -/
theorem sim_step (P : params_t) (L : definitions_h) (ifm : Nat → Nat) (q_len : Nat)
    (st : query_state) (rem : Nat → List run) (hk1 : 1 ≤ P.k)
    (hs : sim P L ifm q_len st rem) (hi : heap_inv P st.ev)
    (hg : st.terms_still_going > 0) :
    ∃ c r rest, c < q_len ∧ rem c = r :: rest ∧
      (∀ q r1 rest1, q < q_len → rem q = r1 :: rest1 → r1.1 ≤ r.1) ∧
      (∀ q r1 rest1, q < c → rem q = r1 :: rest1 → r1.1 < r.1) ∧
      (¬ r.1 ≥ P.lowScoreCutoff →
        saat_step P L ifm q_len st = step_result.stop st stop_reason.low_score_cutoff) ∧
      (r.1 ≥ P.lowScoreCutoff → ∃ ev1, apply_postings P r.1 r.2 st.ev = some ev1 ∧
        (over_budget P (end_of_run st c r.1
            ((st.term_control_block c).if_pointer + r.2.length * L.BYTES_FOR_RUN_LEN) r.2 ev1) →
          saat_step P L ifm q_len st = step_result.stop (end_of_run st c r.1
            ((st.term_control_block c).if_pointer + r.2.length * L.BYTES_FOR_RUN_LEN) r.2 ev1)
            stop_reason.postings_count_cutoff) ∧
        (¬ over_budget P (end_of_run st c r.1
            ((st.term_control_block c).if_pointer + r.2.length * L.BYTES_FOR_RUN_LEN) r.2 ev1) →
          saat_step P L ifm q_len st = step_result.again (after_run L ifm (end_of_run st c r.1
            ((st.term_control_block c).if_pointer + r.2.length * L.BYTES_FOR_RUN_LEN) r.2 ev1)
            c) ∧
          sim P L ifm q_len (after_run L ifm (end_of_run st c r.1
            ((st.term_control_block c).if_pointer + r.2.length * L.BYTES_FOR_RUN_LEN) r.2 ev1)
            c) (Function.update rem c rest))) := by
  -- some term position has runs left
  obtain ⟨q0, hq0, hne0⟩ := going_pos q_len rem (by rw [← hs.count]; exact hg)
  have hb := find_best_start st.term_control_block q_len
  rcases hfb : find_best st.term_control_block q_len 0 (-1) none with ⟨m, _ | c⟩
  · -- the scan cannot fail
    rw [hfb] at hb
    have hm := hb.none_eq rfl
    have hu := hb.upper q0 hq0 ((active_iff P L ifm q_len st rem hs q0 hq0).mpr hne0)
    obtain ⟨r0, rest0, hr0⟩ := List.exists_cons_of_ne_nil hne0
    have ht := hs.tcb q0 hq0
    rw [hr0] at ht
    have := hs.qscore q0 hq0 r0 (by rw [hr0]; exact List.mem_cons_self _ _)
    rw [ht.1] at hu
    simp only [] at hm hu
    omega
  · rw [hfb] at hb
    obtain ⟨hc, hact, hhus, _, hfirst⟩ := hb.some_eq c rfl
    simp only [] at hhus hfirst
    have hnec := (active_iff P L ifm q_len st rem hs c hc).mp hact
    obtain ⟨r, rest, hr⟩ := List.exists_cons_of_ne_nil hnec
    have htc := hs.tcb c hc
    rw [hr] at htc
    obtain ⟨t1, t2, t3, t4, t5⟩ := htc
    have hmr : m = r.1 := by rw [← hhus, t1]
    subst hmr
    refine ⟨c, r, rest, hc, hr, ?_, ?_, ?_, ?_⟩
    · intro q r1 rest1 hq hq1
      have ha := (active_iff P L ifm q_len st rem hs q hq).mpr (by rw [hq1]; simp)
      have := hb.upper q hq ha
      have ht := hs.tcb q hq
      rw [hq1] at ht
      rw [ht.1] at this
      exact this
    · intro q r1 rest1 hq hq1
      have ha := (active_iff P L ifm q_len st rem hs q (by omega)).mpr (by rw [hq1]; simp)
      have := hfirst q hq ha
      have ht := hs.tcb q (by omega)
      rw [hq1] at ht
      rw [ht.1] at this
      exact this
    · intro hlow
      unfold saat_step
      rw [hfb]
      simp only []
      rw [if_neg hlow]
    · intro hlow
      have hlen : (st.term_control_block c).current_run_len.toNat = r.2.length := by
        rw [t2]; simp
      have hdoc : ∀ d ∈ r.2, 0 ≤ d ∧ d < P.numDocs :=
        hs.docid c hc r (by rw [hr]; exact List.mem_cons_self _ _)
      have hq0 : 0 ≤ r.1 := hs.qscore c hc r (by rw [hr]; exact List.mem_cons_self _ _)
      obtain ⟨ev1, hev1⟩ := apply_postings_defined P r.1 hk1 hq0 r.2 st.ev hi hdoc
      refine ⟨ev1, hev1, ?_, ?_⟩
      · intro hob
        unfold saat_step
        rw [hfb]
        simp only []
        rw [if_pos hlow, process_run_eq, hlen, t4, hev1]
        simp only [List.nil_append]
        unfold over_budget at hob
        rw [if_pos hob]
      · intro hob
        constructor
        · unfold saat_step
          rw [hfb]
          simp only []
          rw [if_pos hlow, process_run_eq, hlen, t4, hev1]
          simp only [List.nil_append]
          unfold over_budget at hob
          rw [if_neg hob]
        · -- the state after the run agrees with the runs left
          have hrem : wrap_int ((st.term_control_block c).postings_remaining
              - (st.term_control_block c).current_run_len) = total_postings rest := by
            have hb := hs.bound c hc
            rw [hr, total_postings_cons] at hb
            have hnn := total_postings_nonneg rest
            have e0 : (st.term_control_block c).postings_remaining
                - (st.term_control_block c).current_run_len = total_postings rest := by
              rw [t3, t2, total_postings_cons]; omega
            rw [e0]
            exact wrap_int_of_range _ (by omega) (by omega)
          have hwf_rest : ∀ x ∈ rest, x ∈ rem c := fun x hx => by
            rw [hr]; exact List.mem_cons_of_mem _ hx
          constructor
          · intro q hq
            by_cases hqc : q = c
            · subst hqc
              rw [Function.update_same]
              unfold after_run end_of_run
              simp only [Function.update_same]
              rw [hrem]
              cases hrest : rest with
              | nil =>
                rw [if_neg (by simp [total_postings])]
                simp only [Function.update_same]
                unfold tcb_at
                simp [total_postings]
              | cons r2 rest2 =>
                have hpos := total_postings_pos (r2 :: rest2) (by simp)
                  (fun x hx => hs.run_len q hc x (hwf_rest x (hrest ▸ hx)))
                rw [if_pos hpos]
                simp only [Function.update_same, Function.update_idem]
                apply read_run_header_at
                · simp only []
                  rw [← hrest]; exact t5
                · rfl
            · rw [Function.update_noteq hqc]
              have : (after_run L ifm (end_of_run st c r.1
                  ((st.term_control_block c).if_pointer + r.2.length * L.BYTES_FOR_RUN_LEN)
                  r.2 ev1) c).term_control_block q = st.term_control_block q := by
                unfold after_run end_of_run
                split <;> simp [Function.update_noteq hqc]
              rw [this]
              exact hs.tcb q hq
          · have hgu := going_update q_len rem c rest hc
            rw [hr] at hgu
            simp only [reduceCtorEq, if_false] at hgu
            unfold after_run end_of_run
            simp only [Function.update_same]
            rw [hrem]
            cases hrest : rest with
            | nil =>
              rw [if_neg (by simp [total_postings])]
              simp only []
              rw [hrest] at hgu
              simp only [if_true] at hgu
              rw [hs.count]
              omega
            | cons r2 rest2 =>
              have hpos := total_postings_pos (r2 :: rest2) (by simp)
                (fun x hx => hs.run_len c hc x (hwf_rest x (hrest ▸ hx)))
              rw [if_pos hpos]
              simp only []
              rw [hrest] at hgu
              simp only [reduceCtorEq, if_false] at hgu
              rw [hs.count]
              omega
          · intro q hq x hx
            by_cases hqc : q = c
            · subst hqc
              rw [Function.update_same] at hx
              exact hs.run_len q hq x (hwf_rest x hx)
            · rw [Function.update_noteq hqc] at hx
              exact hs.run_len q hq x hx
          · intro q hq x hx
            by_cases hqc : q = c
            · subst hqc
              rw [Function.update_same] at hx
              exact hs.qscore q hq x (hwf_rest x hx)
            · rw [Function.update_noteq hqc] at hx
              exact hs.qscore q hq x hx
          · intro q hq x hx
            by_cases hqc : q = c
            · subst hqc
              rw [Function.update_same] at hx
              exact hs.docid q hq x (hwf_rest x hx)
            · rw [Function.update_noteq hqc] at hx
              exact hs.docid q hq x hx
          · intro q hq
            by_cases hqc : q = c
            · subst hqc
              rw [Function.update_same]
              have hb := hs.bound q hq
              rw [hr, total_postings_cons] at hb
              omega
            · rw [Function.update_noteq hqc]
              exact hs.bound q hq

/-! ## The loop on a well-formed index -/

theorem consumed_append (log : List run_event) (e : run_event) (q : Nat) :
    consumed (log ++ [e]) q
      = consumed log q ++ (if e.chosen = q then [run_of_event e] else []) := by
  unfold consumed
  rw [List.filter_append, List.map_append]
  by_cases h : e.chosen = q <;> simp [List.filter, h]

theorem postings_of_log_append (a b : List run_event) :
    postings_of_log (a ++ b) = postings_of_log a ++ postings_of_log b := by
  induction a with
  | nil => rfl
  | cons e es ih => simp [postings_of_log, ih]

theorem runs_left_pos_of_going (q_len : Nat) (rem : Nat → List run)
    (h : 0 < going q_len rem) : 0 < runs_left q_len rem := by
  obtain ⟨q, hq, hne⟩ := going_pos q_len rem h
  by_contra hz
  have := sum_upto_zero q_len (fun q => (rem q).length) (by unfold runs_left at hz; omega) q hq
  exact hne (List.length_eq_zero.mp this)

theorem progress_end_of_run (P : params_t) (q_len : Nat) (runs_of : Nat → List run)
    (st : query_state) (rem : Nat → List run) (c : Nat) (r : run) (rest : List run)
    (p : Nat) (ev1 : evaluation) (hp : progress P q_len runs_of st rem) (hc : c < q_len)
    (hr : rem c = r :: rest) (hlow : P.lowScoreCutoff ≤ r.1)
    (hlen : (st.term_control_block c).current_run_len = r.2.length)
    (hlog : ev1.posting_log = st.ev.posting_log ++ r.2.map (fun d => (d, r.1))) :
    progress P q_len runs_of (end_of_run st c r.1 p r.2 ev1) (Function.update rem c rest) := by
  constructor
  · intro q hq
    unfold end_of_run
    simp only []
    rw [consumed_append]
    simp only []
    by_cases hqc : c = q
    · subst hqc
      rw [if_pos rfl, Function.update_same, hp.split c hq, hr]
      simp [run_of_event]
    · rw [if_neg hqc, Function.update_noteq (Ne.symm hqc), List.append_nil]
      exact hp.split q hq
  · unfold end_of_run
    simp only []
    rw [postings_of_log_append, hlog, hp.postings]
    simp [postings_of_log]
  · intro e he
    unfold end_of_run at he
    simp only [List.mem_append, List.mem_singleton] at he
    rcases he with he | rfl
    · exact hp.chosen e he
    · exact hc
  · intro e he
    unfold end_of_run at he
    simp only [List.mem_append, List.mem_singleton] at he
    rcases he with he | rfl
    · exact hp.passed e he
    · exact hlow
  · intro e he
    unfold end_of_run at he
    simp only [List.mem_append, List.mem_singleton] at he
    rcases he with he | rfl
    · exact hp.whole e he
    · exact hlen

theorem progress_after_run (P : params_t) (L : definitions_h) (ifm : Nat → Nat) (q_len : Nat)
    (runs_of : Nat → List run) (st : query_state) (rem : Nat → List run) (c : Nat)
    (hp : progress P q_len runs_of st rem) :
    progress P q_len runs_of (after_run L ifm st c) rem := by
  constructor
  · intro q hq; rw [after_run_run_log]; exact hp.split q hq
  · rw [after_run_run_log, after_run_ev]; exact hp.postings
  · intro e he; rw [after_run_run_log] at he; exact hp.chosen e he
  · intro e he; rw [after_run_run_log] at he; exact hp.passed e he
  · intro e he; rw [after_run_run_log] at he; exact hp.whole e he

/-- On a well-formed index the loop ends within as many iterations as there are runs left,
and it ends in a state that records which runs were consumed. -/
theorem wf_loop (P : params_t) (L : definitions_h) (ifm : Nat → Nat) (q_len : Nat)
    (runs_of : Nat → List run) (hk1 : 1 ≤ P.k) :
    ∀ (fuel : Nat) (st : query_state) (rem : Nat → List run),
    sim P L ifm q_len st rem → heap_inv P st.ev → progress P q_len runs_of st rem →
    runs_left q_len rem ≤ fuel →
    ∃ st1 why rem1, saat_loop P L ifm q_len fuel st = outcome.returned (st1, why) ∧
      heap_inv P st1.ev ∧ progress P q_len runs_of st1 rem1 ∧ ended P q_len st1 why rem1 := by
  intro fuel
  induction fuel with
  | zero =>
    intro st rem hs hi hp hf
    have hg : ¬ st.terms_still_going > 0 := by
      intro hg
      have := runs_left_pos_of_going q_len rem (by rw [← hs.count]; exact hg)
      omega
    refine ⟨st, stop_reason.terms_exhausted, rem, ?_, hi, hp, Or.inl ⟨rfl, ?_⟩⟩
    · unfold saat_loop; rw [if_neg hg]
    · exact going_zero q_len rem (by rw [← hs.count]; omega)
  | succ fuel ih =>
    intro st rem hs hi hp hf
    by_cases hg : st.terms_still_going > 0
    · obtain ⟨c, r, rest, hc, hr, hmax, _, hlo, hhi⟩ := sim_step P L ifm q_len st rem hk1 hs hi hg
      by_cases hlow : r.1 ≥ P.lowScoreCutoff
      · obtain ⟨ev1, hap, hob1, hob2⟩ := hhi hlow
        have hq0 : 0 ≤ r.1 := hs.qscore c hc r (by rw [hr]; exact List.mem_cons_self _ _)
        obtain ⟨hi1, hlog⟩ := apply_postings_inv P r.1 hk1 hq0 r.2 st.ev ev1 hi hap
        have hlen : (st.term_control_block c).current_run_len = r.2.length := by
          have := hs.tcb c hc
          rw [hr] at this
          exact this.2.1
        have hp1 := progress_end_of_run P q_len runs_of st rem c r rest
          ((st.term_control_block c).if_pointer + r.2.length * L.BYTES_FOR_RUN_LEN) ev1 hp hc hr
          hlow hlen hlog
        by_cases hob : over_budget P (end_of_run st c r.1
            ((st.term_control_block c).if_pointer + r.2.length * L.BYTES_FOR_RUN_LEN) r.2 ev1)
        · refine ⟨_, stop_reason.postings_count_cutoff, Function.update rem c rest, ?_, ?_, hp1,
            Or.inr (Or.inr ⟨rfl, hob⟩)⟩
          · unfold saat_loop; rw [if_pos hg, hob1 hob]
          · exact hi1
        · obtain ⟨hstep, hsim⟩ := hob2 hob
          have hrl := runs_left_update q_len rem c rest hc
          rw [hr] at hrl
          simp only [List.length_cons] at hrl
          obtain ⟨st1, why, rem1, h1, h2, h3, h4⟩ := ih _ (Function.update rem c rest) hsim
            (by rw [after_run_ev]; exact hi1)
            (progress_after_run P L ifm q_len runs_of _ _ c hp1) (by omega)
          refine ⟨st1, why, rem1, ?_, h2, h3, h4⟩
          unfold saat_loop; rw [if_pos hg, hstep]; exact h1
      · refine ⟨st, stop_reason.low_score_cutoff, rem, ?_, hi, hp, Or.inr (Or.inl ⟨rfl, ?_⟩)⟩
        · unfold saat_loop; rw [if_pos hg, hlo hlow]
        · intro q r1 rest1 hq hq1
          have := hmax q r1 rest1 hq hq1
          omega
    · refine ⟨st, stop_reason.terms_exhausted, rem, ?_, hi, hp, Or.inl ⟨rfl, ?_⟩⟩
      · unfold saat_loop; rw [if_neg hg]
      · exact going_zero q_len rem (by rw [← hs.count]; omega)

/-! ## Scores of the consumed runs; queries on a well-formed index -/

theorem range_map_getD {α β : Type} (l : List α) (d : α) (f : α → β) :
    (List.range l.length).map (fun q => f (l.getD q d)) = l.map f := by
  apply List.ext_getElem
  · simp
  · intro n h1 h2
    simp only [List.getElem_map, List.getElem_range]
    rw [List.getD_eq_getElem _ _ (by simpa using h1)]

theorem sum_upto_getD {α : Type} [AddCommMonoid α] (l : List Int) (f : Int → α) :
    sum_upto l.length (fun q => f (l.getD q 0)) = (l.map f).sum := by
  unfold sum_upto
  rw [range_map_getD]

theorem sum_upto_add {α : Type} [AddCommMonoid α] (n : Nat) (f g : Nat → α) :
    sum_upto n (fun q => f q + g q) = sum_upto n f + sum_upto n g := by
  induction n with
  | zero => simp [sum_upto]
  | succ n ih => rw [sum_upto_succ, sum_upto_succ, sum_upto_succ, ih]; abel

theorem sum_upto_single (n c : Nat) (x : Int) (hc : c < n) :
    sum_upto n (fun q => if c = q then x else 0) = x := by
  induction n with
  | zero => omega
  | succ n ih =>
    rw [sum_upto_succ]
    by_cases hcn : c = n
    · subst hcn
      rw [if_pos rfl, sum_upto_congr c _ (fun _ => (0 : Int)) (fun q hq => if_neg (by omega))]
      simp [sum_upto]
    · rw [if_neg hcn, ih (by omega)]; simp

theorem going_all (n : Nat) (rem : Nat → List run) (h : ∀ q, q < n → rem q ≠ []) :
    going n rem = n := by
  unfold going
  rw [sum_upto_congr n _ (fun _ => 1) (fun q hq => if_neg (h q hq))]
  simp [sum_upto]

theorem log_score_app (a b : List (Int × Int)) (d : Int) :
    log_score (a ++ b) d = log_score a d + log_score b d := by
  unfold log_score
  rw [List.filter_append, List.map_append, List.sum_append]

theorem log_score_run (ds : List Int) (s d : Int) :
    log_score (ds.map (fun x => (x, s))) d = s * (ds.count d : Int) := by
  induction ds with
  | nil => simp [log_score]
  | cons x xs ih =>
    rw [List.map_cons, log_score_cons, ih, List.count_cons]
    by_cases h : x = d
    · subst h; simp; ring
    · have h2 : ¬ (x == d) = true := by simpa using h
      simp [h, h2]

theorem log_score_postings_of_log (log : List run_event) (d : Int) :
    log_score (postings_of_log log) d = list_score d (log.map run_of_event) := by
  induction log with
  | nil => simp [postings_of_log, log_score, list_score]
  | cons e es ih =>
    rw [postings_of_log, log_score_app, ih, log_score_run]
    simp [list_score, run_score, run_of_event]

theorem list_score_cons (d : Int) (r : run) (rs : List run) :
    list_score d (r :: rs) = run_score d r + list_score d rs := by
  simp [list_score]

theorem list_score_append (d : Int) (a b : List run) :
    list_score d (a ++ b) = list_score d a + list_score d b := by
  simp [list_score]

theorem consumed_cons (e : run_event) (log : List run_event) (q : Nat) :
    consumed (e :: log) q
      = (if e.chosen = q then [run_of_event e] else []) ++ consumed log q := by
  unfold consumed
  by_cases h : e.chosen = q <;> simp [List.filter, h]

/-- The impacts of the consumed runs, summed run by run, are the impacts summed term
position by term position. -/
theorem list_score_by_position (d : Int) (n : Nat) (log : List run_event)
    (h : ∀ e ∈ log, e.chosen < n) :
    list_score d (log.map run_of_event) = sum_upto n (fun q => list_score d (consumed log q)) := by
  induction log with
  | nil =>
    simp only [List.map_nil, consumed, List.filter_nil]
    rw [sum_upto_congr n _ (fun _ => (0 : Int)) (fun q _ => by simp [list_score])]
    simp [sum_upto, list_score]
  | cons e es ih =>
    have hfun : (fun q => list_score d (consumed (e :: es) q))
        = fun q => (if e.chosen = q then run_score d (run_of_event e) else 0)
            + list_score d (consumed es q) := by
      funext q
      rw [consumed_cons, list_score_append]
      by_cases hq : e.chosen = q
      · simp [hq, list_score]
      · simp [hq, list_score]
    rw [hfun, sum_upto_add, sum_upto_single n e.chosen _ (h e (List.mem_cons_self _ _)),
      List.map_cons, list_score_cons, ih (fun x hx => h x (List.mem_cons_of_mem _ hx))]

/-- A query on a well-formed index returns when given one unit of fuel per run, with the
invariant of the globals and the record of the runs consumed. -/
theorem wf_query (P : params_t) (L : definitions_h) (vocab ifm : Nat → Nat)
    (idx : Int → List run) (query : List Int) (fuel : Nat) (hk1 : 1 ≤ P.k)
    (hq : query.length ≤ MAX_QTERMS)
    (hwf : ∀ t ∈ query, term_encodes L vocab ifm t (idx t) ∧ well_formed_list P (idx t))
    (hf : ((query.map idx).map List.length).sum ≤ fuel) :
    ∃ r rem, process_query P L vocab ifm query fuel = outcome.returned r ∧
      heap_inv P r.final.ev ∧
      progress P query.length (fun q => idx (query.getD q 0)) r.final rem ∧
      ended P query.length r.final r.stopped_by rem ∧
      r.query_line = query ∧ r.result_lines = result_lines_of r.final.ev.g := by
  obtain ⟨tcb, hset, hat, _⟩ := setup_control_blocks_at L vocab ifm idx query 0
    (query_state_init query.length).term_control_block
    (fun t ht => ⟨(hwf t ht).1, (hwf t ht).2.nonempty⟩)
  have hmem : ∀ q, q < query.length → query.getD q 0 ∈ query := by
    intro q hq
    rw [List.getD_eq_getElem _ _ hq]
    exact List.getElem_mem _
  have hsim : sim P L ifm query.length
      { query_state_init query.length with term_control_block := tcb }
      (fun q => idx (query.getD q 0)) := by
    constructor
    · intro q hq
      have := hat q hq
      rw [Nat.zero_add] at this
      exact this
    · rw [going_all _ _ (fun q hq => (hwf _ (hmem q hq)).2.nonempty)]
      rfl
    · intro q hq; exact (hwf _ (hmem q hq)).2.run_len
    · intro q hq; exact (hwf _ (hmem q hq)).2.qscore
    · intro q hq; exact (hwf _ (hmem q hq)).2.docid
    · intro q hq; exact term_encodes_bound L vocab ifm _ _ (hwf _ (hmem q hq)).1
  have hprog : progress P query.length (fun q => idx (query.getD q 0))
      { query_state_init query.length with term_control_block := tcb }
      (fun q => idx (query.getD q 0)) := by
    constructor
    · intro q _; simp [query_state_init, consumed]
    · rfl
    · intro e he; simp [query_state_init] at he
    · intro e he; simp [query_state_init] at he
    · intro e he; simp [query_state_init] at he
  have hfuel : runs_left query.length (fun q => idx (query.getD q 0)) ≤ fuel := by
    unfold runs_left
    rw [sum_upto_getD query (fun t => (idx t).length)]
    rw [List.map_map] at hf
    exact hf
  obtain ⟨st1, why, rem1, h1, h2, h3, h4⟩ := wf_loop P L ifm query.length
    (fun q => idx (query.getD q 0)) hk1 fuel _ _ hsim (heap_inv_init P) hprog hfuel
  refine ⟨{ final := st1, stopped_by := why, query_line := query,
            result_lines := result_lines_of st1.ev.g }, rem1, ?_, h2, h3, h4, rfl, rfl⟩
  unfold process_query
  rw [if_neg (by omega), hset]
  simp only []
  rw [h1]

/-! ## The ranking of a query on a well-formed index -/

theorem log_score_postings_of_runs (rs : List run) (d : Int) :
    log_score (postings_of_runs rs) d = list_score d rs := by
  induction rs with
  | nil => simp [postings_of_runs, log_score, list_score]
  | cons r rs ih =>
    rw [postings_of_runs, log_score_app, ih, log_score_run, list_score_cons]
    rfl

theorem brute_force_score_eq (lists : List (List run)) (d : Int) :
    brute_force_score lists d = (lists.map (list_score d)).sum := by
  unfold brute_force_score
  induction lists with
  | nil => simp [brute_force_postings, log_score]
  | cons rs ls ih =>
    rw [brute_force_postings, log_score_app, ih, log_score_postings_of_runs]
    simp

theorem mem_postings_of_runs (rs : List run) (d : Int) :
    d ∈ (postings_of_runs rs).map Prod.fst ↔ ∃ r ∈ rs, d ∈ r.2 := by
  induction rs with
  | nil => simp [postings_of_runs]
  | cons r rs ih =>
    rw [postings_of_runs, List.map_append, List.mem_append, ih]
    simp [Function.comp_def]

theorem mem_brute_force_postings (lists : List (List run)) (d : Int) :
    d ∈ (brute_force_postings lists).map Prod.fst ↔ ∃ rs ∈ lists, ∃ r ∈ rs, d ∈ r.2 := by
  induction lists with
  | nil => simp [brute_force_postings]
  | cons rs ls ih =>
    rw [brute_force_postings, List.map_append, List.mem_append, ih, mem_postings_of_runs]
    simp

theorem mem_postings_of_log (log : List run_event) (d : Int) :
    d ∈ (postings_of_log log).map Prod.fst ↔ ∃ e ∈ log, d ∈ e.docids := by
  induction log with
  | nil => simp [postings_of_log]
  | cons e es ih =>
    rw [postings_of_log, List.map_append, List.mem_append, ih]
    simp [Function.comp_def]

theorem mem_consumed (log : List run_event) (q : Nat) (x : run) :
    x ∈ consumed log q ↔ ∃ e ∈ log, e.chosen = q ∧ run_of_event e = x := by
  unfold consumed
  simp [List.mem_map, List.mem_filter, and_assoc]

/-- With `k ≥ numDocs` every docid that received a posting is in the list. -/
theorem topk_all_touched (P : params_t) (e : evaluation) (hi : heap_inv P e)
    (hk : P.numDocs ≤ P.k) : ∀ d ∈ touched_docids e, d ∈ topk e.g := by
  have hT : (touched_docids e).toFinset ⊆ (Finset.range P.numDocs).image Int.ofNat := by
    intro d hd
    rw [List.mem_toFinset] at hd
    obtain ⟨h0, h1⟩ := hi.in_range d hd
    rw [Finset.mem_image]
    exact ⟨d.toNat, by rw [Finset.mem_range]; omega, Int.toNat_of_nonneg h0⟩
  have hcard : (touched_docids e).toFinset.card ≤ P.numDocs := by
    calc (touched_docids e).toFinset.card
        ≤ ((Finset.range P.numDocs).image Int.ofNat).card := Finset.card_le_card hT
      _ ≤ (Finset.range P.numDocs).card := Finset.card_image_le
      _ = P.numDocs := Finset.card_range _
  have hS : (topk e.g).toFinset ⊆ (touched_docids e).toFinset := by
    intro d hd
    rw [List.mem_toFinset] at hd ⊢
    exact hi.sub d hd
  have hSc : (topk e.g).toFinset.card = (topk e.g).length := List.toFinset_card_of_nodup hi.nodup
  have hcount := hi.count
  rw [← length_topk] at hcount
  have heq : (topk e.g).toFinset = (touched_docids e).toFinset :=
    Finset.eq_of_subset_of_card_le hS (by omega)
  intro d hd
  have : d ∈ (topk e.g).toFinset := by rw [heq, List.mem_toFinset]; exact hd
  exact List.mem_toFinset.mp this

theorem result_lines_docids (g : globals) :
    (result_lines_of g).map (fun x => x.2.1) = topk g := by
  unfold result_lines_of topk
  rw [List.map_map]
  rfl

theorem result_lines_scores (g : globals) :
    ∀ x ∈ result_lines_of g, x.2.2 = g.accumulators x.2.1 := by
  intro x hx
  unfold result_lines_of at hx
  rw [List.mem_map] at hx
  obtain ⟨t, _, rfl⟩ := hx
  rfl

theorem result_lines_ranks (g : globals) :
    (result_lines_of g).map (fun x => x.1) = List.range' 1 (result_lines_of g).length := by
  unfold result_lines_of
  rw [List.map_map, List.length_map, List.length_range, List.range_eq_range']
  have : ((fun x : Nat × Int × Int => x.1) ∘ fun t => (t + 1, g.fake_heap t,
      g.accumulators (g.fake_heap t))) = fun t => t + 1 := rfl
  rw [this]
  apply List.ext_getElem
  · simp
  · intro n h1 h2
    simp [List.getElem_range']
    omega

/-- The accumulators at the end of a query on a well-formed index, when the budget cutoff
is off and a run below the low-score cutoff is followed only by such runs. -/
theorem wf_query_scores (P : params_t) (L : definitions_h) (vocab ifm : Nat → Nat)
    (idx : Int → List run) (query : List Int) (fuel : Nat) (hk1 : 1 ≤ P.k)
    (hq : query.length ≤ MAX_QTERMS)
    (hwf : ∀ t ∈ query, term_encodes L vocab ifm t (idx t) ∧ well_formed_list P (idx t))
    (hcut : ∀ t ∈ query, ∀ pre r rest, idx t = pre ++ r :: rest → r.1 < P.lowScoreCutoff →
      ∀ x ∈ rest, x.1 < P.lowScoreCutoff)
    (hb : P.postingsCountCutoff = 0)
    (hf : ((query.map idx).map List.length).sum ≤ fuel) :
    ∃ r, process_query P L vocab ifm query fuel = outcome.returned r ∧
      heap_inv P r.final.ev ∧
      r.result_lines = result_lines_of r.final.ev.g ∧
      r.final.ev.posting_log = postings_of_log r.final.run_log ∧
      (∀ e ∈ r.final.run_log, e.chosen < query.length) ∧
      r.stopped_by ≠ stop_reason.postings_count_cutoff ∧
      (∀ q, q < query.length → ∃ rest,
        idx (query.getD q 0) = consumed r.final.run_log q ++ rest ∧
        (∀ x ∈ consumed r.final.run_log q, P.lowScoreCutoff ≤ x.1) ∧
        (∀ x ∈ rest, x.1 < P.lowScoreCutoff) ∧
        (r.stopped_by = stop_reason.terms_exhausted → rest = [])) ∧
      (∀ d, log_score r.final.ev.posting_log d =
        ((query.map idx).map
          (fun rs => list_score d (rs.filter (fun x => P.lowScoreCutoff ≤ x.1)))).sum) := by
  obtain ⟨r, rem, hr, hi, hp, he, _, hres⟩ :=
    wf_query P L vocab ifm idx query fuel hk1 hq hwf hf
  have hmem : ∀ q, q < query.length → query.getD q 0 ∈ query := by
    intro q hq
    rw [List.getD_eq_getElem _ _ hq]
    exact List.getElem_mem _
  have hnob : r.stopped_by ≠ stop_reason.postings_count_cutoff := by
    intro hsb
    rcases he with ⟨h1, _⟩ | ⟨h1, _⟩ | ⟨_, h2⟩
    · rw [hsb] at h1; cases h1
    · rw [hsb] at h1; cases h1
    · unfold over_budget at h2; omega
  have hpass : ∀ q, ∀ x ∈ consumed r.final.run_log q, P.lowScoreCutoff ≤ x.1 := by
    intro q x hx
    obtain ⟨e, he1, _, rfl⟩ := (mem_consumed _ _ _).mp hx
    exact hp.passed e he1
  have hrem : ∀ q, q < query.length → ∀ x ∈ rem q, x.1 < P.lowScoreCutoff := by
    intro q hq x hx
    rcases he with ⟨_, h2⟩ | ⟨_, h2⟩ | ⟨h1, _⟩
    · rw [h2 q hq] at hx; cases hx
    · cases hrq : rem q with
      | nil => rw [hrq] at hx; cases hx
      | cons r1 rest1 =>
        have hlt := h2 q r1 rest1 hq hrq
        rw [hrq] at hx
        rcases List.mem_cons.mp hx with rfl | hx
        · exact hlt
        · have hsp := hp.split q hq
          simp only [] at hsp
          rw [hrq] at hsp
          exact hcut _ (hmem q hq) _ r1 rest1 hsp hlt x hx
    · exact absurd h1 hnob
  have hrem_ex : r.stopped_by = stop_reason.terms_exhausted →
      ∀ q, q < query.length → rem q = [] := by
    intro hsb q hq
    rcases he with ⟨_, h2⟩ | ⟨h1, _⟩ | ⟨h1, _⟩
    · exact h2 q hq
    · rw [hsb] at h1; cases h1
    · rw [hsb] at h1; cases h1
  refine ⟨r, hr, hi, hres, hp.postings, hp.chosen, hnob, ?_, ?_⟩
  · intro q hq
    exact ⟨rem q, hp.split q hq, hpass q, hrem q hq, fun hsb => hrem_ex hsb q hq⟩
  · intro d
    rw [hp.postings, log_score_postings_of_log,
      list_score_by_position d query.length _ hp.chosen, List.map_map]
    have hsum := sum_upto_getD query
        (fun t => list_score d ((idx t).filter (fun x => P.lowScoreCutoff ≤ x.1)))
    have hfun : ((fun rs => list_score d (List.filter (fun x => decide (P.lowScoreCutoff ≤ x.1)) rs))
        ∘ idx) = fun t => list_score d ((idx t).filter (fun x => P.lowScoreCutoff ≤ x.1)) := rfl
    rw [hfun, ← hsum]
    apply sum_upto_congr
    intro q hq
    have hsp := hp.split q hq
    simp only [] at hsp
    rw [hsp, List.filter_append]
    have h1 : (consumed r.final.run_log q).filter (fun x => P.lowScoreCutoff ≤ x.1)
        = consumed r.final.run_log q := by
      rw [List.filter_eq_self]
      intro x hx
      simpa using hpass q x hx
    have h2 : (rem q).filter (fun x => decide (P.lowScoreCutoff ≤ x.1)) = [] := by
      rw [List.filter_eq_nil_iff]
      intro x hx
      have := hrem q hq x hx
      simp
      omega
    rw [h1, h2, List.append_nil]

/-! ## The small index is well formed -/

theorem demo_index_well_formed (P : params_t) (hP : P.numDocs = 10) :
    ∀ t ∈ [(1 : Int), 2],
      term_encodes demo_layout demo_vocab demo_if t (demo_index t) ∧
      well_formed_list P (demo_index t) := by
  intro t ht
  have h10 : ∀ d ∈ [(3 : Int), 4, 7], 0 ≤ d ∧ d < P.numDocs := by
    rw [hP]; decide
  simp only [List.mem_cons, List.mem_singleton, List.not_mem_nil, or_false] at ht
  rcases ht with rfl | rfl
  · refine ⟨by unfold term_encodes; decide, by decide, by decide, by decide, ?_⟩
    intro r hr d hd
    have hr1 : r = (8, [3, 4]) := by simpa [demo_index] using hr
    subst hr1
    exact h10 d (by simp at hd; rcases hd with rfl | rfl <;> simp)
  · refine ⟨by unfold term_encodes; decide, by decide, by decide, by decide, ?_⟩
    intro r hr d hd
    have hr1 : r = (6, [4, 7]) := by simpa [demo_index] using hr
    subst hr1
    exact h10 d (by simp at hd; rcases hd with rfl | rfl <;> simp)

theorem big_index_well_formed (P : params_t) (hP : P.numDocs = 10) :
    ∀ t ∈ [(0 : Int), 1, 2],
      term_encodes wide_layout big_vocab big_if t (big_index t) ∧
      well_formed_list P (big_index t) := by
  intro t ht
  have h10 : ∀ d ∈ [(5 : Int), 6], 0 ≤ d ∧ d < P.numDocs := by
    rw [hP]; decide
  simp only [List.mem_cons, List.mem_singleton, List.not_mem_nil, or_false] at ht
  rcases ht with rfl | rfl | rfl
  · refine ⟨by unfold term_encodes; decide, by decide, by decide, by decide, ?_⟩
    intro r hr d hd
    have hr1 : r = (1073741824, [5]) := by simpa [big_index] using hr
    subst hr1
    exact h10 d (by simp at hd; subst hd; simp)
  · refine ⟨by unfold term_encodes; decide, by decide, by decide, by decide, ?_⟩
    intro r hr d hd
    have hr1 : r = (1073741824, [6]) := by simpa [big_index] using hr
    subst hr1
    exact h10 d (by simp at hd; subst hd; simp)
  · refine ⟨by unfold term_encodes; decide, by decide, by decide, by decide, ?_⟩
    intro r hr d hd
    have hr1 : r = (2147483647, [5]) := by simpa [big_index] using hr
    subst hr1
    exact h10 d (by simp at hd; subst hd; simp)

/-! ## Postings of one qscore -/

/-- Postings of one qscore for docids not yet in the list, while the list has room: each
new docid goes to the front. -/
theorem apply_postings_equal (P : params_t) (s : Int) (hk1 : 1 ≤ P.k)
    (hs0 : 0 ≤ s) (hs1 : s < 2 ^ 31) :
    ∀ (ds : List Int) (e e1 : evaluation),
    e.g.items_in_fake_heap + ds.length ≤ P.k →
    (∀ x ∈ topk e.g, e.g.accumulators x = s) →
    (∀ d ∈ ds, e.g.accumulators d = 0 ∧ d ∉ topk e.g) → ds.Nodup →
    apply_postings P s ds e = some e1 →
    topk e1.g = ds.reverse ++ topk e.g ∧ ∀ x ∈ topk e1.g, e1.g.accumulators x = s := by
  intro ds
  induction ds with
  | nil =>
    intro e e1 _ hacc _ _ h
    simp only [apply_postings, Option.some.injEq] at h
    subst h
    exact ⟨by simp, hacc⟩
  | cons d ds ih =>
    intro e e1 hlen hacc hnew hnd h
    simp only [apply_postings] at h
    cases h1 : apply_posting P e d s with
    | none => rw [h1] at h; cases h
    | some e2 =>
      rw [h1] at h
      simp only [List.length_cons] at hlen
      obtain ⟨_, _, hacc2, htop2, _, _⟩ := apply_posting_spec P e e2 d s (by omega) hk1 h1
      obtain ⟨hd0, hdn⟩ := hnew d (List.mem_cons_self _ _)
      have hlk : (topk e.g).length ≤ P.k := by rw [length_topk]; omega
      have htop : topk e2.g = d :: topk e.g := by
        rw [htop2]
        rcases ins_abs_cases P.k (Function.update e.g.accumulators d (wrap_int (e.g.accumulators d + s)))
            (topk e.g) d (wrap_int (e.g.accumulators d + s)) hlk hk1 with
          ⟨hm, _⟩ | ⟨_, _, hh⟩ | ⟨_, hl, _⟩ | ⟨_, hl, _⟩
        · exact absurd hm hdn
        · rw [hh]
          cases hl : topk e.g with
          | nil => rfl
          | cons x xs =>
            have hx : x ∈ topk e.g := by rw [hl]; exact List.mem_cons_self _ _
            have hxd : x ≠ d := fun e0 => hdn (e0 ▸ hx)
            have : wrap_int (e.g.accumulators d + s) ≥
                Function.update e.g.accumulators d (wrap_int (e.g.accumulators d + s)) x := by
              rw [Function.update_noteq hxd, hacc x hx, hd0, zero_add,
                wrap_int_of_range s (by omega) hs1]
            simp only [ins_at, if_pos this]
        · rw [length_topk] at hl; omega
        · rw [length_topk] at hl; omega
      have hit : e2.g.items_in_fake_heap = e.g.items_in_fake_heap + 1 := by
        rw [← length_topk, htop, List.length_cons, length_topk]
      obtain ⟨h3, h4⟩ := ih e2 e1 (by omega)
        (fun x hx => by
          rw [htop] at hx
          rw [hacc2]
          rcases List.mem_cons.mp hx with rfl | hx
          · rw [Function.update_same, hd0, zero_add]
            exact wrap_int_of_range s (by omega) hs1
          · rw [Function.update_noteq (fun e0 : x = d => hdn (by rw [← e0]; exact hx)),
              hacc x hx])
        (fun x hx => by
          have hxd : x ≠ d := fun e0 => (List.nodup_cons.mp hnd).1 (e0 ▸ hx)
          obtain ⟨hx0, hxn⟩ := hnew x (List.mem_cons_of_mem _ hx)
          rw [hacc2, Function.update_noteq hxd, htop]
          exact ⟨hx0, fun hm => by
            rcases List.mem_cons.mp hm with h5 | h5
            · exact hxd h5
            · exact hxn h5⟩)
        (List.nodup_cons.mp hnd).2 h
      refine ⟨?_, h4⟩
      rw [h3, htop]
      simp

theorem result_lines_pairs (g : globals) :
    (result_lines_of g).map (fun x => x.2) = ranking g := by
  unfold result_lines_of ranking topk
  rw [List.map_map, List.map_map]
  rfl

/-! ## The count of postings processed -/

theorem running_counts_concat (ls : List Int) (l : Int) : ∀ (start : Nat),
    running_counts start (ls ++ [l]) = running_counts start ls ++
      [((((running_counts start ls).getLastD start : Nat) : Int) + l) % 2 ^ 64 |>.toNat] := by
  induction ls with
  | nil => intro start; rfl
  | cons x xs ih =>
    intro start
    rw [List.cons_append, running_counts, ih, running_counts, List.getLastD_cons,
      List.cons_append]

theorem apply_posting_log (P : params_t) (e e1 : evaluation) (d s : Int)
    (h : apply_posting P e d s = some e1) : e1.posting_log = e.posting_log ++ [(d, s)] := by
  unfold apply_posting at h
  by_cases hr : 0 ≤ d ∧ d < P.numDocs
  · rw [if_pos hr] at h
    dsimp only at h
    split at h
    · cases h
    · simp only [Option.some.injEq] at h
      subst h
      rfl
  · rw [if_neg hr] at h
    cases h

theorem apply_postings_log (P : params_t) (s : Int) :
    ∀ (ds : List Int) (e e1 : evaluation), apply_postings P s ds e = some e1 →
      e1.posting_log = e.posting_log ++ ds.map (fun d => (d, s)) := by
  intro ds
  induction ds with
  | nil =>
    intro e e1 h
    simp only [apply_postings, Option.some.injEq] at h
    subst h
    simp
  | cons d ds ih =>
    intro e e1 h
    simp only [apply_postings] at h
    cases h1 : apply_posting P e d s with
    | none => rw [h1] at h; cases h
    | some e2 =>
      rw [h1] at h
      rw [ih e2 e1 h, apply_posting_log P e e2 d s h1]
      simp

theorem budget_inv_end_of_run (P : params_t) (L : definitions_h) (ifm : Nat → Nat)
    (st : query_state) (c : Nat) (m : Int) (ev1 : evaluation) (hb : budget_inv st)
    (hap : apply_postings P m (read_docids L ifm (st.term_control_block c).current_run_len.toNat
      (st.term_control_block c).if_pointer) st.ev = some ev1) :
    budget_inv (end_of_run st c m
      ((st.term_control_block c).if_pointer +
        (st.term_control_block c).current_run_len.toNat * L.BYTES_FOR_RUN_LEN)
      (read_docids L ifm (st.term_control_block c).current_run_len.toNat
        (st.term_control_block c).if_pointer) ev1) := by
  constructor
  · unfold end_of_run
    simp only [List.map_append, List.map_cons, List.map_nil]
    rw [running_counts_concat, ← hb.counts, ← hb.current]
  · unfold end_of_run
    simp only [List.map_append, List.map_cons, List.map_nil]
    rw [List.getLastD_concat]
  · unfold end_of_run
    simp only []
    rw [postings_of_log_append, apply_postings_log P m _ _ _ hap, hb.applied]
    simp [postings_of_log]
  · intro e he
    unfold end_of_run at he
    simp only [List.mem_append, List.mem_singleton] at he
    rcases he with he | rfl
    · exact hb.whole e he
    · simp only []
      exact length_read_docids L ifm _ _

theorem budget_inv_after_run (L : definitions_h) (ifm : Nat → Nat) (st : query_state) (c : Nat)
    (hb : budget_inv st) : budget_inv (after_run L ifm st c) := by
  constructor
  · rw [after_run_run_log]; exact hb.counts
  · rw [after_run_run_log, after_run_postings_processed]; exact hb.current
  · rw [after_run_run_log, after_run_ev]; exact hb.applied
  · intro e he; rw [after_run_run_log] at he; exact hb.whole e he

theorem not_over_of_log (P : params_t) (st : query_state) (hb : budget_inv st)
    (hu : ∀ e ∈ st.run_log, ¬ over_count P e.postings_processed) : ¬ over_budget P st := by
  intro ho
  unfold over_budget at ho
  rw [hb.current] at ho
  rcases List.eq_nil_or_concat st.run_log with h | ⟨l, e, h⟩
  · rw [h] at ho
    simp only [List.map_nil, List.getLastD_nil] at ho
    omega
  · rw [List.concat_eq_append] at h
    rw [h, List.map_append, List.map_cons, List.map_nil, List.getLastD_concat] at ho
    exact hu e (by rw [h]; simp) ho

/-! ## The decoder and big-endian encodings -/

theorem shl8_mod_lor (r b : Nat) (hb : b < 256) :
    ((r <<< 8) % 2 ^ 32) ||| b = (r % 2 ^ 24) * 256 + b := by
  have h1 : (r <<< 8) % 2 ^ 32 = (r % 2 ^ 24) <<< 8 := by
    rw [Nat.shiftLeft_eq, Nat.shiftLeft_eq]
    omega
  have h2 := Nat.mul_add_lt_is_or (i := 8) (b := b) (by simpa using hb) (r % 2 ^ 24)
  rw [h1, Nat.shiftLeft_eq, Nat.mul_comm, ← h2]

theorem make_ull_loop_eq (data : Nat → Nat) :
    ∀ (n i r : Nat), r < 2 ^ 32 →
      make_ull_loop data n i r
        = (r * 256 ^ n + big_endian_value ((List.range' i n).map (fun j => data j % 256)))
            % 2 ^ 32 := by
  intro n
  induction n with
  | zero =>
    intro i r hr
    simp only [make_ull_loop, List.range'_zero, List.map_nil, big_endian_value, pow_zero,
      Nat.mul_one, Nat.add_zero]
    exact (Nat.mod_eq_of_lt hr).symm
  | succ n ih =>
    intro i r hr
    have hb : data i % 256 < 256 := Nat.mod_lt _ (by norm_num)
    rw [make_ull_loop, shl8_mod_lor r _ hb, ih (i + 1) _ (by omega)]
    simp only [List.range'_succ, List.map_cons, big_endian_value, List.length_map,
      List.length_range']
    have e : (r % 2 ^ 24 * 256 + data i % 256) * 256 ^ n
        ≡ r * 256 ^ (n + 1) + data i % 256 * 256 ^ n [MOD 2 ^ 32] := by
      have e1 : r % 2 ^ 24 * 256 ≡ r * 256 [MOD 2 ^ 32] := by
        unfold Nat.ModEq; omega
      have e2 := (e1.add_right (data i % 256)).mul_right (256 ^ n)
      refine e2.trans ?_
      have : (r * 256 + data i % 256) * 256 ^ n = r * 256 ^ (n + 1) + data i % 256 * 256 ^ n := by
        ring
      rw [this]
    have e3 := e.add_right (big_endian_value (List.map (fun j => data j % 256) (List.range' (i + 1) n)))
    unfold Nat.ModEq at e3
    rw [e3, Nat.add_assoc]

theorem big_endian_length : ∀ (n x : Nat), (big_endian n x).length = n := by
  intro n
  induction n with
  | zero => intro x; rfl
  | succ n ih => intro x; simp [big_endian, ih]

theorem big_endian_lt : ∀ (n x b : Nat), b ∈ big_endian n x → b < 256 := by
  intro n
  induction n with
  | zero => intro x b hb; simp [big_endian] at hb
  | succ n ih =>
    intro x b hb
    simp only [big_endian, List.mem_cons] at hb
    rcases hb with rfl | hb
    · exact Nat.mod_lt _ (by norm_num)
    · exact ih x b hb

theorem big_endian_value_big_endian : ∀ (n x : Nat),
    big_endian_value (big_endian n x) = x % 256 ^ n := by
  intro n
  induction n with
  | zero => intro x; simp [big_endian, big_endian_value, Nat.mod_one]
  | succ n ih =>
    intro x
    simp only [big_endian, big_endian_value, big_endian_length, ih]
    have h := Nat.mod_pow_succ (b := 256) (k := n) (x := x)
    rw [h]; ring

theorem map_bytes_range (l : List Nat) (h : ∀ b ∈ l, b < 256) :
    (List.range' 0 l.length).map (fun j => bytes l j % 256) = l := by
  apply List.ext_getElem
  · simp
  · intro i h1 h2
    simp only [List.getElem_map, List.getElem_range', bytes]
    simp only [List.length_map, List.length_range'] at h1
    rw [Nat.zero_add, Nat.one_mul, List.getD_eq_getElem _ _ h1]
    exact Nat.mod_eq_of_lt (h _ (List.getElem_mem _))

theorem make_ull_big_endian (n x : Nat) :
    make_ull_from_n_bytes (bytes (big_endian n x)) n = x % 256 ^ n % 2 ^ 32 := by
  unfold make_ull_from_n_bytes
  rw [make_ull_loop_eq _ n 0 0 (by norm_num)]
  have h := map_bytes_range (big_endian n x) (big_endian_lt n x)
  rw [big_endian_length] at h
  rw [h, big_endian_value_big_endian]
  simp

/-! ## The terms that are not zapped -/

/-- The terms that are not zapped, in order. -/
theorem copy_unzapped_eq (qterms : List (List Nat)) (zap : Nat → Bool) :
    ∀ (n t : Nat), copy_unzapped qterms zap n t
      = ((List.range' t n).filter (fun i => !zap i)).map (fun i => qterms.getD i []) := by
  intro n
  induction n with
  | zero => intro t; rfl
  | succ n ih =>
    intro t
    rw [copy_unzapped, ih, List.range'_succ, List.filter_cons]
    cases h : zap t <;> simp

theorem copy_unzapped_range (qterms : List (List Nat)) (zap : Nat → Bool) :
    copy_unzapped qterms zap qterms.length 0
      = ((List.range qterms.length).filter (fun i => !zap i)).map
          (fun i => qterms.getD i []) := by
  rw [copy_unzapped_eq, List.range_eq_range']

theorem copy_unzapped_sublist (qterms : List (List Nat)) (zap : Nat → Bool) :
    (copy_unzapped qterms zap qterms.length 0).Sublist qterms := by
  rw [copy_unzapped_range]
  have h := range_map_getD qterms [] (fun x => x)
  simp only [List.map_id'] at h
  conv => rhs; rw [← h]
  exact (List.filter_sublist _).map _

theorem mem_copy_unzapped (qterms : List (List Nat)) (zap : Nat → Bool) (wd : List Nat) :
    wd ∈ copy_unzapped qterms zap qterms.length 0
      ↔ ∃ i, i < qterms.length ∧ zap i = false ∧ qterms.getD i [] = wd := by
  rw [copy_unzapped_range]
  simp only [List.mem_map, List.mem_filter, List.mem_range, Bool.not_eq_true']
  constructor
  · rintro ⟨i, ⟨h1, h2⟩, h3⟩; exact ⟨i, h1, h2, h3⟩
  · rintro ⟨i, h1, h2, h3⟩; exact ⟨i, ⟨h1, h2⟩, h3⟩

theorem copy_unzapped_none (qterms : List (List Nat)) :
    copy_unzapped qterms (fun _ => false) qterms.length 0 = qterms := by
  rw [copy_unzapped_range]
  have h := range_map_getD qterms [] (fun x => x)
  simp only [List.map_id'] at h
  simpa using h

/-- Zapping one more position removes one occurrence of its term. -/
theorem copy_unzapped_zap (qterms : List (List Nat)) (zap : Nat → Bool) (u : Nat)
    (hu : u < qterms.length) (hz : zap u = false) :
    (copy_unzapped qterms zap qterms.length 0).Perm
      (qterms.getD u [] ::
        copy_unzapped qterms (fun i => if i = u then true else zap i) qterms.length 0) := by
  rw [copy_unzapped_range, copy_unzapped_range]
  have hmem : u ∈ (List.range qterms.length).filter (fun i => !zap i) := by
    simp [List.mem_filter, hu, hz]
  have hnd : ((List.range qterms.length).filter (fun i => !zap i)).Nodup :=
    (List.nodup_range _).filter _
  have he : (List.range qterms.length).filter (fun i => !(if i = u then true else zap i))
      = ((List.range qterms.length).filter (fun i => !zap i)).erase u := by
    rw [hnd.erase_eq_filter, List.filter_filter]
    apply List.filter_congr
    intro i _
    by_cases hi : i = u <;> simp [hi]
  rw [he]
  exact ((List.perm_cons_erase hmem).map _)

theorem copy_unzapped_zap_outside (qterms : List (List Nat)) (zap : Nat → Bool) (u : Nat)
    (hu : qterms.length ≤ u ∨ zap u = true) :
    copy_unzapped qterms (fun i => if i = u then true else zap i) qterms.length 0
      = copy_unzapped qterms zap qterms.length 0 := by
  rw [copy_unzapped_range, copy_unzapped_range]
  congr 1
  apply List.filter_congr
  intro i hi
  rw [List.mem_range] at hi
  by_cases h : i = u
  · subst h
    rcases hu with hu | hu
    · omega
    · simp [hu]
  · simp [h]

/-! ## The count of distinct terms -/

theorem distinct_count_perm {l l' : List (List Nat)} (h : l.Perm l') :
    distinct_count l = distinct_count l' := by
  unfold distinct_count
  rw [(h.filter _).length_eq, ((h.filter _).dedup).length_eq]

theorem dedup_length_cons_le (x : List Nat) (l : List (List Nat)) :
    l.dedup.length ≤ (x :: l).dedup.length ∧ (x :: l).dedup.length ≤ l.dedup.length + 1 := by
  by_cases h : x ∈ l
  · rw [List.dedup_cons_of_mem h]; omega
  · rw [List.dedup_cons_of_not_mem h]; simp

theorem distinct_count_cons (x : List Nat) (l : List (List Nat)) :
    distinct_count l ≤ distinct_count (x :: l) ∧
    distinct_count (x :: l) ≤ distinct_count l + 1 := by
  unfold distinct_count
  rw [List.filter_cons, List.filter_cons]
  cases h : compound_term x
  · have := dedup_length_cons_le x (l.filter (fun wd => !compound_term wd))
    simp only [Bool.not_false, if_true, Bool.false_eq_true, if_false]
    omega
  · simp only [Bool.not_true, if_true, Bool.false_eq_true, if_false, List.length_cons]
    omega

theorem distinct_count_sublist {l l' : List (List Nat)} (h : l.Sublist l') :
    distinct_count l ≤ distinct_count l' := by
  induction h with
  | slnil => exact Nat.le_refl _
  | cons a _ ih => exact Nat.le_trans ih (distinct_count_cons a _).1
  | @cons₂ l₁ l₂ a hs ih =>
    unfold distinct_count at ih ⊢
    rw [List.filter_cons, List.filter_cons, List.filter_cons, List.filter_cons]
    cases h : compound_term a
    · simp only [Bool.not_false, if_true, Bool.false_eq_true, if_false]
      have hsub : (l₁.filter (fun wd => !compound_term wd)).Sublist
          (l₂.filter (fun wd => !compound_term wd)) := hs.filter _
      have h1 : (l₁.filter compound_term).length ≤ (l₂.filter compound_term).length :=
        (hs.filter _).length_le
      have h2 : (a :: l₁.filter (fun wd => !compound_term wd)).dedup.length
          ≤ (a :: l₂.filter (fun wd => !compound_term wd)).dedup.length := by
        rw [← List.card_toFinset, ← List.card_toFinset]
        apply Finset.card_le_card
        intro y hy
        simp only [List.toFinset_cons, Finset.mem_insert, List.mem_toFinset] at hy ⊢
        rcases hy with hy | hy
        · exact Or.inl hy
        · exact Or.inr (hsub.subset hy)
      omega
    · simp only [Bool.not_true, if_true, Bool.false_eq_true, if_false, List.length_cons]
      have h1 : (l₁.filter compound_term).length ≤ (l₂.filter compound_term).length :=
        (hs.filter _).length_le
      have h2 : (l₁.filter (fun wd => !compound_term wd)).dedup.length
          ≤ (l₂.filter (fun wd => !compound_term wd)).dedup.length := by
        rw [← List.card_toFinset, ← List.card_toFinset]
        apply Finset.card_le_card
        intro y hy
        simp only [List.mem_toFinset] at hy ⊢
        exact (hs.filter _).subset hy
      omega

theorem distinct_count_concat (l : List (List Nat)) (x : List Nat) :
    distinct_count (l ++ [x])
      = distinct_count l + (if compound_term x = true ∨ x ∉ l then 1 else 0) := by
  have hp : (l ++ [x]).Perm (x :: l) := by
    exact List.perm_append_comm
  rw [distinct_count_perm hp]
  unfold distinct_count
  rw [List.filter_cons, List.filter_cons]
  cases h : compound_term x
  · simp only [Bool.not_false, if_true, Bool.false_eq_true, if_false, false_or]
    by_cases hx : x ∈ l
    · have hx' : x ∈ l.filter (fun wd => !compound_term wd) := by
        simp [List.mem_filter, hx, h]
      rw [List.dedup_cons_of_mem hx']
      simp [hx]
    · have hx' : x ∉ l.filter (fun wd => !compound_term wd) := by
        intro hc; exact hx (List.mem_filter.mp hc).1
      rw [List.dedup_cons_of_not_mem hx', if_pos hx, List.length_cons]
      omega
  · simp only [Bool.not_true, if_true, Bool.false_eq_true, if_false, List.length_cons,
      true_or]
    omega

theorem repeated_loop_iff (qterms : List (List Nat)) (t : Nat) :
    ∀ u, repeated_loop qterms t u = true
      ↔ ∃ j, j < u ∧ qterms.getD t [] = qterms.getD j [] := by
  intro u
  induction u with
  | zero => simp [repeated_loop]
  | succ u ih =>
    rw [repeated_loop]
    by_cases h : qterms.getD t [] = qterms.getD u []
    · rw [if_pos h]
      exact ⟨fun _ => ⟨u, Nat.lt_succ_self u, h⟩, fun _ => rfl⟩
    · rw [if_neg h, ih]
      constructor
      · rintro ⟨j, hj, e⟩; exact ⟨j, by omega, e⟩
      · rintro ⟨j, hj, e⟩
        have : j ≠ u := fun hju => h (hju ▸ e)
        exact ⟨j, by omega, e⟩

theorem count_distinct_terms_eq (qterms : List (List Nat)) :
    ∀ (n t : Nat) (d : Int), count_distinct_terms qterms n t d
      = d + (((List.range' t n).filter (counted qterms)).length : Int) := by
  intro n
  induction n with
  | zero => intro t d; simp [count_distinct_terms]
  | succ n ih =>
    intro t d
    rw [count_distinct_terms, ih, List.range'_succ, List.filter_cons]
    unfold counted
    cases hc : compound_term (qterms.getD t [])
    · cases hr : repeated_loop qterms t t
      · simp; omega
      · simp
    · simp; omega

theorem counted_concat_lt (l : List (List Nat)) (x : List Nat) (t : Nat) (ht : t < l.length) :
    counted (l ++ [x]) t = counted l t := by
  have hg : ∀ j, j ≤ t → (l ++ [x]).getD j [] = l.getD j [] := by
    intro j hj
    rw [List.getD_append _ _ _ _ (by omega)]
  have hr : repeated_loop (l ++ [x]) t t = repeated_loop l t t := by
    rw [Bool.eq_iff_iff, repeated_loop_iff, repeated_loop_iff]
    constructor
    · rintro ⟨j, hj, e⟩
      exact ⟨j, hj, by rw [← hg t (Nat.le_refl t), ← hg j (by omega)]; exact e⟩
    · rintro ⟨j, hj, e⟩
      exact ⟨j, hj, by rw [hg t (Nat.le_refl t), hg j (by omega)]; exact e⟩
  unfold counted
  rw [hg t (Nat.le_refl t), hr]

theorem counted_concat_last (l : List (List Nat)) (x : List Nat) :
    counted (l ++ [x]) l.length = true ↔ (compound_term x = true ∨ x ∉ l) := by
  have hx : (l ++ [x]).getD l.length [] = x := by
    rw [List.getD_append_right _ _ _ _ (Nat.le_refl _)]; simp
  unfold counted
  rw [hx, Bool.or_eq_true, Bool.not_eq_true', ← Bool.not_eq_true, repeated_loop_iff, hx]
  apply or_congr Iff.rfl
  apply not_congr
  constructor
  · rintro ⟨j, hj, e⟩
    rw [List.getD_append _ _ _ _ hj, List.getD_eq_getElem _ _ hj] at e
    rw [e]; exact List.getElem_mem _
  · intro hm
    obtain ⟨j, hj, e⟩ := List.getElem_of_mem hm
    exact ⟨j, hj, by rw [List.getD_append _ _ _ _ hj, List.getD_eq_getElem _ _ hj, e]⟩

/-- The count of the code is the count of the specification. -/
theorem count_distinct_terms_spec (qterms : List (List Nat)) :
    count_distinct_terms qterms qterms.length 0 0 = (distinct_count qterms : Int) := by
  rw [count_distinct_terms_eq, Int.zero_add, ← List.range_eq_range']
  congr 1
  induction qterms using List.reverseRecOn with
  | nil => rfl
  | append_singleton l x ih =>
    rw [List.length_append, List.length_singleton, List.range_succ, List.filter_append,
      List.length_append, distinct_count_concat, ← ih]
    congr 1
    · congr 1
      apply List.filter_congr
      intro t ht
      exact counted_concat_lt l x t (List.mem_range.mp ht)
    · rw [List.filter_cons]
      by_cases h : compound_term x = true ∨ x ∉ l
      · rw [if_pos ((counted_concat_last l x).mpr h), if_pos h]; rfl
      · rw [if_neg (fun hc => h ((counted_concat_last l x).mp hc)), if_neg h]; rfl

/-! ## Loop rules of the shortening heuristics -/

/-- A property that every step of heuristic 1 carries from position `u` to `u + 1` holds
after the loop. -/
theorem remove_nonexistent_rule (B : shortening_bits) (qoenv : query_processing_environment_t)
    (qterms : List (List Nat)) (P : Nat → shortening_state → Prop)
    (hskip : ∀ u s, P u s → compound_term (qterms.getD u []) = true → P (u + 1) s)
    (hzap : ∀ u s, P u s → compound_term (qterms.getD u []) = false →
      qoenv.lookup_word (qterms.getD u []) = none →
      P (u + 1) { zap_term heuristic.noexist B.SHORTEN_NOEXIST u s with
                  freaks := fun i => if i = u then 0
                    else (zap_term heuristic.noexist B.SHORTEN_NOEXIST u s).freaks i })
    (hkeep : ∀ u s c, P u s → compound_term (qterms.getD u []) = false →
      qoenv.lookup_word (qterms.getD u []) = some c →
      P (u + 1) { s with freaks := fun i => if i = u then c else s.freaks i }) :
    ∀ n u s, P u s → P (u + n) (remove_nonexistent B qoenv qterms n u s) := by
  intro n
  induction n with
  | zero => intro u s h; exact h
  | succ n ih =>
    intro u s h
    rw [remove_nonexistent, show u + (n + 1) = (u + 1) + n by omega]
    dsimp only
    cases hc : compound_term (qterms.getD u [])
    · rw [if_neg (by simp)]
      cases hl : qoenv.lookup_word (qterms.getD u []) with
      | none => exact ih _ _ (hzap u s h hc hl)
      | some c => exact ih _ _ (hkeep u s c h hc hl)
    · rw [if_pos rfl]
      exact ih _ _ (hskip u s h hc)

/-- A property that every removal of heuristic 3 keeps holds after the loop, and the
counter does not fall below the threshold. -/
theorem remove_all_digits_rule (B : shortening_bits) (qoenv : query_processing_environment_t)
    (qterms : List (List Nat)) (P : shortening_state → Prop)
    (hzap : ∀ u s, P s → s.zap u = false → qoenv.query_shortening_threshold < s.distinct_terms →
      compound_term (qterms.getD u []) = false →
      P (zap_term heuristic.all_digits B.SHORTEN_ALL_DIGITS u s)) :
    ∀ n u s, P s → qoenv.query_shortening_threshold < s.distinct_terms →
      P (remove_all_digits B qoenv qterms n u s) ∧
      qoenv.query_shortening_threshold ≤ (remove_all_digits B qoenv qterms n u s).distinct_terms := by
  intro n
  induction n with
  | zero => intro u s h hd; exact ⟨h, Int.le_of_lt hd⟩
  | succ n ih =>
    intro u s h hd
    rw [remove_all_digits]
    cases hz : s.zap u
    · rw [if_neg (by simp)]
      dsimp only
      cases hc : compound_term (qterms.getD u [])
      · rw [if_neg (by simp)]
        cases ha : all_digits (qterms.getD u [])
        · rw [if_neg (by simp)]; exact ih _ _ h hd
        · rw [if_pos rfl]
          have h1 := hzap u s h hz hd hc
          by_cases hb : (zap_term heuristic.all_digits B.SHORTEN_ALL_DIGITS u s).distinct_terms
              ≤ qoenv.query_shortening_threshold
          · rw [if_pos hb]
            refine ⟨h1, ?_⟩
            simp only [zap_term] at hb ⊢
            omega
          · rw [if_neg hb]
            exact ih _ _ h1 (by omega)
      · rw [if_pos rfl]; exact ih _ _ h hd
    · rw [if_pos rfl]; exact ih _ _ h hd

/-- A property that every removal of heuristic 4 keeps holds after the loop, and the
counter does not fall below the threshold. -/
theorem remove_high_freq_rule (B : shortening_bits) (qoenv : query_processing_environment_t)
    (P : shortening_state → Prop)
    (hzap : ∀ v s, P s → s.zap v = false → qoenv.query_shortening_threshold < s.distinct_terms →
      rare_term_guard qoenv s.cg_qwd_cnt (s.freaks v) = false →
      P (zap_term heuristic.high_freq B.SHORTEN_HIGH_FREQ v s)) :
    ∀ freaki s, P s → qoenv.query_shortening_threshold < s.distinct_terms →
      P (remove_high_freq B qoenv freaki s) ∧
      qoenv.query_shortening_threshold ≤ (remove_high_freq B qoenv freaki s).distinct_terms := by
  intro freaki
  induction freaki with
  | nil => intro s h hd; exact ⟨h, Int.le_of_lt hd⟩
  | cons v freaki ih =>
    intro s h hd
    rw [remove_high_freq]
    cases hz : s.zap v
    · rw [if_neg (by simp)]
      cases hg : rare_term_guard qoenv s.cg_qwd_cnt (s.freaks v)
      · rw [if_neg (by simp)]
        dsimp only
        have h1 := hzap v s h hz hd hg
        by_cases hb : (zap_term heuristic.high_freq B.SHORTEN_HIGH_FREQ v s).distinct_terms
            ≤ qoenv.query_shortening_threshold
        · rw [if_pos hb]
          refine ⟨h1, ?_⟩
          simp only [zap_term] at hb ⊢
          omega
        · rw [if_neg hb]
          exact ih _ h1 (by omega)
      · rw [if_pos rfl]; exact ⟨h, Int.le_of_lt hd⟩
    · rw [if_pos rfl]; exact ih _ h hd

/-- From heuristic 1 to heuristic 3. -/
theorem after_all_digits_rule (B : shortening_bits) (qoenv : query_processing_environment_t)
    (qterms : List (List Nat)) (P : shortening_state → Prop)
    (hzap : ∀ u s, P s → s.zap u = false → qoenv.query_shortening_threshold < s.distinct_terms →
      compound_term (qterms.getD u []) = false →
      P (zap_term heuristic.all_digits B.SHORTEN_ALL_DIGITS u s))
    (h : P (after_nonexistent B qoenv qterms)) : P (after_all_digits B qoenv qterms) := by
  unfold after_all_digits
  dsimp only
  split
  · next hd => exact (remove_all_digits_rule B qoenv qterms P hzap _ _ _ h hd).1
  · exact h

/-- From heuristic 3 to heuristic 4. -/
theorem after_high_freq_rule (B : shortening_bits)
    (qsort_r : (Nat → Nat) → List Nat → List Nat) (qoenv : query_processing_environment_t)
    (qterms : List (List Nat)) (P : shortening_state → Prop)
    (hzap : ∀ v s, P s → s.zap v = false → qoenv.query_shortening_threshold < s.distinct_terms →
      rare_term_guard qoenv s.cg_qwd_cnt (s.freaks v) = false →
      P (zap_term heuristic.high_freq B.SHORTEN_HIGH_FREQ v s))
    (h : P (after_all_digits B qoenv qterms)) : P (after_high_freq B qsort_r qoenv qterms) := by
  unfold after_high_freq
  dsimp only
  split
  · next hd => exact (remove_high_freq_rule B qoenv P hzap _ _ h hd).1
  · exact h

/-- Heuristics 3 and 4 run only above the threshold and stop at it. -/
theorem after_high_freq_cases (B : shortening_bits)
    (qsort_r : (Nat → Nat) → List Nat → List Nat) (qoenv : query_processing_environment_t)
    (qterms : List (List Nat)) :
    (qoenv.query_shortening_threshold < (after_nonexistent B qoenv qterms).distinct_terms ∧
      qoenv.query_shortening_threshold
        ≤ (after_high_freq B qsort_r qoenv qterms).distinct_terms) ∨
    ((after_nonexistent B qoenv qterms).distinct_terms ≤ qoenv.query_shortening_threshold ∧
      after_high_freq B qsort_r qoenv qterms = after_nonexistent B qoenv qterms) := by
  by_cases h1 : qoenv.query_shortening_threshold
      < (after_nonexistent B qoenv qterms).distinct_terms
  · left
    refine ⟨h1, ?_⟩
    have h3 : qoenv.query_shortening_threshold
        ≤ (after_all_digits B qoenv qterms).distinct_terms := by
      unfold after_all_digits
      dsimp only
      rw [if_pos h1]
      exact (remove_all_digits_rule B qoenv qterms (fun _ => True)
        (fun _ _ _ _ _ _ => trivial) _ _ _ trivial h1).2
    unfold after_high_freq
    dsimp only
    split
    · next hd =>
      exact (remove_high_freq_rule B qoenv (fun _ => True)
        (fun _ _ _ _ _ _ => trivial) _ _ trivial hd).2
    · exact h3
  · right
    have e3 : after_all_digits B qoenv qterms = after_nonexistent B qoenv qterms := by
      unfold after_all_digits
      dsimp only
      rw [if_neg h1]
    refine ⟨by omega, ?_⟩
    unfold after_high_freq
    dsimp only
    rw [e3, if_neg h1]

/-! ## Heuristic 1 and the counter of distinct terms -/

/-- The counter never exceeds the number of distinct terms left: one removal lowers
the counter by one and the number of distinct terms by at most one. -/
theorem distinct_terms_le_zap (qterms : List (List Nat)) (why : heuristic) (bit u : Nat)
    (s : shortening_state)
    (h : s.distinct_terms ≤ (distinct_count (copy_unzapped qterms s.zap qterms.length 0) : Int)) :
    (zap_term why bit u s).distinct_terms
      ≤ (distinct_count
          (copy_unzapped qterms (zap_term why bit u s).zap qterms.length 0) : Int) := by
  simp only [zap_term]
  by_cases hu : u < qterms.length ∧ s.zap u = false
  · have hp := copy_unzapped_zap qterms s.zap u hu.1 hu.2
    have h1 := distinct_count_perm hp
    have h2 := (distinct_count_cons (qterms.getD u [])
      (copy_unzapped qterms (fun i => if i = u then true else s.zap i) qterms.length 0)).2
    omega
  · have ho : qterms.length ≤ u ∨ s.zap u = true := by
      by_cases h1 : u < qterms.length
      · right
        cases hz : s.zap u
        · exact absurd ⟨h1, hz⟩ hu
        · rfl
      · left; omega
    rw [copy_unzapped_zap_outside qterms s.zap u ho]
    omega

theorem nonexistent_inv_init (B : shortening_bits) (qoenv : query_processing_environment_t)
    (qterms : List (List Nat)) (d : Int) :
    nonexistent_inv B qoenv qterms 0 (shortening_init qterms.length d) where
  zap_iff := by intro i; simp [shortening_init]
  freaks_found := by intro i c hi; omega
  freaks_other := by intro i _; rfl
  codes := by simp [shortening_init]
  log := by intro e he; simp [shortening_init] at he

theorem nonexistent_inv_skip (B : shortening_bits) (qoenv : query_processing_environment_t)
    (qterms : List (List Nat)) (u : Nat) (s : shortening_state)
    (h : nonexistent_inv B qoenv qterms u s)
    (hc : compound_term (qterms.getD u []) = true) :
    nonexistent_inv B qoenv qterms (u + 1) s where
  zap_iff := by
    intro i
    rw [h.zap_iff]
    constructor
    · rintro ⟨h1, h2, h3⟩; exact ⟨by omega, h2, h3⟩
    · rintro ⟨h1, h2, h3⟩
      have : i ≠ u := fun e => by rw [e, hc] at h2; cases h2
      exact ⟨by omega, h2, h3⟩
  freaks_found := by
    intro i c hi h2 h3
    have : i ≠ u := fun e => by rw [e, hc] at h2; cases h2
    exact h.freaks_found i c (by omega) h2 h3
  freaks_other := by
    intro i hi
    by_cases e : i = u
    · exact h.freaks_other i (Or.inl (by omega))
    · rcases hi with hi | hi
      · exact h.freaks_other i (Or.inl (by omega))
      · exact h.freaks_other i (Or.inr hi)
  codes := by
    rw [h.codes]
    apply if_congr _ rfl rfl
    constructor
    · rintro ⟨i, h1, h2, h3⟩; exact ⟨i, by omega, h2, h3⟩
    · rintro ⟨i, h1, h2, h3⟩
      have : i ≠ u := fun e => by rw [e, hc] at h2; cases h2
      exact ⟨i, by omega, h2, h3⟩
  log := h.log

theorem nonexistent_inv_zap (B : shortening_bits) (qoenv : query_processing_environment_t)
    (qterms : List (List Nat)) (u : Nat) (s : shortening_state)
    (h : nonexistent_inv B qoenv qterms u s)
    (hc : compound_term (qterms.getD u []) = false)
    (hl : qoenv.lookup_word (qterms.getD u []) = none) :
    nonexistent_inv B qoenv qterms (u + 1)
      { zap_term heuristic.noexist B.SHORTEN_NOEXIST u s with
        freaks := fun i => if i = u then 0
          else (zap_term heuristic.noexist B.SHORTEN_NOEXIST u s).freaks i } where
  zap_iff := by
    intro i
    simp only [zap_term]
    by_cases e : i = u
    · rw [if_pos e, e]
      exact ⟨fun _ => ⟨Nat.lt_succ_self u, hc, hl⟩, fun _ => rfl⟩
    · rw [if_neg e, h.zap_iff]
      constructor
      · rintro ⟨h1, h2, h3⟩; exact ⟨by omega, h2, h3⟩
      · rintro ⟨h1, h2, h3⟩; exact ⟨by omega, h2, h3⟩
  freaks_found := by
    intro i c hi h2 h3
    simp only [zap_term]
    by_cases e : i = u
    · rw [e, hl] at h3; cases h3
    · rw [if_neg e]; exact h.freaks_found i c (by omega) h2 h3
  freaks_other := by
    intro i hi
    simp only [zap_term]
    by_cases e : i = u
    · rw [if_pos e]
    · rw [if_neg e]
      rcases hi with hi | hi
      · exact h.freaks_other i (Or.inl (by omega))
      · exact h.freaks_other i (Or.inr hi)
  codes := by
    simp only [zap_term]
    rw [if_pos ⟨u, Nat.lt_succ_self u, hc, hl⟩, h.codes]
    split
    · exact Nat.or_self _
    · exact Nat.zero_or _
  log := by
    intro e he
    simp only [zap_term, List.mem_append, List.mem_singleton] at he
    rcases he with he | he
    · exact h.log e he
    · rw [he]

theorem nonexistent_inv_keep (B : shortening_bits) (qoenv : query_processing_environment_t)
    (qterms : List (List Nat)) (u : Nat) (s : shortening_state) (c : Nat)
    (h : nonexistent_inv B qoenv qterms u s)
    (hc : compound_term (qterms.getD u []) = false)
    (hl : qoenv.lookup_word (qterms.getD u []) = some c) :
    nonexistent_inv B qoenv qterms (u + 1)
      { s with freaks := fun i => if i = u then c else s.freaks i } where
  zap_iff := by
    intro i
    rw [h.zap_iff]
    constructor
    · rintro ⟨h1, h2, h3⟩; exact ⟨by omega, h2, h3⟩
    · rintro ⟨h1, h2, h3⟩
      have : i ≠ u := fun e => by rw [e, hl] at h3; cases h3
      exact ⟨by omega, h2, h3⟩
  freaks_found := by
    intro i c' hi h2 h3
    by_cases e : i = u
    · simp only [if_pos e]
      rw [e, hl] at h3
      exact Option.some.inj h3
    · simp only [if_neg e]; exact h.freaks_found i c' (by omega) h2 h3
  freaks_other := by
    intro i hi
    by_cases e : i = u
    · rcases hi with hi | hi | hi
      · omega
      · rw [e, hc] at hi; cases hi
      · rw [e, hl] at hi; cases hi
    · simp only [if_neg e]
      rcases hi with hi | hi
      · exact h.freaks_other i (Or.inl (by omega))
      · exact h.freaks_other i (Or.inr hi)
  codes := by
    rw [h.codes]
    apply if_congr _ rfl rfl
    constructor
    · rintro ⟨i, h1, h2, h3⟩; exact ⟨i, by omega, h2, h3⟩
    · rintro ⟨i, h1, h2, h3⟩
      have : i ≠ u := fun e => by rw [e, hl] at h3; cases h3
      exact ⟨i, by omega, h2, h3⟩
  log := h.log

/-- Heuristic 1 removes exactly the unprotected terms that are not in the vocabulary. -/
theorem after_nonexistent_inv (B : shortening_bits) (qoenv : query_processing_environment_t)
    (qterms : List (List Nat)) :
    nonexistent_inv B qoenv qterms qterms.length (after_nonexistent B qoenv qterms) := by
  have h := remove_nonexistent_rule B qoenv qterms (nonexistent_inv B qoenv qterms)
    (nonexistent_inv_skip B qoenv qterms) (nonexistent_inv_zap B qoenv qterms)
    (fun u s c => nonexistent_inv_keep B qoenv qterms u s c) qterms.length 0 _
    (nonexistent_inv_init B qoenv qterms (count_distinct_terms qterms qterms.length 0 0))
  rw [Nat.zero_add] at h
  exact h

/-! ## What the three heuristics keep -/

theorem and_or_of_disjoint (c b m : Nat) (h : b &&& m = 0) : (c ||| b) &&& m = c &&& m := by
  rw [Nat.and_comm, Nat.and_or_distrib_left, Nat.and_comm m b, h, Nat.or_zero, Nat.and_comm]

/-- The counter of distinct terms is at most the number of distinct terms left, after
each heuristic. -/
theorem distinct_terms_le_after (B : shortening_bits)
    (qsort_r : (Nat → Nat) → List Nat → List Nat) (qoenv : query_processing_environment_t)
    (qterms : List (List Nat)) :
    (after_nonexistent B qoenv qterms).distinct_terms
      ≤ (distinct_count (copy_unzapped qterms (after_nonexistent B qoenv qterms).zap
          qterms.length 0) : Int) ∧
    (after_high_freq B qsort_r qoenv qterms).distinct_terms
      ≤ (distinct_count (copy_unzapped qterms (after_high_freq B qsort_r qoenv qterms).zap
          qterms.length 0) : Int) := by
  have h1 : (after_nonexistent B qoenv qterms).distinct_terms
      ≤ (distinct_count (copy_unzapped qterms (after_nonexistent B qoenv qterms).zap
          qterms.length 0) : Int) := by
    refine remove_nonexistent_rule B qoenv qterms
      (fun _ s => s.distinct_terms
        ≤ (distinct_count (copy_unzapped qterms s.zap qterms.length 0) : Int))
      (fun _ _ h _ => h)
      (fun u s h _ _ =>
        distinct_terms_le_zap qterms heuristic.noexist B.SHORTEN_NOEXIST u s h)
      (fun _ _ _ h _ _ => h) qterms.length 0 _ ?_
    simp only [shortening_init]
    rw [copy_unzapped_none, count_distinct_terms_spec]
  refine ⟨h1, ?_⟩
  apply after_high_freq_rule B qsort_r qoenv qterms
    (fun s => s.distinct_terms
      ≤ (distinct_count (copy_unzapped qterms s.zap qterms.length 0) : Int))
    (fun v s h _ _ _ => distinct_terms_le_zap qterms _ _ v s h)
  exact after_all_digits_rule B qoenv qterms
    (fun s => s.distinct_terms
      ≤ (distinct_count (copy_unzapped qterms s.zap qterms.length 0) : Int))
    (fun u s h _ _ _ => distinct_terms_le_zap qterms _ _ u s h) h1

/-- What heuristic 1 leaves is the query without its unprotected terms that are not in
the vocabulary. -/
theorem copy_unzapped_after_nonexistent (B : shortening_bits)
    (qoenv : query_processing_environment_t) (qterms : List (List Nat)) :
    copy_unzapped qterms (after_nonexistent B qoenv qterms).zap qterms.length 0
      = existing_terms qoenv qterms := by
  have hinv := after_nonexistent_inv B qoenv qterms
  rw [copy_unzapped_range]
  unfold existing_terms
  have h := range_map_getD qterms [] (fun x => x)
  simp only [List.map_id'] at h
  conv => rhs; rw [← h, List.filter_map]
  congr 1
  apply List.filter_congr
  intro i hi
  rw [List.mem_range] at hi
  simp only [Function.comp]
  rw [Bool.eq_iff_iff, Bool.not_eq_true', ← Bool.not_eq_true, hinv.zap_iff]
  simp only [Bool.or_eq_true, Option.isSome_iff_ne_none, ne_eq]
  constructor
  · intro hn
    by_cases hc : compound_term (qterms.getD i []) = true
    · exact Or.inl hc
    · right
      intro hl
      exact hn ⟨hi, by simpa using hc, hl⟩
  · rintro (hc | hl) ⟨_, h2, h3⟩
    · rw [hc] at h2; cases h2
    · exact hl h3

/-- A term that is zapped stays zapped. -/
theorem zap_after_nonexistent_stays (B : shortening_bits)
    (qsort_r : (Nat → Nat) → List Nat → List Nat) (qoenv : query_processing_environment_t)
    (qterms : List (List Nat)) (i : Nat)
    (h : (after_nonexistent B qoenv qterms).zap i = true) :
    (after_high_freq B qsort_r qoenv qterms).zap i = true := by
  apply after_high_freq_rule B qsort_r qoenv qterms (fun s => s.zap i = true)
  · intro v s hs _ _ _
    simp only [zap_term]
    split
    · rfl
    · exact hs
  · apply after_all_digits_rule B qoenv qterms (fun s => s.zap i = true) _ h
    intro v s hs _ _ _
    simp only [zap_term]
    split
    · rfl
    · exact hs

/-- Heuristics 3 and 4 leave the bits of heuristic 1 alone when their own bits are
other bits. -/
theorem codes_after_high_freq (B : shortening_bits)
    (qsort_r : (Nat → Nat) → List Nat → List Nat) (qoenv : query_processing_environment_t)
    (qterms : List (List Nat))
    (h3 : B.SHORTEN_ALL_DIGITS &&& B.SHORTEN_NOEXIST = 0)
    (h4 : B.SHORTEN_HIGH_FREQ &&& B.SHORTEN_NOEXIST = 0) :
    (after_high_freq B qsort_r qoenv qterms).shortening_codes &&& B.SHORTEN_NOEXIST
      = (after_nonexistent B qoenv qterms).shortening_codes &&& B.SHORTEN_NOEXIST := by
  apply after_high_freq_rule B qsort_r qoenv qterms
    (fun s => s.shortening_codes &&& B.SHORTEN_NOEXIST
      = (after_nonexistent B qoenv qterms).shortening_codes &&& B.SHORTEN_NOEXIST)
  · intro v s hs _ _ _
    simp only [zap_term]
    rw [and_or_of_disjoint _ _ _ h4]; exact hs
  · apply after_all_digits_rule B qoenv qterms
      (fun s => s.shortening_codes &&& B.SHORTEN_NOEXIST
        = (after_nonexistent B qoenv qterms).shortening_codes &&& B.SHORTEN_NOEXIST) _ rfl
    intro v s hs _ _ _
    simp only [zap_term]
    rw [and_or_of_disjoint _ _ _ h3]; exact hs

/-! ## The removals in order -/

theorem counts_removals_zap (n : Nat) (why : heuristic) (bit u : Nat) (s : shortening_state)
    (h : s.cg_qwd_cnt = (n : Int) - s.zapped.length ∧
      s.zapped.map (fun e => e.cg_qwd_cnt)
        = (List.range s.zapped.length).map (fun (i : Nat) => (n : Int) - (i : Int))) :
    (zap_term why bit u s).cg_qwd_cnt = (n : Int) - (zap_term why bit u s).zapped.length ∧
    (zap_term why bit u s).zapped.map (fun e => e.cg_qwd_cnt)
      = (List.range (zap_term why bit u s).zapped.length).map (fun (i : Nat) => (n : Int) - (i : Int)) := by
  obtain ⟨h1, h2⟩ := h
  simp only [zap_term, List.length_append, List.length_singleton, List.map_append,
    List.map_cons, List.map_nil, List.range_succ, h2, h1]
  constructor
  · push_cast; omega
  · trivial

/-- The removals are numbered by `cg_qwd_cnt`: the i-th removal was made when
`cg_qwd_cnt` was `qwd_cnt - i`. -/
theorem counts_removals_after (B : shortening_bits)
    (qsort_r : (Nat → Nat) → List Nat → List Nat) (qoenv : query_processing_environment_t)
    (qterms : List (List Nat)) :
    (after_high_freq B qsort_r qoenv qterms).zapped.map (fun e => e.cg_qwd_cnt)
      = (List.range (after_high_freq B qsort_r qoenv qterms).zapped.length).map
          (fun (i : Nat) => (qterms.length : Int) - (i : Int)) := by
  have h1 := remove_nonexistent_rule B qoenv qterms
    (fun _ s => s.cg_qwd_cnt = (qterms.length : Int) - s.zapped.length ∧
      s.zapped.map (fun e => e.cg_qwd_cnt)
        = (List.range s.zapped.length).map (fun (i : Nat) => (qterms.length : Int) - (i : Int)))
    (fun _ _ h _ => h)
    (fun u s h _ _ => counts_removals_zap qterms.length heuristic.noexist B.SHORTEN_NOEXIST u s h)
    (fun _ _ _ h _ _ => h) qterms.length 0
    (shortening_init qterms.length (count_distinct_terms qterms qterms.length 0 0))
    (by simp [shortening_init])
  have h3 := after_all_digits_rule B qoenv qterms
    (fun s => s.cg_qwd_cnt = (qterms.length : Int) - s.zapped.length ∧
      s.zapped.map (fun e => e.cg_qwd_cnt)
        = (List.range s.zapped.length).map (fun (i : Nat) => (qterms.length : Int) - (i : Int)))
    (fun u s h _ _ _ => counts_removals_zap qterms.length _ _ u s h) h1
  exact (after_high_freq_rule B qsort_r qoenv qterms
    (fun s => s.cg_qwd_cnt = (qterms.length : Int) - s.zapped.length ∧
      s.zapped.map (fun e => e.cg_qwd_cnt)
        = (List.range s.zapped.length).map (fun (i : Nat) => (qterms.length : Int) - (i : Int)))
    (fun u s h _ _ _ => counts_removals_zap qterms.length _ _ u s h) h3).2

/-- Every removal of heuristic 3 or 4 was of a term that heuristic 1 had left, with the
frequency heuristic 1 recorded, and heuristic 4 removed only where the guard of line
197 did not hold. -/
theorem later_removals (B : shortening_bits)
    (qsort_r : (Nat → Nat) → List Nat → List Nat) (qoenv : query_processing_environment_t)
    (qterms : List (List Nat)) :
    ∀ e ∈ (after_high_freq B qsort_r qoenv qterms).zapped, e.why ≠ heuristic.noexist →
      (e.why = heuristic.high_freq → rare_term_guard qoenv e.cg_qwd_cnt e.frequency = false) ∧
      e.frequency = (after_nonexistent B qoenv qterms).freaks e.position ∧
      (after_nonexistent B qoenv qterms).zap e.position = false := by
  have hinv := after_nonexistent_inv B qoenv qterms
  have h3 := after_all_digits_rule B qoenv qterms
    (fun s => s.freaks = (after_nonexistent B qoenv qterms).freaks ∧
      (∀ i, s.zap i = false → (after_nonexistent B qoenv qterms).zap i = false) ∧
      ∀ e ∈ s.zapped, e.why ≠ heuristic.noexist →
        (e.why = heuristic.high_freq →
          rare_term_guard qoenv e.cg_qwd_cnt e.frequency = false) ∧
        e.frequency = (after_nonexistent B qoenv qterms).freaks e.position ∧
        (after_nonexistent B qoenv qterms).zap e.position = false)
    (by
      rintro u s ⟨hf, hz, hl⟩ hzu _ _
      refine ⟨hf, ?_, ?_⟩
      · intro i hi
        simp only [zap_term] at hi
        by_cases e : i = u
        · rw [if_pos e] at hi; cases hi
        · rw [if_neg e] at hi; exact hz i hi
      · intro e he hne
        simp only [zap_term, List.mem_append, List.mem_singleton] at he
        rcases he with he | he
        · exact hl e he hne
        · subst he
          exact ⟨fun hc => (by cases hc), by rw [hf], hz u hzu⟩)
    ⟨rfl, fun _ h => h, fun e he hne => absurd (hinv.log e he) hne⟩
  exact (after_high_freq_rule B qsort_r qoenv qterms
    (fun s => s.freaks = (after_nonexistent B qoenv qterms).freaks ∧
      (∀ i, s.zap i = false → (after_nonexistent B qoenv qterms).zap i = false) ∧
      ∀ e ∈ s.zapped, e.why ≠ heuristic.noexist →
        (e.why = heuristic.high_freq →
          rare_term_guard qoenv e.cg_qwd_cnt e.frequency = false) ∧
        e.frequency = (after_nonexistent B qoenv qterms).freaks e.position ∧
        (after_nonexistent B qoenv qterms).zap e.position = false)
    (by
      rintro u s ⟨hf, hz, hl⟩ hzu _ hg
      refine ⟨hf, ?_, ?_⟩
      · intro i hi
        simp only [zap_term] at hi
        by_cases e : i = u
        · rw [if_pos e] at hi; cases hi
        · rw [if_neg e] at hi; exact hz i hi
      · intro e he hne
        simp only [zap_term, List.mem_append, List.mem_singleton] at he
        rcases he with he | he
        · exact hl e he hne
        · subst he
          exact ⟨fun _ => hg, by rw [hf], hz u hzu⟩) h3).2.2

theorem remove_high_freq_append (B : shortening_bits) (qoenv : query_processing_environment_t)
    (rest : List Nat) :
    ∀ (pre : List Nat) (s : shortening_state),
      remove_high_freq B qoenv (pre ++ rest) s = remove_high_freq B qoenv pre s ∨
      remove_high_freq B qoenv (pre ++ rest) s
        = remove_high_freq B qoenv rest (remove_high_freq B qoenv pre s) := by
  intro pre
  induction pre with
  | nil => intro s; right; rfl
  | cons v pre ih =>
    intro s
    simp only [List.cons_append, remove_high_freq]
    cases hz : s.zap v
    · cases hg : rare_term_guard qoenv s.cg_qwd_cnt (s.freaks v)
      · simp only [Bool.false_eq_true, if_false]
        split
        · left; rfl
        · exact ih _
      · simp only [Bool.false_eq_true, if_false, if_true]
        left; trivial
    · simp only [if_true]
      exact ih _

/-- Once heuristic 4 arrives at a term at which the guard of line 197 holds, it removes
nothing further. -/
theorem remove_high_freq_stops (B : shortening_bits) (qoenv : query_processing_environment_t)
    (pre : List Nat) (v : Nat) (post : List Nat) (s : shortening_state)
    (hz : (remove_high_freq B qoenv pre s).zap v = false)
    (hg : rare_term_guard qoenv (remove_high_freq B qoenv pre s).cg_qwd_cnt
      ((remove_high_freq B qoenv pre s).freaks v) = true) :
    remove_high_freq B qoenv (pre ++ v :: post) s = remove_high_freq B qoenv pre s := by
  rcases remove_high_freq_append B qoenv (v :: post) pre s with h | h
  · exact h
  · rw [h, remove_high_freq, if_neg (by simp [hz]), if_pos hg]

/-! ## The two branches of the shortener -/

/-- The result is either the copy of the query or what the three heuristics leave. -/
theorem create_candidate_generation_query_cases (B : shortening_bits)
    (qsort_r : (Nat → Nat) → List Nat → List Nat) (memalloc_failed : Bool)
    (qoenv : query_processing_environment_t) (qterms : List (List Nat)) :
    ((qoenv.query_shortening_threshold = 0
        ∨ (distinct_count qterms : Int) ≤ qoenv.query_shortening_threshold
        ∨ memalloc_failed = true) ∧
      create_candidate_generation_query B qsort_r memalloc_failed qoenv qterms
        = copy_through qterms) ∨
    (qoenv.query_shortening_threshold ≠ 0 ∧
      qoenv.query_shortening_threshold < (distinct_count qterms : Int) ∧
      memalloc_failed = false ∧
      create_candidate_generation_query B qsort_r memalloc_failed qoenv qterms
        = { cg_qterms := copy_unzapped qterms (after_high_freq B qsort_r qoenv qterms).zap
              qterms.length 0,
            cg_qwd_cnt := (copy_unzapped qterms (after_high_freq B qsort_r qoenv qterms).zap
              qterms.length 0).length,
            shortening_codes := (after_high_freq B qsort_r qoenv qterms).shortening_codes,
            candidate_generation_query := write_candidate_generation_query
              (copy_unzapped qterms (after_high_freq B qsort_r qoenv qterms).zap
                qterms.length 0),
            zapped := (after_high_freq B qsort_r qoenv qterms).zapped }) := by
  unfold create_candidate_generation_query
  dsimp only
  rw [count_distinct_terms_spec]
  by_cases h : qoenv.query_shortening_threshold = 0
      ∨ (distinct_count qterms : Int) ≤ qoenv.query_shortening_threshold
  · rw [if_pos h]
    left
    exact ⟨by tauto, rfl⟩
  · rw [if_neg h]
    cases memalloc_failed
    · right
      rw [if_neg (by simp)]
      refine ⟨fun e => h (Or.inl e), ?_, rfl, rfl⟩
      by_contra hc
      exact h (Or.inr (by omega))
    · left
      rw [if_pos rfl]
      exact ⟨Or.inr (Or.inr rfl), rfl⟩

/-! ## The library sort and the order of equal frequencies -/

/-- Insertion sort by descending frequency meets the contract of the library sort. -/
theorem insertion_qsort_sorts_descending : sorts_descending insertion_qsort := by
  intro freaks base
  refine ⟨List.perm_insertionSort _ base, ?_⟩
  exact @List.sorted_insertionSort Nat (fun i j => freaks j ≤ freaks i) _
    ⟨fun i j => Nat.le_total (freaks j) (freaks i)⟩
    ⟨fun _ _ _ h1 h2 => Nat.le_trans h2 h1⟩ base

/-- Heuristic 4 removes nothing in a state in which the guard of line 197 holds for
every term. -/
theorem remove_high_freq_guarded (B : shortening_bits) (qoenv : query_processing_environment_t) :
    ∀ (freaki : List Nat) (s : shortening_state),
      (∀ w, rare_term_guard qoenv s.cg_qwd_cnt (s.freaks w) = true) →
      remove_high_freq B qoenv freaki s = s := by
  intro freaki
  induction freaki with
  | nil => intro s _; rfl
  | cons v freaki ih =>
    intro s h
    rw [remove_high_freq]
    cases hz : s.zap v
    · rw [if_neg (by simp), if_pos (h v)]
    · rw [if_pos rfl]; exact ih s h

/-- The query of four phrases loses a phrase whatever order the library sort leaves the
four equal frequencies in. -/
theorem phrase_removed_whatever_the_sort (qsort_r : (Nat → Nat) → List Nat → List Nat)
    (hs : ∀ freaks base, (qsort_r freaks base).Perm base) :
    (create_candidate_generation_query demo_bits qsort_r false (demo_qoenv 1 1000 [])
      [phrase "a b", phrase "c d", phrase "e f", phrase "g h"]).cg_qterms.length = 3 := by
  have h0 : after_all_digits demo_bits (demo_qoenv 1 1000 [])
      [phrase "a b", phrase "c d", phrase "e f", phrase "g h"] = shortening_init 4 4 := rfl
  have hr : create_candidate_generation_query demo_bits qsort_r false (demo_qoenv 1 1000 [])
      [phrase "a b", phrase "c d", phrase "e f", phrase "g h"]
      = _ := 
    (create_candidate_generation_query_cases demo_bits qsort_r false (demo_qoenv 1 1000 [])
      [phrase "a b", phrase "c d", phrase "e f", phrase "g h"]).resolve_left
        (by
          rintro ⟨h | h | h, _⟩
          · revert h; decide
          · revert h; decide
          · cases h) |>.2.2.2
  rw [hr]
  dsimp only
  have hL := hs (shortening_init 4 4).freaks (List.range 4)
  have h4 : after_high_freq demo_bits qsort_r (demo_qoenv 1 1000 [])
      [phrase "a b", phrase "c d", phrase "e f", phrase "g h"]
      = remove_high_freq demo_bits (demo_qoenv 1 1000 [])
          (qsort_r (shortening_init 4 4).freaks (List.range 4)) (shortening_init 4 4) := by
    unfold after_high_freq
    rw [h0]
    rfl
  rw [h4]
  generalize qsort_r (shortening_init 4 4).freaks (List.range 4) = L at hL
  cases L with
  | nil => exact absurd hL.length_eq (by decide)
  | cons v L =>
    have hv : v ∈ List.range 4 := hL.subset (List.mem_cons_self v L)
    have e : remove_high_freq demo_bits (demo_qoenv 1 1000 []) (v :: L) (shortening_init 4 4)
        = zap_term heuristic.high_freq demo_bits.SHORTEN_HIGH_FREQ v (shortening_init 4 4) := by
      have g1 : ¬ rare_term_guard (demo_qoenv 1 1000 []) (shortening_init 4 4).cg_qwd_cnt
          ((shortening_init 4 4).freaks v) = true := by
        show ¬ rare_term_guard (demo_qoenv 1 1000 []) 4 0 = true
        decide
      have g2 : ¬ (zap_term heuristic.high_freq demo_bits.SHORTEN_HIGH_FREQ v
          (shortening_init 4 4)).distinct_terms
            ≤ (demo_qoenv 1 1000 []).query_shortening_threshold := by
        show ¬ ((4 : Int) - 1 ≤ 1)
        decide
      rw [remove_high_freq, if_neg (by simp [shortening_init]), if_neg g1]
      dsimp only
      rw [if_neg g2]
      refine remove_high_freq_guarded _ _ L _ (fun w => ?_)
      show rare_term_guard (demo_qoenv 1 1000 []) (4 - 1) 0 = true
      decide
    rw [e]
    simp only [List.mem_range] at hv
    interval_cases v <;> decide

/-! ## The loop of `main` ends -/

/-- The length of the part of the buffer ahead is enough fuel for the loop of `main`. -/
theorem read_termids_fuel : ∀ (fuel : Nat) (p : List Nat) (query_array : List Int),
    p.length < fuel → read_termids fuel p query_array ≠ outcome.out_of_fuel := by
  intro fuel
  induction fuel with
  | zero => intro p qa h; omega
  | succ fuel ih =>
    intro p qa h
    rw [read_termids]
    split
    · next hsp =>
      split
      · intro hc; cases hc
      · dsimp only
        split
        · intro hc; cases hc
        · next hq =>
          apply ih
          have hp : p ≠ [] := by
            intro e
            rw [e] at hsp
            exact absurd hsp (by decide)
          have : 0 < p.length := List.length_pos.mpr hp
          rw [List.length_drop]
          omega
    · intro hc; cases hc

/-- Reading a query line ends: the model never runs out of fuel. -/
theorem query_of_line_ends (fgets_buf : List Nat) :
    query_of_line fgets_buf ≠ outcome.out_of_fuel :=
  read_termids_fuel _ _ _ (Nat.lt_succ_self _)

/-! ## Heuristic 4 goes on until the counter is at the threshold -/

/-- Heuristic 3 visits the positions `u .. u + m - 1`: a property that every removal at
a position below `bound` keeps holds after the loop. -/
theorem remove_all_digits_rule_at (B : shortening_bits) (qoenv : query_processing_environment_t)
    (qterms : List (List Nat)) (bound : Nat) (P : shortening_state → Prop)
    (hzap : ∀ u s, u < bound → P s → s.zap u = false →
      P (zap_term heuristic.all_digits B.SHORTEN_ALL_DIGITS u s)) :
    ∀ m u s, u + m ≤ bound → P s → P (remove_all_digits B qoenv qterms m u s) := by
  intro m
  induction m with
  | zero => intro u s _ h; exact h
  | succ m ih =>
    intro u s hb h
    rw [remove_all_digits]
    cases hz : s.zap u
    · rw [if_neg (by simp)]
      dsimp only
      split
      · exact ih _ _ (by omega) h
      · split
        · split
          · exact hzap u s (by omega) h hz
          · exact ih _ _ (by omega) (hzap u s (by omega) h hz)
        · exact ih _ _ (by omega) h
    · rw [if_pos rfl]; exact ih _ _ (by omega) h

/-- Heuristic 4 visits the entries of `freaki`: a property that every removal of such an
entry keeps holds after the loop. -/
theorem remove_high_freq_rule_mem (B : shortening_bits) (qoenv : query_processing_environment_t)
    (P : shortening_state → Prop) (all : List Nat)
    (hzap : ∀ v s, v ∈ all → P s → s.zap v = false →
      rare_term_guard qoenv s.cg_qwd_cnt (s.freaks v) = false →
      P (zap_term heuristic.high_freq B.SHORTEN_HIGH_FREQ v s)) :
    ∀ freaki s, (∀ v ∈ freaki, v ∈ all) → P s → P (remove_high_freq B qoenv freaki s) := by
  intro freaki
  induction freaki with
  | nil => intro s _ h; exact h
  | cons v freaki ih =>
    intro s hm h
    have hv := hm v (List.mem_cons_self v freaki)
    have hm' : ∀ w ∈ freaki, w ∈ all := fun w hw => hm w (List.mem_cons_of_mem v hw)
    rw [remove_high_freq]
    cases hz : s.zap v
    · rw [if_neg (by simp)]
      cases hg : rare_term_guard qoenv s.cg_qwd_cnt (s.freaks v)
      · rw [if_neg (by simp)]
        dsimp only
        split
        · exact hzap v s hv h hz hg
        · exact ih _ hm' (hzap v s hv h hz hg)
      · rw [if_pos rfl]; exact h
    · rw [if_pos rfl]; exact ih _ hm' h

/-- Where the guard of line 197 never holds, heuristic 4 goes on until the counter has
come down to the threshold or every entry of `freaki` is zapped. -/
theorem remove_high_freq_reaches (B : shortening_bits) (qoenv : query_processing_environment_t) :
    ∀ (freaki : List Nat) (s : shortening_state),
      qoenv.query_shortening_threshold < s.distinct_terms →
      (∀ v ∈ freaki, ∀ cg, rare_term_guard qoenv cg (s.freaks v) = false) →
      (remove_high_freq B qoenv freaki s).distinct_terms = qoenv.query_shortening_threshold ∨
      (qoenv.query_shortening_threshold < (remove_high_freq B qoenv freaki s).distinct_terms ∧
        ∀ v ∈ freaki, (remove_high_freq B qoenv freaki s).zap v = true) := by
  intro freaki
  induction freaki with
  | nil => intro s hd _; right; exact ⟨hd, fun v hv => by cases hv⟩
  | cons v freaki ih =>
    intro s hd hg
    have hg' : ∀ w ∈ freaki, ∀ cg, rare_term_guard qoenv cg (s.freaks w) = false :=
      fun w hw => hg w (List.mem_cons_of_mem v hw)
    have mono : ∀ (s0 : shortening_state), s0.zap v = true →
        qoenv.query_shortening_threshold < s0.distinct_terms →
        (remove_high_freq B qoenv freaki s0).zap v = true := by
      intro s0 h0 hd0
      refine (remove_high_freq_rule B qoenv (fun t => t.zap v = true) ?_ freaki s0 h0 hd0).1
      intro w t ht _ _ _
      simp only [zap_term]
      split
      · rfl
      · exact ht
    rw [remove_high_freq]
    cases hz : s.zap v
    · rw [if_neg (by simp), if_neg (by rw [hg v (List.mem_cons_self v freaki)]; simp)]
      dsimp only
      by_cases hb : (zap_term heuristic.high_freq B.SHORTEN_HIGH_FREQ v s).distinct_terms
          ≤ qoenv.query_shortening_threshold
      · rw [if_pos hb]
        left
        simp only [zap_term] at hb ⊢
        omega
      · rw [if_neg hb]
        rcases ih (zap_term heuristic.high_freq B.SHORTEN_HIGH_FREQ v s) (by omega) hg'
          with h | h
        · left; exact h
        · right
          refine ⟨h.1, ?_⟩
          intro w hw
          rcases List.mem_cons.mp hw with e | hw'
          · rw [e]
            exact mono _ (by simp [zap_term]) (by omega)
          · exact h.2 w hw'
    · rw [if_pos rfl]
      rcases ih s hd hg' with h | h
      · left; exact h
      · right
        refine ⟨h.1, ?_⟩
        intro w hw
        rcases List.mem_cons.mp hw with e | hw'
        · rw [e]; exact mono s hz hd
        · exact h.2 w hw'

/-! ## Queries without repeated terms reach the threshold -/

theorem distinct_count_simple (q l : List (List Nat)) (hq : q.Nodup)
    (hc : ∀ wd ∈ q, compound_term wd = false) (hl : l.Sublist q) :
    distinct_count l = l.length := by
  have hc' : ∀ wd ∈ l, compound_term wd = false := fun wd h => hc wd (hl.subset h)
  unfold distinct_count
  have h1 : l.filter compound_term = [] := by
    rw [List.filter_eq_nil_iff]
    intro wd h; rw [hc' wd h]; simp
  have h2 : l.filter (fun wd => !compound_term wd) = l := by
    rw [List.filter_eq_self]
    intro wd h; rw [hc' wd h]; rfl
  rw [h1, h2, (hl.nodup hq).dedup]
  simp

theorem getD_mem_of_lt (q : List (List Nat)) (i : Nat) (h : i < q.length) :
    q.getD i [] ∈ q := by
  rw [List.getD_eq_getElem _ _ h]; exact List.getElem_mem _

/-- When every term of the query is an unprotected word of the vocabulary, heuristic 1
removes nothing. -/
theorem after_nonexistent_all_found (B : shortening_bits)
    (qoenv : query_processing_environment_t) (qterms : List (List Nat))
    (hc : ∀ wd ∈ qterms, compound_term wd = false)
    (hex : ∀ wd ∈ qterms, ∃ c, qoenv.lookup_word wd = some c ∧ qoenv.N / 10 ≤ c) :
    (after_nonexistent B qoenv qterms).distinct_terms = (distinct_count qterms : Int) ∧
    (∀ i, (after_nonexistent B qoenv qterms).zap i = false) ∧
    (∀ i, i < qterms.length → qoenv.N / 10 ≤ (after_nonexistent B qoenv qterms).freaks i) := by
  have hinv := after_nonexistent_inv B qoenv qterms
  refine ⟨?_, ?_, ?_⟩
  · have h := remove_nonexistent_rule B qoenv qterms
      (fun u s => u ≤ qterms.length → s.distinct_terms = (distinct_count qterms : Int))
      (fun u s h _ hu => h (by omega))
      (fun u s _ _ hl hu => by
        obtain ⟨c, h1, _⟩ := hex _ (getD_mem_of_lt qterms u (by omega))
        rw [h1] at hl; cases hl)
      (fun u s c h _ _ hu => h (by omega)) qterms.length 0
      (shortening_init qterms.length (count_distinct_terms qterms qterms.length 0 0))
      (fun _ => count_distinct_terms_spec qterms)
    rw [Nat.zero_add] at h
    exact h (Nat.le_refl _)
  · intro i
    cases hz : (after_nonexistent B qoenv qterms).zap i
    · rfl
    · obtain ⟨hi, _, hl⟩ := (hinv.zap_iff i).mp hz
      obtain ⟨c, h1, _⟩ := hex _ (getD_mem_of_lt qterms i hi)
      rw [h1] at hl; cases hl
  · intro i hi
    obtain ⟨c, h1, h2⟩ := hex _ (getD_mem_of_lt qterms i hi)
    rw [hinv.freaks_found i c hi (hc _ (getD_mem_of_lt qterms i hi)) h1]
    exact h2

theorem length_unzapped_zap (qterms : List (List Nat)) (why : heuristic) (bit u : Nat)
    (s : shortening_state) (hu : u < qterms.length) (hz : s.zap u = false)
    (h : s.distinct_terms = ((copy_unzapped qterms s.zap qterms.length 0).length : Int)) :
    (zap_term why bit u s).distinct_terms
      = ((copy_unzapped qterms (zap_term why bit u s).zap qterms.length 0).length : Int) := by
  have hp := (copy_unzapped_zap qterms s.zap u hu hz).length_eq
  simp only [zap_term, List.length_cons] at hp ⊢
  omega

/-- Without repeated and without protected terms, and with every term in the vocabulary
at an occurrence count of at least `N / 10`, the shortener reaches the threshold: the
number of distinct terms of `cg_qterms` is the threshold. -/
theorem shortening_reaches_target_without_repeats (B : shortening_bits)
    (qsort_r : (Nat → Nat) → List Nat → List Nat)
    (qoenv : query_processing_environment_t) (qterms : List (List Nat))
    (hs : ∀ freaks base, (qsort_r freaks base).Perm base)
    (hq : qterms.Nodup)
    (hc : ∀ wd ∈ qterms, compound_term wd = false)
    (hex : ∀ wd ∈ qterms, ∃ c, qoenv.lookup_word wd = some c ∧ qoenv.N / 10 ≤ c)
    (hthr : 1 ≤ qoenv.query_shortening_threshold)
    (hd : qoenv.query_shortening_threshold < (distinct_count qterms : Int)) :
    (distinct_count (create_candidate_generation_query B qsort_r false qoenv qterms).cg_qterms
      : Int) = qoenv.query_shortening_threshold := by
  have hr := create_candidate_generation_query_cases B qsort_r false qoenv qterms
  rcases hr with hr | hr
  · rcases hr.1 with h1 | h1 | h1
    · omega
    · omega
    · cases h1
  rw [hr.2.2.2]
  dsimp only
  rw [distinct_count_simple qterms _ hq hc (copy_unzapped_sublist _ _)]
  obtain ⟨h1d, h1z, h1f⟩ := after_nonexistent_all_found B qoenv qterms hc hex
  -- the state after heuristic 3
  have h3 : (after_all_digits B qoenv qterms).distinct_terms
        = ((copy_unzapped qterms (after_all_digits B qoenv qterms).zap qterms.length 0).length
            : Int) ∧
      (after_all_digits B qoenv qterms).freaks = (after_nonexistent B qoenv qterms).freaks ∧
      qoenv.query_shortening_threshold ≤ (after_all_digits B qoenv qterms).distinct_terms := by
    have hgt : qoenv.query_shortening_threshold
        < (after_nonexistent B qoenv qterms).distinct_terms := by omega
    have hK1 : (after_nonexistent B qoenv qterms).distinct_terms
        = ((copy_unzapped qterms (after_nonexistent B qoenv qterms).zap qterms.length 0).length
            : Int) ∧
        (after_nonexistent B qoenv qterms).freaks = (after_nonexistent B qoenv qterms).freaks := by
      refine ⟨?_, rfl⟩
      have : (after_nonexistent B qoenv qterms).zap = fun _ => false := funext h1z
      rw [this, copy_unzapped_none, h1d, distinct_count_simple qterms _ hq hc (List.Sublist.refl _)]
    unfold after_all_digits
    dsimp only
    rw [if_pos hgt]
    have hk := remove_all_digits_rule_at B qoenv qterms qterms.length
      (fun s => s.distinct_terms
          = ((copy_unzapped qterms s.zap qterms.length 0).length : Int) ∧
        s.freaks = (after_nonexistent B qoenv qterms).freaks)
      (fun u s hu h hz => ⟨length_unzapped_zap qterms _ _ u s hu hz h.1, h.2⟩)
      qterms.length 0 _ (by omega) hK1
    exact ⟨hk.1, hk.2, (remove_all_digits_rule B qoenv qterms (fun _ => True)
      (fun _ _ _ _ _ _ => trivial) _ _ _ trivial hgt).2⟩
  obtain ⟨h3K, h3f, h3t⟩ := h3
  unfold after_high_freq
  dsimp only
  split
  · next hgt =>
    have hperm := hs (after_all_digits B qoenv qterms).freaks (List.range qterms.length)
    have hK := remove_high_freq_rule_mem B qoenv
      (fun s => s.distinct_terms
          = ((copy_unzapped qterms s.zap qterms.length 0).length : Int))
      (List.range qterms.length)
      (fun v s hv h hz _ =>
        length_unzapped_zap qterms _ _ v s (List.mem_range.mp hv) hz h)
      (qsort_r (after_all_digits B qoenv qterms).freaks (List.range qterms.length))
      (after_all_digits B qoenv qterms) (fun v hv => hperm.subset hv) h3K
    dsimp only at hK
    rw [← hK]
    rcases remove_high_freq_reaches B qoenv
      (qsort_r (after_all_digits B qoenv qterms).freaks (List.range qterms.length))
      (after_all_digits B qoenv qterms) hgt
      (by
        intro v hv cg
        have hvn : v < qterms.length := List.mem_range.mp (hperm.subset hv)
        have := h1f v hvn
        rw [h3f]
        simp only [rare_term_guard, Bool.and_eq_false_imp, decide_eq_true_eq,
          decide_eq_false_iff_not]
        intro _; omega) with h | h
    · exact h
    · exfalso
      have hnil : copy_unzapped qterms
          (remove_high_freq B qoenv
            (qsort_r (after_all_digits B qoenv qterms).freaks (List.range qterms.length))
            (after_all_digits B qoenv qterms)).zap qterms.length 0 = [] := by
        rw [List.eq_nil_iff_forall_not_mem]
        intro wd hwd
        rw [mem_copy_unzapped] at hwd
        obtain ⟨i, hi, hz, _⟩ := hwd
        rw [h.2 i (hperm.symm.subset (List.mem_range.mpr hi))] at hz
        cases hz
      rw [hnil] at hK
      simp only [List.length_nil, Nat.cast_zero] at hK
      omega
  · next hle =>
    rw [← h3K]
    omega

theorem shortening_reaches_target_without_repeats_example :
    (distinct_count (create_candidate_generation_query demo_bits insertion_qsort false
      (demo_qoenv 1 1000 [("a", 500), ("b", 400)]) [ascii "a", ascii "b"]).cg_qterms : Int)
      = 1 :=
  shortening_reaches_target_without_repeats demo_bits insertion_qsort
    (demo_qoenv 1 1000 [("a", 500), ("b", 400)]) [ascii "a", ascii "b"]
    (fun freaks base => (insertion_qsort_sorts_descending freaks base).1)
    (by decide) (by decide) (by decide) (by decide) (by decide)

/-! ## The value the decoder returns -/

theorem big_endian_value_append (a b : List Nat) :
    big_endian_value (a ++ b) = big_endian_value a * 256 ^ b.length + big_endian_value b := by
  induction a with
  | nil => simp [big_endian_value]
  | cons x a ih =>
    rw [List.cons_append, big_endian_value, big_endian_value, ih, List.length_append, pow_add]
    ring

theorem big_endian_value_lt (l : List Nat) (h : ∀ b ∈ l, b < 256) :
    big_endian_value l < 256 ^ l.length := by
  induction l with
  | nil => simp [big_endian_value]
  | cons x l ih =>
    simp only [big_endian_value, List.length_cons]
    have hx := h x (List.mem_cons_self x l)
    have hl := ih (fun b hb => h b (List.mem_cons_of_mem x hb))
    have : x * 256 ^ l.length ≤ 255 * 256 ^ l.length := Nat.mul_le_mul_right _ (by omega)
    rw [pow_succ]
    omega

theorem big_endian_value_eq_zero (l : List Nat) :
    big_endian_value l = 0 ↔ ∀ b ∈ l, b = 0 := by
  induction l with
  | nil => simp [big_endian_value]
  | cons x l ih =>
    simp only [big_endian_value, List.mem_cons, forall_eq_or_imp, Nat.add_eq_zero_iff, ih]
    constructor
    · rintro ⟨h1, h2⟩
      refine ⟨?_, h2⟩
      rcases Nat.mul_eq_zero.mp h1 with h | h
      · exact h
      · exact absurd h (by positivity)
    · rintro ⟨h1, h2⟩
      exact ⟨by rw [h1]; simp, h2⟩

/-- The decoder returns the big-endian value of the first `n` bytes modulo `2 ^ 32`. -/
theorem make_ull_mod (data : Nat → Nat) (n : Nat) :
    make_ull_from_n_bytes data n
      = big_endian_value ((List.range n).map (fun j => data j % 256)) % 2 ^ 32 := by
  unfold make_ull_from_n_bytes
  rw [make_ull_loop_eq data n 0 0 (by norm_num), List.range_eq_range']
  simp

/-- The big-endian value of `n >= 4` bytes is below `2 ^ 32` exactly when the first
`n - 4` bytes are zero. -/
theorem big_endian_value_lt_iff (l : List Nat) (h : ∀ b ∈ l, b < 256) (h4 : 4 ≤ l.length) :
    big_endian_value l < 2 ^ 32 ↔ ∀ b ∈ l.take (l.length - 4), b = 0 := by
  have hs : l = l.take (l.length - 4) ++ l.drop (l.length - 4) := (List.take_append_drop _ _).symm
  have hd : (l.drop (l.length - 4)).length = 4 := by rw [List.length_drop]; omega
  have hlt := big_endian_value_lt (l.drop (l.length - 4))
    (fun b hb => h b (List.mem_of_mem_drop hb))
  rw [hd] at hlt
  have hv := big_endian_value_append (l.take (l.length - 4)) (l.drop (l.length - 4))
  rw [← hs, hd] at hv
  rw [← big_endian_value_eq_zero, hv]
  constructor
  · intro hlt2
    by_contra hne
    have : 1 ≤ big_endian_value (l.take (l.length - 4)) := Nat.one_le_iff_ne_zero.mpr hne
    have : 1 * 256 ^ 4 ≤ big_endian_value (l.take (l.length - 4)) * 256 ^ 4 :=
      Nat.mul_le_mul_right _ this
    norm_num at this hlt2
    omega
  · intro h0
    rw [h0]
    norm_num at hlt ⊢
    exact hlt

/-! ## The stores into the candidate generation string -/

theorem stores_at_append (a b : List Nat) : ∀ (w : Int),
    stores_at w (a ++ b) = stores_at w a ++ stores_at (w + a.length) b := by
  induction a with
  | nil => intro w; simp [stores_at]
  | cons x a ih =>
    intro w
    rw [List.cons_append, stores_at, stores_at, ih, List.cons_append, List.length_cons]
    have e : w + 1 + (a.length : Int) = w + ((a.length + 1 : Nat) : Int) := by
      push_cast; ring
    rw [e]

theorem copy_term_eq (r : List Nat) : ∀ (w : Int),
    copy_term r w = (stores_at w r, w + r.length) := by
  induction r with
  | nil => intro w; simp [copy_term, stores_at]
  | cons c r ih =>
    intro w
    rw [copy_term, ih, stores_at, List.length_cons]
    have e : w + 1 + (r.length : Int) = w + ((r.length + 1 : Nat) : Int) := by
      push_cast; ring
    rw [e]

theorem join_terms_eq (cg_qterms : List (List Nat)) : ∀ (w : Int),
    join_terms cg_qterms w
      = (stores_at w (terms_with_blanks cg_qterms),
         w + (terms_with_blanks cg_qterms).length) := by
  induction cg_qterms with
  | nil => intro w; simp [join_terms, terms_with_blanks, stores_at]
  | cons r cg ih =>
    intro w
    have e : terms_with_blanks (r :: cg) = r ++ 32 :: terms_with_blanks cg := by
      simp [terms_with_blanks]
    rw [join_terms, copy_term_eq, ih, e, stores_at_append, stores_at]
    refine Prod.ext rfl ?_
    simp only [List.length_append, List.length_cons]
    push_cast
    ring

/-- The stores into `candidate_generation_query`: the terms with a blank after each,
from index 0 on, and then a NUL at the index of the last of these bytes, which is -1
when there is no term. -/
theorem write_candidate_generation_query_eq (cg_qterms : List (List Nat)) :
    write_candidate_generation_query cg_qterms
      = stores_at 0 (terms_with_blanks cg_qterms)
        ++ [(((terms_with_blanks cg_qterms).length : Int) - 1, 0)] := by
  unfold write_candidate_generation_query
  rw [join_terms_eq]
  simp

/-- Without the last blank the bytes are the terms joined by single blanks. -/
theorem terms_with_blanks_dropLast (cg_qterms : List (List Nat)) (h : cg_qterms ≠ []) :
    (terms_with_blanks cg_qterms).dropLast = List.intercalate [32] cg_qterms := by
  induction cg_qterms with
  | nil => exact absurd rfl h
  | cons r cg ih =>
    cases cg with
    | nil => simp [terms_with_blanks, List.intercalate, List.intersperse]
    | cons r2 cg2 =>
      have ih2 := ih (by simp)
      have hne : terms_with_blanks (r2 :: cg2) ≠ [] := by
        simp [terms_with_blanks]
      have e : terms_with_blanks (r :: r2 :: cg2)
          = (r ++ [32]) ++ terms_with_blanks (r2 :: cg2) := by
        simp [terms_with_blanks]
      rw [e, List.dropLast_append_of_ne_nil _ hne, ih2]
      simp [List.intercalate, List.intersperse]

/-! ## Heuristic 4 removes in the order of `freaki` -/

theorem remove_high_freq_zap_stays (B : shortening_bits) (qoenv : query_processing_environment_t)
    (v : Nat) (freaki : List Nat) (s : shortening_state) (h : s.zap v = true) :
    (remove_high_freq B qoenv freaki s).zap v = true := by
  refine remove_high_freq_rule_mem B qoenv (fun t => t.zap v = true) freaki ?_ freaki s
    (fun _ hw => hw) h
  intro w t _ ht _ _
  simp only [zap_term]
  split
  · rfl
  · exact ht

/-- Over a `freaki` in order of descending frequency, every removal of heuristic 4 is of
an entry whose frequency is at least that of every entry left unzapped. -/
theorem remove_high_freq_order (B : shortening_bits) (qoenv : query_processing_environment_t) :
    ∀ (freaki : List Nat) (s : shortening_state),
      freaki.Pairwise (fun i j => s.freaks j ≤ s.freaks i) →
      ∃ new, (remove_high_freq B qoenv freaki s).zapped = s.zapped ++ new ∧
        (remove_high_freq B qoenv freaki s).freaks = s.freaks ∧
        ∀ e ∈ new, e.why = heuristic.high_freq ∧ e.frequency = s.freaks e.position ∧
          e.position ∈ freaki ∧
          ∀ j ∈ freaki, (remove_high_freq B qoenv freaki s).zap j = false →
            s.freaks j ≤ e.frequency := by
  intro freaki
  induction freaki with
  | nil => intro s _; exact ⟨[], by simp [remove_high_freq], rfl, fun e he => by cases he⟩
  | cons v freaki ih =>
    intro s hp
    have hp' := (List.pairwise_cons.mp hp).2
    have hv := (List.pairwise_cons.mp hp).1
    rw [remove_high_freq]
    cases hz : s.zap v
    · rw [if_neg (by simp)]
      cases hg : rare_term_guard qoenv s.cg_qwd_cnt (s.freaks v)
      · rw [if_neg (by simp)]
        dsimp only
        have hz1 : (zap_term heuristic.high_freq B.SHORTEN_HIGH_FREQ v s).zap v = true := by
          simp [zap_term]
        split
        · refine ⟨[zap_event.mk heuristic.high_freq v s.cg_qwd_cnt (s.freaks v)], rfl, rfl, ?_⟩
          intro e he
          rw [List.mem_singleton] at he
          subst he
          refine ⟨rfl, rfl, List.mem_cons_self _ _, ?_⟩
          intro j hj hzj
          rcases List.mem_cons.mp hj with e1 | hj'
          · rw [e1, hz1] at hzj; cases hzj
          · exact hv j hj'
        · obtain ⟨new, h1, h2, h3⟩ :=
            ih (zap_term heuristic.high_freq B.SHORTEN_HIGH_FREQ v s) hp'
          refine ⟨zap_event.mk heuristic.high_freq v s.cg_qwd_cnt (s.freaks v) :: new, ?_, h2, ?_⟩
          · rw [h1]; simp [zap_term]
          · intro e he
            rcases List.mem_cons.mp he with e1 | he'
            · subst e1
              refine ⟨rfl, rfl, List.mem_cons_self _ _, ?_⟩
              intro j hj hzj
              rcases List.mem_cons.mp hj with e1 | hj'
              · rw [e1, remove_high_freq_zap_stays B qoenv v freaki _ hz1] at hzj; cases hzj
              · exact hv j hj'
            · obtain ⟨g1, g2, g4, g3⟩ := h3 e he'
              refine ⟨g1, g2, List.mem_cons_of_mem _ g4, ?_⟩
              intro j hj hzj
              rcases List.mem_cons.mp hj with e1 | hj'
              · rw [e1, remove_high_freq_zap_stays B qoenv v freaki _ hz1] at hzj; cases hzj
              · exact g3 j hj' hzj
      · rw [if_pos rfl]
        exact ⟨[], by simp, rfl, fun e he => by cases he⟩
    · rw [if_pos rfl]
      obtain ⟨new, h1, h2, h3⟩ := ih s hp'
      refine ⟨new, h1, h2, ?_⟩
      intro e he
      obtain ⟨g1, g2, g4, g3⟩ := h3 e he
      refine ⟨g1, g2, List.mem_cons_of_mem _ g4, ?_⟩
      intro j hj hzj
      rcases List.mem_cons.mp hj with e1 | hj'
      · rw [e1, remove_high_freq_zap_stays B qoenv v freaki s hz] at hzj; cases hzj
      · exact g3 j hj' hzj

/-- Heuristics 1 and 3 do not log removals of heuristic 4. -/
theorem after_all_digits_log (B : shortening_bits) (qoenv : query_processing_environment_t)
    (qterms : List (List Nat)) :
    ∀ e ∈ (after_all_digits B qoenv qterms).zapped, e.why ≠ heuristic.high_freq := by
  apply after_all_digits_rule B qoenv qterms
    (fun s => ∀ e ∈ s.zapped, e.why ≠ heuristic.high_freq)
  · intro u s h _ _ _ e he
    simp only [zap_term, List.mem_append, List.mem_singleton] at he
    rcases he with he | he
    · exact h e he
    · rw [he]; intro hc; cases hc
  · intro e he
    rw [(after_nonexistent_inv B qoenv qterms).log e he]
    intro hc; cases hc

/-! ## The sections of `multisub` -/

theorem copy_to_closer_at_closer (closer : Nat) (rest : List Nat) (room : Nat) :
    copy_to_closer closer room (closer :: rest) = ([], closer :: rest) := by
  cases room with
  | zero => rfl
  | succ n => rw [copy_to_closer, if_pos rfl]

/-- An iteration of `multisub` that starts at a double quote: the quote is written, and
the next section starts right after it. -/
theorem multisub_loop_quote {R : Type}
    (pcre2_substitute : R → List Nat → List Nat → Nat → Int × List Nat)
    (regex : R) (rep : List Nat) (obuf_end fuel : Nat) (rest : List Nat) (s : multisub_state) :
    multisub_loop pcre2_substitute regex rep obuf_end (fuel + 1) (34 :: rest) s
      = if s.obuf.length ≥ obuf_end then outcome.returned s
        else multisub_loop pcre2_substitute regex rep obuf_end fuel rest
          { s with obuf := s.obuf ++ [34] } := by
  rw [multisub_loop]
  have h1 : (34 :: rest).takeWhile (fun c => c != 91 && c != 34) = [] := by
    rw [List.takeWhile_cons]; rfl
  have h2 : (34 :: rest).dropWhile (fun c => c != 91 && c != 34) = 34 :: rest := by
    rw [List.dropWhile_cons]; rfl
  have h0 : (if (34 : Nat) = 91 then 93 else 34) = 34 := by decide
  rw [if_neg (List.cons_ne_nil _ _)]
  simp only [h1, h2, h0, copy_to_closer_at_closer, List.length_nil, gt_iff_lt,
    lt_self_iff_false, if_false, List.append_nil]

/-- An iteration of `multisub` that starts with bytes that are no operator and are
followed by a double quote: the bytes are handed to `pcre2_substitute`. -/
theorem multisub_loop_words {R : Type}
    (pcre2_substitute : R → List Nat → List Nat → Nat → Int × List Nat)
    (regex : R) (rep : List Nat) (obuf_end fuel : Nat) (c : Nat) (sec rest : List Nat)
    (s : multisub_state)
    (hs : ∀ x ∈ c :: sec, x ≠ 91 ∧ x ≠ 34) :
    multisub_loop pcre2_substitute regex rep obuf_end (fuel + 1) (c :: sec ++ 34 :: rest) s
      = multisub_loop pcre2_substitute regex rep obuf_end (fuel + 1) (34 :: rest)
          { obuf := s.obuf ++ (pcre2_substitute regex rep (c :: sec)
              (obuf_end - s.obuf.length + 1)).2
            num_subs := s.num_subs + (pcre2_substitute regex rep (c :: sec)
              (obuf_end - s.obuf.length + 1)).1
            handed := s.handed ++ [c :: sec] } := by
  have hp : ∀ x ∈ c :: sec, (fun c => c != 91 && c != 34) x = true := by
    intro x hx
    have := hs x hx
    simp [this.1, this.2]
  have h1 : (c :: sec ++ 34 :: rest).takeWhile (fun c => c != 91 && c != 34) = c :: sec := by
    rw [List.takeWhile_append_of_pos hp, List.takeWhile_cons]
    simp
  have h2 : (c :: sec ++ 34 :: rest).dropWhile (fun c => c != 91 && c != 34) = 34 :: rest := by
    rw [List.dropWhile_append_of_pos hp, List.dropWhile_cons]
    simp
  have h0 : (if (34 : Nat) = 91 then 93 else 34) = 34 := by decide
  rw [multisub_loop_quote, multisub_loop, if_neg (by simp)]
  simp only [h1, h2, h0, copy_to_closer_at_closer, List.length_cons, gt_iff_lt,
    Nat.zero_lt_succ, if_true, List.append_nil]

/-- Whatever `pcre2_substitute` does, whatever the pattern and the replacement, the
words between the two quotes of a phrase are handed to `pcre2_substitute`. -/
theorem phrase_handed_to_substitute {R : Type}
    (pcre2_substitute : R → List Nat → List Nat → Nat → Int × List Nat)
    (regex : R) (rep : List Nat) (obuflen : Nat) (c : Nat) (sec : List Nat)
    (hs : ∀ x ∈ c :: sec, x ≠ 91 ∧ x ≠ 34) :
    ∃ m, multisub pcre2_substitute regex (34 :: (c :: sec ++ [34])) rep (obuflen + 1)
        = outcome.returned m ∧ m.handed = [c :: sec] := by
  unfold multisub
  have hl : (34 :: (c :: sec ++ [34])).length + 1 = (sec.length + 2) + 1 + 1 := by
    simp only [List.length_cons, List.length_append, List.length_nil]
  rw [hl, multisub_loop_quote, if_neg (by simp),
    multisub_loop_words pcre2_substitute regex rep (obuflen + 1) (sec.length + 2) c sec [] _ hs,
    multisub_loop_quote]
  split
  · exact ⟨_, rfl, rfl⟩
  · rw [multisub_loop, if_pos rfl]
    exact ⟨_, rfl, rfl⟩

/-! ## One more invariant of the loop on a well-formed index -/

/-- The loop on a well-formed index, with one more invariant `I` carried along: `I` is
kept when the run at the head of the chosen list is consumed, and reading the next
run header does not disturb it. -/
theorem wf_loop_with (P : params_t) (L : definitions_h) (ifm : Nat → Nat) (q_len : Nat)
    (runs_of : Nat → List run) (hk1 : 1 ≤ P.k)
    (I : query_state → (Nat → List run) → Prop)
    (hrun : ∀ st rem c r rest ev1, sim P L ifm q_len st rem → I st rem → c < q_len →
      rem c = r :: rest →
      (∀ q r1 rest1, q < q_len → rem q = r1 :: rest1 → r1.1 ≤ r.1) →
      r.1 ≥ P.lowScoreCutoff →
      (st.term_control_block c).current_run_len = r.2.length →
      I (end_of_run st c r.1
          ((st.term_control_block c).if_pointer + r.2.length * L.BYTES_FOR_RUN_LEN) r.2 ev1)
        (Function.update rem c rest))
    (hafter : ∀ st1 rem c, I st1 rem → I (after_run L ifm st1 c) rem) :
    ∀ (fuel : Nat) (st : query_state) (rem : Nat → List run),
    sim P L ifm q_len st rem → heap_inv P st.ev → progress P q_len runs_of st rem →
    I st rem → runs_left q_len rem ≤ fuel →
    ∃ st1 why rem1, saat_loop P L ifm q_len fuel st = outcome.returned (st1, why) ∧
      heap_inv P st1.ev ∧ progress P q_len runs_of st1 rem1 ∧ ended P q_len st1 why rem1 ∧
      I st1 rem1 := by
  intro fuel
  induction fuel with
  | zero =>
    intro st rem hs hi hp hI hf
    have hg : ¬ st.terms_still_going > 0 := by
      intro hg
      have := runs_left_pos_of_going q_len rem (by rw [← hs.count]; exact hg)
      omega
    refine ⟨st, stop_reason.terms_exhausted, rem, ?_, hi, hp, Or.inl ⟨rfl, ?_⟩, hI⟩
    · unfold saat_loop; rw [if_neg hg]
    · exact going_zero q_len rem (by rw [← hs.count]; omega)
  | succ fuel ih =>
    intro st rem hs hi hp hI hf
    by_cases hg : st.terms_still_going > 0
    · obtain ⟨c, r, rest, hc, hr, hmax, _, hlo, hhi⟩ := sim_step P L ifm q_len st rem hk1 hs hi hg
      by_cases hlow : r.1 ≥ P.lowScoreCutoff
      · obtain ⟨ev1, hap, hob1, hob2⟩ := hhi hlow
        have hq0 : 0 ≤ r.1 := hs.qscore c hc r (by rw [hr]; exact List.mem_cons_self _ _)
        obtain ⟨hi1, hlog⟩ := apply_postings_inv P r.1 hk1 hq0 r.2 st.ev ev1 hi hap
        have hlen : (st.term_control_block c).current_run_len = r.2.length := by
          have := hs.tcb c hc
          rw [hr] at this
          exact this.2.1
        have hp1 := progress_end_of_run P q_len runs_of st rem c r rest
          ((st.term_control_block c).if_pointer + r.2.length * L.BYTES_FOR_RUN_LEN) ev1 hp hc hr
          hlow hlen hlog
        have hI1 := hrun st rem c r rest ev1 hs hI hc hr hmax hlow hlen
        by_cases hob : over_budget P (end_of_run st c r.1
            ((st.term_control_block c).if_pointer + r.2.length * L.BYTES_FOR_RUN_LEN) r.2 ev1)
        · refine ⟨_, stop_reason.postings_count_cutoff, Function.update rem c rest, ?_, ?_, hp1,
            Or.inr (Or.inr ⟨rfl, hob⟩), hI1⟩
          · unfold saat_loop; rw [if_pos hg, hob1 hob]
          · exact hi1
        · obtain ⟨hstep, hsim⟩ := hob2 hob
          have hrl := runs_left_update q_len rem c rest hc
          rw [hr] at hrl
          simp only [List.length_cons] at hrl
          obtain ⟨st1, why, rem1, h1, h2, h3, h4, h5⟩ := ih _ (Function.update rem c rest) hsim
            (by rw [after_run_ev]; exact hi1)
            (progress_after_run P L ifm q_len runs_of _ _ c hp1) (hafter _ _ c hI1) (by omega)
          refine ⟨st1, why, rem1, ?_, h2, h3, h4, h5⟩
          unfold saat_loop; rw [if_pos hg, hstep]; exact h1
      · refine ⟨st, stop_reason.low_score_cutoff, rem, ?_, hi, hp,
          Or.inr (Or.inl ⟨rfl, ?_⟩), hI⟩
        · unfold saat_loop; rw [if_pos hg, hlo hlow]
        · intro q r1 rest1 hq hq1
          have := hmax q r1 rest1 hq hq1
          omega
    · refine ⟨st, stop_reason.terms_exhausted, rem, ?_, hi, hp, Or.inl ⟨rfl, ?_⟩, hI⟩
      · unfold saat_loop; rw [if_neg hg]
      · exact going_zero q_len rem (by rw [← hs.count]; omega)

/-- A query on a well-formed index, with one more invariant `I` of the loop. -/
theorem wf_query_with (P : params_t) (L : definitions_h) (vocab ifm : Nat → Nat)
    (idx : Int → List run) (query : List Int) (fuel : Nat) (hk1 : 1 ≤ P.k)
    (hq : query.length ≤ MAX_QTERMS)
    (hwf : ∀ t ∈ query, term_encodes L vocab ifm t (idx t) ∧ well_formed_list P (idx t))
    (hf : ((query.map idx).map List.length).sum ≤ fuel)
    (I : query_state → (Nat → List run) → Prop)
    (hrun : ∀ st rem c r rest ev1, sim P L ifm query.length st rem → I st rem →
      c < query.length → rem c = r :: rest →
      (∀ q r1 rest1, q < query.length → rem q = r1 :: rest1 → r1.1 ≤ r.1) →
      r.1 ≥ P.lowScoreCutoff →
      (st.term_control_block c).current_run_len = r.2.length →
      I (end_of_run st c r.1
          ((st.term_control_block c).if_pointer + r.2.length * L.BYTES_FOR_RUN_LEN) r.2 ev1)
        (Function.update rem c rest))
    (hafter : ∀ st1 rem c, I st1 rem → I (after_run L ifm st1 c) rem)
    (hinit : ∀ tcb,
      sim P L ifm query.length { query_state_init query.length with term_control_block := tcb }
        (fun q => idx (query.getD q 0)) →
      I { query_state_init query.length with term_control_block := tcb }
        (fun q => idx (query.getD q 0))) :
    ∃ r rem, process_query P L vocab ifm query fuel = outcome.returned r ∧
      heap_inv P r.final.ev ∧
      progress P query.length (fun q => idx (query.getD q 0)) r.final rem ∧
      ended P query.length r.final r.stopped_by rem ∧
      r.query_line = query ∧ r.result_lines = result_lines_of r.final.ev.g ∧
      I r.final rem := by
  obtain ⟨tcb, hset, hat, _⟩ := setup_control_blocks_at L vocab ifm idx query 0
    (query_state_init query.length).term_control_block
    (fun t ht => ⟨(hwf t ht).1, (hwf t ht).2.nonempty⟩)
  have hmem : ∀ q, q < query.length → query.getD q 0 ∈ query := by
    intro q hq
    rw [List.getD_eq_getElem _ _ hq]
    exact List.getElem_mem _
  have hsim : sim P L ifm query.length
      { query_state_init query.length with term_control_block := tcb }
      (fun q => idx (query.getD q 0)) := by
    constructor
    · intro q hq
      have := hat q hq
      rw [Nat.zero_add] at this
      exact this
    · rw [going_all _ _ (fun q hq => (hwf _ (hmem q hq)).2.nonempty)]
      rfl
    · intro q hq; exact (hwf _ (hmem q hq)).2.run_len
    · intro q hq; exact (hwf _ (hmem q hq)).2.qscore
    · intro q hq; exact (hwf _ (hmem q hq)).2.docid
    · intro q hq; exact term_encodes_bound L vocab ifm _ _ (hwf _ (hmem q hq)).1
  have hprog : progress P query.length (fun q => idx (query.getD q 0))
      { query_state_init query.length with term_control_block := tcb }
      (fun q => idx (query.getD q 0)) := by
    constructor
    · intro q _; simp [query_state_init, consumed]
    · rfl
    · intro e he; simp [query_state_init] at he
    · intro e he; simp [query_state_init] at he
    · intro e he; simp [query_state_init] at he
  have hfuel : runs_left query.length (fun q => idx (query.getD q 0)) ≤ fuel := by
    unfold runs_left
    rw [sum_upto_getD query (fun t => (idx t).length)]
    rw [List.map_map] at hf
    exact hf
  obtain ⟨st1, why, rem1, h1, h2, h3, h4, h5⟩ := wf_loop_with P L ifm query.length
    (fun q => idx (query.getD q 0)) hk1 I hrun hafter fuel _ _ hsim (heap_inv_init P) hprog
    (hinit tcb hsim) hfuel
  refine ⟨{ final := st1, stopped_by := why, query_line := query,
            result_lines := result_lines_of st1.ev.g }, rem1, ?_, h2, h3, h4, rfl, rfl, h5⟩
  unfold process_query
  rw [if_neg (by omega), hset]
  simp only []
  rw [h1]

/-! ## The variant of the loop of `process_query` -/

theorem read_run_header_postings_remaining (L : definitions_h) (ifm : Nat → Nat)
    (b : term_control_block_t) :
    (read_run_header L ifm b).postings_remaining = b.postings_remaining := rfl

theorem after_run_postings_remaining (L : definitions_h) (ifm : Nat → Nat) (st : query_state)
    (c q : Nat) :
    ((after_run L ifm st c).term_control_block q).postings_remaining
      = (st.term_control_block q).postings_remaining := by
  unfold after_run
  split
  · by_cases e : q = c
    · subst e; simp only [Function.update_same]; rfl
    · simp only [Function.update_noteq e]
  · rfl

theorem postings_left_after_run (L : definitions_h) (ifm : Nat → Nat) (q_len : Nat)
    (st : query_state) (c : Nat) :
    postings_left q_len (after_run L ifm st c) = postings_left q_len st := by
  unfold postings_left
  apply sum_upto_congr
  intro q _
  rw [after_run_postings_remaining]

theorem end_of_run_postings_remaining (st : query_state) (c : Nat) (m : Int) (p : Nat)
    (ds : List Int) (ev1 : evaluation) (q : Nat) :
    ((end_of_run st c m p ds ev1).term_control_block q).postings_remaining
      = if q = c then wrap_int ((st.term_control_block c).postings_remaining
          - (st.term_control_block c).current_run_len)
        else (st.term_control_block q).postings_remaining := by
  unfold end_of_run
  by_cases e : q = c
  · subst e; simp only [Function.update_same, if_true]
  · simp only [Function.update_noteq e, if_neg e]

/-- Consuming a run lowers the variant by the length of the run. -/
theorem postings_left_end_of_run (q_len : Nat) (st : query_state) (c : Nat) (m : Int) (p : Nat)
    (ds : List Int) (ev1 : evaluation) (hc : c < q_len)
    (h1 : 0 ≤ (st.term_control_block c).current_run_len)
    (h2 : (st.term_control_block c).current_run_len
      ≤ (st.term_control_block c).postings_remaining)
    (h3 : (st.term_control_block c).postings_remaining < 2 ^ 31) :
    postings_left q_len (end_of_run st c m p ds ev1) + (st.term_control_block c).current_run_len
      = postings_left q_len st := by
  unfold postings_left
  have hw : wrap_int ((st.term_control_block c).postings_remaining
      - (st.term_control_block c).current_run_len)
      = (st.term_control_block c).postings_remaining
        - (st.term_control_block c).current_run_len :=
    wrap_int_of_range _ (by omega) (by omega)
  have e : (fun q => max 0 ((end_of_run st c m p ds ev1).term_control_block q).postings_remaining)
      = Function.update (fun q => max 0 (st.term_control_block q).postings_remaining) c
          (max 0 ((st.term_control_block c).postings_remaining
            - (st.term_control_block c).current_run_len)) := by
    funext q
    rw [end_of_run_postings_remaining]
    by_cases e : q = c
    · subst e; simp [hw]
    · simp [e]
  rw [e]
  have := sum_upto_update q_len (fun q => max 0 (st.term_control_block q).postings_remaining) c
    (max 0 ((st.term_control_block c).postings_remaining
      - (st.term_control_block c).current_run_len)) hc
  simp only at this
  have m1 : max 0 (st.term_control_block c).postings_remaining
      = (st.term_control_block c).postings_remaining := max_eq_right (by omega)
  have m2 : max 0 ((st.term_control_block c).postings_remaining
      - (st.term_control_block c).current_run_len)
      = (st.term_control_block c).postings_remaining
        - (st.term_control_block c).current_run_len := max_eq_right (by omega)
  rw [m1, m2] at this
  rw [m2]
  omega

/-- Under the invariant of the loop an iteration either leaves the loop at the low-score
test, the state untouched, or consumes a run and lowers the variant; when it goes on,
the invariant holds again. -/
theorem saat_step_variant (P : params_t) (L : definitions_h) (ifm : Nat → Nat) (q_len : Nat)
    (st : query_state) (rem : Nat → List run) (hk1 : 1 ≤ P.k)
    (hs : sim P L ifm q_len st rem) (hi : heap_inv P st.ev)
    (hg : st.terms_still_going > 0) :
    saat_step P L ifm q_len st = step_result.stop st stop_reason.low_score_cutoff ∨
    ∃ st1, postings_left q_len st1 < postings_left q_len st ∧
      (saat_step P L ifm q_len st = step_result.stop st1 stop_reason.postings_count_cutoff ∨
        (saat_step P L ifm q_len st = step_result.again st1 ∧
          heap_inv P st1.ev ∧ ∃ rem1, sim P L ifm q_len st1 rem1)) := by
  obtain ⟨c, r, rest, hc, hr, _, _, hlo, hhi⟩ := sim_step P L ifm q_len st rem hk1 hs hi hg
  by_cases hlow : r.1 ≥ P.lowScoreCutoff
  · right
    obtain ⟨ev1, hap, hob1, hob2⟩ := hhi hlow
    have hq0 : 0 ≤ r.1 := hs.qscore c hc r (by rw [hr]; exact List.mem_cons_self _ _)
    obtain ⟨hi1, _⟩ := apply_postings_inv P r.1 hk1 hq0 r.2 st.ev ev1 hi hap
    have ht := hs.tcb c hc
    rw [hr] at ht
    have hlen : (st.term_control_block c).current_run_len = r.2.length := ht.2.1
    have hrem : (st.term_control_block c).postings_remaining = total_postings (r :: rest) :=
      ht.2.2.1
    have hr1 : 1 ≤ r.2.length := hs.run_len c hc r (by rw [hr]; exact List.mem_cons_self _ _)
    have hnn := total_postings_nonneg rest
    rw [total_postings_cons] at hrem
    have hdec := postings_left_end_of_run q_len st c r.1
      ((st.term_control_block c).if_pointer + r.2.length * L.BYTES_FOR_RUN_LEN) r.2 ev1 hc
      (by rw [hlen]; omega) (by rw [hlen, hrem]; omega)
      (by
        have hb := hs.bound c hc
        rw [hr, total_postings_cons] at hb
        rw [hrem]; exact hb)
    by_cases hob : over_budget P (end_of_run st c r.1
        ((st.term_control_block c).if_pointer + r.2.length * L.BYTES_FOR_RUN_LEN) r.2 ev1)
    · exact ⟨_, by rw [hlen] at hdec; omega, Or.inl (hob1 hob)⟩
    · obtain ⟨hstep, hsim⟩ := hob2 hob
      refine ⟨_, ?_, Or.inr ⟨hstep, ?_, _, hsim⟩⟩
      · rw [postings_left_after_run]
        rw [hlen] at hdec
        omega
      · rw [after_run_ev]; exact hi1
  · left
    exact hlo hlow

theorem run_lengths_append (l : List run_event) (e : run_event) :
    run_lengths (l ++ [e]) = run_lengths l + e.current_run_len := by
  unfold run_lengths
  rw [List.map_append, List.sum_append, List.map_cons, List.map_nil, List.sum_cons,
    List.sum_nil, add_zero]

/-- When a control block stands at the runs `rs`, its `postings_remaining` is their number
of postings. -/
theorem tcb_at_postings_remaining (L : definitions_h) (ifm : Nat → Nat)
    (b : term_control_block_t) (rs : List run) (h : tcb_at L ifm b rs) :
    b.postings_remaining = total_postings rs := by
  cases rs with
  | nil => exact h
  | cons r rest => exact h.2.2.1

/-! ## Reading back what the specification writes -/

theorem stored_at_append_left (mem : Nat → Nat) (p : Nat) (a b : List Nat)
    (h : stored_at mem p (a ++ b)) : stored_at mem p a := by
  intro i hi
  have := h i (by rw [List.length_append]; omega)
  rw [this, List.getD_eq_getElem _ _ (by rw [List.length_append]; omega),
    List.getD_eq_getElem _ _ hi, List.getElem_append_left hi]

theorem stored_at_append_right (mem : Nat → Nat) (p : Nat) (a b : List Nat)
    (h : stored_at mem p (a ++ b)) : stored_at mem (p + a.length) b := by
  intro i hi
  have := h (a.length + i) (by rw [List.length_append]; omega)
  rw [Nat.add_assoc, this, List.getD_eq_getElem _ _ (by rw [List.length_append]; omega),
    List.getD_eq_getElem _ _ hi, List.getElem_append_right (by omega)]
  simp

/-- The decoder on a stored big-endian field. -/
theorem make_ull_stored (mem : Nat → Nat) (p n x : Nat)
    (h : stored_at mem p (big_endian n x)) :
    make_ull_from_n_bytes (ptr_add mem p) n = x % 256 ^ n % 2 ^ 32 := by
  rw [make_ull_mod]
  have e : (List.range n).map (fun j => ptr_add mem p j % 256) = big_endian n x := by
    apply List.ext_getElem
    · simp [big_endian_length]
    · intro i h1 h2
      simp only [List.getElem_map, List.getElem_range, ptr_add]
      rw [h i h2, List.getD_eq_getElem _ _ h2]
      exact Nat.mod_eq_of_lt (big_endian_lt n x _ (List.getElem_mem _))
  rw [e, big_endian_value_big_endian]

theorem to_int_of_lt (x : Nat) (h : x < 2 ^ 31) : to_int x = (x : Int) := by
  unfold to_int
  have e : x % 2 ^ 32 = x := Nat.mod_eq_of_lt (by omega)
  rw [e, if_pos h]

/-- A stored field whose value fits it and is below `2 ^ 31` is read back as written. -/
theorem decode_stored (mem : Nat → Nat) (p n x : Nat)
    (h : stored_at mem p (big_endian n x)) (h1 : x < 256 ^ n) (h2 : x < 2 ^ 31) :
    to_int (make_ull_from_n_bytes (ptr_add mem p) n) = (x : Int) := by
  rw [make_ull_stored mem p n x h, Nat.mod_eq_of_lt h1, Nat.mod_eq_of_lt (by omega)]
  exact to_int_of_lt x h2

theorem length_flatten_big_endian (n : Nat) (ds : List Nat) :
    ((ds.map (big_endian n)).flatten).length = ds.length * n := by
  induction ds with
  | nil => simp
  | cons d ds ih =>
    rw [List.map_cons, List.flatten_cons, List.length_append, ih, big_endian_length,
      List.length_cons]
    ring

theorem spec_run_bytes_length (L : definitions_h) (r : written_run) :
    (spec_run_bytes L r).length
      = L.BYTES_FOR_QSCORE + L.BYTES_FOR_RUN_LEN + r.2.length * L.BYTES_FOR_DOCID := by
  unfold spec_run_bytes
  rw [List.length_append, List.length_append, big_endian_length, big_endian_length,
    length_flatten_big_endian]
  omega

/-- With docids as wide as run lengths the loop over a run reads the docids written. -/
theorem read_docids_stored (L : definitions_h) (mem : Nat → Nat)
    (hw : L.BYTES_FOR_DOCID = L.BYTES_FOR_RUN_LEN) :
    ∀ (ds : List Nat) (p : Nat),
      stored_at mem p ((ds.map (big_endian L.BYTES_FOR_DOCID)).flatten) →
      (∀ d ∈ ds, d < 256 ^ L.BYTES_FOR_DOCID ∧ d < 2 ^ 31) →
      read_docids L mem ds.length p = ds.map Int.ofNat := by
  intro ds
  induction ds with
  | nil => intro p _ _; rfl
  | cons d ds ih =>
    intro p hs hd
    rw [List.map_cons, List.flatten_cons] at hs
    have h1 := stored_at_append_left _ _ _ _ hs
    have h2 := stored_at_append_right _ _ _ _ hs
    rw [big_endian_length] at h2
    nth_rewrite 1 [hw] at h2
    obtain ⟨hd1, hd2⟩ := hd d (List.mem_cons_self _ _)
    rw [List.length_cons, read_docids, decode_stored mem p _ d h1 hd1 hd2,
      ih _ h2 (fun x hx => hd x (List.mem_cons_of_mem _ hx)), List.map_cons]
    rfl

/-- The fields of a stored run, as the reader decodes them. -/
theorem run_stored (L : definitions_h) (mem : Nat → Nat)
    (hw : L.BYTES_FOR_DOCID = L.BYTES_FOR_RUN_LEN) (r : written_run) (rest : List Nat) (p : Nat)
    (hs : stored_at mem p (spec_run_bytes L r ++ rest)) (hf : run_fits L (2 ^ 31) r) :
    to_int (make_ull_from_n_bytes (ptr_add mem p) L.BYTES_FOR_QSCORE) = (r.1 : Int) ∧
    to_int (make_ull_from_n_bytes (ptr_add mem (p + L.BYTES_FOR_QSCORE))
      L.BYTES_FOR_RUN_LEN) = (r.2.length : Int) ∧
    read_docids L mem r.2.length (p + L.BYTES_FOR_QSCORE + L.BYTES_FOR_RUN_LEN)
      = r.2.map Int.ofNat ∧
    p + L.BYTES_FOR_QSCORE + L.BYTES_FOR_RUN_LEN + r.2.length * L.BYTES_FOR_RUN_LEN
      = p + (spec_run_bytes L r).length ∧
    stored_at mem
      (p + L.BYTES_FOR_QSCORE + L.BYTES_FOR_RUN_LEN + r.2.length * L.BYTES_FOR_RUN_LEN) rest := by
  obtain ⟨f1, f2, f3, f4, f5⟩ := hf
  have hrun := stored_at_append_left _ _ _ _ hs
  have hrest := stored_at_append_right _ _ _ _ hs
  unfold spec_run_bytes at hrun
  have a1 := stored_at_append_left _ _ _ _ hrun
  have a2 := stored_at_append_right _ _ _ _ hrun
  rw [big_endian_length] at a2
  have b1 := stored_at_append_left _ _ _ _ a2
  have b2 := stored_at_append_right _ _ _ _ a2
  rw [big_endian_length] at b2
  have hlen := spec_run_bytes_length L r
  have e : p + L.BYTES_FOR_QSCORE + L.BYTES_FOR_RUN_LEN + r.2.length * L.BYTES_FOR_RUN_LEN
      = p + (spec_run_bytes L r).length := by
    rw [hlen, hw]; omega
  refine ⟨decode_stored mem p _ _ a1 f1 f2, decode_stored mem _ _ _ b1 f3 f4,
    read_docids_stored L mem hw r.2 _ b2 f5, e, ?_⟩
  rw [e]; exact hrest

/-- With docids as wide as run lengths a stored posting list whose values fit and are
below `2 ^ 31` is, to the reads of `process_query`, the list of the runs written. -/
theorem runs_at_stored (L : definitions_h) (mem : Nat → Nat)
    (hw : L.BYTES_FOR_DOCID = L.BYTES_FOR_RUN_LEN) :
    ∀ (rs : List written_run) (p : Nat), stored_at mem p (spec_posting_list_bytes L rs) →
      (∀ r ∈ rs, run_fits L (2 ^ 31) r) → runs_at L mem p (rs.map run_of_written) := by
  intro rs
  induction rs with
  | nil => intro p _ _; trivial
  | cons r rs ih =>
    intro p hs hf
    unfold spec_posting_list_bytes at hs
    rw [List.map_cons, List.flatten_cons] at hs
    obtain ⟨h1, h2, h3, _, h5⟩ := run_stored L mem hw r _ p hs (hf r (List.mem_cons_self _ _))
    rw [List.map_cons]
    unfold runs_at
    have hl : (run_of_written r).2.length = r.2.length := by
      simp [run_of_written]
    rw [hl]
    exact ⟨h1, h2, h3, ih _ h5 (fun x hx => hf x (List.mem_cons_of_mem _ hx))⟩

/-- The reader's walk over a stored posting list: every header is read where it was
written and every run is decoded as written. -/
theorem reader_walk_stored (L : definitions_h) (mem : Nat → Nat)
    (hw : L.BYTES_FOR_DOCID = L.BYTES_FOR_RUN_LEN) :
    ∀ (rs : List written_run) (p : Nat), stored_at mem p (spec_posting_list_bytes L rs) →
      (∀ r ∈ rs, run_fits L (2 ^ 31) r) →
      reader_walk L mem rs.length p
        = (spec_header_positions L p rs).zip
            (rs.map (fun r => ((r.1 : Int), (r.2.length : Int), r.2.map Int.ofNat))) := by
  intro rs
  induction rs with
  | nil => intro p _ _; rfl
  | cons r rs ih =>
    intro p hs hf
    unfold spec_posting_list_bytes at hs
    rw [List.map_cons, List.flatten_cons] at hs
    obtain ⟨h1, h2, h3, h4, h5⟩ := run_stored L mem hw r _ p hs (hf r (List.mem_cons_self _ _))
    rw [List.length_cons, reader_walk, spec_header_positions, List.map_cons, List.zip_cons_cons]
    simp only [read_run_header]
    rw [h1, h2, Int.toNat_ofNat, h3, h4, ih _ (by rw [← h4]; exact h5)
      (fun x hx => hf x (List.mem_cons_of_mem _ hx))]

theorem total_postings_written (rs : List written_run) :
    total_postings (rs.map run_of_written) = ((rs.map (fun r => r.2.length)).sum : Nat) := by
  induction rs with
  | nil => rfl
  | cons r rs ih =>
    rw [List.map_cons, total_postings_cons, ih, List.map_cons, List.sum_cons]
    simp [run_of_written]

/-- A term written as the specification says is a term the reader decodes to the runs
written, when docids are as wide as run lengths. -/
theorem term_encodes_of_written (L : definitions_h) (vocab ifm : Nat → Nat)
    (hw : L.BYTES_FOR_DOCID = L.BYTES_FOR_RUN_LEN) (t : Int) (rs : List written_run)
    (h : term_written L vocab ifm t rs) (hf : ∀ r ∈ rs, run_fits L (2 ^ 31) r) :
    term_encodes L vocab ifm t (rs.map run_of_written) := by
  obtain ⟨h1, h2, h3, h4⟩ := h
  refine ⟨h1, h2, ?_, runs_at_stored L ifm hw rs _ h4 hf⟩
  rw [h3, total_postings_written]

/-! ## Properties of the specification -/

/-- C1. After every call of `insert_in_fake_heap` that `process_query` makes, and so when the
ranking is printed, the list is in descending order of the current accumulators: there is
one snapshot `(docid, score)` of the list per posting applied, taken when the call returns,
and every snapshot has non-increasing scores; at the end
`accumulators[fake_heap[i]] ≥ accumulators[fake_heap[j]]` for all positions
`i < j < items_in_fake_heap`, and the scores printed do not increase. -/
theorem topk_sorted_after_each_insert (P : params_t) (L : definitions_h)
    (vocab_in_mem if_in_mem : Nat → Nat) (query_array : List Int) (fuel : Nat)
    (r : query_result) (hk : 1 ≤ P.k)
    (h : process_query P L vocab_in_mem if_in_mem query_array fuel = outcome.returned r) :
    r.final.ev.heap_log.length = r.final.ev.posting_log.length ∧
    (∀ snap ∈ r.final.ev.heap_log, List.Sorted (fun a b => a ≥ b) (snap.map Prod.snd)) ∧
    (∀ i j, i < j → j < r.final.ev.g.items_in_fake_heap →
      r.final.ev.g.accumulators (r.final.ev.g.fake_heap i)
        ≥ r.final.ev.g.accumulators (r.final.ev.g.fake_heap j)) ∧
    List.Sorted (fun a b => a ≥ b) (r.result_lines.map (fun x => x.2.2)) := by
  have hi := process_query_heap_inv P L vocab_in_mem if_in_mem query_array fuel r hk h
  obtain ⟨_, _, _, _, _, hres⟩ := process_query_returned P L vocab_in_mem if_in_mem query_array fuel r h
  refine ⟨hi.log_len, hi.log_sorted, topk_desc_index _ hi.sorted, ?_⟩
  rw [hres]
  unfold result_lines_of
  rw [List.map_map]
  have := hi.sorted
  unfold desc topk at this
  have h2 := List.pairwise_map.mp this
  unfold List.Sorted
  rw [List.pairwise_map]
  exact h2

theorem topk_sorted_after_each_insert_witness :
    1 ≤ demo_params.k ∧
    process_query demo_params demo_layout demo_vocab demo_if [1, 2] 5
      = outcome.returned demo_result ∧
    demo_result.final.ev.heap_log.length = demo_result.final.ev.posting_log.length ∧
    (∀ snap ∈ demo_result.final.ev.heap_log,
      List.Sorted (fun a b => a ≥ b) (snap.map Prod.snd)) ∧
    (∀ i j, i < j → j < demo_result.final.ev.g.items_in_fake_heap →
      demo_result.final.ev.g.accumulators (demo_result.final.ev.g.fake_heap i)
        ≥ demo_result.final.ev.g.accumulators (demo_result.final.ev.g.fake_heap j)) ∧
    List.Sorted (fun a b => a ≥ b) (demo_result.result_lines.map (fun x => x.2.2)) :=
  ⟨by decide, rfl,
    topk_sorted_after_each_insert demo_params demo_layout demo_vocab demo_if [1, 2] 5
      demo_result (by decide) rfl⟩

/-- C2. For `k ≥ 1`, from the empty list, after any sequence of calls of
`insert_in_fake_heap` no docid is at two positions of `fake_heap[0 .. items_in_fake_heap)`,
and inserting again a docid that is in the list leaves exactly one occurrence of it. -/
theorem topk_no_docid_twice (k : Nat) (hk : 1 ≤ k) (g0 : globals)
    (h0 : g0.items_in_fake_heap = 0) (calls : List ((Int → Int) × Int × Int)) :
    ∃ g, insert_calls k calls g0 = some g ∧
      (∀ i j, i < g.items_in_fake_heap → j < g.items_in_fake_heap →
        g.fake_heap i = g.fake_heap j → i = j) ∧
      ∀ (acc : Int → Int) (d s : Int), d ∈ topk g →
        ∃ g1, insert_in_fake_heap k { g with accumulators := acc } d s = some g1 ∧
          (topk g1).count d = 1 := by
  have hn0 : (topk g0).Nodup := by simp [topk, h0]
  obtain ⟨g, e, hs, hn⟩ := insert_calls_inv k hk calls g0 (by omega) hn0
  refine ⟨g, e, topk_nodup_index g hn, ?_⟩
  intro acc d s hd
  obtain ⟨g1, e1, _, e3⟩ := insert_in_fake_heap_spec k { g with accumulators := acc } d s hs hk
  have ht : topk { g with accumulators := acc } = topk g := rfl
  rw [ht] at e3
  have hlen : (topk g).length ≤ k := by rw [length_topk]; exact hs
  refine ⟨g1, e1, ?_⟩
  have hn1 : (topk g1).Nodup := by rw [e3]; exact nodup_ins_abs _ _ _ _ _ hlen hk hn
  apply List.count_eq_one_of_mem hn1
  rw [e3]
  rcases ins_abs_cases k acc (topk g) d s hlen hk with ⟨_, h⟩ | ⟨h1, _⟩ | ⟨h1, _⟩ | ⟨h1, _⟩
  · rw [h]; exact mem_ins_at.mpr (Or.inl rfl)
  · exact absurd hd h1
  · exact absurd hd h1
  · exact absurd hd h1

theorem topk_no_docid_twice_witness :
    ∃ g, insert_calls 2 [(fun _ => 8, 3, 8), (fun _ => 8, 4, 8), (fun _ => 14, 4, 14),
        (fun _ => 6, 7, 6)] globals_cleared = some g ∧
      (∀ i j, i < g.items_in_fake_heap → j < g.items_in_fake_heap →
        g.fake_heap i = g.fake_heap j → i = j) ∧
      ∀ (acc : Int → Int) (d s : Int), d ∈ topk g →
        ∃ g1, insert_in_fake_heap 2 { g with accumulators := acc } d s = some g1 ∧
          (topk g1).count d = 1 :=
  topk_no_docid_twice 2 (by decide) globals_cleared rfl _

/-- C3, refuted as stated. With every field four bytes wide, terms 0 and 1 are the runs
(2^30, [5]) and (2^30, [6]); the query `0 1 0` with `k = 1` applies 2^30 to docid 5, 2^30 to
docid 6 (not inserted: the list is full and the scores are equal) and 2^30 to docid 5
again.  The `int` accumulator of docid 5 then holds -2^31, docid 5 is removed and put
back into the empty list, and the ranking stage is reached with a full list whose only
entry has accumulator -2^31 while docid 6, which received a posting and is not in
the list, has accumulator 2^30.  All qscores are non-negative. -/
theorem topk_misses_best_on_overflow :
    1 ≤ big_params.k ∧
    (∀ t ∈ [(0 : Int), 1, 0], ∀ r ∈ big_index t, 0 ≤ r.1) ∧
    process_query big_params wide_layout big_vocab big_if [0, 1, 0] 3
      = outcome.returned big_result ∧
    big_result.final.ev.posting_log = [(5, 1073741824), (6, 1073741824), (5, 1073741824)] ∧
    topk big_result.final.ev.g = [5] ∧
    big_result.final.ev.g.items_in_fake_heap = big_params.k ∧
    big_result.final.ev.g.accumulators 6 = 1073741824 ∧
    big_result.final.ev.g.accumulators (big_result.final.ev.g.fake_heap (big_params.k - 1))
      = -2147483648 ∧
    ¬ (big_result.final.ev.g.items_in_fake_heap = big_params.k →
      ∀ d ∈ touched_docids big_result.final.ev, d ∉ topk big_result.final.ev.g →
        big_result.final.ev.g.accumulators d
          ≤ big_result.final.ev.g.accumulators
              (big_result.final.ev.g.fake_heap (big_params.k - 1))) :=
  ⟨by decide, by decide, rfl, by decide, by decide, by decide, by decide, by decide, by decide⟩

/-- C3, amended. When `process_query` reaches the ranking stage and no docid has received
postings whose qscores sum to more than `2 ^ 31 - 1` (so no `int` accumulator has
overflowed), the list holds the best touched documents: if it is full, every docid that
received a posting and is not in it has an accumulator at most that of the last entry
`fake_heap[k-1]`; if it is not full, every docid that received a posting is in it.  The
second part holds whatever the sums are. -/
theorem topk_holds_best_touched (P : params_t) (L : definitions_h)
    (vocab_in_mem if_in_mem : Nat → Nat) (query_array : List Int) (fuel : Nat)
    (r : query_result) (hk : 1 ≤ P.k)
    (h : process_query P L vocab_in_mem if_in_mem query_array fuel = outcome.returned r) :
    ((∀ d, log_score r.final.ev.posting_log d < 2 ^ 31) →
      r.final.ev.g.items_in_fake_heap = P.k →
      ∀ d ∈ touched_docids r.final.ev, d ∉ topk r.final.ev.g →
        r.final.ev.g.accumulators d
          ≤ r.final.ev.g.accumulators (r.final.ev.g.fake_heap (P.k - 1))) ∧
    (r.final.ev.g.items_in_fake_heap < P.k →
      ∀ d ∈ touched_docids r.final.ev, d ∈ topk r.final.ev.g) := by
  have hi := process_query_heap_inv P L vocab_in_mem if_in_mem query_array fuel r hk h
  constructor
  · intro hno hfull d hd hnot
    rcases hi.complete hno d hd with h1 | ⟨_, h2⟩
    · exact absurd h1 hnot
    · apply h2
      rw [topk_eq_slice, mem_slice]
      exact ⟨P.k - 1, by omega, by omega, rfl⟩
  · intro hlt d hd
    rcases hi.listed d hd with h1 | h2
    · exact h1
    · omega

theorem topk_holds_best_touched_witness :
    1 ≤ demo_params.k ∧
    process_query demo_params demo_layout demo_vocab demo_if [1, 2] 5
      = outcome.returned demo_result ∧
    (∀ d, log_score demo_result.final.ev.posting_log d < 2 ^ 31) ∧
    demo_result.final.ev.g.items_in_fake_heap = demo_params.k ∧
    touched_docids demo_result.final.ev = [3, 4, 4, 7] ∧
    topk demo_result.final.ev.g = [4, 3] ∧
    ((∀ d, log_score demo_result.final.ev.posting_log d < 2 ^ 31) →
      demo_result.final.ev.g.items_in_fake_heap = demo_params.k →
      ∀ d ∈ touched_docids demo_result.final.ev, d ∉ topk demo_result.final.ev.g →
        demo_result.final.ev.g.accumulators d
          ≤ demo_result.final.ev.g.accumulators
              (demo_result.final.ev.g.fake_heap (demo_params.k - 1))) ∧
    (demo_result.final.ev.g.items_in_fake_heap < demo_params.k →
      ∀ d ∈ touched_docids demo_result.final.ev, d ∈ topk demo_result.final.ev.g) :=
  ⟨by decide, rfl,
    fun d => lt_of_le_of_lt (log_score_le_total _ (by decide) d) (by decide),
    by decide, by decide, by decide,
    topk_holds_best_touched demo_params demo_layout demo_vocab demo_if [1, 2] 5 demo_result
      (by decide) rfl⟩

/-- C4. For `k ≥ 1`, from the empty list, every call of a sequence of calls of
`insert_in_fake_heap` stores only at indices `0 .. k-1` of `fake_heap` (the sequence runs to
its end), and afterwards `items_in_fake_heap ≤ k`. -/
theorem topk_size_bound (k : Nat) (hk : 1 ≤ k) (g0 : globals)
    (h0 : g0.items_in_fake_heap = 0) (calls : List ((Int → Int) × Int × Int)) :
    ∃ g, insert_calls k calls g0 = some g ∧ g.items_in_fake_heap ≤ k := by
  have hn0 : (topk g0).Nodup := by simp [topk, h0]
  obtain ⟨g, e, hs, _⟩ := insert_calls_inv k hk calls g0 (by omega) hn0
  exact ⟨g, e, hs⟩

theorem topk_size_bound_witness :
    ∃ g, insert_calls 2 [(fun _ => 8, 3, 8), (fun _ => 8, 4, 8), (fun _ => 14, 4, 14),
        (fun _ => 6, 7, 6)] globals_cleared = some g ∧ g.items_in_fake_heap ≤ 2 :=
  topk_size_bound 2 (by decide) globals_cleared rfl _

/-- C5, refuted as stated. With every field four bytes wide, term 2 is the run
(2^31 - 1, [5]); the query `2 2` with no cutoff and `k = numDocs = 10` applies
`2^31 - 1` to docid 5 twice.  The posting list is well formed and laid out at the
stride the reader uses, the brute-force score of docid 5 is 4294967294, and the
ranking printed gives docid 5 the score -2: the accumulators are `int`s. -/
theorem saat_order_law_fails_on_overflow :
    (0 < demo_params_all.numDocs ∧ demo_params_all.numDocs ≤ demo_params_all.k ∧
      demo_params_all.lowScoreCutoff = 0 ∧ demo_params_all.postingsCountCutoff = 0) ∧
    (∀ t ∈ [(2 : Int), 2],
      term_encodes wide_layout big_vocab big_if t (big_index t) ∧
      well_formed_list demo_params_all (big_index t)) ∧
    (process_query demo_params_all wide_layout big_vocab big_if [2, 2] 2).result.map
      (fun r => r.result_lines) = some [(1, 5, -2)] ∧
    brute_force_score ([2, 2].map big_index) 5 = 4294967294 :=
  ⟨by decide,
    fun t ht => big_index_well_formed demo_params_all rfl t (by
      simp only [List.mem_cons, List.mem_singleton, List.not_mem_nil, or_false, or_self] at ht
      rw [ht]; decide),
    by decide, by decide⟩

/-- C5, amended. SAAT order law. On an index whose posting lists are well formed and laid
out at the stride the reader uses, with `lowScoreCutoff = 0`, `postingsCountCutoff = 0`
and `k ≥ numDocs`, when no docid has a brute-force score above `2 ^ 31 - 1`, a query given
one unit of fuel per run returns, and its result lines are the brute-force ranking: the
docids are exactly those of the postings of the query term positions, each once; the
score of each is its brute-force sum of impacts; scores do not increase down the list;
ranks count from 1. -/
theorem saat_order_law (P : params_t) (L : definitions_h) (vocab_in_mem if_in_mem : Nat → Nat)
    (idx : Int → List run) (query_array : List Int) (fuel : Nat)
    (hn : 0 < P.numDocs) (hk : P.numDocs ≤ P.k)
    (hl : P.lowScoreCutoff = 0) (hb : P.postingsCountCutoff = 0)
    (hq : query_array.length ≤ MAX_QTERMS)
    (hwf : ∀ t ∈ query_array,
      term_encodes L vocab_in_mem if_in_mem t (idx t) ∧ well_formed_list P (idx t))
    (hno : ∀ d, brute_force_score (query_array.map idx) d < 2 ^ 31)
    (hf : ((query_array.map idx).map List.length).sum ≤ fuel) :
    ∃ r, process_query P L vocab_in_mem if_in_mem query_array fuel = outcome.returned r ∧
      (∀ d, d ∈ r.result_lines.map (fun x => x.2.1)
        ↔ d ∈ (brute_force_postings (query_array.map idx)).map Prod.fst) ∧
      (r.result_lines.map (fun x => x.2.1)).Nodup ∧
      (∀ x ∈ r.result_lines, x.2.2 = brute_force_score (query_array.map idx) x.2.1) ∧
      List.Sorted (fun a b => a ≥ b) (r.result_lines.map (fun x => x.2.2)) ∧
      r.result_lines.map (fun x => x.1) = List.range' 1 r.result_lines.length := by
  have hk1 : 1 ≤ P.k := by omega
  have hmem : ∀ q, q < query_array.length → query_array.getD q 0 ∈ query_array := by
    intro q hq
    rw [List.getD_eq_getElem _ _ hq]
    exact List.getElem_mem _
  obtain ⟨r, hr, hi, hres, hpost, hch, _, hsplit, hacc⟩ :=
    wf_query_scores P L vocab_in_mem if_in_mem idx query_array fuel hk1 hq hwf
      (fun t ht pre r1 rest he hlt => by
        have := (hwf t ht).2.qscore r1 (by rw [he]; simp)
        omega) hb hf
  -- every posting list was consumed whole
  have hall : ∀ q, q < query_array.length →
      consumed r.final.run_log q = idx (query_array.getD q 0) := by
    intro q hq
    obtain ⟨rest, h1, _, h3, _⟩ := hsplit q hq
    have hnil : rest = [] := by
      cases rest with
      | nil => rfl
      | cons x xs =>
        have hx1 := h3 x (List.mem_cons_self _ _)
        have hx2 := (hwf _ (hmem q hq)).2.qscore x (by rw [h1]; simp)
        omega
    rw [h1, hnil, List.append_nil]
  have hlog : ∀ d, log_score r.final.ev.posting_log d
      = brute_force_score (query_array.map idx) d := by
    intro d
    rw [hacc d, brute_force_score_eq, List.map_map, List.map_map]
    apply congrArg
    apply List.map_congr_left
    intro t ht
    simp only [Function.comp]
    rw [List.filter_eq_self.mpr]
    intro x hx
    have := (hwf t ht).2.qscore x hx
    simp
    omega
  have hscore : ∀ d, r.final.ev.g.accumulators d = brute_force_score (query_array.map idx) d := by
    intro d
    rw [← hlog d]
    exact accumulator_exact P r.final.ev hi d (by rw [hlog d]; exact hno d)
  refine ⟨r, hr, ?_, ?_, ?_, ?_, ?_⟩
  · intro d
    rw [hres, result_lines_docids, mem_brute_force_postings]
    constructor
    · intro hd
      have ht := hi.sub d hd
      unfold touched_docids at ht
      rw [hpost, mem_postings_of_log] at ht
      obtain ⟨e, he, hde⟩ := ht
      have hc := hch e he
      refine ⟨idx (query_array.getD e.chosen 0), ?_, run_of_event e, ?_, hde⟩
      · exact List.mem_map.mpr ⟨_, hmem _ hc, rfl⟩
      · rw [← hall e.chosen hc, mem_consumed]
        exact ⟨e, he, rfl, rfl⟩
    · rintro ⟨rs, hrs, x, hx, hdx⟩
      apply topk_all_touched P _ hi hk
      unfold touched_docids
      rw [hpost, mem_postings_of_log]
      obtain ⟨t, ht, rfl⟩ := List.mem_map.mp hrs
      obtain ⟨q, hq1, hq2⟩ := List.getElem_of_mem ht
      have hq3 : query_array.getD q 0 = t := by
        rw [List.getD_eq_getElem _ _ hq1]; exact hq2
      have hx2 : x ∈ consumed r.final.run_log q := by rw [hall q hq1, hq3]; exact hx
      obtain ⟨e, he, _, rfl⟩ := (mem_consumed _ _ _).mp hx2
      exact ⟨e, he, hdx⟩
  · rw [hres, result_lines_docids]; exact hi.nodup
  · intro x hx
    rw [hres] at hx
    rw [result_lines_scores _ x hx, hscore]
  · rw [hres]
    unfold result_lines_of
    rw [List.map_map]
    have := hi.sorted
    unfold desc topk at this
    have h2 := List.pairwise_map.mp this
    unfold List.Sorted
    rw [List.pairwise_map]
    exact h2
  · rw [hres]; exact result_lines_ranks _

theorem saat_order_law_witness :
    (0 < demo_params_all.numDocs ∧ demo_params_all.numDocs ≤ demo_params_all.k ∧
      demo_params_all.lowScoreCutoff = 0 ∧ demo_params_all.postingsCountCutoff = 0) ∧
    (∀ t ∈ [(1 : Int), 2],
      term_encodes demo_layout demo_vocab demo_if t (demo_index t) ∧
      well_formed_list demo_params_all (demo_index t)) ∧
    (∀ d, brute_force_score ([1, 2].map demo_index) d < 2 ^ 31) ∧
    (process_query demo_params_all demo_layout demo_vocab demo_if [1, 2] 2).result.map
      (fun r => r.result_lines) = some [(1, 4, 14), (2, 3, 8), (3, 7, 6)] ∧
    ∃ r, process_query demo_params_all demo_layout demo_vocab demo_if [1, 2] 2
        = outcome.returned r ∧
      (∀ d, d ∈ r.result_lines.map (fun x => x.2.1)
        ↔ d ∈ (brute_force_postings ([1, 2].map demo_index)).map Prod.fst) ∧
      (r.result_lines.map (fun x => x.2.1)).Nodup ∧
      (∀ x ∈ r.result_lines, x.2.2 = brute_force_score ([1, 2].map demo_index) x.2.1) ∧
      List.Sorted (fun a b => a ≥ b) (r.result_lines.map (fun x => x.2.2)) ∧
      r.result_lines.map (fun x => x.1) = List.range' 1 r.result_lines.length :=
  ⟨by decide, demo_index_well_formed demo_params_all rfl,
    fun d => lt_of_le_of_lt (log_score_le_total _ (by decide) d) (by decide), by decide,
    saat_order_law demo_params_all demo_layout demo_vocab demo_if demo_index [1, 2] 2
      (by decide) (by decide) rfl rfl (by decide)
      (demo_index_well_formed demo_params_all rfl)
      (fun d => lt_of_le_of_lt (log_score_le_total _ (by decide) d) (by decide)) (by decide)⟩

/-- C6, at the failing inputs. On the small index term 0 has `postings_count == 0`: the
query `0` takes the exit "Unable to find a best" at the first iteration, the query `1 0`
takes it at the second, and neither reaches the ranking stage. -/
theorem empty_posting_list_is_fatal :
    (∀ fuel, process_query demo_params demo_layout demo_vocab demo_if [0] (fuel + 1)
      = outcome.exit_1) ∧
    (∀ fuel, process_query demo_params demo_layout demo_vocab demo_if [1, 0] (fuel + 2)
      = outcome.exit_1) :=
  ⟨fun _ => rfl, fun _ => rfl⟩

/-- C7, refuted as stated. With every field four bytes wide, term 0 is the run
(2^30, [5]); the query `0 0` with `lowScoreCutoff = 7` and `postingsCountCutoff = 0`
applies 2^30 to docid 5 twice.  Both runs have a qscore of at least the cutoff, the
sum of the qscores of the postings of docid 5 in them is 2^31, and the ranking stage
is reached with `accumulators[5] = -2^31`: the accumulators are `int`s. -/
theorem low_score_cutoff_sum_overflows :
    (1 ≤ demo_params_low.k ∧ demo_params_low.postingsCountCutoff = 0 ∧
      demo_params_low.lowScoreCutoff = 7) ∧
    (∀ t ∈ [(0 : Int), 0],
      term_encodes wide_layout big_vocab big_if t (big_index t) ∧
      well_formed_list demo_params_low (big_index t)) ∧
    (∀ t ∈ [(0 : Int), 0], List.Pairwise (fun a b : run => a.1 ≥ b.1) (big_index t)) ∧
    (process_query demo_params_low wide_layout big_vocab big_if [0, 0] 2).result.map
      (fun r => (r.final.run_log.map (fun e => (e.chosen, e.max_qscore, e.docids)),
        r.final.ev.g.accumulators 5))
      = some ([(0, 1073741824, [5]), (1, 1073741824, [5])], -2147483648) ∧
    (([0, 0].map big_index).map
      (fun rs => list_score 5
        (rs.filter (fun x => demo_params_low.lowScoreCutoff ≤ x.1)))).sum = 2147483648 :=
  ⟨by decide,
    fun t ht => big_index_well_formed demo_params_low rfl t (by
      simp only [List.mem_cons, List.mem_singleton, List.not_mem_nil, or_false, or_self] at ht
      rw [ht]; decide),
    by decide, by decide, by decide⟩

/-- C7, amended. Low-score cutoff on impact-ordered lists. On a well-formed index whose
run qscores do not increase along each posting list, with `postingsCountCutoff = 0`, a
query given one unit of fuel per run reaches the ranking stage with `accumulators[d]`
equal to the sum of the qscores of the postings of `d` in the runs with
`qscore ≥ lowScoreCutoff`, kept on 32 bits, and so equal to that sum whenever the sum
is at most `2 ^ 31 - 1`; the loop ends on the low-score cutoff or on exhaustion, and at
every term position the posting list is the runs consumed followed by runs that all
have `qscore < lowScoreCutoff`. -/
theorem low_score_cutoff_exact (P : params_t) (L : definitions_h)
    (vocab_in_mem if_in_mem : Nat → Nat) (idx : Int → List run) (query_array : List Int)
    (fuel : Nat) (hk1 : 1 ≤ P.k) (hq : query_array.length ≤ MAX_QTERMS)
    (hwf : ∀ t ∈ query_array,
      term_encodes L vocab_in_mem if_in_mem t (idx t) ∧ well_formed_list P (idx t))
    (hord : ∀ t ∈ query_array, List.Pairwise (fun a b : run => a.1 ≥ b.1) (idx t))
    (hb : P.postingsCountCutoff = 0)
    (hf : ((query_array.map idx).map List.length).sum ≤ fuel) :
    ∃ r, process_query P L vocab_in_mem if_in_mem query_array fuel = outcome.returned r ∧
      (∀ d, r.final.ev.g.accumulators d =
        wrap_int ((query_array.map idx).map
          (fun rs => list_score d (rs.filter (fun x => P.lowScoreCutoff ≤ x.1)))).sum) ∧
      (∀ d, ((query_array.map idx).map
          (fun rs => list_score d (rs.filter (fun x => P.lowScoreCutoff ≤ x.1)))).sum < 2 ^ 31 →
        r.final.ev.g.accumulators d =
          ((query_array.map idx).map
            (fun rs => list_score d (rs.filter (fun x => P.lowScoreCutoff ≤ x.1)))).sum) ∧
      (r.stopped_by = stop_reason.low_score_cutoff ∨
        r.stopped_by = stop_reason.terms_exhausted) ∧
      (∀ q, q < query_array.length → ∃ rest,
        idx (query_array.getD q 0) = consumed r.final.run_log q ++ rest ∧
        (∀ x ∈ consumed r.final.run_log q, P.lowScoreCutoff ≤ x.1) ∧
        (∀ x ∈ rest, x.1 < P.lowScoreCutoff)) := by
  obtain ⟨r, hr, hi, _, _, _, hnob, hsplit, hacc⟩ :=
    wf_query_scores P L vocab_in_mem if_in_mem idx query_array fuel hk1 hq hwf
      (fun t ht pre r1 rest he hlt x hx => by
        have hp := hord t ht
        rw [he, List.pairwise_append] at hp
        have := (List.pairwise_cons.mp hp.2.1).1 x hx
        simp only [] at this
        omega) hb hf
  refine ⟨r, hr, fun d => by rw [hi.acc_sum, hacc d],
    fun d hd => by
      rw [← hacc d] at hd ⊢
      exact accumulator_exact P r.final.ev hi d hd, ?_, ?_⟩
  · cases hsb : r.stopped_by with
    | terms_exhausted => exact Or.inr rfl
    | low_score_cutoff => exact Or.inl rfl
    | postings_count_cutoff => exact absurd hsb hnob
  · intro q hq1
    obtain ⟨rest, h1, h2, h3, _⟩ := hsplit q hq1
    exact ⟨rest, h1, h2, h3⟩

theorem low_score_cutoff_exact_witness :
    (1 ≤ demo_params_low.k ∧ demo_params_low.postingsCountCutoff = 0 ∧
      demo_params_low.lowScoreCutoff = 7) ∧
    (∀ t ∈ [(1 : Int), 2],
      term_encodes demo_layout demo_vocab demo_if t (demo_index t) ∧
      well_formed_list demo_params_low (demo_index t)) ∧
    (∀ t ∈ [(1 : Int), 2], List.Pairwise (fun a b : run => a.1 ≥ b.1) (demo_index t)) ∧
    (process_query demo_params_low demo_layout demo_vocab demo_if [1, 2] 2).result.map
      (fun r => (r.final.run_log.map (fun e => (e.chosen, e.max_qscore, e.docids)),
        r.result_lines)) = some ([(0, 8, [3, 4])], [(1, 4, 8), (2, 3, 8)]) ∧
    ∃ r, process_query demo_params_low demo_layout demo_vocab demo_if [1, 2] 2
        = outcome.returned r ∧
      (∀ d, r.final.ev.g.accumulators d =
        wrap_int (([1, 2].map demo_index).map
          (fun rs => list_score d
            (rs.filter (fun x => demo_params_low.lowScoreCutoff ≤ x.1)))).sum) ∧
      (∀ d, (([1, 2].map demo_index).map
          (fun rs => list_score d
            (rs.filter (fun x => demo_params_low.lowScoreCutoff ≤ x.1)))).sum < 2 ^ 31 →
        r.final.ev.g.accumulators d =
          (([1, 2].map demo_index).map
            (fun rs => list_score d
              (rs.filter (fun x => demo_params_low.lowScoreCutoff ≤ x.1)))).sum) ∧
      (r.stopped_by = stop_reason.low_score_cutoff ∨
        r.stopped_by = stop_reason.terms_exhausted) ∧
      (∀ q, q < [(1 : Int), 2].length → ∃ rest,
        demo_index ([(1 : Int), 2].getD q 0) = consumed r.final.run_log q ++ rest ∧
        (∀ x ∈ consumed r.final.run_log q, demo_params_low.lowScoreCutoff ≤ x.1) ∧
        (∀ x ∈ rest, x.1 < demo_params_low.lowScoreCutoff)) :=
  ⟨by decide, demo_index_well_formed demo_params_low rfl, by decide, by decide,
    low_score_cutoff_exact demo_params_low demo_layout demo_vocab demo_if demo_index [1, 2] 2
      (by decide) (by decide) (demo_index_well_formed demo_params_low rfl) (by decide) rfl
      (by decide)⟩

/-- C8. Posting-budget cutoff. Whenever `process_query` returns: the counts of postings
processed logged after the consumed runs are the running (64-bit) sums of their run
lengths and the final count is the last of them; every consumed run was applied in full
(the postings applied are those of the logged runs, each with `current_run_len` docids);
the loop stopped on the budget exactly when the cutoff is positive and the final count is
strictly greater than it (so a count equal to the cutoff does not stop it, and a cutoff of
0 never does); and after no earlier run was the count greater than a positive cutoff (so
the loop stops immediately after the first run that takes the count above it). -/
theorem postings_budget_cutoff (P : params_t) (L : definitions_h)
    (vocab_in_mem if_in_mem : Nat → Nat) (query_array : List Int) (fuel : Nat)
    (r : query_result)
    (h : process_query P L vocab_in_mem if_in_mem query_array fuel = outcome.returned r) :
    r.final.run_log.map (fun e => e.postings_processed)
      = running_counts 0 (r.final.run_log.map (fun e => e.current_run_len)) ∧
    r.final.postings_processed
      = (r.final.run_log.map (fun e => e.postings_processed)).getLastD 0 ∧
    r.final.ev.posting_log = postings_of_log r.final.run_log ∧
    (∀ e ∈ r.final.run_log, e.docids.length = e.current_run_len.toNat) ∧
    (r.stopped_by = stop_reason.postings_count_cutoff ↔
      (P.postingsCountCutoff > 0 ∧
        (r.final.postings_processed : Int) > P.postingsCountCutoff)) ∧
    (∀ e ∈ r.final.run_log.dropLast,
      ¬ (P.postingsCountCutoff > 0 ∧ (e.postings_processed : Int) > P.postingsCountCutoff)) := by
  obtain ⟨_, tcb, _, hl, _, _⟩ := process_query_returned P L vocab_in_mem if_in_mem query_array fuel r h
  have key := saat_loop_rule P L if_in_mem query_array.length
    (fun st => budget_inv st ∧ ∀ e ∈ st.run_log, ¬ over_count P e.postings_processed)
    (fun st why => budget_inv st ∧
      (why = stop_reason.postings_count_cutoff ↔ over_budget P st) ∧
      ∀ e ∈ st.run_log.dropLast, ¬ over_count P e.postings_processed)
    (by
      intro st st1 ⟨hb, hu⟩ _ hs
      rcases saat_step_cases P L if_in_mem query_array.length st with
        ⟨_, h1⟩ | ⟨m, c, _, ⟨_, h1⟩ | ⟨_, _, h1⟩ | ⟨_, ev1, hap, ⟨_, h1⟩ | ⟨hno, h1⟩⟩⟩
      · rw [h1] at hs; cases hs
      · rw [h1] at hs; cases hs
      · rw [h1] at hs; cases hs
      · rw [h1] at hs; cases hs
      · rw [h1] at hs
        cases hs
        refine ⟨budget_inv_after_run L if_in_mem _ c
          (budget_inv_end_of_run P L if_in_mem st c m ev1 hb hap), ?_⟩
        intro e he
        rw [after_run_run_log] at he
        unfold end_of_run at he
        simp only [List.mem_append, List.mem_singleton] at he
        rcases he with he | rfl
        · exact hu e he
        · exact hno)
    (by
      intro st st1 why ⟨hb, hu⟩ _ hs
      rcases saat_step_cases P L if_in_mem query_array.length st with
        ⟨_, h1⟩ | ⟨m, c, _, ⟨_, h1⟩ | ⟨_, _, h1⟩ | ⟨_, ev1, hap, ⟨hov, h1⟩ | ⟨_, h1⟩⟩⟩
      · rw [h1] at hs; cases hs
      · rw [h1] at hs
        cases hs
        refine ⟨hb, ⟨fun hw => (by cases hw), fun ho => absurd ho (not_over_of_log P st hb hu)⟩, ?_⟩
        intro e he
        exact hu e (List.mem_of_mem_dropLast he)
      · rw [h1] at hs; cases hs
      · rw [h1] at hs
        cases hs
        refine ⟨budget_inv_end_of_run P L if_in_mem st c m ev1 hb hap,
          ⟨fun _ => hov, fun _ => rfl⟩, ?_⟩
        intro e he
        unfold end_of_run at he
        simp only [List.dropLast_concat] at he
        exact hu e he
      · rw [h1] at hs; cases hs)
    (by
      intro st ⟨hb, hu⟩ _
      refine ⟨hb, ⟨fun hw => (by cases hw), fun ho => absurd ho (not_over_of_log P st hb hu)⟩, ?_⟩
      intro e he
      exact hu e (List.mem_of_mem_dropLast he))
    fuel _ _
    ⟨by constructor <;> simp [query_state_init, running_counts, postings_of_log],
      fun e he => by simp [query_state_init] at he⟩ hl
  obtain ⟨hb, hiff, hearlier⟩ := key
  exact ⟨hb.counts, hb.current, hb.applied, hb.whole, hiff, hearlier⟩

set_option maxRecDepth 100000 in
theorem postings_budget_cutoff_witness :
    process_query budget_params budget_layout budget_vocab budget_if [1, 2] 2
      = outcome.returned budget_result ∧
    (budget_result.stopped_by = stop_reason.postings_count_cutoff ∧
      budget_result.final.run_log.map
        (fun e => (e.chosen, e.max_qscore, e.current_run_len, e.postings_processed))
        = [(0, 9, 100, 100)] ∧
      budget_result.result_lines.map (fun x => x.2.2) = List.replicate 10 9) ∧
    (budget_result.final.run_log.map (fun e => e.postings_processed)
      = running_counts 0 (budget_result.final.run_log.map (fun e => e.current_run_len)) ∧
    budget_result.final.postings_processed
      = (budget_result.final.run_log.map (fun e => e.postings_processed)).getLastD 0 ∧
    budget_result.final.ev.posting_log = postings_of_log budget_result.final.run_log ∧
    (∀ e ∈ budget_result.final.run_log, e.docids.length = e.current_run_len.toNat) ∧
    (budget_result.stopped_by = stop_reason.postings_count_cutoff ↔
      (budget_params.postingsCountCutoff > 0 ∧
        (budget_result.final.postings_processed : Int) > budget_params.postingsCountCutoff)) ∧
    (∀ e ∈ budget_result.final.run_log.dropLast,
      ¬ (budget_params.postingsCountCutoff > 0 ∧
        (e.postings_processed : Int) > budget_params.postingsCountCutoff))) :=
  ⟨rfl, by decide,
    postings_budget_cutoff budget_params budget_layout budget_vocab budget_if [1, 2] 2
      budget_result rfl⟩


/-- C9, refuted as stated. Term 7 is one run with qscore 10 and docids 5, 9; query `7`,
`k = 5`. Written in the format of the specification (docids on 4 bytes, run lengths on 2)
the second docid is read 2 bytes after the first and comes out as 327680; with docids as
wide as run lengths both docids are read, and docid 9 is ranked first, docid 5 second. In
neither case is rank 1 docid 5 and rank 2 docid 9. -/
theorem single_run_not_in_posting_order :
    (process_query { k := 5, numDocs := 400000, lowScoreCutoff := 0, postingsCountCutoff := 0 }
        scenario_layout scenario_vocab scenario_if [7] 1).result.map (fun r => r.result_lines)
      = some [(1, 327680, 10), (2, 5, 10)] ∧
    (process_query { k := 5, numDocs := 10, lowScoreCutoff := 0, postingsCountCutoff := 0 }
        demo_layout scenario_vocab scenario_if_narrow [7] 1).result.map (fun r => r.result_lines)
      = some [(1, 9, 10), (2, 5, 10)] ∧
    (process_query { k := 5, numDocs := 10, lowScoreCutoff := 0, postingsCountCutoff := 0 }
        demo_layout scenario_vocab scenario_if_narrow [7] 1).result.map (fun r => r.result_lines)
      ≠ some [(1, 5, 10), (2, 9, 10)] := by
  refine ⟨by decide, by decide, by decide⟩

/-- C9, amended. A query of one term whose posting list is one run with qscore `s`
(`0 ≤ s`, `lowScoreCutoff ≤ s`) and distinct docids `d_1 .. d_m` below `numDocs`
(`1 ≤ m ≤ k`), laid out at the stride the reader uses, returns with exactly `m` result
lines, ranks `1 .. m`, every score `s`, the docids in the reverse of the posting order. -/
theorem single_run_ranking (P : params_t) (L : definitions_h)
    (vocab_in_mem if_in_mem : Nat → Nat) (t s : Int) (ds : List Int) (fuel : Nat)
    (hm : 1 ≤ ds.length) (hk : ds.length ≤ P.k) (hnd : ds.Nodup)
    (henc : term_encodes L vocab_in_mem if_in_mem t [(s, ds)])
    (hs0 : 0 ≤ s) (hsl : P.lowScoreCutoff ≤ s)
    (hdoc : ∀ d ∈ ds, 0 ≤ d ∧ d < P.numDocs) (hf : 1 ≤ fuel) :
    ∃ r, process_query P L vocab_in_mem if_in_mem [t] fuel = outcome.returned r ∧
      r.result_lines.length = ds.length ∧
      r.result_lines.map (fun x => x.1) = List.range' 1 ds.length ∧
      r.result_lines.map (fun x => x.2) = ds.reverse.map (fun d => (d, s)) := by
  have hk1 : 1 ≤ P.k := by omega
  obtain ⟨fuel1, rfl⟩ : ∃ f, fuel = f + 1 := ⟨fuel - 1, by omega⟩
  -- the control block of the term
  obtain ⟨tcb, hset, hat, _⟩ := setup_control_blocks_at L vocab_in_mem if_in_mem
    (fun _ => [(s, ds)]) [t] 0 (query_state_init 1).term_control_block
    (fun x hx => ⟨by rw [List.mem_singleton.mp hx]; exact henc, by simp⟩)
  have hsim : sim P L if_in_mem 1 { query_state_init 1 with term_control_block := tcb }
      (fun _ => [(s, ds)]) := by
    constructor
    · intro q hq
      have := hat q (by simpa using hq)
      rw [Nat.zero_add] at this
      exact this
    · rw [going_all _ _ (fun q _ => by simp)]; rfl
    · intro q _ r hr; rw [List.mem_singleton.mp hr]; exact hm
    · intro q _ r hr; rw [List.mem_singleton.mp hr]; exact hs0
    · intro q _ r hr; rw [List.mem_singleton.mp hr]; exact hdoc
    · intro q _; exact term_encodes_bound L vocab_in_mem if_in_mem t _ henc
  -- the one iteration
  obtain ⟨c, r, rest, hc, hr, _, _, _, hhi⟩ := sim_step P L if_in_mem 1
    { query_state_init 1 with term_control_block := tcb } (fun _ => [(s, ds)]) hk1 hsim
    (heap_inv_init P) (by simp [query_state_init])
  have hc0 : c = 0 := by omega
  subst hc0
  simp only [List.cons.injEq] at hr
  obtain ⟨hr1, hr2⟩ := hr
  subst hr1
  subst hr2
  obtain ⟨ev1, hap, hob1, hob2⟩ := hhi hsl
  dsimp only at hap hob1 hob2
  -- the list after the run
  have hs1 : s < 2 ^ 31 := by
    obtain ⟨_, _, _, h4⟩ := henc
    unfold runs_at at h4
    have h5 : to_int _ = s := h4.1
    rw [← h5]
    exact (to_int_range _).2
  obtain ⟨htop, hacc⟩ := apply_postings_equal P s hk1 hs0 hs1 ds _ ev1
    (by show 0 + ds.length ≤ P.k; omega) (fun x hx => by cases hx)
    (fun d _ => ⟨rfl, fun hx => by cases hx⟩) hnd hap
  have htop' : topk ev1.g = ds.reverse := by
    rw [htop]
    show ds.reverse ++ [] = ds.reverse
    simp
  have hrank : ranking ev1.g = ds.reverse.map (fun d => (d, s)) := by
    unfold ranking
    rw [htop']
    apply List.map_congr_left
    intro d hd
    rw [hacc d (by rw [htop']; exact hd)]
  have hlen : (result_lines_of ev1.g).length = ds.length := by
    have := congrArg List.length (result_lines_pairs ev1.g)
    rw [hrank] at this
    simpa using this
  have hfin : ∀ st1 why, st1.ev = ev1 →
      saat_loop P L if_in_mem 1 (fuel1 + 1)
        { query_state_init 1 with term_control_block := tcb } = outcome.returned (st1, why) →
      ∃ r, process_query P L vocab_in_mem if_in_mem [t] (fuel1 + 1) = outcome.returned r ∧
        r.result_lines.length = ds.length ∧
        r.result_lines.map (fun x => x.1) = List.range' 1 ds.length ∧
        r.result_lines.map (fun x => x.2) = ds.reverse.map (fun d => (d, s)) := by
    intro st1 why hev hloop
    refine ⟨{ final := st1, stopped_by := why, query_line := [t],
              result_lines := result_lines_of st1.ev.g }, ?_, ?_, ?_, ?_⟩
    · unfold process_query
      rw [if_neg (by simp [MAX_QTERMS])]
      simp only [List.length_singleton]
      rw [hset]
      simp only []
      rw [hloop]
    · simp only []; rw [hev]; exact hlen
    · simp only []; rw [hev, result_lines_ranks, hlen]
    · simp only []; rw [hev, result_lines_pairs]; exact hrank
  by_cases hob : over_budget P (end_of_run { query_state_init 1 with term_control_block := tcb }
      0 s (((tcb 0).if_pointer) + ds.length * L.BYTES_FOR_RUN_LEN) ds ev1)
  · refine hfin (end_of_run { query_state_init 1 with term_control_block := tcb }
      0 s (((tcb 0).if_pointer) + ds.length * L.BYTES_FOR_RUN_LEN) ds ev1)
      stop_reason.postings_count_cutoff rfl ?_
    unfold saat_loop
    rw [if_pos (by simp [query_state_init]), hob1 hob]
  · obtain ⟨hstep, hsim2⟩ := hob2 hob
    have hg2 : ¬ (after_run L if_in_mem (end_of_run
        { query_state_init 1 with term_control_block := tcb } 0 s
        (((tcb 0).if_pointer) + ds.length * L.BYTES_FOR_RUN_LEN) ds ev1) 0).terms_still_going
          > 0 := by
      rw [hsim2.count]
      have hgu := going_update 1 (fun _ => [(s, ds)]) 0 [] (by omega)
      simp only [reduceCtorEq, if_false, if_true] at hgu
      have hga := going_all 1 (fun _ : Nat => [(s, ds)]) (fun q _ => by simp)
      omega
    refine hfin (after_run L if_in_mem (end_of_run
        { query_state_init 1 with term_control_block := tcb } 0 s
        (((tcb 0).if_pointer) + ds.length * L.BYTES_FOR_RUN_LEN) ds ev1) 0)
      stop_reason.terms_exhausted (by rw [after_run_ev]; rfl) ?_
    unfold saat_loop
    rw [if_pos (by simp [query_state_init]), hstep]
    simp only []
    cases fuel1 with
    | zero => unfold saat_loop; rw [if_neg hg2]
    | succ f => unfold saat_loop; rw [if_neg hg2]

theorem single_run_ranking_witness :
    (1 ≤ [(5 : Int), 9].length ∧ [(5 : Int), 9].length ≤ 5 ∧ [(5 : Int), 9].Nodup) ∧
    term_encodes demo_layout scenario_vocab scenario_if_narrow 7 [(10, [5, 9])] ∧
    (∀ d ∈ [(5 : Int), 9], 0 ≤ d ∧ d < ((10 : Nat) : Int)) ∧
    ∃ r, process_query { k := 5, numDocs := 10, lowScoreCutoff := 0, postingsCountCutoff := 0 }
        demo_layout scenario_vocab scenario_if_narrow [7] 1 = outcome.returned r ∧
      r.result_lines.length = [(5 : Int), 9].length ∧
      r.result_lines.map (fun x => x.1) = List.range' 1 [(5 : Int), 9].length ∧
      r.result_lines.map (fun x => x.2) = [(5 : Int), 9].reverse.map (fun d => (d, 10)) :=
  ⟨by decide, by unfold term_encodes; decide, by decide,
    single_run_ranking { k := 5, numDocs := 10, lowScoreCutoff := 0, postingsCountCutoff := 0 }
      demo_layout scenario_vocab scenario_if_narrow 7 10 [5, 9] 1 (by decide) (by decide)
      (by decide) (by unfold term_encodes; decide) (by decide) (by decide) (by decide)
      (by decide)⟩


/-- C10, refuted as stated. The query `3` has one posting, of docid 5 with qscore 0: the
list ends with one item although no accumulator is positive. -/
theorem topk_size_law_fails_on_zero_qscore :
    process_query { demo_params with k := 3 } demo_layout demo_vocab demo_if [3] 5
      = outcome.returned demo_zero_result ∧
    demo_zero_result.final.ev.g.items_in_fake_heap = 1 ∧
    positive_count { demo_params with k := 3 } demo_zero_result.final.ev.g = 0 ∧
    demo_zero_result.final.ev.g.items_in_fake_heap
      ≠ min 3 (positive_count { demo_params with k := 3 } demo_zero_result.final.ev.g) :=
  ⟨rfl, by decide, by decide, by decide⟩

/-- C10, amended. For every query and every `k ≥ 1`, when `process_query` reaches the
ranking stage `items_in_fake_heap` is the smaller of `k` and the number of distinct
docids that received a posting.  When every posting applied had a positive qscore and
no docid received postings whose qscores sum to more than `2 ^ 31 - 1`, that is the
number of docids with a positive accumulator:
`items_in_fake_heap == min(k, |{d : accumulators[d] > 0}|)`. -/
theorem topk_size_law (P : params_t) (L : definitions_h)
    (vocab_in_mem if_in_mem : Nat → Nat) (query_array : List Int) (fuel : Nat)
    (r : query_result) (hk : 1 ≤ P.k)
    (h : process_query P L vocab_in_mem if_in_mem query_array fuel = outcome.returned r) :
    r.final.ev.g.items_in_fake_heap = min P.k (touched_docids r.final.ev).toFinset.card ∧
    ((∀ p ∈ r.final.ev.posting_log, 0 < p.2) →
      (∀ d, log_score r.final.ev.posting_log d < 2 ^ 31) →
      r.final.ev.g.items_in_fake_heap = min P.k (positive_count P r.final.ev.g)) := by
  have hi := process_query_heap_inv P L vocab_in_mem if_in_mem query_array fuel r hk h
  refine ⟨hi.count, fun hp hno => ?_⟩
  rw [positive_count_eq P r.final.ev hi hp hno]
  exact hi.count

theorem topk_size_law_witness :
    (1 ≤ ({ demo_params with k := 3 } : params_t).k ∧
      process_query { demo_params with k := 3 } demo_layout demo_vocab demo_if [3] 5
        = outcome.returned demo_zero_result ∧
      demo_zero_result.final.ev.g.items_in_fake_heap = 1 ∧
      (touched_docids demo_zero_result.final.ev).toFinset.card = 1) ∧
    (1 ≤ demo_params.k ∧
      process_query demo_params demo_layout demo_vocab demo_if [1, 2] 5
        = outcome.returned demo_result ∧
      (∀ p ∈ demo_result.final.ev.posting_log, 0 < p.2) ∧
      (∀ d, log_score demo_result.final.ev.posting_log d < 2 ^ 31) ∧
      positive_count demo_params demo_result.final.ev.g = 3) ∧
    (demo_zero_result.final.ev.g.items_in_fake_heap
        = min ({ demo_params with k := 3 } : params_t).k
            (touched_docids demo_zero_result.final.ev).toFinset.card ∧
      ((∀ p ∈ demo_zero_result.final.ev.posting_log, 0 < p.2) →
        (∀ d, log_score demo_zero_result.final.ev.posting_log d < 2 ^ 31) →
        demo_zero_result.final.ev.g.items_in_fake_heap
          = min ({ demo_params with k := 3 } : params_t).k
              (positive_count { demo_params with k := 3 } demo_zero_result.final.ev.g))) ∧
    (demo_result.final.ev.g.items_in_fake_heap
        = min demo_params.k (touched_docids demo_result.final.ev).toFinset.card ∧
      ((∀ p ∈ demo_result.final.ev.posting_log, 0 < p.2) →
        (∀ d, log_score demo_result.final.ev.posting_log d < 2 ^ 31) →
        demo_result.final.ev.g.items_in_fake_heap
          = min demo_params.k (positive_count demo_params demo_result.final.ev.g))) :=
  ⟨⟨by decide, rfl, by decide, by decide⟩,
    ⟨by decide, rfl, by decide,
      fun d => lt_of_le_of_lt (log_score_le_total _ (by decide) d) (by decide), by decide⟩,
    topk_size_law { demo_params with k := 3 } demo_layout demo_vocab demo_if [3] 5
      demo_zero_result (by decide) rfl,
    topk_size_law demo_params demo_layout demo_vocab demo_if [1, 2] 5 demo_result
      (by decide) rfl⟩

/-- C11, at the failing input. The five-byte big-endian encoding of `2 ^ 32` is
`01 00 00 00 00`, a value below `2 ^ (8 * 5)`, and `make_ull_from_n_bytes` returns 0 for
it: the accumulator is a 32-bit `u_int`, so what comes back from the n-byte encoding
of `x` is `x` reduced modulo `256 ^ n` and modulo `2 ^ 32`. -/
theorem big_endian_round_trip_truncates :
    big_endian 5 (2 ^ 32) = [1, 0, 0, 0, 0] ∧ 2 ^ 32 < 2 ^ (8 * 5) ∧
    make_ull_from_n_bytes (bytes (big_endian 5 (2 ^ 32))) 5 = 0 ∧
    (∀ n x, make_ull_from_n_bytes (bytes (big_endian n x)) n = x % 256 ^ n % 2 ^ 32) :=
  ⟨by decide, by norm_num, by decide, make_ull_big_endian⟩

/-- C12, at the failing inputs. On the line `7 x` and on the line `7` followed by a
blank, both ended by a newline, `main` passes the query `7 0` with `q_len = 2`: the
value 0 that `strtol` returns where no integer parses is stored, and `t` is
incremented, before the test `p == q` leaves the loop.  A line that starts with a
word that is no number gives the query `0`; the line `7` alone gives the query `7`. -/
theorem unparsable_position_appends_zero :
    query_of_line (ascii "7 x" ++ [10]) = outcome.returned [7, 0] ∧
    query_of_line (ascii "7 " ++ [10]) = outcome.returned [7, 0] ∧
    query_of_line (ascii "abc" ++ [10]) = outcome.returned [0] ∧
    query_of_line (ascii "7" ++ [10]) = outcome.returned [7] :=
  ⟨rfl, rfl, rfl, rfl⟩

set_option maxRecDepth 100000 in
/-- C13, at the failing input. A line of 101 termids `1` separated by single blanks has
202 characters, well within the 2047 that `fgets` delivers.  With 100 termids the
loop fills `query_array[0..99]`; with 101 it stores at index 100, outside the array
of `MAX_QTERMS` entries: nothing in the loop compares `t` with `MAX_QTERMS`. -/
theorem query_array_overflow :
    (line_of_ones 101).length = 202 ∧ 202 ≤ MAX_FGETS - 1 ∧
    query_of_line (line_of_ones 100) = outcome.returned (List.replicate 100 1) ∧
    query_of_line (line_of_ones 101) = outcome.undefined :=
  ⟨by decide, by decide, rfl, rfl⟩

/-- C14, at the failing inputs. A query of four phrases with threshold 1 and
`N = 1000` loses its first phrase to the highest-frequency heuristic: the loop of
heuristic 4 has no test for `"` or `[`, a phrase has recorded frequency 0, and with
`cg_qwd_cnt = 4 > threshold + 2` the guard of line 197 does not stop it.  With fewer
than 10 documents `N / 10` is 0, the guard never holds, and a query of two phrases
loses one. -/
theorem phrase_removed_by_high_freq :
    (∀ wd ∈ [phrase "a b", phrase "c d", phrase "e f", phrase "g h"],
      compound_term wd = true) ∧
    (create_candidate_generation_query demo_bits insertion_qsort false (demo_qoenv 1 1000 [])
      [phrase "a b", phrase "c d", phrase "e f", phrase "g h"]).cg_qterms
      = [phrase "c d", phrase "e f", phrase "g h"] ∧
    (create_candidate_generation_query demo_bits insertion_qsort false (demo_qoenv 1 1000 [])
      [phrase "a b", phrase "c d", phrase "e f", phrase "g h"]).zapped
      = [{ why := heuristic.high_freq, position := 0, cg_qwd_cnt := 4, frequency := 0 }] ∧
    (create_candidate_generation_query demo_bits insertion_qsort false (demo_qoenv 1 5 [])
      [phrase "a b", phrase "c d"]).cg_qterms = [phrase "c d"] :=
  ⟨by decide, by decide, by decide, by decide⟩

/-- C15. The output of the shortener is a subsequence of its input: `cg_qterms` is
`qterms` with some positions deleted and the rest in their original order, whatever
the vocabulary, the threshold, the sort and the outcome of the allocations; so
`cg_qwd_cnt`, the number of terms in `cg_qterms`, is at most `qwd_cnt`. -/
theorem cg_qterms_subsequence (B : shortening_bits)
    (qsort_r : (Nat → Nat) → List Nat → List Nat) (memalloc_failed : Bool)
    (qoenv : query_processing_environment_t) (qterms : List (List Nat)) :
    (create_candidate_generation_query B qsort_r memalloc_failed qoenv qterms).cg_qterms.Sublist
      qterms ∧
    (create_candidate_generation_query B qsort_r memalloc_failed qoenv qterms).cg_qwd_cnt
      = (create_candidate_generation_query B qsort_r memalloc_failed qoenv
          qterms).cg_qterms.length ∧
    (create_candidate_generation_query B qsort_r memalloc_failed qoenv qterms).cg_qwd_cnt
      ≤ qterms.length := by
  have key : (create_candidate_generation_query B qsort_r memalloc_failed qoenv
        qterms).cg_qterms.Sublist qterms ∧
      (create_candidate_generation_query B qsort_r memalloc_failed qoenv qterms).cg_qwd_cnt
        = (create_candidate_generation_query B qsort_r memalloc_failed qoenv
            qterms).cg_qterms.length := by
    unfold create_candidate_generation_query
    dsimp only
    split
    · exact ⟨List.Sublist.refl _, rfl⟩
    · split
      · exact ⟨List.Sublist.refl _, rfl⟩
      · exact ⟨copy_unzapped_sublist _ _, rfl⟩
  refine ⟨key.1, key.2, ?_⟩
  rw [key.2]
  exact_mod_cast key.1.length_le

/-- C16. When the threshold is 0, or the number of distinct terms of the query
(protected terms each counted, repeated unprotected terms counted once) is at most the
threshold, the query passes through unchanged and no shortening code is set, whatever
the vocabulary contains. -/
theorem shortener_pass_through (B : shortening_bits)
    (qsort_r : (Nat → Nat) → List Nat → List Nat) (memalloc_failed : Bool)
    (qoenv : query_processing_environment_t) (qterms : List (List Nat))
    (h : qoenv.query_shortening_threshold = 0
      ∨ (distinct_count qterms : Int) ≤ qoenv.query_shortening_threshold) :
    (create_candidate_generation_query B qsort_r memalloc_failed qoenv qterms).cg_qterms
      = qterms ∧
    (create_candidate_generation_query B qsort_r memalloc_failed qoenv qterms).cg_qwd_cnt
      = qterms.length ∧
    (create_candidate_generation_query B qsort_r memalloc_failed qoenv qterms).shortening_codes
      = 0 := by
  unfold create_candidate_generation_query
  dsimp only
  rw [count_distinct_terms_spec, if_pos h]
  exact ⟨rfl, rfl, rfl⟩

theorem shortener_pass_through_witness :
    (create_candidate_generation_query demo_bits insertion_qsort false
        (demo_qoenv 2 1000 [("a", 500)]) [ascii "a", ascii "a", ascii "zz"]).cg_qterms
      = [ascii "a", ascii "a", ascii "zz"] ∧
    (create_candidate_generation_query demo_bits insertion_qsort false
        (demo_qoenv 2 1000 [("a", 500)]) [ascii "a", ascii "a", ascii "zz"]).cg_qwd_cnt
      = ([ascii "a", ascii "a", ascii "zz"] : List (List Nat)).length ∧
    (create_candidate_generation_query demo_bits insertion_qsort false
        (demo_qoenv 2 1000 [("a", 500)])
        [ascii "a", ascii "a", ascii "zz"]).shortening_codes = 0 :=
  shortener_pass_through demo_bits insertion_qsort false (demo_qoenv 2 1000 [("a", 500)])
    [ascii "a", ascii "a", ascii "zz"] (Or.inr (by decide))

/-- C17. When shortening is in force (a threshold other than 0, more distinct terms
than the threshold, the scratch arrays allocated), no unprotected term that
`lookup_word` does not find is left in `cg_qterms`, whether or not this takes the
query below the threshold, and the `SHORTEN_NOEXIST` bit is set exactly when the
query had such a term.  The three bits are taken to be different bits. -/
theorem nonexistent_terms_removed (B : shortening_bits)
    (qsort_r : (Nat → Nat) → List Nat → List Nat)
    (qoenv : query_processing_environment_t) (qterms : List (List Nat))
    (hbit : B.SHORTEN_NOEXIST ≠ 0)
    (h3 : B.SHORTEN_ALL_DIGITS &&& B.SHORTEN_NOEXIST = 0)
    (h4 : B.SHORTEN_HIGH_FREQ &&& B.SHORTEN_NOEXIST = 0)
    (hthr : qoenv.query_shortening_threshold ≠ 0)
    (hd : qoenv.query_shortening_threshold < (distinct_count qterms : Int)) :
    (∀ wd ∈ (create_candidate_generation_query B qsort_r false qoenv qterms).cg_qterms,
      compound_term wd = false → qoenv.lookup_word wd ≠ none) ∧
    (bit_set (create_candidate_generation_query B qsort_r false qoenv qterms).shortening_codes
        B.SHORTEN_NOEXIST
      ↔ ∃ wd ∈ qterms, compound_term wd = false ∧ qoenv.lookup_word wd = none) := by
  have hinv := after_nonexistent_inv B qoenv qterms
  have hr := create_candidate_generation_query_cases B qsort_r false qoenv qterms
  rcases hr with hr | hr
  · rcases hr.1 with h1 | h1 | h1
    · exact absurd h1 hthr
    · omega
    · cases h1
  replace hr := hr.2.2.2
  rw [hr]
  dsimp only
  constructor
  · intro wd hwd hc hl
    rw [mem_copy_unzapped] at hwd
    obtain ⟨i, hi, hz, rfl⟩ := hwd
    have h1 : (after_nonexistent B qoenv qterms).zap i = true :=
      (hinv.zap_iff i).mpr ⟨hi, hc, hl⟩
    rw [zap_after_nonexistent_stays B qsort_r qoenv qterms i h1] at hz
    cases hz
  · unfold bit_set
    rw [codes_after_high_freq B qsort_r qoenv qterms h3 h4, hinv.codes]
    have hex : (∃ i, i < qterms.length ∧ compound_term (qterms.getD i []) = false
          ∧ qoenv.lookup_word (qterms.getD i []) = none)
        ↔ ∃ wd ∈ qterms, compound_term wd = false ∧ qoenv.lookup_word wd = none := by
      constructor
      · rintro ⟨i, hi, h1, h2⟩
        refine ⟨qterms.getD i [], ?_, h1, h2⟩
        rw [List.getD_eq_getElem _ _ hi]; exact List.getElem_mem _
      · rintro ⟨wd, hm, h1, h2⟩
        obtain ⟨i, hi, e⟩ := List.getElem_of_mem hm
        refine ⟨i, hi, ?_, ?_⟩
        · rw [List.getD_eq_getElem _ _ hi, e]; exact h1
        · rw [List.getD_eq_getElem _ _ hi, e]; exact h2
    rw [← hex]
    split
    · next hyes => exact ⟨fun _ => hyes, fun _ => Nat.and_self _⟩
    · next hno =>
      simp only [Nat.zero_and]
      constructor
      · intro e; exact absurd e.symm hbit
      · intro e; exact absurd e hno

theorem nonexistent_terms_removed_witness :
    (∀ wd ∈ (create_candidate_generation_query demo_bits insertion_qsort false
        (demo_qoenv 3 1000 [("a", 500), ("b", 400)])
        [ascii "zz", ascii "a", ascii "yy", ascii "b", ascii "xx"]).cg_qterms,
      compound_term wd = false →
        (demo_qoenv 3 1000 [("a", 500), ("b", 400)]).lookup_word wd ≠ none) ∧
    (bit_set (create_candidate_generation_query demo_bits insertion_qsort false
        (demo_qoenv 3 1000 [("a", 500), ("b", 400)])
        [ascii "zz", ascii "a", ascii "yy", ascii "b", ascii "xx"]).shortening_codes
        demo_bits.SHORTEN_NOEXIST
      ↔ ∃ wd ∈ [ascii "zz", ascii "a", ascii "yy", ascii "b", ascii "xx"],
          compound_term wd = false ∧
          (demo_qoenv 3 1000 [("a", 500), ("b", 400)]).lookup_word wd = none) :=
  nonexistent_terms_removed demo_bits insertion_qsort
    (demo_qoenv 3 1000 [("a", 500), ("b", 400)])
    [ascii "zz", ascii "a", ascii "yy", ascii "b", ascii "xx"]
    (by decide) (by decide) (by decide) (by decide) (by decide)

/-- C18, at the failing input. In the query `a a b` every term is in the vocabulary
with an occurrence count of at least `N / 10 = 100`, no term is protected, and the
threshold 1 is below the 2 distinct terms.  The highest-frequency heuristic removes
one of the two positions of `a`, the counter `distinct_terms` drops to 1 and the loop
stops: `cg_qterms` is `a b`, still 2 distinct terms.  The other order of the two
equal frequencies in `freaki` gives the same. -/
theorem repeated_term_keeps_distinct_count :
    distinct_count [ascii "a", ascii "a", ascii "b"] = 2 ∧
    (create_candidate_generation_query demo_bits insertion_qsort false
      (demo_qoenv 1 1000 [("a", 500), ("b", 400)])
      [ascii "a", ascii "a", ascii "b"]).cg_qterms = [ascii "a", ascii "b"] ∧
    (create_candidate_generation_query demo_bits (fun _ _ => [1, 0, 2]) false
      (demo_qoenv 1 1000 [("a", 500), ("b", 400)])
      [ascii "a", ascii "a", ascii "b"]).cg_qterms = [ascii "a", ascii "b"] ∧
    distinct_count (create_candidate_generation_query demo_bits insertion_qsort false
      (demo_qoenv 1 1000 [("a", 500), ("b", 400)])
      [ascii "a", ascii "a", ascii "b"]).cg_qterms = 2 ∧
    (create_candidate_generation_query demo_bits insertion_qsort false
      (demo_qoenv 1 1000 [("a", 500), ("b", 400)])
      [ascii "a", ascii "a", ascii "b"]).zapped
      = [{ why := heuristic.high_freq, position := 0, cg_qwd_cnt := 3, frequency := 500 }] :=
  ⟨by decide, by decide, by decide, by decide, by decide⟩

/-- C19. The all-digits and highest-frequency heuristics never take the query below
the threshold: if either of them removes a term, `cg_qterms` has at least `threshold`
distinct terms; and in every case the number of distinct terms of `cg_qterms` is at
least the smaller of the threshold and the number of distinct terms that the
non-existent-term pass leaves. -/
theorem shortening_not_below_threshold (B : shortening_bits)
    (qsort_r : (Nat → Nat) → List Nat → List Nat) (memalloc_failed : Bool)
    (qoenv : query_processing_environment_t) (qterms : List (List Nat)) :
    ((∃ e ∈ (create_candidate_generation_query B qsort_r memalloc_failed qoenv qterms).zapped,
        e.why = heuristic.all_digits ∨ e.why = heuristic.high_freq) →
      qoenv.query_shortening_threshold
        ≤ (distinct_count (create_candidate_generation_query B qsort_r memalloc_failed qoenv
            qterms).cg_qterms : Int)) ∧
    min qoenv.query_shortening_threshold (distinct_count (existing_terms qoenv qterms) : Int)
      ≤ (distinct_count (create_candidate_generation_query B qsort_r memalloc_failed qoenv
          qterms).cg_qterms : Int) := by
  rcases create_candidate_generation_query_cases B qsort_r memalloc_failed qoenv qterms
    with hr | hr
  · rw [hr.2]
    simp only [copy_through]
    refine ⟨fun ⟨e, he, _⟩ => (by cases he), ?_⟩
    have hs : distinct_count (existing_terms qoenv qterms) ≤ distinct_count qterms :=
      distinct_count_sublist (List.filter_sublist _)
    omega
  · rw [hr.2.2.2]
    dsimp only
    have hJ := (distinct_terms_le_after B qsort_r qoenv qterms).2
    rcases after_high_freq_cases B qsort_r qoenv qterms with hc | hc
    · constructor
      · intro _; omega
      · omega
    · rw [hc.2] at hJ ⊢
      constructor
      · rintro ⟨e, he, hw⟩
        have hn := (after_nonexistent_inv B qoenv qterms).log e he
        rw [hn] at hw
        rcases hw with hw | hw <;> cases hw
      · rw [copy_unzapped_after_nonexistent]
        omega

theorem shortening_not_below_threshold_witness :
    ((∃ e ∈ (create_candidate_generation_query demo_bits insertion_qsort false
          (demo_qoenv 2 1000 [("a", 500), ("b", 400), ("7", 300), ("c", 20)])
          [ascii "zz", ascii "zz", ascii "a", ascii "7", ascii "b", ascii "c"]).zapped,
        e.why = heuristic.all_digits ∨ e.why = heuristic.high_freq) →
      (demo_qoenv 2 1000 [("a", 500), ("b", 400), ("7", 300), ("c", 20)]).query_shortening_threshold
        ≤ (distinct_count (create_candidate_generation_query demo_bits insertion_qsort false
            (demo_qoenv 2 1000 [("a", 500), ("b", 400), ("7", 300), ("c", 20)])
            [ascii "zz", ascii "zz", ascii "a", ascii "7", ascii "b", ascii "c"]).cg_qterms
              : Int)) ∧
    min (demo_qoenv 2 1000 [("a", 500), ("b", 400), ("7", 300), ("c", 20)]).query_shortening_threshold
        (distinct_count (existing_terms
          (demo_qoenv 2 1000 [("a", 500), ("b", 400), ("7", 300), ("c", 20)])
          [ascii "zz", ascii "zz", ascii "a", ascii "7", ascii "b", ascii "c"]) : Int)
      ≤ (distinct_count (create_candidate_generation_query demo_bits insertion_qsort false
          (demo_qoenv 2 1000 [("a", 500), ("b", 400), ("7", 300), ("c", 20)])
          [ascii "zz", ascii "zz", ascii "a", ascii "7", ascii "b", ascii "c"]).cg_qterms
            : Int) :=
  shortening_not_below_threshold demo_bits insertion_qsort false
    (demo_qoenv 2 1000 [("a", 500), ("b", 400), ("7", 300), ("c", 20)])
    [ascii "zz", ascii "zz", ascii "a", ascii "7", ascii "b", ascii "c"]

/-- C20. The rare-term guard.  Every removal the highest-frequency heuristic makes is of
a term for which the test of line 197 failed: not both `cg_qwd_cnt <= threshold + 2`
at that moment and a recorded frequency below `N / 10`.  The moment is the right one
(the i-th removal of the whole run sees `cg_qwd_cnt = qwd_cnt - i`) and the recorded
frequency of an unprotected term is its occurrence count in the vocabulary.  Once the
loop arrives at a term that is still there and for which the test holds, it removes
nothing further: its final state is the state at that moment. -/
theorem rare_term_guard_law (B : shortening_bits)
    (qsort_r : (Nat → Nat) → List Nat → List Nat) (memalloc_failed : Bool)
    (qoenv : query_processing_environment_t) (qterms : List (List Nat)) :
    (∀ e ∈ (create_candidate_generation_query B qsort_r memalloc_failed qoenv qterms).zapped,
      e.why = heuristic.high_freq →
        ¬ (e.cg_qwd_cnt ≤ qoenv.query_shortening_threshold + 2 ∧ e.frequency < qoenv.N / 10) ∧
        (e.position < qterms.length → compound_term (qterms.getD e.position []) = false →
          qoenv.lookup_word (qterms.getD e.position []) = some e.frequency)) ∧
    (create_candidate_generation_query B qsort_r memalloc_failed qoenv qterms).zapped.map
        (fun e => e.cg_qwd_cnt)
      = (List.range (create_candidate_generation_query B qsort_r memalloc_failed qoenv
          qterms).zapped.length).map (fun (i : Nat) => (qterms.length : Int) - (i : Int)) ∧
    (∀ (pre : List Nat) (v : Nat) (post : List Nat) (s : shortening_state),
      (remove_high_freq B qoenv pre s).zap v = false →
      ((remove_high_freq B qoenv pre s).cg_qwd_cnt ≤ qoenv.query_shortening_threshold + 2 ∧
        (remove_high_freq B qoenv pre s).freaks v < qoenv.N / 10) →
      remove_high_freq B qoenv (pre ++ v :: post) s = remove_high_freq B qoenv pre s) := by
  refine ⟨?_, ?_, ?_⟩
  · rcases create_candidate_generation_query_cases B qsort_r memalloc_failed qoenv qterms
      with hr | hr
    · rw [hr.2]; intro e he; cases he
    · rw [hr.2.2.2]
      dsimp only
      intro e he hw
      have hne : e.why ≠ heuristic.noexist := by rw [hw]; intro hc; cases hc
      obtain ⟨hg, hf, hz⟩ := later_removals B qsort_r qoenv qterms e he hne
      have hinv := after_nonexistent_inv B qoenv qterms
      constructor
      · have := hg hw
        simp only [rare_term_guard, Bool.and_eq_false_imp, decide_eq_true_eq,
          decide_eq_false_iff_not] at this
        rintro ⟨h1, h2⟩
        exact this h1 h2
      · intro hp hc
        cases hl : qoenv.lookup_word (qterms.getD e.position []) with
        | none =>
          rw [(hinv.zap_iff e.position).mpr ⟨hp, hc, hl⟩] at hz
          cases hz
        | some c => rw [hf, hinv.freaks_found e.position c hp hc hl]
  · rcases create_candidate_generation_query_cases B qsort_r memalloc_failed qoenv qterms
      with hr | hr
    · rw [hr.2]; rfl
    · rw [hr.2.2.2]
      exact counts_removals_after B qsort_r qoenv qterms
  · intro pre v post s hz hg
    apply remove_high_freq_stops B qoenv pre v post s hz
    simp only [rare_term_guard, Bool.and_eq_true, decide_eq_true_eq]
    exact hg

set_option maxRecDepth 100000 in
theorem rare_term_guard_law_witness :
    (create_candidate_generation_query demo_bits insertion_qsort false
      (demo_qoenv 1 1000 [("a", 500), ("b", 400), ("c", 5), ("d", 3)])
      [ascii "d", ascii "b", ascii "c", ascii "a"]).zapped
      = [{ why := heuristic.high_freq, position := 3, cg_qwd_cnt := 4, frequency := 500 },
         { why := heuristic.high_freq, position := 1, cg_qwd_cnt := 3, frequency := 400 }] ∧
    (create_candidate_generation_query demo_bits insertion_qsort false
      (demo_qoenv 1 1000 [("a", 500), ("b", 400), ("c", 5), ("d", 3)])
      [ascii "d", ascii "b", ascii "c", ascii "a"]).cg_qterms = [ascii "d", ascii "c"] ∧
    (∀ e ∈ (create_candidate_generation_query demo_bits insertion_qsort false
        (demo_qoenv 1 1000 [("a", 500), ("b", 400), ("c", 5), ("d", 3)])
        [ascii "d", ascii "b", ascii "c", ascii "a"]).zapped,
      e.why = heuristic.high_freq →
        ¬ (e.cg_qwd_cnt ≤ 1 + 2 ∧ e.frequency < 1000 / 10)) :=
  ⟨by decide, by decide, fun e he hw =>
    ((rare_term_guard_law demo_bits insertion_qsort false
      (demo_qoenv 1 1000 [("a", 500), ("b", 400), ("c", 5), ("d", 3)])
      [ascii "d", ascii "b", ascii "c", ascii "a"]).1 e he hw).1⟩

/-- C21. Highest-frequency terms go first.  For every sort that leaves `freaki` a
rearrangement in order of descending recorded frequency, every removal of the
highest-frequency heuristic is of a position of the query whose recorded frequency
(`freaks`) is at least the recorded frequency of every position that is still
unzapped at the end, that is of every term that is in `cg_qterms`. -/
theorem highest_frequency_first (B : shortening_bits)
    (qsort_r : (Nat → Nat) → List Nat → List Nat) (memalloc_failed : Bool)
    (qoenv : query_processing_environment_t) (qterms : List (List Nat))
    (hs : sorts_descending qsort_r) :
    ∀ e ∈ (create_candidate_generation_query B qsort_r memalloc_failed qoenv qterms).zapped,
      e.why = heuristic.high_freq →
      (create_candidate_generation_query B qsort_r memalloc_failed qoenv qterms).cg_qterms
        = copy_unzapped qterms (after_high_freq B qsort_r qoenv qterms).zap qterms.length 0 ∧
      e.position < qterms.length ∧
      e.frequency = (after_high_freq B qsort_r qoenv qterms).freaks e.position ∧
      ∀ i, i < qterms.length → (after_high_freq B qsort_r qoenv qterms).zap i = false →
        (after_high_freq B qsort_r qoenv qterms).freaks i ≤ e.frequency := by
  rcases create_candidate_generation_query_cases B qsort_r memalloc_failed qoenv qterms
    with hr | hr
  · rw [hr.2]; intro e he; cases he
  · rw [hr.2.2.2]
    dsimp only
    intro e he hw
    refine ⟨rfl, ?_⟩
    have hlog := after_all_digits_log B qoenv qterms
    unfold after_high_freq at he ⊢
    dsimp only at he ⊢
    split at he
    · next hgt =>
      rw [if_pos hgt]
      obtain ⟨hperm, hsorted⟩ := hs (after_all_digits B qoenv qterms).freaks
        (List.range qterms.length)
      obtain ⟨new, h1, h2, h3⟩ := remove_high_freq_order B qoenv _
        (after_all_digits B qoenv qterms) hsorted
      rw [h1, List.mem_append] at he
      rcases he with he | he
      · exact absurd hw (hlog e he)
      · obtain ⟨_, g2, g4, g3⟩ := h3 e he
        refine ⟨List.mem_range.mp (hperm.subset g4), ?_, ?_⟩
        · rw [h2]; exact g2
        · intro i hi hz
          rw [h2]
          exact g3 i (hperm.symm.subset (List.mem_range.mpr hi)) hz
    · exact absurd hw (hlog e he)

set_option maxRecDepth 100000 in
theorem highest_frequency_first_witness :
    (create_candidate_generation_query demo_bits insertion_qsort false
      (demo_qoenv 2 1000 [("a", 500), ("b", 400), ("c", 300), ("d", 200)])
      [ascii "d", ascii "b", ascii "c", ascii "a"]).zapped
      = [zap_event.mk heuristic.high_freq 3 4 500, zap_event.mk heuristic.high_freq 1 3 400] ∧
    (create_candidate_generation_query demo_bits insertion_qsort false
      (demo_qoenv 2 1000 [("a", 500), ("b", 400), ("c", 300), ("d", 200)])
      [ascii "d", ascii "b", ascii "c", ascii "a"]).cg_qterms = [ascii "d", ascii "c"] ∧
    ∀ i, i < 4 → (after_high_freq demo_bits insertion_qsort
        (demo_qoenv 2 1000 [("a", 500), ("b", 400), ("c", 300), ("d", 200)])
        [ascii "d", ascii "b", ascii "c", ascii "a"]).zap i = false →
      (after_high_freq demo_bits insertion_qsort
        (demo_qoenv 2 1000 [("a", 500), ("b", 400), ("c", 300), ("d", 200)])
        [ascii "d", ascii "b", ascii "c", ascii "a"]).freaks i ≤ 400 :=
  ⟨by decide, by decide,
    (highest_frequency_first demo_bits insertion_qsort false
      (demo_qoenv 2 1000 [("a", 500), ("b", 400), ("c", 300), ("d", 200)])
      [ascii "d", ascii "b", ascii "c", ascii "a"] insertion_qsort_sorts_descending
      (zap_event.mk heuristic.high_freq 1 3 400) (by decide) rfl).2.2.2⟩

/-- C22, at the failing inputs. For the empty query, and for the query `zz yy` whose two
words are not in the vocabulary (threshold 1, so both are removed and `cg_qwd_cnt`
is 0), the only store into `candidate_generation_query` is the NUL of line 234, and
it goes to index -1, the byte before the buffer: `*(--w) = 0` with `w` still at the
start.  Nothing is stored at index 0.  In general the NUL goes to the index of the
last blank written, which is at least 0 only when there is a term. -/
theorem candidate_generation_query_underflow :
    (create_candidate_generation_query demo_bits insertion_qsort false (demo_qoenv 3 1000 [])
      []).candidate_generation_query = [(-1, 0)] ∧
    (create_candidate_generation_query demo_bits insertion_qsort false
      (demo_qoenv 1 1000 [("a", 500)]) [ascii "zz", ascii "yy"]).cg_qwd_cnt = 0 ∧
    (create_candidate_generation_query demo_bits insertion_qsort false
      (demo_qoenv 1 1000 [("a", 500)]) [ascii "zz", ascii "yy"]).candidate_generation_query
      = [(-1, 0)] ∧
    (create_candidate_generation_query demo_bits insertion_qsort false
      (demo_qoenv 3 1000 [("a", 500), ("b", 400)])
      [ascii "a", ascii "b"]).candidate_generation_query
      = [(0, 97), (1, 32), (2, 98), (3, 32), (3, 0)] ∧
    (∀ cg_qterms, write_candidate_generation_query cg_qterms
      = stores_at 0 (terms_with_blanks cg_qterms)
        ++ [(((terms_with_blanks cg_qterms).length : Int) - 1, 0)]) :=
  ⟨by decide, by decide, by decide, by decide, write_candidate_generation_query_eq⟩

/-- C23, at the failing input. In the subject `a "b c" b` the words `b c` stand between
an opening and a closing double quote, and `multisub` hands them to
`pcre2_substitute` as a section of their own: with a rule that replaces `b` by `x` the
output is `a "x c" x`.  At an opening quote the copy loop of line 367 stops at once,
because the byte under `q` is the closer itself, so the next section starts right
after the opening quote.  A section in square brackets is copied unchanged
(`a [b c] b` gives `a [b c] x`).  The last part holds for every `pcre2_substitute`,
pattern and replacement: the words of the phrase `"b c"` are handed over. -/
theorem quoted_section_reaches_substitute :
    (multisub_result_of (multisub demo_substitute 98 (ascii "a " ++ phrase "b c" ++ ascii " b")
      (ascii "x") 100)).handed = [ascii "a ", ascii "b c", ascii " b"] ∧
    (multisub_result_of (multisub demo_substitute 98 (ascii "a " ++ phrase "b c" ++ ascii " b")
      (ascii "x") 100)).obuf = ascii "a " ++ phrase "x c" ++ ascii " x" ∧
    (multisub_result_of (multisub demo_substitute 98 (ascii "a " ++ phrase "b c" ++ ascii " b")
      (ascii "x") 100)).num_subs = 2 ∧
    (multisub_result_of (multisub demo_substitute 98 (ascii "a [b c] b")
      (ascii "x") 100)).handed = [ascii "a ", ascii " b"] ∧
    (multisub_result_of (multisub demo_substitute 98 (ascii "a [b c] b")
      (ascii "x") 100)).obuf = ascii "a [b c] x" ∧
    (∀ (R : Type) (pcre2_substitute : R → List Nat → List Nat → Nat → Int × List Nat)
      (regex : R) (rep : List Nat) (obuflen : Nat),
      ∃ m, multisub pcre2_substitute regex (phrase "b c") rep (obuflen + 1)
          = outcome.returned m ∧ m.handed = [ascii "b c"]) :=
  ⟨by decide, by decide, by decide, by decide, by decide,
    fun _ pcre2_substitute regex rep obuflen =>
      phrase_handed_to_substitute pcre2_substitute regex rep obuflen 98 [32, 99]
        (by decide)⟩

set_option maxRecDepth 100000 in
/-- C24, at the failing input. A subject of 257 bytes `a` is longer than
`INITIAL_SUBJECT_LEN_LIMIT = 256`, yet it is handed to the rules whole and a rule that
replaces `a` by `b` turns it into 257 bytes `b`, with return value 1: the copy loop
runs while `l <= INITIAL_SUBJECT_LEN_LIMIT`, that is for 257 bytes, before the test
for the end of the subject.  The first length that is refused is 258. -/
theorem subject_of_257_bytes_is_substituted :
    257 > INITIAL_SUBJECT_LEN_LIMIT ∧
    (apply_result_of (apply_substitutions_rules_to_string demo_substitute 1000 true
      (some [demo_rule 97 "b"]) (List.replicate 257 97) false false)).return_value = 1 ∧
    (apply_result_of (apply_substitutions_rules_to_string demo_substitute 1000 true
      (some [demo_rule 97 "b"]) (List.replicate 257 97) false false)).intext
      = List.replicate 257 98 ∧
    (apply_result_of (apply_substitutions_rules_to_string demo_substitute 1000 true
      (some [demo_rule 97 "b"]) (List.replicate 257 97) false false)).subjects
      = [List.replicate 257 97] ∧
    (apply_result_of (apply_substitutions_rules_to_string demo_substitute 1000 true
      (some [demo_rule 97 "b"]) (List.replicate 258 97) false false)).return_value = 0 ∧
    (apply_result_of (apply_substitutions_rules_to_string demo_substitute 1000 true
      (some [demo_rule 97 "b"]) (List.replicate 258 97) false false)).intext
      = List.replicate 258 97 :=
  ⟨by decide, by decide, by decide, by decide, by decide, by decide⟩

/-- C25, at the failing input. The file of the two lines `a TAB B` and `c TAB D` gives
the two rules `a -> b` and `c -> d` when the lines end in LF.  When they end in CR LF
the return value is still 2 but the second rule is empty (`NULL` pattern and `NULL`
right-hand side): the scan of the right-hand side stops at the CR, the `p++` of line
198 steps over the CR only, and every later line starts, and ends, at that LF. -/
theorem crlf_rules_file_loses_rules :
    ((load_substitution_rules demo_compile ascii_lower (demo_rules_file [10])).rules.map
      rule_fields = [(some (ascii "a"), some (ascii "b"), 0),
                     (some (ascii "c"), some (ascii "d"), 0)]) ∧
    (load_substitution_rules demo_compile ascii_lower (demo_rules_file [10])).return_value
      = 2 ∧
    ((load_substitution_rules demo_compile ascii_lower (demo_rules_file [13, 10])).rules.map
      rule_fields = [(some (ascii "a"), some (ascii "b"), 0), (none, none, 0)]) ∧
    (load_substitution_rules demo_compile ascii_lower (demo_rules_file [13, 10])).return_value
      = 2 :=
  ⟨by decide, by decide, by decide, by decide⟩

/-- C26. Global score order.  On an index whose posting lists are well formed (laid out
at the stride the reader uses) and have run qscores that do not increase along each
list, a query given one unit of fuel per run returns, for any cutoff settings, and the
`max_qscore` values of the runs it consumed, in the order of their consumption
across all term positions, do not increase.  The runs consumed at a term position
are the first runs of its posting list. -/
theorem global_score_order (P : params_t) (L : definitions_h) (vocab_in_mem if_in_mem : Nat → Nat)
    (idx : Int → List run) (query_array : List Int) (fuel : Nat)
    (hk1 : 1 ≤ P.k) (hq : query_array.length ≤ MAX_QTERMS)
    (hwf : ∀ t ∈ query_array,
      term_encodes L vocab_in_mem if_in_mem t (idx t) ∧ well_formed_list P (idx t))
    (hd : ∀ t ∈ query_array, List.Pairwise (fun a b : run => a.1 ≥ b.1) (idx t))
    (hf : ((query_array.map idx).map List.length).sum ≤ fuel) :
    ∃ r, process_query P L vocab_in_mem if_in_mem query_array fuel = outcome.returned r ∧
      List.Pairwise (fun a b : Int => a ≥ b) (r.final.run_log.map (fun e => e.max_qscore)) ∧
      ∀ q, q < query_array.length → ∃ rest,
        idx (query_array.getD q 0) = consumed r.final.run_log q ++ rest := by
  have hmem : ∀ q, q < query_array.length → query_array.getD q 0 ∈ query_array := by
    intro q hq
    rw [List.getD_eq_getElem _ _ hq]
    exact List.getElem_mem _
  obtain ⟨r, rem, h1, _, hprog, _, _, _, hI⟩ := wf_query_with P L vocab_in_mem if_in_mem idx
    query_array fuel hk1 hq hwf hf
    (fun st rem =>
      List.Pairwise (fun a b : Int => a ≥ b) (st.run_log.map (fun e => e.max_qscore)) ∧
      (∀ e ∈ st.run_log, ∀ q, q < query_array.length → ∀ x ∈ rem q, x.1 ≤ e.max_qscore) ∧
      ∀ q, q < query_array.length → List.Pairwise (fun a b : run => a.1 ≥ b.1) (rem q))
    (by
      rintro st rem c r rest ev1 _ ⟨hs1, hs2, hs3⟩ hc hr hmax _ _
      have hpc := hs3 c hc
      rw [hr] at hpc
      have hrest : ∀ x ∈ rest, x.1 ≤ r.1 := fun x hx => (List.pairwise_cons.mp hpc).1 x hx
      have hsub : ∀ q x, x ∈ Function.update rem c rest q → x ∈ rem q := by
        intro q x hx
        by_cases e : q = c
        · subst e
          rw [Function.update_same] at hx
          rw [hr]; exact List.mem_cons_of_mem _ hx
        · rw [Function.update_noteq e] at hx; exact hx
      have hall : ∀ q, q < query_array.length → ∀ x ∈ rem q, x.1 ≤ r.1 := by
        intro q hq x hx
        cases hrq : rem q with
        | nil => rw [hrq] at hx; cases hx
        | cons r1 rest1 =>
          have h1 := hmax q r1 rest1 hq hrq
          rw [hrq] at hx
          rcases List.mem_cons.mp hx with e | hx'
          · rw [e]; exact h1
          · have hp := hs3 q hq
            rw [hrq] at hp
            have := (List.pairwise_cons.mp hp).1 x hx'
            omega
      refine ⟨?_, ?_, ?_⟩
      · simp only [end_of_run, List.map_append, List.map_cons, List.map_nil]
        rw [List.pairwise_append]
        refine ⟨hs1, List.pairwise_singleton _ _, ?_⟩
        intro a ha b hb
        rw [List.mem_singleton] at hb
        obtain ⟨e, he, rfl⟩ := List.mem_map.mp ha
        rw [hb]
        exact hs2 e he c hc r (by rw [hr]; exact List.mem_cons_self _ _)
      · intro e he q hq x hx
        simp only [end_of_run, List.mem_append, List.mem_singleton] at he
        rcases he with he | he
        · exact hs2 e he q hq x (hsub q x hx)
        · rw [he]
          exact hall q hq x (hsub q x hx)
      · intro q hq
        by_cases e : q = c
        · subst e
          rw [Function.update_same]
          exact (List.pairwise_cons.mp hpc).2
        · rw [Function.update_noteq e]; exact hs3 q hq)
    (by
      rintro st1 rem c ⟨hs1, hs2, hs3⟩
      rw [after_run_run_log]
      exact ⟨hs1, hs2, hs3⟩)
    (by
      intro tcb _
      refine ⟨?_, ?_, ?_⟩
      · simp [query_state_init]
      · intro e he; simp [query_state_init] at he
      · intro q hq; exact hd _ (hmem q hq))
  exact ⟨r, h1, hI.1, fun q hq => ⟨rem q, hprog.split q hq⟩⟩

theorem global_score_order_witness :
    (process_query demo_params demo_layout demo_vocab demo_if [2, 1] 2).result.map
      (fun r => r.final.run_log.map (fun e => (e.chosen, e.max_qscore)))
      = some [(1, 8), (0, 6)] ∧
    ∃ r, process_query demo_params demo_layout demo_vocab demo_if [2, 1] 2
        = outcome.returned r ∧
      List.Pairwise (fun a b : Int => a ≥ b) (r.final.run_log.map (fun e => e.max_qscore)) ∧
      ∀ q, q < [(2 : Int), 1].length → ∃ rest,
        demo_index ([(2 : Int), 1].getD q 0) = consumed r.final.run_log q ++ rest :=
  ⟨by decide,
    global_score_order demo_params demo_layout demo_vocab demo_if demo_index [2, 1] 2
      (by decide) (by decide)
      (fun t ht => demo_index_well_formed demo_params rfl t (by
        simp only [List.mem_cons, List.mem_singleton, List.not_mem_nil, or_false] at ht ⊢
        exact ht.symm))
      (by decide) (by decide)⟩

/-- C27. Termination of the loop of `process_query`.  For every query whose terms all
have a well-formed posting list (non-empty, runs of length at least 1, laid out at
the stride the reader uses, the lengths summing to `postings_count`) and for any
cutoff settings, the query returns with as many units of fuel (one per iteration) as
the term positions have runs, and the result lines are the ranking.  Every run
consumed has length at least 1, and the sum of the positive `postings_remaining`
values at the end plus the lengths of the runs consumed is the number of postings of
the term positions.  In every state of the loop an iteration either leaves at the
low-score test with the state untouched, or consumes a run and strictly lowers the
sum of the positive `postings_remaining` values. -/
theorem saat_loop_terminates (P : params_t) (L : definitions_h) (vocab_in_mem if_in_mem : Nat → Nat)
    (idx : Int → List run) (query_array : List Int)
    (hk1 : 1 ≤ P.k) (hq : query_array.length ≤ MAX_QTERMS)
    (hwf : ∀ t ∈ query_array,
      term_encodes L vocab_in_mem if_in_mem t (idx t) ∧ well_formed_list P (idx t)) :
    (∃ r, process_query P L vocab_in_mem if_in_mem query_array
          ((query_array.map idx).map List.length).sum = outcome.returned r ∧
        r.result_lines = result_lines_of r.final.ev.g ∧
        r.final.run_log.length ≤ ((query_array.map idx).map List.length).sum ∧
        (∀ e ∈ r.final.run_log, 1 ≤ e.current_run_len) ∧
        postings_left query_array.length r.final + run_lengths r.final.run_log
          = sum_upto query_array.length
              (fun q => total_postings (idx (query_array.getD q 0)))) ∧
    ∀ st rem, sim P L if_in_mem query_array.length st rem → heap_inv P st.ev →
      st.terms_still_going > 0 →
      saat_step P L if_in_mem query_array.length st
          = step_result.stop st stop_reason.low_score_cutoff ∨
      ∃ st1, postings_left query_array.length st1 < postings_left query_array.length st ∧
        (saat_step P L if_in_mem query_array.length st
            = step_result.stop st1 stop_reason.postings_count_cutoff ∨
          (saat_step P L if_in_mem query_array.length st = step_result.again st1 ∧
            heap_inv P st1.ev ∧ ∃ rem1, sim P L if_in_mem query_array.length st1 rem1)) := by
  refine ⟨?_, fun st rem hs hi hg =>
    saat_step_variant P L if_in_mem query_array.length st rem hk1 hs hi hg⟩
  obtain ⟨r, rem, h1, _, hprog, _, _, hres, hI⟩ := wf_query_with P L vocab_in_mem if_in_mem idx
    query_array _ hk1 hq hwf (le_refl _)
    (fun st rem =>
      st.run_log.length + runs_left query_array.length rem
        = runs_left query_array.length (fun q => idx (query_array.getD q 0)) ∧
      (∀ e ∈ st.run_log, 1 ≤ e.current_run_len) ∧
      postings_left query_array.length st + run_lengths st.run_log
        = sum_upto query_array.length
            (fun q => total_postings (idx (query_array.getD q 0))))
    (by
      rintro st rem c r rest ev1 hs ⟨hn, hl, hsum⟩ hc hr _ _ hlen
      have hrl := runs_left_update query_array.length rem c rest hc
      rw [hr, List.length_cons] at hrl
      have hr1 : 1 ≤ r.2.length := hs.run_len c hc r (by rw [hr]; exact List.mem_cons_self _ _)
      have hrem := tcb_at_postings_remaining L if_in_mem _ _ (hs.tcb c hc)
      rw [hr, total_postings_cons] at hrem
      have hnn := total_postings_nonneg rest
      have hdec := postings_left_end_of_run query_array.length st c r.1
        ((st.term_control_block c).if_pointer + r.2.length * L.BYTES_FOR_RUN_LEN) r.2 ev1 hc
        (by rw [hlen]; omega) (by rw [hlen, hrem]; omega)
        (by
          have hb := hs.bound c hc
          rw [hr, total_postings_cons] at hb
          rw [hrem]; exact hb)
      refine ⟨?_, ?_, ?_⟩
      · show (st.run_log ++ [_]).length + _ = _
        rw [List.length_append, List.length_singleton]
        omega
      · intro e he
        simp only [end_of_run, List.mem_append, List.mem_singleton] at he
        rcases he with he | he
        · exact hl e he
        · rw [he]
          show 1 ≤ (st.term_control_block c).current_run_len
          rw [hlen]; omega
      · have e1 : (end_of_run st c r.1
            ((st.term_control_block c).if_pointer + r.2.length * L.BYTES_FOR_RUN_LEN) r.2
            ev1).run_log = st.run_log ++ [run_event.mk c r.1
              (st.term_control_block c).current_run_len r.2
              (((st.postings_processed : Int) + (st.term_control_block c).current_run_len)
                % 2 ^ 64).toNat] := rfl
        rw [e1, run_lengths_append]
        show _ + (_ + (st.term_control_block c).current_run_len) = _
        omega)
    (by
      rintro st1 rem c ⟨hn, hl, hsum⟩
      rw [after_run_run_log, postings_left_after_run]
      exact ⟨hn, hl, hsum⟩)
    (by
      intro tcb hs
      refine ⟨?_, ?_, ?_⟩
      · show 0 + _ = _
        rw [Nat.zero_add]
      · intro e he; simp [query_state_init] at he
      · have e0 : run_lengths ({ query_state_init query_array.length with
            term_control_block := tcb } : query_state).run_log = 0 := rfl
        rw [e0, add_zero]
        unfold postings_left
        apply sum_upto_congr
        intro q hq1
        show max 0 (tcb q).postings_remaining = _
        have := tcb_at_postings_remaining L if_in_mem _ _ (hs.tcb q hq1)
        have hnn := total_postings_nonneg (idx (query_array.getD q 0))
        change (tcb q).postings_remaining = _ at this
        rw [this]
        exact max_eq_right hnn)
  refine ⟨r, h1, hres, ?_, hI.2.1, hI.2.2⟩
  have hn := hI.1
  unfold runs_left at hn
  rw [sum_upto_getD query_array (fun t => (idx t).length)] at hn
  rw [List.map_map]
  have e : (List.length ∘ idx) = (fun t => (idx t).length) := rfl
  rw [e]
  omega

theorem saat_loop_terminates_witness :
    (process_query demo_params demo_layout demo_vocab demo_if [2, 1] 2).result.map
      (fun r => (r.final.run_log.map (fun e => (e.chosen, e.current_run_len)),
        postings_left 2 r.final, r.result_lines))
      = some ([(1, 2), (0, 2)], 0, [(1, 4, 14), (2, 3, 8)]) ∧
    ((∃ r, process_query demo_params demo_layout demo_vocab demo_if [2, 1]
          (([(2 : Int), 1].map demo_index).map List.length).sum = outcome.returned r ∧
        r.result_lines = result_lines_of r.final.ev.g ∧
        r.final.run_log.length ≤ (([(2 : Int), 1].map demo_index).map List.length).sum ∧
        (∀ e ∈ r.final.run_log, 1 ≤ e.current_run_len) ∧
        postings_left [(2 : Int), 1].length r.final + run_lengths r.final.run_log
          = sum_upto [(2 : Int), 1].length
              (fun q => total_postings (demo_index ([(2 : Int), 1].getD q 0)))) ∧
    ∀ st rem, sim demo_params demo_layout demo_if [(2 : Int), 1].length st rem →
      heap_inv demo_params st.ev → st.terms_still_going > 0 →
      saat_step demo_params demo_layout demo_if [(2 : Int), 1].length st
          = step_result.stop st stop_reason.low_score_cutoff ∨
      ∃ st1, postings_left [(2 : Int), 1].length st1 < postings_left [(2 : Int), 1].length st ∧
        (saat_step demo_params demo_layout demo_if [(2 : Int), 1].length st
            = step_result.stop st1 stop_reason.postings_count_cutoff ∨
          (saat_step demo_params demo_layout demo_if [(2 : Int), 1].length st
              = step_result.again st1 ∧
            heap_inv demo_params st1.ev ∧
            ∃ rem1, sim demo_params demo_layout demo_if [(2 : Int), 1].length st1 rem1))) :=
  ⟨by decide,
    saat_loop_terminates demo_params demo_layout demo_vocab demo_if demo_index [2, 1]
      (by decide) (by decide)
      (fun t ht => demo_index_well_formed demo_params rfl t (by
        simp only [List.mem_cons, List.mem_singleton, List.not_mem_nil, or_false] at ht ⊢
        exact ht.symm))⟩

/-- C28, as stated, fails: with every field four bytes wide (so `BYTES_FOR_DOCID ==
BYTES_FOR_RUN_LEN`) the posting list of one run with qscore `2 ^ 31` and the docid 5
is written with all values below `2 ^ 32`, and the reader decodes the qscore
`-2 ^ 31`: the fields of the control block are `int`.  The query `0` then finds no
best run and `process_query` calls `exit(1)`. -/
theorem round_trip_fails_from_two_to_31 :
    wide_layout.BYTES_FOR_DOCID = wide_layout.BYTES_FOR_RUN_LEN ∧
    run_fits wide_layout (2 ^ 32) (2147483648, [5]) ∧
    spec_posting_list_bytes wide_layout [(2147483648, [5])]
      = [128, 0, 0, 0, 0, 0, 0, 1, 0, 0, 0, 5] ∧
    term_written wide_layout wide_vocab
      (bytes (spec_posting_list_bytes wide_layout [(2147483648, [5])])) 0
      [(2147483648, [5])] ∧
    reader_walk wide_layout (bytes (spec_posting_list_bytes wide_layout [(2147483648, [5])])) 1 0
      = [(0, -2147483648, 1, [5])] ∧
    process_query demo_params wide_layout wide_vocab
      (bytes (spec_posting_list_bytes wide_layout [(2147483648, [5])])) [0] 1
      = outcome.exit_1 := by
  refine ⟨rfl, by decide, by decide, by decide, by decide, rfl⟩

/-- C28, amended. Run decoding round trip under equal widths.  When `BYTES_FOR_DOCID ==
BYTES_FOR_RUN_LEN`, a posting list stored as the specification writes it, every value
fitting its field and below `2 ^ 31`, is read back by the reads of `process_query`
as written: every header is read at the position where it was written, and the
qscore, the run length and the docids decoded are those written.  For a query of at
most `MAX_QTERMS` terms whose lists are written so, are not empty, have runs of
length at least 1 and docids below `numDocs`, with `k ≥ 1` and no cutoff in force,
`process_query` returns and the runs it consumed at each term position are the runs
written for its term, in their order. -/
theorem run_decoding_round_trip (P : params_t) (L : definitions_h)
    (vocab_in_mem if_in_mem : Nat → Nat) (wr : Int → List written_run) (query_array : List Int)
    (hw : L.BYTES_FOR_DOCID = L.BYTES_FOR_RUN_LEN)
    (hk1 : 1 ≤ P.k) (hq : query_array.length ≤ MAX_QTERMS)
    (hl : P.lowScoreCutoff ≤ 0) (hb : P.postingsCountCutoff ≤ 0)
    (hv : ∀ t ∈ query_array, term_written L vocab_in_mem if_in_mem t (wr t))
    (hfit : ∀ t ∈ query_array, ∀ r ∈ wr t, run_fits L (2 ^ 31) r)
    (hwf : ∀ t ∈ query_array, wr t ≠ [] ∧
      ∀ r ∈ wr t, 1 ≤ r.2.length ∧ ∀ d ∈ r.2, d < P.numDocs) :
    (∀ (mem : Nat → Nat) (p : Nat) (rs : List written_run),
      stored_at mem p (spec_posting_list_bytes L rs) → (∀ r ∈ rs, run_fits L (2 ^ 31) r) →
      reader_walk L mem rs.length p
        = (spec_header_positions L p rs).zip
            (rs.map (fun r => ((r.1 : Int), (r.2.length : Int), r.2.map Int.ofNat)))) ∧
    ∃ r, process_query P L vocab_in_mem if_in_mem query_array
          ((query_array.map wr).map List.length).sum = outcome.returned r ∧
      ∀ q, q < query_array.length →
        (r.final.run_log.filter (fun e => e.chosen = q)).map
            (fun e => (e.max_qscore, e.current_run_len, e.docids))
          = (wr (query_array.getD q 0)).map
              (fun r => ((r.1 : Int), (r.2.length : Int), r.2.map Int.ofNat)) := by
  refine ⟨fun mem p rs hs hf => reader_walk_stored L mem hw rs p hs hf, ?_⟩
  have hmem : ∀ q, q < query_array.length → query_array.getD q 0 ∈ query_array := by
    intro q hq
    rw [List.getD_eq_getElem _ _ hq]
    exact List.getElem_mem _
  have hwf1 : ∀ t ∈ query_array,
      term_encodes L vocab_in_mem if_in_mem t ((wr t).map run_of_written) ∧
        well_formed_list P ((wr t).map run_of_written) := by
    intro t ht
    refine ⟨term_encodes_of_written L vocab_in_mem if_in_mem hw t _ (hv t ht) (hfit t ht), ?_⟩
    obtain ⟨hne, hr⟩ := hwf t ht
    constructor
    · intro h
      exact hne (List.map_eq_nil_iff.mp h)
    · intro x hx
      obtain ⟨r, hr1, rfl⟩ := List.mem_map.mp hx
      simp only [run_of_written, List.length_map]
      exact (hr r hr1).1
    · intro x hx
      obtain ⟨r, hr1, rfl⟩ := List.mem_map.mp hx
      simp only [run_of_written]
      exact Int.ofNat_nonneg _
    · intro x hx d hd
      obtain ⟨r, hr1, rfl⟩ := List.mem_map.mp hx
      simp only [run_of_written] at hd
      obtain ⟨n, hn, rfl⟩ := List.mem_map.mp hd
      have := (hr r hr1).2 n hn
      exact ⟨Int.ofNat_nonneg _, by simp only [Int.ofNat_eq_coe]; exact_mod_cast this⟩
  have hfuel : ((query_array.map (fun t => (wr t).map run_of_written)).map List.length).sum
      ≤ ((query_array.map wr).map List.length).sum := by
    rw [List.map_map, List.map_map]
    apply le_of_eq
    apply congrArg
    apply List.map_congr_left
    intro t _
    simp only [Function.comp, List.length_map]
  obtain ⟨r, rem, h1, _, hprog, hend, _, _⟩ := wf_query P L vocab_in_mem if_in_mem
    (fun t => (wr t).map run_of_written) query_array _ hk1 hq hwf1 hfuel
  refine ⟨r, h1, ?_⟩
  intro q hq1
  have hsplit := hprog.split q hq1
  have hnil : rem q = [] := by
    rcases hend with ⟨_, h2⟩ | ⟨_, h2⟩ | ⟨_, h2⟩
    · exact h2 q hq1
    · cases hrq : rem q with
      | nil => rfl
      | cons x xs =>
        have hx := h2 q x xs hq1 hrq
        have hx2 := (hwf1 _ (hmem q hq1)).2.qscore x (by
          rw [hsplit, hrq]; simp)
        omega
    · have := h2.1
      omega
  rw [hnil, List.append_nil] at hsplit
  have hmap : (r.final.run_log.filter (fun e => e.chosen = q)).map
        (fun e => (e.max_qscore, e.current_run_len, e.docids))
      = (consumed r.final.run_log q).map (fun x => (x.1, (x.2.length : Int), x.2)) := by
    unfold consumed
    rw [List.map_map]
    apply List.map_congr_left
    intro e he
    have := hprog.whole e (List.mem_of_mem_filter he)
    simp only [Function.comp, run_of_event, this]
  rw [hmap, ← hsplit, List.map_map]
  apply List.map_congr_left
  intro x _
  simp only [Function.comp, run_of_written, List.length_map]

theorem run_decoding_round_trip_witness :
    reader_walk demo_layout demo_if 2 0 = [(0, 8, 2, [3, 4]), (7, 6, 2, [4, 7])] ∧
    (process_query demo_params demo_layout demo_vocab demo_if [2, 1] 2).result.map
      (fun r => r.final.run_log.map (fun e => (e.chosen, e.max_qscore, e.current_run_len, e.docids)))
      = some [(1, 8, 2, [3, 4]), (0, 6, 2, [4, 7])] ∧
    ((∀ (mem : Nat → Nat) (p : Nat) (rs : List written_run),
      stored_at mem p (spec_posting_list_bytes demo_layout rs) →
      (∀ r ∈ rs, run_fits demo_layout (2 ^ 31) r) →
      reader_walk demo_layout mem rs.length p
        = (spec_header_positions demo_layout p rs).zip
            (rs.map (fun r => ((r.1 : Int), (r.2.length : Int), r.2.map Int.ofNat)))) ∧
    ∃ r, process_query demo_params demo_layout demo_vocab demo_if [2, 1]
          (([(2 : Int), 1].map demo_written).map List.length).sum = outcome.returned r ∧
      ∀ q, q < [(2 : Int), 1].length →
        (r.final.run_log.filter (fun e => e.chosen = q)).map
            (fun e => (e.max_qscore, e.current_run_len, e.docids))
          = (demo_written ([(2 : Int), 1].getD q 0)).map
              (fun r => ((r.1 : Int), (r.2.length : Int), r.2.map Int.ofNat))) :=
  ⟨by decide, by decide,
    run_decoding_round_trip demo_params demo_layout demo_vocab demo_if demo_written [2, 1]
      rfl (by decide) (by decide) (by decide) (by decide) (by decide) (by decide) (by decide)⟩

/-- C29. For every byte sequence and every `n`, `make_ull_from_n_bytes` returns the
big-endian value of the first `n` bytes reduced modulo `2 ^ 32`.  So the result is
below `2 ^ 32`; for `n <= 4` it is the big-endian value itself; and for `n >= 5` (in
particular for `5 <= n <= 8`) it is the big-endian value exactly when the first
`n - 4` bytes are all zero. -/
theorem decoder_truncation (data : Nat → Nat) (n : Nat) :
    make_ull_from_n_bytes data n
      = big_endian_value ((List.range n).map (fun j => data j % 256)) % 2 ^ 32 ∧
    make_ull_from_n_bytes data n < 2 ^ 32 ∧
    (n ≤ 4 → make_ull_from_n_bytes data n
      = big_endian_value ((List.range n).map (fun j => data j % 256))) ∧
    (5 ≤ n → (make_ull_from_n_bytes data n
        = big_endian_value ((List.range n).map (fun j => data j % 256))
      ↔ ∀ i, i < n - 4 → data i % 256 = 0)) := by
  have hb : ∀ b ∈ (List.range n).map (fun j => data j % 256), b < 256 := by
    intro b hb
    obtain ⟨j, _, rfl⟩ := List.mem_map.mp hb
    exact Nat.mod_lt _ (by norm_num)
  have hlen : ((List.range n).map (fun j => data j % 256)).length = n := by simp
  have hv := big_endian_value_lt _ hb
  rw [hlen] at hv
  refine ⟨make_ull_mod data n, ?_, ?_, ?_⟩
  · rw [make_ull_mod]; exact Nat.mod_lt _ (by norm_num)
  · intro h4
    rw [make_ull_mod]
    apply Nat.mod_eq_of_lt
    calc big_endian_value ((List.range n).map (fun j => data j % 256)) < 256 ^ n := hv
      _ ≤ 256 ^ 4 := Nat.pow_le_pow_right (by norm_num) h4
      _ = 2 ^ 32 := by norm_num
  · intro h5
    rw [make_ull_mod]
    have hiff := big_endian_value_lt_iff _ hb (by rw [hlen]; omega)
    rw [hlen] at hiff
    have hmod : big_endian_value ((List.range n).map (fun j => data j % 256)) % 2 ^ 32
          = big_endian_value ((List.range n).map (fun j => data j % 256))
        ↔ big_endian_value ((List.range n).map (fun j => data j % 256)) < 2 ^ 32 := by
      constructor
      · intro e; rw [← e]; exact Nat.mod_lt _ (by norm_num)
      · exact Nat.mod_eq_of_lt
    rw [hmod, hiff]
    constructor
    · intro h i hi
      apply h
      rw [← List.map_take, List.mem_map]
      refine ⟨i, ?_, rfl⟩
      rw [List.take_range, List.mem_range]
      omega
    · intro h b hb2
      rw [← List.map_take, List.mem_map] at hb2
      obtain ⟨i, hi, rfl⟩ := hb2
      rw [List.take_range, List.mem_range] at hi
      exact h i (by omega)

theorem decoder_truncation_witness :
    make_ull_from_n_bytes (bytes [1, 2, 3, 4, 5]) 5
      = big_endian_value ((List.range 5).map (fun j => bytes [1, 2, 3, 4, 5] j % 256)) % 2 ^ 32 ∧
    make_ull_from_n_bytes (bytes [1, 2, 3, 4, 5]) 5 = 0x02030405 ∧
    big_endian_value [1, 2, 3, 4, 5] = 0x0102030405 ∧
    make_ull_from_n_bytes (bytes [0, 2, 3, 4, 5]) 5 = big_endian_value [0, 2, 3, 4, 5] :=
  ⟨(decoder_truncation (bytes [1, 2, 3, 4, 5]) 5).1, by decide, by decide, by decide⟩

end Satire
